import Mathlib

/-!
# wp-import: the content transformation pipeline

A shallow embedding of the Go package `wpimport` (files `wp-import.go`,
`nested_lists.go`): the functions `SanitizeWordPressContent`, `CleanHTML`,
`ConvertToPlainText`, `ConvertToMarkdown` and their helpers.

Go strings are lists of code points.  The Go standard library functions the program
calls (`regexp`, `strings`, `html.UnescapeString`, `fmt.Sprintf`) are embedded first:
a backtracking matcher with the leftmost-first preference order of Go regular
expressions, the replace and find-all loops of `regexp`, and the string helpers.
-/

set_option linter.deprecated false
set_option linter.unusedVariables false

namespace WpImport

/-! ## Strings and character classes -/

/-- Go strings are modelled as lists of Unicode code points. -/
abbrev Str := List Char

/-- A character class: a finite union of closed code-point intervals. -/
abbrev CharSet := List (Nat × Nat)

/-- Membership of a character in a class. -/
def CharSet.mem (A : CharSet) (c : Char) : Bool :=
  A.any (fun iv => Nat.ble iv.1 c.toNat && Nat.ble c.toNat iv.2)

/-- The class holding exactly the listed characters. -/
def CharSet.of (cs : List Char) : CharSet := cs.map (fun c => (c.toNat, c.toNat))

/-- Complement helper: the gaps of a sorted interval list, starting at `lo`. -/
def CharSet.gaps : Nat → CharSet → CharSet
  | lo, [] => if Nat.ble lo 1114111 then [(lo, 1114111)] else []
  | lo, (a, b) :: rest =>
    (if Nat.blt lo a then [(lo, a - 1)] else []) ++ CharSet.gaps (b + 1) rest

/-- Complement of a class given as a sorted list of disjoint intervals. -/
def CharSet.compl (A : CharSet) : CharSet := CharSet.gaps 0 A

/-- The class `.` with the flag `(?s)`: every character. -/
def anyChar : CharSet := [(0, 1114111)]

/-- The class `.` without `(?s)`: every character but the newline. -/
def dot : CharSet := CharSet.compl (CharSet.of ['\n'])

/-- The class `\s` of Go regular expressions: tab, newline, form feed, carriage return,
space. -/
def reSpace : CharSet := [(9, 10), (12, 13), (32, 32)]

/-- The class `[^>]`. -/
def notGt : CharSet := CharSet.compl (CharSet.of ['>'])

/-- The class `[^"']`. -/
def notQuote : CharSet := CharSet.compl (CharSet.of ['"', '\''])

/-- The white space of `unicode.IsSpace`, used by `strings.TrimSpace` and
`strings.Fields`. -/
def goSpace : CharSet :=
  [(9, 13), (32, 32), (133, 133), (160, 160), (5760, 5760), (8192, 8202), (8232, 8233),
   (8239, 8239), (8287, 8287), (12288, 12288)]

/-! ## Regular expressions -/

/-- Regular expressions of Go's `regexp` package, restricted to the operators the
program uses.  Counted repetition, `+` and `?` are derived forms. -/
inductive Re where
  | lit (w : Str)
  | cls (A : CharSet)
  | seq (a b : Re)
  | alt (a b : Re)
  | star (greedy : Bool) (a : Re)
  | grp (i : Nat) (a : Re)

/-- Captured submatches, most recent binding first. -/
abbrev Caps := List (Nat × Str)

/-- Match results in preference order: the unread rest of the input and the captures. -/
abbrev Res := List (Str × Caps)

/-- Iteration of a star: every round must consume input; a greedy star prefers one more
round, a lazy star prefers to stop. -/
def starLoop (f : Str → Caps → Res) (greedy : Bool) : Nat → Str → Caps → Res
  | 0, s, c => [(s, c)]
  | n + 1, s, c =>
    let more := ((f s c).filter (fun r => Nat.blt r.1.length s.length)).flatMap
      (fun r => starLoop f greedy n r.1 r.2)
    if greedy then more ++ [(s, c)] else (s, c) :: more

/-- All ways the expression matches a prefix of the input, in the preference order of a
backtracking (leftmost-first) matcher. -/
def ms : Re → Str → Caps → Res
  | .lit w, s, c => if w.isPrefixOf s then [(s.drop w.length, c)] else []
  | .cls A, s, c =>
    match s with
    | [] => []
    | x :: s1 => if A.mem x then [(s1, c)] else []
  | .seq a b, s, c => (ms a s c).flatMap (fun r => ms b r.1 r.2)
  | .alt a b, s, c => ms a s c ++ ms b s c
  | .star g a, s, c => starLoop (fun s1 c1 => ms a s1 c1) g s.length s c
  | .grp i a, s, c =>
    (ms a s c).map (fun r => (r.1, (i, s.take (s.length - r.1.length)) :: r.2))

/-- A located match: skipped prefix, matched text, captures, unread rest. -/
structure Match where
  pre : Str
  text : Str
  caps : Caps
  rest : Str
deriving DecidableEq

/-- The preferred match starting exactly at the head of the input. -/
def matchAt (r : Re) (s : Str) : Option Match :=
  match (ms r s []).head? with
  | some (rest, c) => some ⟨[], s.take (s.length - rest.length), c, rest⟩
  | none => none

/-- Leftmost match in the input: the first position with a match, and there the
preferred one. -/
def findFirst (r : Re) : Str → Option Match
  | [] => matchAt r []
  | x :: s =>
    match matchAt r (x :: s) with
    | some m => some m
    | none => (findFirst r s).map (fun m => { m with pre := x :: m.pre })

/-- Submatch `i` of a match, the empty string when the group took no part. -/
def getCap (c : Caps) (i : Nat) : Str := (c.lookup i).getD []

/-- The loop of `Regexp.replaceAll`.  `pending` is the text between the end of the last
match and the search position, `atStart` says the search position is 0.  A match of the
empty string directly after another match is not replaced, and the search always
advances by at least one character. -/
def replLoop (r : Re) (repl : Match → Str) : Nat → Bool → Str → Str → Str
  | 0, _, pending, s => pending ++ s
  | n + 1, atStart, pending, s =>
    match findFirst r s with
    | none => pending ++ s
    | some m =>
      let out := pending ++ m.pre ++
        (if !(pending ++ m.pre ++ m.text).isEmpty || (atStart && m.pre.isEmpty)
          then repl m else [])
      if !m.text.isEmpty || !m.pre.isEmpty then
        out ++ replLoop r repl n false [] m.rest
      else
        match s with
        | [] => out
        | x :: s1 => out ++ replLoop r repl n false [x] s1

/-- `Regexp.ReplaceAllStringFunc`: every match is replaced by `f` of the matched text. -/
def ReplaceAllStringFunc (r : Re) (src : Str) (f : Str → Str) : Str :=
  replLoop r (fun m => f m.text) (src.length + 1) true [] src

/-- A piece of a replacement template: literal text or a reference `$i`. -/
inductive Tpl where
  | txt (w : Str)
  | ref (i : Nat)

/-- Expansion of a template against the captures of a match. -/
def expand (t : List Tpl) (c : Caps) : Str :=
  t.flatMap (fun p => match p with
    | .txt w => w
    | .ref i => getCap c i)

/-- `Regexp.ReplaceAllString`: every match is replaced by the expanded template. -/
def ReplaceAllString (r : Re) (src : Str) (t : List Tpl) : Str :=
  replLoop r (fun m => expand t m.caps) (src.length + 1) true [] src

/-- The loop of `Regexp.allMatches`.  `prevHere` says the previous match ended at the
search position: an empty match there is not delivered. -/
def allLoop (r : Re) : Nat → Bool → Str → List Match
  | 0, _, _ => []
  | n + 1, prevHere, s =>
    match findFirst r s with
    | none => []
    | some m =>
      if m.text.isEmpty && m.pre.isEmpty then
        (if prevHere then [] else [m]) ++
          (match s with
           | [] => []
           | _ :: s1 => allLoop r n false s1)
      else m :: allLoop r n true m.rest

/-- The submatches of a match as the find functions return them: submatch 0 is the
matched text, submatch `i` the text of group `i`. -/
def Match.subs (m : Match) : Caps := (0, m.text) :: m.caps

/-- `Regexp.FindAllStringSubmatch(s, -1)`: the submatches of all successive matches. -/
def FindAllStringSubmatch (r : Re) (s : Str) : List Caps :=
  (allLoop r (s.length + 1) false s).map Match.subs

/-- `Regexp.FindStringSubmatch`: the submatches of the leftmost match, if any. -/
def FindStringSubmatch (r : Re) (s : Str) : Option Caps := (findFirst r s).map Match.subs

/-- `Regexp.MatchString`: whether the expression matches somewhere in the input. -/
def MatchString (r : Re) (s : Str) : Bool := (findFirst r s).isSome

/-! ### Derived forms -/

/-- A literal given as a string. -/
def L (s : String) : Re := .lit s.data

/-- Concatenation of a list of expressions. -/
def seqs : List Re → Re
  | [] => .lit []
  | [a] => a
  | a :: b :: rest => .seq a (seqs (b :: rest))

/-- Greedy `a*`. -/
def many (a : Re) : Re := .star true a

/-- Greedy `a+`. -/
def many1 (a : Re) : Re := .seq a (.star true a)

/-- Lazy `a*?`. -/
def lazy (a : Re) : Re := .star false a

/-- Greedy `a?`. -/
def opt (a : Re) : Re := .alt a (.lit [])

/-! ## The `strings` and `fmt` helpers -/

/-- `strings.Contains(s, sub)`. -/
def Contains : Str → Str → Bool
  | [], sub => sub.isPrefixOf []
  | x :: s, sub => sub.isPrefixOf (x :: s) || Contains s sub

/-- `strings.Index(s, sub)`: the position of the first occurrence, `none` for Go's -1. -/
def Index : Str → Str → Option Nat
  | [], sub => if sub.isPrefixOf [] then some 0 else none
  | x :: s, sub =>
    if sub.isPrefixOf (x :: s) then some 0 else (Index s sub).map (fun i => i + 1)

/-- `strings.LastIndex(s, sub)`: the position of the last occurrence. -/
def LastIndex : Str → Str → Option Nat
  | [], sub => if sub.isPrefixOf [] then some 0 else none
  | x :: s, sub =>
    match LastIndex s sub with
    | some i => some (i + 1)
    | none => if sub.isPrefixOf (x :: s) then some 0 else none

/-- Scan of `strings.Count` for a non-empty `sub`: after an occurrence the scan resumes
behind it (`skip` characters are passed over). -/
def countScan (sub : Str) : Nat → Str → Nat
  | _, [] => 0
  | 0, x :: s =>
    if sub.isPrefixOf (x :: s) then 1 + countScan sub (sub.length - 1) s
    else countScan sub 0 s
  | k + 1, _ :: s => countScan sub k s

/-- `strings.Count(s, sub)`: the number of non-overlapping occurrences. -/
def Count (s sub : Str) : Nat :=
  if sub.isEmpty then s.length + 1 else countScan sub 0 s

/-- `strings.HasPrefix(s, p)`. -/
def HasPrefix (s p : Str) : Bool := p.isPrefixOf s

/-- `strings.TrimSpace`: leading and trailing white space removed. -/
def TrimSpace (s : Str) : Str :=
  ((s.dropWhile goSpace.mem).reverse.dropWhile goSpace.mem).reverse

/-- `strings.Split(s, "\n")`. -/
def splitLines : Str → List Str
  | [] => [[]]
  | c :: s =>
    if c = '\n' then [] :: splitLines s
    else
      match splitLines s with
      | [] => [[c]]
      | l :: ls => (c :: l) :: ls

/-- Scan of `strings.Fields`: `cur` is the current field, reversed. -/
def fieldsScan : Str → Str → List Str
  | cur, [] => if cur.isEmpty then [] else [cur.reverse]
  | cur, c :: s =>
    if goSpace.mem c then
      (if cur.isEmpty then fieldsScan [] s else cur.reverse :: fieldsScan [] s)
    else fieldsScan (c :: cur) s

/-- `strings.Fields`: the maximal runs of characters that are not white space. -/
def Fields (s : Str) : List Str := fieldsScan [] s

/-- `strings.Join(parts, sep)`. -/
def Join (parts : List Str) (sep : Str) : Str := sep.intercalate parts

/-- `strings.ReplaceAll(s, "|", "\\|")`. -/
def escapePipes (s : Str) : Str :=
  s.flatMap (fun c => if c = '|' then ['\\', '|'] else [c])

/-- The verb `%d` of `fmt.Sprintf` on a non-negative integer. -/
def itoa (n : Nat) : Str := (Nat.repr n).data

/-! ## `html.UnescapeString` -/

/-- The named character references of package `html`, abridged to the entries listed
here (the Go table has 2231 entries; the names are written as in that table, with the
semicolon where the table has it). -/
def entityTable : List (Str × Char) :=
  [("amp;".data, '&'), ("amp".data, '&'), ("AMP;".data, '&'), ("AMP".data, '&'),
   ("lt;".data, '<'), ("lt".data, '<'), ("LT;".data, '<'), ("LT".data, '<'),
   ("gt;".data, '>'), ("gt".data, '>'), ("GT;".data, '>'), ("GT".data, '>'),
   ("quot;".data, '"'), ("quot".data, '"'), ("QUOT;".data, '"'), ("QUOT".data, '"'),
   ("apos;".data, '\''), ("nbsp;".data, Char.ofNat 160), ("nbsp".data, Char.ofNat 160),
   ("copy;".data, Char.ofNat 169), ("copy".data, Char.ofNat 169),
   ("reg;".data, Char.ofNat 174), ("reg".data, Char.ofNat 174),
   ("hellip;".data, Char.ofNat 8230), ("ndash;".data, Char.ofNat 8211),
   ("mdash;".data, Char.ofNat 8212), ("lsquo;".data, Char.ofNat 8216),
   ("rsquo;".data, Char.ofNat 8217), ("ldquo;".data, Char.ofNat 8220),
   ("rdquo;".data, Char.ofNat 8221), ("bull;".data, Char.ofNat 8226)]

/-- Lookup in the entity table. -/
def entity (name : Str) : Option Char := entityTable.lookup name

/-- The table `replacementTable` of package `html`: code points 0x80..0x9F of a numeric
reference are read as Windows-1252. -/
def replacementTable : List Nat :=
  [0x20AC, 0x0081, 0x201A, 0x0192, 0x201E, 0x2026, 0x2020, 0x2021,
   0x02C6, 0x2030, 0x0160, 0x2039, 0x0152, 0x008D, 0x017D, 0x008F,
   0x0090, 0x2018, 0x2019, 0x201C, 0x201D, 0x2022, 0x2013, 0x2014,
   0x02DC, 0x2122, 0x0161, 0x203A, 0x0153, 0x009D, 0x017E, 0x0178]

/-- Wrap-around of the 32-bit signed accumulator `x` of the numeric reference. -/
def wrap32 (v : Int) : Int := (v + 2147483648) % 4294967296 - 2147483648

/-- Value of a digit of a numeric reference, `none` when the character is no digit. -/
def digitVal (hex : Bool) (c : Char) : Option Int :=
  if '0' ≤ c ∧ c ≤ '9' then some (c.toNat - 48)
  else if hex ∧ 'a' ≤ c ∧ c ≤ 'f' then some (c.toNat - 97 + 10)
  else if hex ∧ 'A' ≤ c ∧ c ≤ 'F' then some (c.toNat - 65 + 10)
  else none

/-- The digit loop of a numeric reference: accumulated value, digits read, and whether a
closing semicolon was consumed. -/
def readDigits (hex : Bool) : Str → Int → Nat → Int × Nat × Bool
  | [], x, k => (x, k, false)
  | c :: s, x, k =>
    match digitVal hex c with
    | some d => readDigits hex s (wrap32 ((if hex then 16 else 10) * x + d)) (k + 1)
    | none => (x, k, c = ';')

/-- The character a numeric reference with value `x` stands for. -/
def numericChar (x : Int) : Char :=
  if 128 ≤ x ∧ x ≤ 159 then Char.ofNat (replacementTable.getD (x - 128).toNat 65533)
  else if x ≤ 0 ∨ (55296 ≤ x ∧ x ≤ 57343) ∨ x > 1114111 then Char.ofNat 65533
  else Char.ofNat x.toNat

/-- Length of the longest run of letters and digits at the head of the input. -/
def alnumRun : Str → Nat
  | [] => 0
  | c :: s =>
    if ('a' ≤ c ∧ c ≤ 'z') ∨ ('A' ≤ c ∧ c ≤ 'Z') ∨ ('0' ≤ c ∧ c ≤ '9') then alnumRun s + 1
    else 0

/-- The search `for j := maxLen; j > 1; j--` for a reference written without its
semicolon: the longest proper prefix of the name, of length `j`, that is in the table. -/
def prefixEntity (name : Str) : Nat → Option (Char × Nat)
  | 0 => none
  | j + 1 =>
    if j + 1 ≤ 1 then none
    else
      match entity (name.take (j + 1)) with
      | some ch => some (ch, j + 1)
      | none => prefixEntity name j

/-- `unescapeEntity`: the input is the text behind a `&`; the result is the text the
reference is replaced by and the number of characters consumed, the `&` included. -/
def unescapeEntity (s : Str) : Str × Nat :=
  match s with
  | [] => (['&'], 1)
  | '#' :: t =>
    if t.length + 2 ≤ 3 then (['&'], 1)
    else
      let hex := t.head? = some 'x' ∨ t.head? = some 'X'
      let body := if hex then t.drop 1 else t
      let r := readDigits hex body 0 0
      let i := 2 + (if hex then 1 else 0) + r.2.1 + (if r.2.2 then 1 else 0)
      if i ≤ 3 then (['&'], 1) else ([numericChar r.1], i)
  | _ =>
    let n := alnumRun s
    let semi := (s.drop n).head? = some ';'
    let name := s.take (n + (if semi then 1 else 0))
    if name.isEmpty then (['&'], 1)
    else
      match entity name with
      | some ch => ([ch], 1 + name.length)
      | none =>
        match prefixEntity name (min (name.length - 1) 6) with
        | some (ch, j) => ([ch], j + 1)
        | none => ('&' :: name, 1 + name.length)

/-- The copy loop of `html.UnescapeString`. -/
def unescapeLoop : Nat → Str → Str
  | 0, s => s
  | _ + 1, [] => []
  | n + 1, c :: s =>
    if c = '&' then
      let r := unescapeEntity s
      r.1 ++ unescapeLoop n (s.drop (r.2 - 1))
    else c :: unescapeLoop n s

/-- `html.UnescapeString`. -/
def UnescapeString (s : Str) : Str := unescapeLoop s.length s

/-! ## More derived forms of expressions -/

/-- Counted repetition `a{n,}`. -/
def atLeast (n : Nat) (a : Re) : Re := seqs (List.replicate n a ++ [many a])

/-- The class of the two quote characters. -/
def quoteSet : CharSet := CharSet.of ['"', '\'']

/-- Greedy `\s*`. -/
def ws0 : Re := many (.cls reSpace)

/-- Greedy `\s+`. -/
def ws1 : Re := many1 (.cls reSpace)

/-- Greedy `[^>]*`. -/
def attrs : Re := many (.cls notGt)

/-- Lazy `.*?`, the dot not matching a newline. -/
def lazyDot : Re := lazy (.cls dot)

/-- Lazy `.*?` under the flag `(?s)`. -/
def lazyAny : Re := lazy (.cls anyChar)

/-- A quoted attribute value with its content captured: `["']([^"']*)["']`. -/
def quoted (i : Nat) : Re :=
  seqs [.cls quoteSet, .grp i (many (.cls notQuote)), .cls quoteSet]

/-- A replacement template given as text. -/
def T (s : String) : Tpl := .txt s.data

/-- `MatchString` for an expression written between `^` and `$`: some way of matching
reads the whole input. -/
def MatchWhole (r : Re) (s : Str) : Bool := (ms r s []).any (fun x => x.1.isEmpty)

/-! ## Sanitising (`wp-import.go`) -/

/-- The pattern `<!-- wp:[^>]*-->\s*`. -/
def reBlockOpen : Re := seqs [L "<!-- wp:", attrs, L "-->", ws0]

/-- The pattern `\s*<!-- /wp:[^>]*-->`. -/
def reBlockClose : Re := seqs [ws0, L "<!-- /wp:", attrs, L "-->"]

/-- Helper function to remove Gutenberg block comments. -/
def removeGutenbergComments (content : Str) : Str :=
  let content := ReplaceAllString reBlockOpen content []
  ReplaceAllString reBlockClose content []

/-- The pattern `\n{3,}`. -/
def reNewlines3 : Re := atLeast 3 (L "\n")

/-- The pattern `[ \t]+\n`. -/
def reTrailingBlanks : Re := seqs [many1 (.cls (CharSet.of [' ', '\t'])), L "\n"]

/-- The pattern `>\s+<`. -/
def reBetweenTags : Re := seqs [L ">", ws1, L "<"]

/-- Helper function to clean up whitespace. -/
def cleanWhitespace (content : Str) : Str :=
  let content := ReplaceAllString reNewlines3 content [T "\n\n"]
  let content := ReplaceAllString reTrailingBlanks content [T "\n"]
  let content := ReplaceAllString reBetweenTags content [T "><"]
  TrimSpace content

/-- The pattern `<p>\s*</p>`. -/
def reEmptyP : Re := seqs [L "<p>", ws0, L "</p>"]

/-- The pattern `<br\s*/?>\s*`. -/
def reBrWs : Re := seqs [L "<br", ws0, opt (L "/"), L ">", ws0]

/-- The pattern `<p>\s*(<br\s*/?>\s*)*</p>`. -/
def reBrOnlyP : Re := seqs [L "<p>", ws0, many (.grp 1 reBrWs), L "</p>"]

/-- Helper function to remove empty paragraphs. -/
def removeEmptyParagraphs (content : Str) : Str :=
  let content := ReplaceAllString reEmptyP content []
  ReplaceAllString reBrOnlyP content []

/-- Removes Gutenberg block comments and cleans HTML (`SanitizeWordPressContent`). -/
def SanitizeWordPressContent (content : Str) : Str :=
  let content := removeGutenbergComments content
  let content := cleanWhitespace content
  removeEmptyParagraphs content

/-! ## Cleaning HTML (`wp-import.go`) -/

/-- The tag names of `unclosedTags`, in the order of the source. -/
def unclosedTags : List Str :=
  ["p".data, "div".data, "span".data, "li".data, "ol".data, "ul".data, "strong".data,
   "em".data, "a".data]

/-- One round of the loop of `fixUnclosedTags`: the missing closing tags of one tag name
are appended. -/
def fixOneTag (content tag : Str) : Str :=
  let openCount := Count content ('<' :: tag)
  let closeCount := Count content ('<' :: '/' :: tag)
  content ++ (List.replicate (openCount - closeCount) ("</".data ++ tag ++ ">".data)).join

/-- Helper function to fix unclosed or improperly nested tags. -/
def fixUnclosedTags (content : Str) : Str := unclosedTags.foldl fixOneTag content

/-- The pattern `X=["']\s*["']` for an attribute name `X`. -/
def reEmptyAttr (name : String) : Re :=
  seqs [L name, L "=", .cls quoteSet, ws0, .cls quoteSet]

/-- The class `[a-zA-Z0-9_-]`. -/
def wordDash : CharSet := [(97, 122), (65, 90), (48, 57), (95, 95), (45, 45)]

/-- The pattern
`class=["']([^"']*?)(wp-[a-zA-Z0-9_-]+|align[a-z]+|block-[a-z0-9-]+)([^"']*?)["']`. -/
def reWpClass : Re :=
  seqs [L "class=", .cls quoteSet, .grp 1 (lazy (.cls notQuote)),
    .grp 2 (.alt (seqs [L "wp-", many1 (.cls wordDash)])
      (.alt (seqs [L "align", many1 (.cls [(97, 122)])])
        (seqs [L "block-", many1 (.cls [(97, 122), (48, 57), (45, 45)])]))),
    .grp 3 (lazy (.cls notQuote)), .cls quoteSet]

/-- The pattern `class=["']([^"']*)["']`. -/
def reClassAttr : Re := seqs [L "class=", quoted 1]

/-- The pattern `align(left|right|center|none|wide|full)` of the anchored test
`^align(left|right|center|none|wide|full)$`. -/
def reAlign : Re :=
  seqs [L "align", .grp 1 (.alt (L "left") (.alt (L "right") (.alt (L "center")
    (.alt (L "none") (.alt (L "wide") (L "full"))))))]

/-- The test that keeps a class token: not generated by WordPress. -/
def keepClass (cls : Str) : Bool :=
  !HasPrefix cls "wp-".data && !HasPrefix cls "block-".data && !MatchWhole reAlign cls

/-- The callback of `cleanAttributes` for a class attribute that holds a WordPress
class. -/
def cleanClassAttr (m : Str) : Str :=
  match FindStringSubmatch reClassAttr m with
  | some classes =>
    let cleanClasses := (Fields (getCap classes 1)).filter keepClass
    if cleanClasses.isEmpty then []
    else "class=\"".data ++ Join cleanClasses " ".data ++ "\"".data
  | none => m

/-- The pattern
`\s+data-(wp-[a-zA-Z0-9_-]+=["'][^"']*["']|align=["'][^"']*["']|block=["'][^"']*["'])`. -/
def reDataWp : Re :=
  seqs [ws1, L "data-", .grp 1 (.alt
    (seqs [L "wp-", many1 (.cls wordDash), L "=", .cls quoteSet, many (.cls notQuote),
      .cls quoteSet])
    (.alt (seqs [L "align=", .cls quoteSet, many (.cls notQuote), .cls quoteSet])
      (seqs [L "block=", .cls quoteSet, many (.cls notQuote), .cls quoteSet])))]

/-- The pattern `\s+data-[a-zA-Z0-9_-]+=["'][^"']*["']`. -/
def reDataAny : Re :=
  seqs [ws1, L "data-", many1 (.cls wordDash), L "=", .cls quoteSet,
    many (.cls notQuote), .cls quoteSet]

/-- The pattern `\s{2,}`. -/
def reSpaces2 : Re := atLeast 2 (.cls reSpace)

/-- The pattern `\s+>`. -/
def reSpaceGt : Re := seqs [ws1, L ">"]

/-- Helper function to clean empty attributes. -/
def cleanEmptyAttributes (content : Str) : Str :=
  let content := ["id", "class", "style", "title"].foldl
    (fun acc name => ReplaceAllString (reEmptyAttr name) acc []) content
  let content := ReplaceAllString reSpaces2 content [T " "]
  ReplaceAllString reSpaceGt content [T ">"]

/-- Helper function to clean up HTML attributes. -/
def cleanAttributes (content : Str) : Str :=
  let content := ReplaceAllString (reEmptyAttr "class") content []
  let content := ReplaceAllStringFunc reWpClass content cleanClassAttr
  let content := ReplaceAllString (reEmptyAttr "class") content []
  let content := ReplaceAllString (reEmptyAttr "style") content []
  let content := ReplaceAllString reDataWp content []
  let content := ReplaceAllString reDataAny content []
  cleanEmptyAttributes content

/-- The pattern `<NAME([^>]*)>(.*?)</NAME>` of `updateDeprecatedTags`. -/
def reElemAttrs (name : String) : Re :=
  seqs [L "<", L name, .grp 1 attrs, L ">", .grp 2 lazyDot, L "</", L name, L ">"]

/-- Helper function to update deprecated HTML tags. -/
def updateDeprecatedTags (content : Str) : Str :=
  let content := ReplaceAllString (reElemAttrs "center") content
    [T "<div", .ref 1, T " style=\"text-align: center;\">", .ref 2, T "</div>"]
  let content := ReplaceAllString (reElemAttrs "font") content
    [T "<span", .ref 1, T ">", .ref 2, T "</span>"]
  let content := ReplaceAllString (reElemAttrs "b") content
    [T "<strong", .ref 1, T ">", .ref 2, T "</strong>"]
  ReplaceAllString (reElemAttrs "i") content [T "<em", .ref 1, T ">", .ref 2, T "</em>"]

/-- The pattern `(?s)<li([^>]*)>(.*?)</li>`. -/
def reLiElem : Re := seqs [L "<li", .grp 1 attrs, L ">", .grp 2 lazyAny, L "</li>"]

/-- The pattern `<[ou]l[^>]*>`. -/
def reListOpen : Re := seqs [L "<", .cls (CharSet.of ['o', 'u']), L "l", attrs, L ">"]

/-- The pattern
`(?s)(<[ou]l[^>]*>)(.*?)(<[ou]l[^>]*>)(.*?)(</[ou]l>)(.*?)(</[ou]l>)`. -/
def reSiblingLists : Re :=
  seqs [.grp 1 reListOpen, .grp 2 lazyAny, .grp 3 reListOpen, .grp 4 lazyAny,
    .grp 5 (seqs [L "</", .cls (CharSet.of ['o', 'u']), L "l>"]), .grp 6 lazyAny,
    .grp 7 (seqs [L "</", .cls (CharSet.of ['o', 'u']), L "l>"])]

/-- The callback of `fixListStructure`: a list item that holds no list tag and is not
directly followed by a closing list tag in `content` is wrapped in a list. -/
def wrapOrphanItem (content m : Str) : Str :=
  let before := MatchString reListOpen m
  let after := Contains content (m ++ "</ul>".data) || Contains content (m ++ "</ol>".data)
  if !before && !after then
    match FindStringSubmatch reLiElem m with
    | some _ => "<ul>".data ++ m ++ "</ul>".data
    | none => m
  else m

/-- Helper function to fix list structure. -/
def fixListStructure (content : Str) : Str :=
  let content := ReplaceAllStringFunc reLiElem content (wrapOrphanItem content)
  ReplaceAllString reSiblingLists content
    [.ref 1, .ref 2, T "<li>", .ref 3, .ref 4, .ref 5, T "</li>", .ref 6, .ref 7]

/-- Sanitizes WordPress HTML content while preserving HTML structure (`CleanHTML`). -/
def CleanHTML (content : Str) : Str :=
  let content := SanitizeWordPressContent content
  let content := fixUnclosedTags content
  let content := cleanAttributes content
  let content := updateDeprecatedTags content
  fixListStructure content

/-! ## The legacy list converters (`wp-import.go`) -/

/-- The pattern `<[^>]*>`. -/
def reTag : Re := seqs [L "<", attrs, L ">"]

/-- Removal of all tags: `ReplaceAllString` of `<[^>]*>` by the empty string. -/
def stripTags (s : Str) : Str := ReplaceAllString reTag s []

/-- Item text cleaned in the order strip tags, decode entities, trim. -/
def cleanText (s : Str) : Str := TrimSpace (UnescapeString (stripTags s))

/-- Item text cleaned in the order strip tags, trim, decode entities. -/
def cleanTextTrimFirst (s : Str) : Str := UnescapeString (TrimSpace (stripTags s))

/-- The pattern `<NAME[^>]*>(.*?)</NAME>`, the dot not matching a newline. -/
def reElem (name : String) : Re :=
  seqs [L "<", L name, attrs, L ">", .grp 1 lazyDot, L "</", L name, L ">"]

/-- The pattern `(?s)<NAME[^>]*>(.*?)</NAME>`. -/
def reElemS (name : String) : Re :=
  seqs [L "<", L name, attrs, L ">", .grp 1 lazyAny, L "</", L name, L ">"]

/-- The pattern `<li[^>]*>(.*?)<NAME[^>]*>(.*?)</NAME>(.*?)</li>` that marks items
holding a nested list. -/
def reHasChild (name : String) : Re :=
  seqs [L "<li", attrs, L ">", .grp 1 lazyDot, L "<", L name, attrs, L ">", .grp 2 lazyDot,
    L "</", L name, L ">", .grp 3 lazyDot, L "</li>"]

/-- The template `<li data-has-child="true">$1<NAME>$2</NAME>$3</li>`. -/
def tplHasChild (name : String) : List Tpl :=
  [T "<li data-has-child=\"true\">", .ref 1, T "<", T name, T ">", .ref 2, T "</", T name,
    T ">", .ref 3, T "</li>"]

/-- The pattern `<NAME>(.*?)</NAME>` (no attributes). -/
def reBare (name : String) : Re :=
  seqs [L "<", L name, L ">", .grp 1 lazyDot, L "</", L name, L ">"]

/-- The loop over the items of an ordered list in `convertOrderedLists`; `i` counts the
items already written. -/
def olItemsMd : Nat → List Caps → Str
  | _, [] => []
  | i, m :: rest =>
    itoa (i + 1) ++ ". ".data ++ cleanText (getCap m 1) ++ "\n".data ++
      olItemsMd (i + 1) rest

/-- Helper function to convert ordered lists to markdown. -/
def convertOrderedLists (content : Str) : Str :=
  ReplaceAllStringFunc (reElem "ol") content (fun m =>
    "\n".data ++ olItemsMd 0 (FindAllStringSubmatch (reElem "li") m) ++ "\n".data)

/-- The lines of the items of a nested list, each behind the given label. -/
def nestedLines (label : Nat → Str) : Nat → List Caps → Str
  | _, [] => []
  | j, m :: rest =>
    label j ++ cleanText (getCap m 1) ++ "\n".data ++ nestedLines label (j + 1) rest

/-- The text of an item behind its last closing list tag, cleaned; empty when there is
none. -/
def afterListText (closeTag itemContent : Str) : Str :=
  match LastIndex itemContent closeTag with
  | some idx =>
    if idx + 5 < itemContent.length then cleanText (itemContent.drop (idx + 5)) else []
  | none => []

/-- One item of a legacy list converter.  `name` is the list tag, `label i` the label of
item `i`, `sub i j` the label of nested item `j`, `trimFirst` the cleaning order of a
plain item. -/
def legacyItem (name : String) (label : Nat → Str) (sub : Nat → Nat → Str)
    (trimFirst : Bool) (i : Nat) (itemContent : Str) : Str :=
  let openTag := "<".data ++ name.data ++ ">".data
  if Contains itemContent openTag then
    let beforeList :=
      match Index itemContent openTag with
      | some idx => itemContent.take idx
      | none => itemContent
    let head := label i ++ cleanText beforeList ++ "\n".data
    let nested :=
      match FindStringSubmatch (reBare name) itemContent with
      | some nm =>
        nestedLines (sub i) 0 (FindAllStringSubmatch (reElem "li") (getCap nm 1))
      | none => []
    let afterList := afterListText ("</".data ++ name.data ++ ">".data) itemContent
    head ++ nested ++ (if afterList.isEmpty then [] else label (i + 1) ++ afterList ++ "\n".data)
  else
    label i ++ (if trimFirst then cleanTextTrimFirst itemContent else cleanText itemContent)
      ++ "\n".data

/-- The loop over the items of a legacy list converter. -/
def legacyItems (name : String) (label : Nat → Str) (sub : Nat → Nat → Str)
    (trimFirst : Bool) : Nat → List Caps → Str
  | _, [] => []
  | i, m :: rest =>
    legacyItem name label sub trimFirst i (getCap m 1) ++
      legacyItems name label sub trimFirst (i + 1) rest

/-- The label `- ` of a Markdown bullet. -/
def dashLabel (_ : Nat) : Str := "- ".data

/-- The label `• ` of a plain-text bullet. -/
def bulletLabel (_ : Nat) : Str := "• ".data

/-- The label `N. ` of item number `i + 1`. -/
def numLabel (i : Nat) : Str := itoa (i + 1) ++ ". ".data

/-- Helper function to convert unordered lists to markdown. -/
def convertUnorderedLists (content : Str) : Str :=
  let content := ReplaceAllString (reHasChild "ul") content (tplHasChild "ul")
  ReplaceAllStringFunc (reElem "ul") content (fun m =>
    "\n".data ++ legacyItems "ul" dashLabel (fun _ _ => "  - ".data) false 0
      (FindAllStringSubmatch (reElem "li") m) ++ "\n".data)

/-- Helper function to convert ordered lists to numbered plain text. -/
def convertOrderedListsToPlainText (content : Str) : Str :=
  let content := ReplaceAllString (reHasChild "ol") content (tplHasChild "ol")
  ReplaceAllStringFunc (reElem "ol") content (fun m =>
    legacyItems "ol" numLabel
      (fun i j => "    ".data ++ itoa (i + 1) ++ ".".data ++ itoa (j + 1) ++ ". ".data) true 0
      (FindAllStringSubmatch (reElem "li") m))

/-- Helper function to convert unordered lists to bullet point plain text. -/
def convertUnorderedListsToPlainText (content : Str) : Str :=
  let content := ReplaceAllString (reHasChild "ul") content (tplHasChild "ul")
  ReplaceAllStringFunc (reElem "ul") content (fun m =>
    legacyItems "ul" bulletLabel (fun _ _ => "  • ".data) true 0
      (FindAllStringSubmatch (reElem "li") m))

/-! ## The nested-list converters (`nested_lists.go`) -/

/-- The pattern `<a[^>]*href=["']([^"']*)["'][^>]*>(.*?)</a>`, the dot not matching a
newline. -/
def reLink : Re :=
  seqs [L "<a", attrs, L "href=", quoted 1, attrs, L ">", .grp 2 lazyDot, L "</a>"]

/-- The inline conversions of an item in `NestedListsToMarkdown`, then the cleaning. -/
def inlineMd (s : Str) : Str :=
  let s := ReplaceAllString (reElem "strong") s [T "**", .ref 1, T "**"]
  let s := ReplaceAllString (reElem "b") s [T "**", .ref 1, T "**"]
  let s := ReplaceAllString (reElem "em") s [T "*", .ref 1, T "*"]
  let s := ReplaceAllString (reElem "i") s [T "*", .ref 1, T "*"]
  let s := ReplaceAllString reLink s [T "[", .ref 2, T "](", .ref 1, T ")"]
  cleanText s

/-- The text of an item in front of its first nested list (`mainText`, not yet
cleaned). -/
def mainTextOf (itemContent : Str) : Str :=
  if Contains itemContent "<ul".data then
    match Index itemContent "<ul".data with
    | some idx => if 0 < idx then itemContent.take idx else []
    | none => []
  else if Contains itemContent "<ol".data then
    match Index itemContent "<ol".data with
    | some idx => if 0 < idx then itemContent.take idx else []
    | none => []
  else itemContent

/-- The lines of the items of a nested list in the nested-aware converters. -/
def nestedItemLines (clean : Str → Str) (label : Nat → Str) : Nat → List Caps → Str
  | _, [] => []
  | j, m :: rest =>
    label j ++ clean (getCap m 1) ++ "\n".data ++
      nestedItemLines clean label (j + 1) rest

/-- One item of a nested-aware converter: the line of the item, then the lines of its
first nested ordered list, or else of its first nested unordered list. -/
def nestedItem (clean : Str → Str) (label : Nat → Str) (subOl : Nat → Nat → Str)
    (subUl : Str) (i : Nat) (itemContent : Str) : Str :=
  let head := label i ++ clean (mainTextOf itemContent) ++ "\n".data
  let nested :=
    if Contains itemContent "<ol".data then
      match FindStringSubmatch (reElemS "ol") itemContent with
      | some nm =>
        nestedItemLines clean (subOl i) 0
          (FindAllStringSubmatch (reElemS "li") (getCap nm 1))
      | none => []
    else if Contains itemContent "<ul".data then
      match FindStringSubmatch (reElemS "ul") itemContent with
      | some nm =>
        nestedItemLines clean (fun _ => subUl) 0
          (FindAllStringSubmatch (reElemS "li") (getCap nm 1))
      | none => []
    else []
  head ++ nested

/-- The loop over the items of a list in a nested-aware converter. -/
def nestedItems (clean : Str → Str) (label : Nat → Str) (subOl : Nat → Nat → Str)
    (subUl : Str) : Nat → List Caps → Str
  | _, [] => []
  | i, m :: rest =>
    nestedItem clean label subOl subUl i (getCap m 1) ++
      nestedItems clean label subOl subUl (i + 1) rest

/-- The callback of a nested-aware converter for one matched list. -/
def nestedList (clean : Str → Str) (label : Nat → Str) (subOl : Nat → Nat → Str)
    (subUl : Str) (m : Str) : Str :=
  "\n".data ++ nestedItems clean label subOl subUl 0 (FindAllStringSubmatch (reElemS "li") m)

/-- The label of nested ordered item `j`, indented four spaces: `    N. `. -/
def subNum (_ : Nat) (j : Nat) : Str := "    ".data ++ itoa (j + 1) ++ ". ".data

/-- The compound label of nested ordered item `j` of item `i`: `    I.N. `. -/
def subCompound (i j : Nat) : Str :=
  "    ".data ++ itoa (i + 1) ++ ".".data ++ itoa (j + 1) ++ ". ".data

/-- Converts nested HTML lists to Markdown (`NestedListsToMarkdown`). -/
def NestedListsToMarkdown (content : Str) : Str :=
  let content := SanitizeWordPressContent content
  let content := ReplaceAllStringFunc (reElemS "ol") content
    (nestedList inlineMd numLabel subNum "    - ".data)
  let content := ReplaceAllStringFunc (reElemS "ul") content
    (nestedList inlineMd dashLabel subNum "    - ".data)
  let content := stripTags content
  let content := ReplaceAllString reNewlines3 content [T "\n\n"]
  TrimSpace content

/-- Converts nested HTML lists to plain text (`NestedListsToPlainText`). -/
def NestedListsToPlainText (content : Str) : Str :=
  let content := SanitizeWordPressContent content
  let content := ReplaceAllStringFunc (reElemS "ol") content
    (nestedList cleanText numLabel subCompound "    • ".data)
  let content := ReplaceAllStringFunc (reElemS "ul") content
    (nestedList cleanText bulletLabel subNum "    • ".data)
  let content := stripTags content
  let content := ReplaceAllString reNewlines3 content [T "\n\n"]
  TrimSpace content

/-! ## Plain text (`wp-import.go`) -/

/-- The pattern `<li[^>]*>.*?<ul[^>]*>` of the nested-list test. -/
def reNestedTest : Re := seqs [L "<li", attrs, L ">", lazyDot, L "<ul", attrs, L ">"]

/-- The test that routes content to the nested-aware converters. -/
def hasNestedList (content : Str) : Bool :=
  Contains content "<ul".data && Contains content "<li".data && MatchString reNestedTest content

/-- The pattern `</p>\s*`. -/
def rePClose : Re := seqs [L "</p>", ws0]

/-- Removes all HTML tags and returns plain text (`ConvertToPlainText`). -/
def ConvertToPlainText (content : Str) : Str :=
  if hasNestedList content then NestedListsToPlainText content
  else
    let content := SanitizeWordPressContent content
    let content := convertOrderedListsToPlainText content
    let content := convertUnorderedListsToPlainText content
    let content := ReplaceAllString reBrWs content [T "\n"]
    let content := ReplaceAllString rePClose content [T "\n\n"]
    let content := stripTags content
    let content := UnescapeString content
    cleanWhitespace content

/-! ## Markdown (`wp-import.go`) -/

/-- The pattern `<t[hd][^>]*>(.*?)</t[hd]>`. -/
def reCell : Re :=
  seqs [L "<t", .cls (CharSet.of ['h', 'd']), attrs, L ">", .grp 1 lazyDot, L "</t",
    .cls (CharSet.of ['h', 'd']), L ">"]

/-- The cells of one table row: ` text |` for each cell. -/
def tableCells : List Caps → Str
  | [] => []
  | c :: rest =>
    " ".data ++ escapePipes (cleanTextTrimFirst (getCap c 1)) ++ " |".data ++
      tableCells rest

/-- The separator cells written behind the first row: ` --- |` for each cell. -/
def separatorCells : List Caps → Str
  | [] => []
  | _ :: rest => " --- |".data ++ separatorCells rest

/-- The loop over the rows of a table; `isFirstRow` holds until a row with cells has
been written. -/
def tableRows : Bool → List Caps → Str
  | _, [] => []
  | isFirstRow, row :: rest =>
    let cells := FindAllStringSubmatch reCell (getCap row 1)
    if cells.isEmpty then tableRows isFirstRow rest
    else
      "|".data ++ tableCells cells ++ "\n".data ++
        (if isFirstRow then "|".data ++ separatorCells cells ++ "\n".data else []) ++
        tableRows false rest

/-- The callback of `convertTables` for one matched table. -/
def convertTable (m : Str) : Str :=
  match FindStringSubmatch (reElem "table") m with
  | some tableContent =>
    "\n".data ++ tableRows true (FindAllStringSubmatch (reElem "tr") (getCap tableContent 1))
      ++ "\n".data
  | none => m

/-- Helper function to convert tables to markdown. -/
def convertTables (content : Str) : Str :=
  ReplaceAllStringFunc (reElem "table") content convertTable

/-- The pattern
`<img[^>]*src=["']([^"']*)["'][^>]*alt=["']([^"']*)["'][^>]*/?>`. -/
def reImgSrcAlt : Re :=
  seqs [L "<img", attrs, L "src=", quoted 1, attrs, L "alt=", quoted 2, attrs, opt (L "/"),
    L ">"]

/-- The pattern
`<img[^>]*alt=["']([^"']*)["'][^>]*src=["']([^"']*)["'][^>]*/?>`. -/
def reImgAltSrc : Re :=
  seqs [L "<img", attrs, L "alt=", quoted 1, attrs, L "src=", quoted 2, attrs, opt (L "/"),
    L ">"]

/-- The pattern `<img[^>]*src=["']([^"']*)["'][^>]*/?>`. -/
def reImgSrc : Re := seqs [L "<img", attrs, L "src=", quoted 1, attrs, opt (L "/"), L ">"]

/-- The lines of a blockquote: `> ` in front of every line that is not blank. -/
def quoteLines : List Str → Str
  | [] => []
  | line :: rest =>
    let line := TrimSpace line
    (if line.isEmpty then [] else "> ".data ++ line ++ "\n".data) ++ quoteLines rest

/-- The callback of `ConvertToMarkdown` for one matched blockquote. -/
def convertBlockquote (m : Str) : Str :=
  match FindStringSubmatch (reElemS "blockquote") m with
  | some found =>
    let inner := UnescapeString (TrimSpace (stripTags (getCap found 1)))
    "\n".data ++ quoteLines (splitLines inner) ++ "\n".data
  | none => m

/-- The pattern
`(?s)<pre[^>]*><code[^>]*class=["']language-([^"']*)["'][^>]*>(.*?)</code></pre>`. -/
def reCodeLang : Re :=
  seqs [L "<pre", attrs, L "><code", attrs, L "class=", .cls quoteSet, L "language-",
    .grp 1 (many (.cls notQuote)), .cls quoteSet, attrs, L ">", .grp 2 lazyAny,
    L "</code></pre>"]

/-- The pattern `(?s)<pre[^>]*><code[^>]*>(.*?)</code></pre>`. -/
def reCodeBlock : Re :=
  seqs [L "<pre", attrs, L "><code", attrs, L ">", .grp 1 lazyAny, L "</code></pre>"]

/-- The pattern `(?s)<a[^>]*href=["']([^"']*)["'][^>]*>(.*?)</a>`. -/
def reLinkS : Re :=
  seqs [L "<a", attrs, L "href=", quoted 1, attrs, L ">", .grp 2 lazyAny, L "</a>"]

/-- The pattern `<hr\s*/?>`. -/
def reHr : Re := seqs [L "<hr", ws0, opt (L "/"), L ">"]

/-- The pattern `<br\s*/?>`. -/
def reBr : Re := seqs [L "<br", ws0, opt (L "/"), L ">"]

/-- The pattern `\n\s+\n`. -/
def reBlankLines : Re := seqs [L "\n", ws1, L "\n"]

/-- The heading rule of level `n`: `(?s)<hN[^>]*>(.*?)</hN>` becomes a line of `n`
number signs and the title, with blank-line padding. -/
def convertHeading (n : Nat) (content : Str) : Str :=
  ReplaceAllString (reElemS (String.mk ('h' :: itoa n))) content
    [T "\n", .txt (List.replicate n '#'), T " ", .ref 1, T "\n\n"]

/-- The replacement `OPEN$1CLOSE` of an element `(?s)<NAME[^>]*>(.*?)</NAME>`. -/
def wrapElem (name : String) (opening closing : String) (content : Str) : Str :=
  ReplaceAllString (reElemS name) content [T opening, .ref 1, T closing]

/-- Converts WordPress content to Markdown format (`ConvertToMarkdown`). -/
def ConvertToMarkdown (content : Str) : Str :=
  if hasNestedList content then NestedListsToMarkdown content
  else
    let content := SanitizeWordPressContent content
    let content := convertOrderedLists content
    let content := convertUnorderedLists content
    let content := ReplaceAllString reImgSrcAlt content [T "![", .ref 2, T "](", .ref 1, T ")"]
    let content := ReplaceAllString reImgAltSrc content [T "![", .ref 1, T "](", .ref 2, T ")"]
    let content := ReplaceAllString reImgSrc content [T "![](", .ref 1, T ")"]
    let content := convertHeading 1 content
    let content := convertHeading 2 content
    let content := convertHeading 3 content
    let content := convertHeading 4 content
    let content := convertHeading 5 content
    let content := convertHeading 6 content
    let content := ReplaceAllStringFunc (reElemS "blockquote") content convertBlockquote
    let content := ReplaceAllString reCodeLang content
      [T "\n```", .ref 1, T "\n", .ref 2, T "\n```\n\n"]
    let content := ReplaceAllString reCodeBlock content [T "\n```\n", .ref 1, T "\n```\n\n"]
    let content := wrapElem "pre" "\n```\n" "\n```\n\n" content
    let content := wrapElem "code" "`" "`" content
    let content := wrapElem "strong" "**" "**" content
    let content := wrapElem "b" "**" "**" content
    let content := wrapElem "em" "*" "*" content
    let content := wrapElem "i" "*" "*" content
    let content := wrapElem "u" "<u>" "</u>" content
    let content := wrapElem "del" "~~" "~~" content
    let content := wrapElem "s" "~~" "~~" content
    let content := ReplaceAllString reLinkS content [T "[", .ref 2, T "](", .ref 1, T ")"]
    let content := convertTables content
    let content := ReplaceAllString reHr content [T "\n---\n\n"]
    let content := ReplaceAllString reBr content [T "  \n"]
    let content := wrapElem "p" "" "\n\n" content
    let content := wrapElem "div" "" "\n\n" content
    let content := stripTags content
    let content := UnescapeString content
    let content := cleanWhitespace content
    let content := ReplaceAllString reNewlines3 content [T "\n\n"]
    let content := ReplaceAllString reBlankLines content [T "\n\n"]
    TrimSpace content

/-! ## The export data (`wp-import.go`) -/

/-- Author represents WordPress user accounts. -/
structure Author where
  ID : Int
  Login : Str
  Email : Str
  DisplayName : Str
  FirstName : Str
  LastName : Str
deriving DecidableEq

/-- Term represents custom taxonomy terms. -/
structure Term where
  TermID : Int
  Taxonomy : Str
  Slug : Str
  Parent : Str
  Name : Str
  Description : Str
deriving DecidableEq

/-- Category represents WordPress categories. -/
structure Category where
  TermID : Int
  NiceName : Str
  Parent : Str
  Name : Str
deriving DecidableEq

/-- Tag represents WordPress tags. -/
structure Tag where
  TermID : Int
  Slug : Str
  Name : Str
deriving DecidableEq

/-- ItemCategory represents category/tag assignments for posts. -/
structure ItemCategory where
  Domain : Str
  NiceName : Str
  Name : Str
deriving DecidableEq

/-- PostMeta represents custom fields and metadata. -/
structure PostMeta where
  Key : Str
  Value : Str
deriving DecidableEq

/-- CommentMeta represents comment metadata. -/
structure CommentMeta where
  Key : Str
  Value : Str
deriving DecidableEq

/-- Comment represents post comments; the field `Type` of the source is `CommentType`
here. -/
structure Comment where
  ID : Int
  Author : Str
  AuthorEmail : Str
  AuthorURL : Str
  AuthorIP : Str
  Date : Str
  DateGMT : Str
  Content : Str
  Approved : Str
  CommentType : Str
  Parent : Int
  UserID : Int
  CommentMeta : List CommentMeta
deriving DecidableEq

/-- Item represents posts, pages, and other content types. -/
structure Item where
  Title : Str
  Link : Str
  PubDate : Str
  Creator : Str
  GUID : Str
  Description : Str
  Content : Str
  Excerpt : Str
  PostID : Int
  PostDate : Str
  PostDateGMT : Str
  PostName : Str
  PostType : Str
  Status : Str
  PostParent : Int
  MenuOrder : Int
  PostPassword : Str
  IsSticky : Int
  Categories : List ItemCategory
  PostMeta : List PostMeta
  Comments : List Comment
deriving DecidableEq

/-- Channel contains the main site information and all posts. -/
structure Channel where
  Title : Str
  Link : Str
  Description : Str
  Language : Str
  PubDate : Str
  LastBuildDate : Str
  Generator : Str
  WXRVersion : Str
  BaseSiteURL : Str
  BaseBlogURL : Str
  Authors : List Author
  Categories : List Category
  Tags : List Tag
  Terms : List Term
  Items : List Item
deriving DecidableEq

/-- WordPressSite represents the root structure of a WordPress export; `XMLName` is the
pair of name space and local name of `xml.Name`. -/
structure WordPressSite where
  XMLName : Str × Str
  Channel : Channel
deriving DecidableEq

/-- The loop of `GetPostsByType`: the items of the given type are appended to the
result. -/
def GetPostsByType (site : WordPressSite) (postType : Str) : List Item :=
  site.Channel.Items.foldl
    (fun posts item => if item.PostType = postType then posts ++ [item] else posts) []

/-- The loop of `GetPublishedPosts`: the items with status `publish` are appended to
the result. -/
def GetPublishedPosts (site : WordPressSite) : List Item :=
  site.Channel.Items.foldl
    (fun posts item => if item.Status = "publish".data then posts ++ [item] else posts) []

/-- The loop of `GetPostByID` over the items that are left: it returns at the first item
with the given id, and `none` (Go's `nil`) behind the last item. -/
def findPostByID (id : Int) : List Item → Option Item
  | [] => none
  | item :: rest => if item.PostID = id then some item else findPostByID id rest

/-- Helper function to find a post by ID. -/
def GetPostByID (site : WordPressSite) (id : Int) : Option Item :=
  findPostByID id site.Channel.Items

/-! ## Inline styles (`wp-import.go`) -/

/-- Helper function to check for inline styles. -/
def hasInlineStyles (content : Str) : Bool :=
  Contains content "style=".data || Contains content "<style".data

/-- The outcome of a Go expression that slices a string: its value, or the run-time
failure `slice bounds out of range`. -/
inductive Sliced (α : Type) where
  | value (a : α)
  | outOfRange
deriving DecidableEq

/-- Go's `content[i:]`: defined when `i` is at most the length of the content. -/
def sliceFrom (content : Str) (i : Nat) : Sliced Str :=
  if i ≤ content.length then .value (content.drop i) else .outOfRange

/-- Go's `content[i:j]`: defined when `i ≤ j` and `j` is at most the length. -/
def sliceRange (content : Str) (i j : Nat) : Sliced Str :=
  if i ≤ j ∧ j ≤ content.length then .value ((content.drop i).take (j - i)) else .outOfRange

/-- The variables of the scanning loop of `extractInlineStyles`: the styles collected so
far and the scan position `styleStart` (not -1 inside the loop). Positions count the
elements of the content, which are Go's byte offsets for ASCII content. -/
structure StyleScan where
  styles : Str
  styleStart : Nat
deriving DecidableEq

/-- The outcome of one iteration of the loop: the loop goes on with new variables, it ends
(`styleStart` is -1) with the styles collected, or a slice is out of range. -/
inductive ScanStep where
  | next (st : StyleScan)
  | done (styles : Str)
  | outOfRange
deriving DecidableEq

/-- One iteration of the loop `for styleStart != -1` of `extractInlineStyles`: the block
from `styleStart` to the next `</style>` is collected, when there is one; the next
`<style` is looked for in `content[styleStart+1:]`, and its index `i` in that slice is
turned into the new position by `styleStart += styleStart + 1`, that is `i + (i + 1)`. -/
def scanStep (content : Str) (st : StyleScan) : ScanStep :=
  match sliceFrom content st.styleStart with
  | .outOfRange => .outOfRange
  | .value rest =>
    let collected : Sliced Str :=
      match Index rest "</style>".data with
      | some styleEndTag =>
        match sliceRange content st.styleStart (st.styleStart + styleEndTag + 8) with
        | .value styleContent => .value (st.styles ++ (styleContent ++ "\n".data))
        | .outOfRange => .outOfRange
      | none => .value st.styles
    match collected with
    | .outOfRange => .outOfRange
    | .value styles =>
      match sliceFrom content (st.styleStart + 1) with
      | .outOfRange => .outOfRange
      | .value rest1 =>
        match Index rest1 "<style".data with
        | some i => .next ⟨styles, i + (i + 1)⟩
        | none => .done styles

/-- The loop of `extractInlineStyles`, run for at most `fuel` iterations: `none` when the
loop has not ended by then. -/
def scanLoop (content : Str) : Nat → StyleScan → Option (Sliced Str)
  | 0, _ => none
  | fuel + 1, st =>
    match scanStep content st with
    | .next st1 => scanLoop content fuel st1
    | .done styles => some (.value styles)
    | .outOfRange => some .outOfRange

/-- Helper function to extract inline styles (`extractInlineStyles`), its loop run for at
most `fuel` iterations. -/
def extractInlineStyles (fuel : Nat) (content : Str) : Option (Sliced Str) :=
  match Index content "<style".data with
  | some styleStart => scanLoop content fuel ⟨[], styleStart⟩
  | none => some (.value [])

/-! ## Definitions used by the proofs

Shapes of inputs (plain words and texts), and a small abstract matcher: a window
describes the next characters of an input by character classes, and `Re.misses` checks
that an expression cannot match any input the window describes. -/

/-- The ASCII letters and digits. -/
def alnum : CharSet := [(48, 57), (65, 90), (97, 122)]

/-- The ASCII digits. -/
def digits : CharSet := [(48, 57)]

/-- The tail of a plain text: letters and digits, and single spaces each followed by a
letter or digit. -/
def plainRest : Str → Bool
  | [] => true
  | [c] => alnum.mem c
  | c :: d :: s =>
    if alnum.mem c then plainRest (d :: s) else c == ' ' && alnum.mem d && plainRest s

/-- A non-empty single-line text of ASCII letters, digits and single interior spaces. -/
def isPlainText : Str → Bool
  | [] => false
  | c :: s => alnum.mem c && plainRest s

/-- A non-empty word of ASCII letters and digits. -/
def isWord (s : Str) : Bool := !s.isEmpty && s.all alnum.mem

/-- Whether two character classes have a character in common (interval overlap). -/
def CharSet.meets (A B : CharSet) : Bool :=
  A.any (fun a => B.any (fun b => Nat.ble a.1 b.2 && Nat.ble b.1 a.2))

/-- A window: classes for the next characters of an input; when `closed` the input ends
behind them, otherwise anything may follow. -/
structure Win where
  cs : List CharSet
  closed : Bool
deriving DecidableEq

/-- The inputs a window describes. -/
def Describes : List CharSet → Bool → Str → Prop
  | [], closed, s => closed = true → s = []
  | A :: cs, closed, s => ∃ c s1, s = c :: s1 ∧ A.mem c = true ∧ Describes cs closed s1

/-- Abstract reading of a literal against a window. -/
def amLit : Str → List CharSet → Bool → Option Win
  | [], cs, closed => some ⟨cs, closed⟩
  | _ :: _, [], closed => if closed then none else some ⟨[], false⟩
  | x :: w, A :: cs, closed => if A.mem x then amLit w cs closed else none

/-- Abstract iteration of a star. -/
def amStar (f : Win → List Win) : Nat → Win → List Win
  | 0, W => [W, ⟨[], false⟩]
  | n + 1, W => W :: (f W).flatMap (amStar f n)

/-- Abstract matching: the windows that may describe the unread rest after a match. -/
def am : Re → Win → List Win
  | .lit w, W => (amLit w W.cs W.closed).toList
  | .cls B, W =>
    match W.cs with
    | [] => if W.closed then [] else [⟨[], false⟩]
    | A :: cs => if A.meets B then [⟨cs, W.closed⟩] else []
  | .seq a b, W => (am a W).flatMap (fun V => am b V)
  | .alt a b, W => am a W ++ am b W
  | .star _ a, W => amStar (fun V => am a V) (W.cs.length + 1) W
  | .grp _ a, W => am a W

/-- The expression matches no input that the window describes. -/
def Re.misses (r : Re) (W : Win) : Bool := (am r W).isEmpty

/-- The expression misses every window of the list. -/
def Re.missesAll (r : Re) (Ws : List Win) : Bool := Ws.all (fun W => r.misses W)

/-- Whether every match of the expression consumes at least one character. -/
def Re.nonNull : Re → Bool
  | .lit w => !w.isEmpty
  | .cls _ => true
  | .seq a b => a.nonNull || b.nonNull
  | .alt a b => a.nonNull && b.nonNull
  | .star _ _ => false
  | .grp _ a => a.nonNull

/-- The windows at the positions of a literal piece `u`: each non-empty rest of `u`,
followed by the classes `look` of what stands behind the piece. -/
def litWins (look : Win) : Str → List Win
  | [] => []
  | x :: u => ⟨(x :: u).map (fun c => CharSet.of [c]) ++ look.cs, look.closed⟩ :: litWins look u

/-- The window that describes every input. -/
def anyWin : Win := ⟨[], false⟩

/-- The window of an input that starts with a character of the class. -/
def startsIn (A : CharSet) : Win := ⟨[A], false⟩

/-- The windows at the positions of a plain text that is followed by a character of the
class `F` (or by `look` in general): a letter or digit, or a space and then a letter or
digit. -/
def plainWins : List Win := [startsIn alnum, ⟨[CharSet.of [' '], alnum], false⟩]

/-- No match of the expression starts inside `u` when `u` is followed by `v`. -/
def NoStart (r : Re) (u v : Str) : Prop :=
  ∀ u1 u2 c, u = u1 ++ u2 → u2 ≠ [] → ms r (u2 ++ v) c = []

/-- Every position inside `u`, when `u` is followed by `v`, is described by one of the
windows. -/
def CoversIn (Ws : List Win) (u v : Str) : Prop :=
  ∀ u1 u2, u = u1 ++ u2 → u2 ≠ [] → ∃ W ∈ Ws, Describes W.cs W.closed (u2 ++ v)

/-- The results of a lazy star over a character class: stop at once, or read one more
character of the class. -/
def lazyCuts (A : CharSet) (c : Caps) : Str → Res
  | [] => [([], c)]
  | x :: s => (x :: s, c) :: (if A.mem x then lazyCuts A c s else [])

/-- The results of a greedy star over a character class, longest first. -/
def greedyCuts (A : CharSet) (c : Caps) : Str → Res
  | [] => [([], c)]
  | x :: s => (if A.mem x then greedyCuts A c s else []) ++ [(x :: s, c)]

/-- The right tails of a concatenation: the expression itself, and what stands behind
each leading factor. -/
def Re.tails : Re → List Re
  | .seq a b => .seq a b :: b.tails
  | r => [r]

/-- Some tail of the expression cannot match the empty string and misses every window
of the list: then the expression matches nowhere in an input those windows cover. -/
def Re.absent (r : Re) (Ws : List Win) : Bool :=
  r.tails.any (fun q => q.nonNull && q.missesAll Ws)

/-! ## Inputs and outputs named in the statements -/

/-- The list items `<li>t</li>` of the given texts, in order. -/
def liItems (ts : List Str) : Str := ts.flatMap (fun t => "<li>".data ++ t ++ "</li>".data)

/-- The ordered list `<ol><li>t1</li>...<li>tn</li></ol>`. -/
def olHtml (ts : List Str) : Str := "<ol>".data ++ liItems ts ++ "</ol>".data

/-- The unordered list `<ul><li>t1</li>...<li>tn</li></ul>`. -/
def ulHtml (ts : List Str) : Str := "<ul>".data ++ liItems ts ++ "</ul>".data

/-- The lines `N. t` of the given texts, numbered from `i + 1`. -/
def numberedLines : Nat → List Str → List Str
  | _, [] => []
  | i, t :: ts => (itoa (i + 1) ++ ". ".data ++ t) :: numberedLines (i + 1) ts

/-- The lines `• t` of the given texts. -/
def bulletLines (ts : List Str) : List Str := ts.map (fun t => "• ".data ++ t)

/-- The class of every character but `<`. -/
def notLt : CharSet := CharSet.compl (CharSet.of ['<'])

/-- The stages of `ConvertToMarkdown` between the list converters and the entity
decoding: images, headings, blockquotes, code, emphasis, links, tables, rules, line
breaks, paragraphs, and the removal of the remaining tags. -/
def markdownRules (content : Str) : Str :=
  let content := ReplaceAllString reImgSrcAlt content [T "![", .ref 2, T "](", .ref 1, T ")"]
  let content := ReplaceAllString reImgAltSrc content [T "![", .ref 1, T "](", .ref 2, T ")"]
  let content := ReplaceAllString reImgSrc content [T "![](", .ref 1, T ")"]
  let content := convertHeading 1 content
  let content := convertHeading 2 content
  let content := convertHeading 3 content
  let content := convertHeading 4 content
  let content := convertHeading 5 content
  let content := convertHeading 6 content
  let content := ReplaceAllStringFunc (reElemS "blockquote") content convertBlockquote
  let content := ReplaceAllString reCodeLang content
    [T "\n```", .ref 1, T "\n", .ref 2, T "\n```\n\n"]
  let content := ReplaceAllString reCodeBlock content [T "\n```\n", .ref 1, T "\n```\n\n"]
  let content := wrapElem "pre" "\n```\n" "\n```\n\n" content
  let content := wrapElem "code" "`" "`" content
  let content := wrapElem "strong" "**" "**" content
  let content := wrapElem "b" "**" "**" content
  let content := wrapElem "em" "*" "*" content
  let content := wrapElem "i" "*" "*" content
  let content := wrapElem "u" "<u>" "</u>" content
  let content := wrapElem "del" "~~" "~~" content
  let content := wrapElem "s" "~~" "~~" content
  let content := ReplaceAllString reLinkS content [T "[", .ref 2, T "](", .ref 1, T ")"]
  let content := convertTables content
  let content := ReplaceAllString reHr content [T "\n---\n\n"]
  let content := ReplaceAllString reBr content [T "  \n"]
  let content := wrapElem "p" "" "\n\n" content
  let content := wrapElem "div" "" "\n\n" content
  stripTags content

/-- The last stages of `ConvertToMarkdown`: entity decoding and white-space cleanup. -/
def markdownFinish (content : Str) : Str :=
  let content := UnescapeString content
  let content := cleanWhitespace content
  let content := ReplaceAllString reNewlines3 content [T "\n\n"]
  let content := ReplaceAllString reBlankLines content [T "\n\n"]
  TrimSpace content

/-! ## Further definitions used by the proofs -/

/-- The closing tag `</name>` as the tail of an element pattern. -/
def closeTag (name : Str) : Re := .seq (.lit "</".data) (.seq (.lit name) (.lit ">".data))

/-- The element pattern `<name[^>]*>(.*?)</name>` with the dot read as class `A`. -/
def elemRe (A : CharSet) (name : Str) : Re :=
  .seq (.lit "<".data) (.seq (.lit name) (.seq (.star true (.cls notGt)) (.seq (.lit ">".data)
    (.seq (.grp 1 (.star false (.cls A))) (closeTag name)))))

/-- The window of an input that starts with `<`. -/
def ltWin : Win := startsIn (CharSet.of ['<'])

/-- The window of the empty input. -/
def endWin : Win := ⟨[], true⟩

/-- The windows at the positions of a run of list items with plain texts. -/
def itemWins : List Win :=
  litWins (startsIn alnum) "<li>".data ++ plainWins ++ litWins ltWin "</li>".data

/-- The windows at the positions of a flat list `<NAME>items</NAME>`. -/
def listWins (name : String) : List Win :=
  litWins ltWin ("<".data ++ name.data ++ ">".data) ++ itemWins ++
    litWins endWin ("</".data ++ name.data ++ ">".data)

/-- The submatches of the item `<li>t</li>`. -/
def itemSubs (t : Str) : Caps := [(0, "<li>".data ++ t ++ "</li>".data), (1, t)]

/-- Lines joined by newlines. -/
def joinLines : List Str → Str
  | [] => []
  | [l] => l
  | l :: m :: ls => l ++ ("\n".data ++ joinLines (m :: ls))

/-- The characters of numbered and bulleted lines of plain texts. -/
def lineChars : CharSet := alnum ++ CharSet.of [' ', '.', '\n', '•']

/-- The windows at the positions of numbered lines and of the newlines around them. -/
def lineWins : List Win :=
  [startsIn digits] ++ litWins (startsIn alnum) ". ".data ++ plainWins ++
    litWins (startsIn digits) "\n".data ++ litWins endWin "\n\n".data

/-- The patterns of `SanitizeWordPressContent`. -/
def sanitizeRes : List Re :=
  [reBlockOpen, reBlockClose, reNewlines3, reTrailingBlanks, reBetweenTags, reEmptyP, reBrOnlyP]

/-- The patterns of the white-space cleanup at the end of `ConvertToMarkdown`. -/
def finishRes : List Re := [reNewlines3, reTrailingBlanks, reBetweenTags, reBlankLines]

/-- The windows at the positions behind the opening tag of a flat list. -/
def listTailWins (name : String) : List Win :=
  itemWins ++ litWins endWin ("</".data ++ name.data ++ ">".data)

/-- The windows at the positions of bulleted lines and of the newlines behind them. -/
def bulletWins : List Win :=
  litWins (startsIn alnum) "• ".data ++ plainWins ++
    litWins (startsIn (CharSet.of ['•'])) "\n".data ++ litWins endWin "\n".data

/-- The patterns of `cleanWhitespace`. -/
def cleanRes : List Re := [reNewlines3, reTrailingBlanks, reBetweenTags]

/-- The heading element `<hN>t</hN>`. -/
def headingHtml (n : Nat) (t : Str) : Str :=
  "<h".data ++ itoa n ++ ">".data ++ t ++ "</h".data ++ itoa n ++ ">".data

/-- The Markdown heading line: `n` number signs, a space, the title. -/
def headingLine (n : Nat) (t : Str) : Str := List.replicate n '#' ++ " ".data ++ t

/-- The windows at the positions of an element `<name>t</name>` with a plain text. -/
def elemWins (name : Str) : List Win :=
  litWins (startsIn alnum) ("<".data ++ name ++ ">".data) ++ plainWins ++
    litWins endWin ("</".data ++ name ++ ">".data)

/-- The element `<name>t</name>`. -/
def elemHtml (name t : Str) : Str :=
  "<".data ++ (name ++ (">".data ++ (t ++ ("</".data ++ (name ++ (">".data ++ []))))))

/-- The windows at the positions of a heading line and of the newlines around it. -/
def headWins (n : Nat) : List Win :=
  litWins (startsIn alnum) (List.replicate n '#' ++ " ".data) ++ plainWins ++
    litWins (startsIn (CharSet.of ['#'])) "\n".data ++ litWins endWin "\n\n".data

/-- The emphasis tags with their Markdown markers. -/
def emphasisTags : List (String × String) :=
  [("strong", "**"), ("b", "**"), ("em", "*"), ("i", "*"), ("del", "~~"), ("s", "~~")]

/-- The text in front of an emphasised word: nothing, or a plain text and a space. -/
def leadOf : Option Str → Str
  | none => []
  | some t => t ++ " ".data

/-- The text behind an emphasised word: nothing, or a space and a plain text. -/
def trailOf : Option Str → Str
  | none => []
  | some t => " ".data ++ t

/-- The paragraph `<p>lead <NAME>x</NAME> trail</p>`. -/
def emphasisPara (name : String) (lead : Option Str) (x : Str) (trail : Option Str) : Str :=
  "<p>".data ++ leadOf lead ++ "<".data ++ name.data ++ ">".data ++ x ++ "</".data ++ name.data ++
    ">".data ++ trailOf trail ++ "</p>".data

/-- The Markdown text `lead MARKERxMARKER trail`. -/
def emphasisMd (marker : String) (lead : Option Str) (x : Str) (trail : Option Str) : Str :=
  leadOf lead ++ marker.data ++ x ++ marker.data ++ trailOf trail

/-- The window of an input that starts with the given literal. -/
def litWin (w : Str) : Win := ⟨w.map (fun c => CharSet.of [c]), false⟩

/-- The window of an input that is exactly the given literal. -/
def exactWin (w : Str) : Win := ⟨w.map (fun c => CharSet.of [c]), true⟩

/-- The windows at the positions of `<p>lead`, in front of the tag `<NAME>`. -/
def paraPreWins (name : Str) : List Win :=
  litWins (startsIn alnum) "<p>".data ++ litWins (litWin ("<".data ++ name ++ ">".data)) "<p>".data ++
    plainWins ++ litWins (litWin ("<".data ++ name ++ ">".data)) " ".data

/-- The windows at the positions of the element `<NAME>x</NAME>` inside the paragraph. -/
def paraElemWins (name : Str) : List Win :=
  litWins (startsIn alnum) ("<".data ++ name ++ ">".data) ++ plainWins ++
    litWins ⟨[CharSet.of [' '], alnum], false⟩ ("</".data ++ name ++ ">".data) ++
    litWins (exactWin "</p>".data) ("</".data ++ name ++ ">".data)

/-- The windows at the positions of ` trail</p>`. -/
def paraPostWins : List Win :=
  litWins (startsIn alnum) " ".data ++ plainWins ++ litWins endWin "</p>".data

/-- The windows at the positions of the whole paragraph. -/
def paraWins (name : Str) : List Win := paraPreWins name ++ paraElemWins name ++ paraPostWins

/-- The characters of the emphasis markers. -/
def markChars : CharSet := CharSet.of ['*', '~']

/-- The windows at the positions of the Markdown text of an emphasis paragraph and of the
newlines behind it. -/
def mdWins : List Win :=
  plainWins ++ [startsIn markChars, ⟨[CharSet.of [' '], markChars], false⟩] ++
    litWins endWin "\n\n".data

/-- The windows at the positions of an element whose text holds no `<`. -/
def wholeWins (name : Str) : List Win :=
  litWins (startsIn notLt) ("<".data ++ name ++ ">".data) ++ [startsIn notLt] ++
    litWins endWin ("</".data ++ name ++ ">".data)

/-- The characters of the Markdown text of an emphasis paragraph. -/
def mdChars : CharSet := alnum ++ CharSet.of [' ', '*', '~']

/-- The characters at the two ends of the Markdown text of an emphasis paragraph. -/
def mdEnds : CharSet := alnum ++ markChars

/-- The paragraph of the entity test. -/
def entitiesHTML : Str :=
  "<p>Special &amp; characters like &lt; and &gt; and &quot;quotes&quot;</p>".data

/-- The decoded text of the entity test. -/
def entitiesText : Str := "Special & characters like < and > and \"quotes\"".data

/-- A list whose single item holds a nested list of the same kind. -/
def nestedUl : Str := "<ul><li>A<ul><li>B</li></ul></li></ul>".data

/-- An input on which one pass of the sanitizer leaves work for a second pass: the blanks
in front of the newlines are removed after the runs of newlines have been shortened. -/
def blankLinesInput : Str := "a\n \n \nb".data

/-- A paragraph inside a pair of block markers. -/
def blockInput : Str := "<!-- wp:paragraph -->\n<p>Hello</p>\n<!-- /wp:paragraph -->".data

/-- Every character of the string satisfies `P`. -/
def charsOk (P : Char → Prop) (s : Str) : Prop := ∀ x ∈ s, P x

/-- Every character of every capture satisfies `P`. -/
def capsOk (P : Char → Prop) (c : Caps) : Prop := ∀ e ∈ c, charsOk P e.2

/-- Every character of the literal text of the template satisfies `P`. -/
def tplOk (P : Char → Prop) (t : List Tpl) : Prop := ∀ w, Tpl.txt w ∈ t → charsOk P w

/-- A piece of an input with block markers: a text, an opening marker `<!-- wp:x-->` or
a closing marker `<!-- /wp:x-->`; `x` is everything between the prefix and `-->`. -/
inductive Piece where
  | text (t : Str)
  | opening (x : Str)
  | closing (x : Str)

/-- The text of a marker body holds neither `<` nor `>`. -/
def bodyOk (x : Str) : Bool := x.all (fun c => c != '<' && c != '>')

/-- The characters of a piece. -/
def Piece.render : Piece → Str
  | .text t => t
  | .opening x => "<!-- wp:".data ++ (x ++ "-->".data)
  | .closing x => "<!-- /wp:".data ++ (x ++ "-->".data)

/-- A text without `!`, or a marker whose body holds neither `<` nor `>`. -/
def Piece.wellFormed : Piece → Bool
  | .text t => t.all (fun c => c != '!')
  | .opening x => bodyOk x
  | .closing x => bodyOk x

/-- The input made of the pieces, in order. -/
def renderPieces (ps : List Piece) : Str := ps.flatMap Piece.render

/-- A token: one character of a text, or a marker. -/
inductive Tok where
  | ch (c : Char)
  | opening (x : Str)
  | closing (x : Str)

/-- The characters of a token. -/
def Tok.render : Tok → Str
  | .ch c => [c]
  | .opening x => "<!-- wp:".data ++ (x ++ "-->".data)
  | .closing x => "<!-- /wp:".data ++ (x ++ "-->".data)

/-- A character other than `!`, or a marker whose body holds neither `<` nor `>`. -/
def Tok.ok : Tok → Bool
  | .ch c => c != '!'
  | .opening x => bodyOk x
  | .closing x => bodyOk x

/-- A white-space character of a text. -/
def Tok.isWs : Tok → Bool
  | .ch c => reSpace.mem c
  | _ => false

/-- Not an opening marker. -/
def Tok.notOpening : Tok → Bool
  | .opening _ => false
  | _ => true

/-- The input made of the tokens, in order. -/
def renderToks (ps : List Tok) : Str := ps.flatMap Tok.render

/-- The tokens of a piece. -/
def Piece.toks : Piece → List Tok
  | .text t => t.map Tok.ch
  | .opening x => [Tok.opening x]
  | .closing x => [Tok.closing x]

/-- The pattern `<!-- /wp:[^>]*-->`, the closing pattern without its leading `\s*`. -/
def reBlockCloseTail : Re := seqs [L "<!-- /wp:", attrs, L "-->"]

/-- The windows at the positions of a closing marker, for the opening pattern. -/
def closingWins : List Win := [litWin "<!-- /".data, startsIn notLt]

/-- An input with a pair of block markers whose bodies hold a `>`. -/
def markersWithGt : Str := "<!-- wp:a>b --><p>t</p><!-- /wp:a>b -->".data

/-- A paragraph inside a pair of block markers, as pieces. -/
def paragraphBlock : List Piece :=
  [.opening "paragraph ".data, .text "\n<p>Hello</p>\n".data, .closing "paragraph ".data]

/-- Whether the character is `<` or `>`. -/
def isBracket (c : Char) : Bool := c == '<' || c == '>'

/-- The angle brackets of a text, in order. -/
def brackets (s : Str) : Str := s.filter isBracket

/-- Whether some `<` of the text is followed, anywhere later, by a `>`: whether the text
still holds something of the form of a tag. -/
def hasTag : Str → Bool
  | [] => false
  | c :: s => (c == '<' && s.any (fun d => d == '>')) || hasTag s

/-- The angle brackets of every text the expression matches, when they are the same for
all of them. -/
def Re.sig : Re → Option Str
  | .lit w => some (brackets w)
  | .cls A => if A.mem '<' || A.mem '>' then none else some []
  | .seq a b =>
    match a.sig, b.sig with
    | some x, some y => some (x ++ y)
    | _, _ => none
  | .alt a b =>
    match a.sig, b.sig with
    | some x, some y => if x = y then some x else none
    | _, _ => none
  | .star _ a =>
    match a.sig with
    | some [] => some []
    | _ => none
  | .grp _ a => a.sig

/-- The text holds no `&`. -/
def ampFree (s : Str) : Prop := charsOk (fun c => c ≠ '&') s

/-- Two words with a line break between them. -/
def lineBreakInput : Str := "a<br>b".data

/-- A paragraph with an underlined word. -/
def underlineInput : Str := "<p><u>x</u></p>".data

/-- The flat list of the test `TestCleanHTML`. -/
def flatListInput : Str := "<ul><li>Item 1</li><li>Item 2</li></ul>".data

/-- A list whose single item holds a nested list of two items. -/
def nestedUl2 : Str := "<ul><li>A<ul><li>B1</li><li>B2</li></ul></li></ul>".data

/-- An ordered list whose single item holds a nested ordered list of two items. -/
def nestedOl2 : Str := "<ol><li>A<ol><li>B1</li><li>B2</li></ol></li></ol>".data

/-- The closing tags that `fixUnclosedTags` appends for one tag name: as many `</tag>`
as the input has more `<tag` than `</tag`. -/
def missingClosers (s tag : Str) : Str :=
  (List.replicate (Count s ('<' :: tag) - Count s ('<' :: '/' :: tag))
    ("</".data ++ tag ++ ">".data)).join

/-- The closing tags appended for the tag names of a list, in order. -/
def closersOf (s : Str) (tags : List Str) : Str := tags.flatMap (missingClosers s)

/-- The windows at the positions of the closing tags of the tag names of a list. -/
def closerWins (tags : List Str) : List Win :=
  tags.flatMap (fun x => litWins anyWin ("</".data ++ x ++ ">".data))

/-- The texts an expression matches. -/
inductive Re.Matches : Re → Str → Prop
  | lit (w : Str) : Re.Matches (.lit w) w
  | cls (A : CharSet) (c : Char) (h : A.mem c = true) : Re.Matches (.cls A) [c]
  | seq (a b : Re) (u v : Str) (ha : Re.Matches a u) (hb : Re.Matches b v) :
      Re.Matches (.seq a b) (u ++ v)
  | altL (a b : Re) (u : Str) (ha : Re.Matches a u) : Re.Matches (.alt a b) u
  | altR (a b : Re) (u : Str) (hb : Re.Matches b u) : Re.Matches (.alt a b) u
  | starNil (g : Bool) (a : Re) : Re.Matches (.star g a) []
  | starCons (g : Bool) (a : Re) (u v : Str) (ha : Re.Matches a u) (hne : u ≠ [])
      (hs : Re.Matches (.star g a) v) : Re.Matches (.star g a) (u ++ v)
  | grp (i : Nat) (a : Re) (u : Str) (ha : Re.Matches a u) : Re.Matches (.grp i a) u

/-- The legacy flat Markdown pipeline: the statements of `ConvertToMarkdown` that follow
the nested-list test. -/
def legacyMarkdown (content : Str) : Str :=
  markdownFinish (markdownRules (convertUnorderedLists (convertOrderedLists
    (SanitizeWordPressContent content))))

/-- The legacy flat plain-text pipeline: the statements of `ConvertToPlainText` that
follow the nested-list test. -/
def legacyPlainText (content : Str) : Str :=
  cleanWhitespace (UnescapeString (stripTags (ReplaceAllString rePClose
    (ReplaceAllString reBrWs (convertUnorderedListsToPlainText
      (convertOrderedListsToPlainText (SanitizeWordPressContent content))) [T "\n"])
    [T "\n\n"])))

/-- The text in front of the first occurrence of `stop` (all of it when there is none). -/
def upTo (stop : Str) : Str → Str
  | [] => []
  | c :: s => if stop.isPrefixOf (c :: s) then [] else c :: upTo stop s

/-- The specification's wording of the selection rule: some list item, the text from an
`<li` to its `</li>`, contains an opening list tag. -/
def itemHoldsList : Str → Bool
  | [] => false
  | c :: s =>
    ("<li".data.isPrefixOf (c :: s) && Contains (c :: s) "</li>".data &&
      (Contains (upTo "</li>".data (c :: s)) "<ul".data ||
        Contains (upTo "</li>".data (c :: s)) "<ol".data)) || itemHoldsList s

/-- What the test of the code looks for: an `<li` tag and, later on the same line, a
`<ul` tag with its `>`. -/
def ListTagAfterItem (s : Str) : Prop :=
  ∃ a b c d e : Str, s = a ++ ("<li".data ++ b ++ ">".data ++ c ++ "<ul".data ++ d ++ ">".data ++ e) ∧
    '>' ∉ b ∧ '\n' ∉ c ∧ '>' ∉ d

/-- Two sibling flat lists on one line. -/
def siblingLists : Str := "<ul><li>a</li></ul><ul><li>b</li></ul>".data

/-- A heading followed by two sibling flat lists on one line. -/
def headedSiblingLists : Str := "<h2>T</h2><ul><li>a</li></ul><ul><li>b</li></ul>".data

/-- The attribute text of an element: nothing, or one attribute ` color="w"`. -/
def colorAttr : Option Str → Str
  | none => []
  | some w => " color=\"".data ++ (w ++ "\"".data)

/-- The element `<NAME ATTR>x</NAME>`. -/
def attrElem (name attr x : Str) : Str :=
  "<".data ++ (name ++ (attr ++ (">".data ++ (x ++ ("</".data ++ (name ++ (">".data ++ [])))))))

/-- The rewrites of `updateDeprecatedTags`: the deprecated name, the new name, and the
text written behind the attributes of the opening tag. -/
def deprecatedTags : List (String × String × String) :=
  [("center", "div", " style=\"text-align: center;\""), ("font", "span", ""),
   ("b", "strong", ""), ("i", "em", "")]

/-- Nested bold elements. -/
def nestedBold : Str := "<b><b>x</b></b>".data

/-- Every opening tag `<NAME>` or `<NAME ...>` of the four deprecated elements has a
closing tag `</NAME>`: the counts are equal. -/
def deprecatedClosed (s : Str) : Bool :=
  ["center", "font", "b", "i"].all (fun name =>
    Count s ("<".data ++ name.data ++ ">".data) + Count s ("<".data ++ name.data ++ " ".data)
      == Count s ("</".data ++ name.data ++ ">".data))

/-- The text `OPENING ATTR MID x CLOSING` of a tag with an optional colour attribute
and a plain text behind it. -/
def taggedText (opening : Str) (a : Option Str) (mid x closing : Str) : Str :=
  opening ++ (colorAttr a ++ (mid ++ (x ++ closing)))

/-- The windows at the positions of such a text. -/
def tagWins (opening mid closing : Str) : List Win :=
  litWins (startsIn alnum) (opening ++ mid) ++
    (litWins (startsIn alnum) (opening ++ " color=\"".data) ++
      (litWins (startsIn alnum) ("\"".data ++ mid) ++ (plainWins ++ litWins endWin closing)))

/-- The patterns of `cleanAttributes` that need an empty attribute value or white
space. -/
def attrRes : List Re :=
  [reEmptyAttr "class", reEmptyAttr "style", reEmptyAttr "id", reEmptyAttr "title", reSpaces2,
   reSpaceGt]

/-- The characters of the tags and colour attributes in the statements. -/
def tagChars : CharSet := alnum ++ CharSet.of [' ', '<', '>', '/', '"', '=']

/-- The rewritten element. -/
def newElem (new : Str) (a : Option Str) (extra x : Str) : Str :=
  taggedText ("<".data ++ new) a (extra ++ ">".data) x ("</".data ++ new ++ ">".data)

/-- The alternatives `wp-[a-zA-Z0-9_-]+|align[a-z]+|block-[a-z0-9-]+` of the pattern that
selects the class attributes to clean. -/
def reGenerated : Re :=
  .alt (seqs [L "wp-", many1 (.cls wordDash)])
    (.alt (seqs [L "align", many1 (.cls [(97, 122)])])
      (seqs [L "block-", many1 (.cls [(97, 122), (48, 57), (45, 45)])]))

/-- A class token of letters, digits, `_` and `-`. -/
def isToken (t : Str) : Bool := !t.isEmpty && t.all wordDash.mem

/-- The paragraph `<p class=Q tokens Q>x</p>` with the quote character `Q` and the tokens
separated by single spaces. -/
def classPara (q : Char) (toks : List Str) (x : Str) : Str :=
  "<p class=".data ++ (q :: (Join toks " ".data ++ (q :: (">".data ++ (x ++ "</p>".data)))))

/-- The alignment classes of WordPress. -/
def alignNames : List Str :=
  ["alignleft".data, "alignright".data, "aligncenter".data, "alignnone".data,
   "alignwide".data, "alignfull".data]

/-- Tokens separated by single spaces. -/
def joinSpaces : List Str → Str
  | [] => []
  | [t] => t
  | t :: u :: ts => t ++ (" ".data ++ joinSpaces (u :: ts))

/-- The windows at the positions of class tokens separated by single spaces. -/
def tokenWins : List Win := [startsIn wordDash, ⟨[CharSet.of [' '], wordDash], false⟩]

/-- The windows at the positions of a paragraph with a class attribute. -/
def classWins : List Win :=
  litWins ⟨[quoteSet, wordDash], false⟩ "<p class=".data ++
    (⟨[quoteSet, wordDash], false⟩ :: (tokenWins ++
      (⟨[quoteSet, CharSet.of ['>'], alnum], false⟩ :: (litWins (startsIn alnum) ">".data ++
        (plainWins ++ litWins endWin "</p>".data)))))

/-- The windows at the positions of `<p >x</p>`. -/
def emptyAttrWins : List Win :=
  litWins (startsIn alnum) "<p >".data ++ (plainWins ++ litWins endWin "</p>".data)

/-- The patterns of `cleanAttributes` that find nothing in `<p >x</p>`. -/
def emptyAttrRes : List Re :=
  [reEmptyAttr "class", reEmptyAttr "style", reEmptyAttr "id", reEmptyAttr "title", reSpaces2,
   reDataAny]

/-- The windows at the positions of `x</p>`. -/
def paraTailWins : List Win := plainWins ++ litWins endWin "</p>".data

/-- The specification's wording of the tokens to remove: those that start with `wp-` or
`block-` and the alignment classes. -/
def specRemoves (t : Str) : Bool :=
  "wp-".data.isPrefixOf t || "block-".data.isPrefixOf t || alignNames.contains t

/-- The specification's wording of the cleaned paragraph: the tokens to remove are taken
out, the attribute is dropped when no token remains. -/
def specClassPara (q : Char) (toks : List Str) (x : Str) : Str :=
  if (toks.filter (fun t => !specRemoves t)).isEmpty then "<p>".data ++ x ++ "</p>".data
  else classPara q (toks.filter (fun t => !specRemoves t)) x

/-- The paragraph written by the code when the pattern selects the class attribute. -/
def cleanedClassPara (toks : List Str) (x : Str) : Str :=
  if (toks.filter keepClass).isEmpty then "<p>".data ++ x ++ "</p>".data
  else classPara '"' (toks.filter keepClass) x

/-- The input of `TestCleanHTML`. -/
def cleanTestInput : Str :=
  ("<p class=\"wp-block-paragraph aligncenter\" style=\"\">Paragraph with WordPress classes</p>\n" ++
   "<div data-wp-block=\"true\" data-align=\"wide\">Block with data attributes</div>\n" ++
   "<center>This text is centered</center>\n<font color=\"red\">Red text</font>\n" ++
   "<b>Bold text</b> and <i>italic text</i>\n<ul><li>Item 1</li><li>Item 2</li></ul>").data

/-- The cell `<TAG>t</TAG>`. -/
def cellHtml (tag : String) (t : Str) : Str :=
  "<".data ++ (tag.data ++ (">".data ++ (t ++ ("</".data ++ (tag.data ++ ">".data)))))

/-- The cells `<TAG>t</TAG>` of the given texts, in order. -/
def cellsHtml (tag : String) (ts : List Str) : Str := ts.flatMap (cellHtml tag)

/-- The row `<tr>cells</tr>` with the cell tag and the cell texts of the pair. -/
def rowHtml (r : String × List Str) : Str :=
  "<tr>".data ++ (cellsHtml r.1 r.2 ++ "</tr>".data)

/-- The rows of a table, in order. -/
def rowsHtml (rs : List (String × List Str)) : Str := rs.flatMap rowHtml

/-- The table on one line with the given rows. -/
def tableHtml (rs : List (String × List Str)) : Str :=
  "<table>".data ++ (rowsHtml rs ++ "</table>".data)

/-- The Markdown row `| t1 | ... | tn |`. -/
def pipeRow (ts : List Str) : Str := "|".data ++ ts.flatMap (fun t => " ".data ++ (t ++ " |".data))

/-- The separator row `| --- | ... | --- |` of `n` cells. -/
def separatorRow (n : Nat) : Str := "|".data ++ (List.replicate n " --- |".data).join

/-- The lines of the Markdown table: the first row, the separator row with as many cells
as the first row, the other rows. -/
def tableLines : List (String × List Str) → List Str
  | [] => []
  | r :: rest => pipeRow r.2 :: separatorRow r.2.length :: rest.map (fun x => pipeRow x.2)

/-- The submatches of the cell pattern on a cell. -/
def cellSubs (tag : String) (t : Str) : Caps := [(0, cellHtml tag t), (1, t)]

/-- The submatches of the row pattern on a row. -/
def rowSubs (r : String × List Str) : Caps := [(0, rowHtml r), (1, cellsHtml r.1 r.2)]

/-- The windows at the positions of cells with plain texts. -/
def cellWins : List Win :=
  litWins (startsIn alnum) "<th>".data ++ (litWins (startsIn alnum) "<td>".data ++
    (plainWins ++ (litWins ltWin "</th>".data ++ litWins ltWin "</td>".data)))

/-- The windows at the positions of table rows. -/
def rowWins : List Win :=
  litWins ltWin "<tr>".data ++ (cellWins ++ litWins ltWin "</tr>".data)

/-- The windows at the positions of a table. -/
def tableWins : List Win :=
  litWins ltWin "<table>".data ++ (rowWins ++ litWins endWin "</table>".data)

/-- The windows at the positions of the lines of a Markdown table and of the newlines
around them. -/
def pipeWins : List Win :=
  litWins anyWin "|".data ++ (plainWins ++ (litWins anyWin " |".data ++
    (litWins anyWin " --- |".data ++ (litWins (startsIn (CharSet.of ['|'])) "\n".data ++
      litWins endWin "\n\n".data))))

/-- The characters of the lines of a Markdown table. -/
def pipeChars : CharSet := alnum ++ CharSet.of [' ', '|', '-', '\n']

/-- A line of a Markdown table: it starts and ends with `|`, its positions are described
by the windows, its characters are those of table lines. -/
def TableLine (l : Str) : Prop :=
  (∀ v, CoversIn pipeWins l v) ∧ l.head? = some '|' ∧ l.getLast? = some '|' ∧
    ∀ c ∈ l, pipeChars.mem c = true

/-- The closing part `</t[hd]>` of the cell pattern. -/
def cellClose : Re :=
  .seq (.lit "</t".data) (.seq (.cls (CharSet.of ['h', 'd'])) (.lit ">".data))

/-- Rows with a cell tag `th` or `td` and one or more plain cell texts. -/
def rowsOk (rs : List (String × List Str)) : Prop :=
  ∀ r ∈ rs, (r.1 = "th" ∨ r.1 = "td") ∧ r.2 ≠ [] ∧ ∀ t ∈ r.2, isPlainText t = true

/-- The string `w` does not occur in `s`. -/
def NoOcc (w s : Str) : Prop := ∀ a b, s ≠ a ++ (w ++ b)

/-- No part of `s` is matched by `r`. -/
def NoMatch (r : Re) (s : Str) : Prop := ∀ a w b, s = a ++ (w ++ b) → ¬ Re.Matches r w

/-- No run of three newlines and no white space at either end. -/
def Tidy (s : Str) : Prop :=
  Contains s "\n\n\n".data = false ∧ (∀ x, s.head? = some x → goSpace.mem x = false) ∧
    (∀ x, s.getLast? = some x → goSpace.mem x = false)

/-- A space or a tab directly in front of a newline. -/
def blankNl (x y : Char) : Prop := (x = ' ' ∨ x = '\t') ∧ y = '\n'

/-- No space or tab stands directly in front of a newline. -/
def NoBlankNl (s : Str) : Prop := List.Chain' (fun x y => ¬ blankNl x y) s

/-- A paragraph of the flat documents in the statement about empty paragraphs: a
paragraph with a text, or one of the three empty forms. -/
inductive Para
  | text (t : Str)
  | empty
  | blank
  | br
deriving DecidableEq

/-- The HTML of a paragraph: `<p>t</p>`, `<p></p>`, `<p> </p>`, `<p><br /></p>`. -/
def Para.render : Para → Str
  | .text t => "<p>".data ++ t ++ "</p>".data
  | .empty => "<p></p>".data
  | .blank => "<p> </p>".data
  | .br => "<p><br /></p>".data

/-- The text of a paragraph with a text is plain. -/
def Para.wellFormed : Para → Bool
  | .text t => isPlainText t
  | _ => true

/-- Whether the paragraph has a text. -/
def Para.isText : Para → Bool
  | .text _ => true
  | _ => false

/-- The document made of the paragraphs, one after the other. -/
def paras (ps : List Para) : Str := ps.flatMap Para.render

/-- The paragraph after the white space between its tags has been removed. -/
def Para.unblank : Para → Para
  | .blank => .empty
  | p => p

/-- Whether the paragraph survives the first rule of `removeEmptyParagraphs`. -/
def Para.hasContent : Para → Bool
  | .text _ => true
  | .br => true
  | _ => false

/-- The windows at the positions of a paragraph with a text, in front of `look`. -/
def textWins (look : Win) : List Win :=
  litWins (startsIn alnum) "<p>".data ++ plainWins ++ litWins look "</p>".data

/-- The windows at the positions of a paragraph, in front of another one or of the end of
the document. -/
def Para.wins : Para → List Win
  | .text _ => textWins ltWin ++ textWins endWin
  | .empty => litWins ltWin "<p></p>".data ++ litWins endWin "<p></p>".data
  | .blank => litWins ltWin "<p> </p>".data ++ litWins endWin "<p> </p>".data
  | .br => litWins ltWin "<p><br /></p>".data ++ litWins endWin "<p><br /></p>".data

/-- The characters of the flat documents. -/
def paraChars : CharSet := alnum ++ CharSet.of [' ', '<', '>', '/']

/-- The characters that a match of the expression can hold. -/
def Re.reads : Re → CharSet
  | .lit w => CharSet.of w
  | .cls A => A
  | .seq a b => a.reads ++ b.reads
  | .alt a b => a.reads ++ b.reads
  | .star _ a => a.reads
  | .grp _ a => a.reads

/-- The flat document of the counterexample would be `<p><br></p>` inside a paragraph. -/
def nestedEmptyP : Str := "<p><p><br></p></p>".data

/-- The paragraphs of the test of `SanitizeWordPressContent`, with every empty form. -/
def mixedParas : List Para :=
  [.text "Content".data, .empty, .blank, .text "More content".data, .br]

/-- A further line of a blockquote: `p.1` blank lines, then the line `p.2`. -/
def quoteGap (p : Nat × Str) : Str := List.replicate (p.1 + 1) '\n' ++ p.2

/-- The inner content of a blockquote: a first line, then further lines, each behind any
number of blank lines. -/
def quoteBody (l : Str) (rest : List (Nat × Str)) : Str := l ++ rest.flatMap quoteGap

/-- The element `<blockquote>...</blockquote>` around such content. -/
def quoteHtml (l : Str) (rest : List (Nat × Str)) : Str :=
  "<blockquote>".data ++ quoteBody l rest ++ "</blockquote>".data

/-- The lines `> t` of the given texts. -/
def quotedLines (ls : List Str) : List Str := ls.map (fun t => "> ".data ++ t)

/-- A further line with at most one blank line in front of it. -/
def capGap (p : Nat × Str) : Nat × Str := (min p.1 1, p.2)

/-- The class of the newline. -/
def newlineSet : CharSet := CharSet.of ['\n']

/-- The windows at the positions of the lines and newlines inside a blockquote. -/
def bodyWins : List Win := plainWins ++ [startsIn newlineSet]

/-- The windows at the positions of a blockquote of plain lines. -/
def quoteInWins : List Win :=
  litWins (startsIn alnum) "<blockquote>".data ++ bodyWins ++
    litWins endWin "</blockquote>".data

/-- The windows at the positions of quoted lines and of the newlines around them. -/
def quoteWins : List Win :=
  litWins (startsIn alnum) "> ".data ++ plainWins ++
    litWins (startsIn (CharSet.of ['>'])) "\n".data ++ litWins endWin "\n\n".data

/-- The characters of quoted lines of plain texts. -/
def quoteChars : CharSet := alnum ++ CharSet.of [' ', '>', '\n']

/-- The patterns of `SanitizeWordPressContent` but the one for runs of newlines. -/
def sanitizeRes2 : List Re :=
  [reBlockOpen, reBlockClose, reTrailingBlanks, reBetweenTags, reEmptyP, reBrOnlyP]

/-- The windows at the positions of a blockquote around one paragraph. -/
def quoteParaWins : List Win :=
  litWins (startsIn alnum) "<blockquote><p>".data ++ plainWins ++
    litWins endWin "</p></blockquote>".data

/-- The windows at the positions of a paragraph inside a blockquote. -/
def innerParaWins : List Win :=
  litWins (startsIn alnum) "<p>".data ++ plainWins ++ litWins anyWin "</p>".data

/-- The blockquote `<blockquote><p>t</p></blockquote>`. -/
def quoteParaHtml (t : Str) : Str := "<blockquote><p>".data ++ t ++ "</p></blockquote>".data

/-- The pattern `[^>]*/?>` at the end of the image patterns. -/
def imgEnd : Re := .seq (.star true (.cls notGt)) (.seq (opt (L "/")) (L ">"))

/-- The last attribute of an image pattern with what follows, its value being submatch
`i`: `KEY["']([^"']*)["'][^>]*/?>`. -/
def imgKey (i : Nat) (k : Str) : Re := .seq (.lit k) (.seq (quoted i) imgEnd)

/-- The first attribute of an image pattern with what follows. -/
def imgKey1 (k1 k2 : Str) : Re :=
  .seq (.lit k1) (.seq (quoted 1) (.seq (.star true (.cls notGt)) (imgKey 2 k2)))

/-- The image pattern with two attributes, `<img[^>]*K1["']([^"']*)["'][^>]*K2["']([^"']*)["'][^>]*/?>`. -/
def imgTwo (k1 k2 : Str) : Re :=
  .seq (.lit "<img".data) (.seq (.star true (.cls notGt)) (imgKey1 k1 k2))

/-- The end of the link pattern: `[^>]*>(.*?)</a>`. -/
def linkEnd : Re :=
  .seq (.star true (.cls notGt)) (.seq (.lit ">".data)
    (.seq (.grp 2 (.star false (.cls anyChar))) (.lit "</a>".data)))

/-- The attribute of the link pattern with what follows. -/
def linkKey : Re := .seq (.lit "href=".data) (.seq (quoted 1) linkEnd)

/-- An attribute `KEY"value"`, the key written with its `=`. -/
def attrText (k x : Str) : Str := k ++ ('"' :: (x ++ ['"']))

/-- The characters of an address in the statements: every character but white space,
the two quotes, `&`, `<` and `>`. -/
def urlChar (c : Char) : Bool :=
  !goSpace.mem c && c != '"' && c != '\'' && c != '&' && c != '<' && c != '>'

/-- An address: a text, possibly empty, of such characters. -/
def isUrlText (s : Str) : Bool := s.all urlChar

/-- The class of the characters of an address. -/
def urlChars : CharSet :=
  CharSet.compl [(9, 13), (32, 32), (34, 34), (38, 39), (60, 60), (62, 62), (133, 133),
    (160, 160), (5760, 5760), (8192, 8202), (8232, 8233), (8239, 8239), (8287, 8287),
    (12288, 12288)]

/-- The link `<a href="h">t</a>`. -/
def linkHtml (h t : Str) : Str := "<a href=\"".data ++ h ++ "\">".data ++ t ++ "</a>".data

/-- The Markdown link `[t](h)`. -/
def linkMd (h t : Str) : Str := "[".data ++ t ++ "](".data ++ h ++ ")".data

/-- The windows at the positions of a link. -/
def linkInWins : List Win :=
  litWins (startsIn (urlChars ++ CharSet.of ['"'])) "<a href=\"".data ++ [startsIn urlChars] ++
    litWins (startsIn alnum) "\">".data ++ plainWins ++ litWins endWin "</a>".data

/-- The windows at the positions of a Markdown link. -/
def linkOutWins : List Win :=
  litWins (startsIn alnum) "[".data ++ plainWins ++
    litWins (startsIn (urlChars ++ CharSet.of [')'])) "](".data ++ [startsIn urlChars] ++
    litWins endWin ")".data

/-- The image `<img src="s" alt="a">`. -/
def imgSrcAlt (s a : Str) : Str := "<img src=\"".data ++ s ++ "\" alt=\"".data ++ a ++ "\">".data

/-- The image `<img alt="a" src="s">`. -/
def imgAltSrc (s a : Str) : Str := "<img alt=\"".data ++ a ++ "\" src=\"".data ++ s ++ "\">".data

/-- The image `<img src="s">`. -/
def imgSrcOnly (s : Str) : Str := "<img src=\"".data ++ s ++ "\">".data

/-- The Markdown image `![a](s)`. -/
def imgMd (s a : Str) : Str := "![".data ++ a ++ "](".data ++ s ++ ")".data

/-- The tail of an image with two attributes behind the first character `a1` of the first
key: the rest of that key, the two values and the second key. -/
def imgTail (k1t : Str) (x1 : Str) (k2 : Str) (x2 : Str) : Str :=
  (k1t ++ ['"']) ++ (x1 ++ (('"' :: ' ' :: (k2 ++ ['"'])) ++ (x2 ++ ['"'])))

/-- The tail of an image with one attribute behind the first character of its key. -/
def imgTail1 (kt : Str) (x : Str) : Str := (kt ++ ['"']) ++ (x ++ ['"'])

/-- The windows at the positions of an image with its attributes in any of the three
forms. -/
def imgInWins : List Win :=
  litWins (startsIn (urlChars ++ CharSet.of ['"'])) "<img src=\"".data ++ [startsIn urlChars] ++
    litWins (startsIn alnum) "\" alt=\"".data ++ plainWins ++ litWins endWin "\">".data ++
    litWins (startsIn alnum) "<img alt=\"".data ++
    litWins (startsIn (urlChars ++ CharSet.of ['"'])) "\" src=\"".data

/-- The windows at the positions of a Markdown image. -/
def imgOutWins : List Win :=
  litWins (startsIn alnum) "![".data ++ plainWins ++
    litWins (startsIn (urlChars ++ CharSet.of [')'])) "](".data ++ [startsIn urlChars] ++
    litWins endWin ")".data ++ litWins (startsIn (urlChars ++ CharSet.of [')'])) "![](".data

/-- The document of two paragraphs with the comment `<!-- c -->` between them, `sep`
standing between the comment and each paragraph: `<p>a</p>SEP<!-- c -->SEP<p>b</p>`. -/
def commentHtml (sep a c b : Str) : Str :=
  "<p>".data ++ a ++ "</p>".data ++ sep ++ "<!-- ".data ++ c ++ " -->".data ++ sep ++
    "<p>".data ++ b ++ "</p>".data

/-- The window of the first three characters of a plain comment text and its closing
` -->`. -/
def cmtLook : Win :=
  ⟨[alnum, alnum ++ CharSet.of [' '], alnum ++ CharSet.of [' ', '-']], false⟩

/-- The windows at the positions of `commentHtml sep a c b`. -/
def commentWins (sep : Str) : List Win :=
  litWins (startsIn alnum) "<p>".data ++ plainWins ++ litWins ltWin ("</p>".data ++ sep) ++
    litWins cmtLook "<!-- ".data ++ litWins ltWin (" -->".data ++ sep) ++
    litWins endWin "</p>".data

/-- The windows at the positions of the comment `<!-- c -->` in front of a tag. -/
def cmtWins : List Win :=
  litWins cmtLook "<!-- ".data ++ plainWins ++ litWins ltWin " -->".data

/-- The windows at the positions of a piece `LEFT text RIGHT` in front of `look`. -/
def pieceWins (left right : Str) (look : Win) : List Win :=
  litWins (startsIn alnum) left ++ plainWins ++ litWins look right

/-- The windows at the positions of the Markdown of the paragraphs with the comment still
between them. -/
def mdCmtWins : List Win :=
  plainWins ++ litWins ltWin "\n\n".data ++ litWins cmtLook "<!-- ".data ++
    litWins (startsIn alnum) " -->".data ++ litWins endWin "\n\n".data

/-- The windows at the positions of two plain texts with a blank line between them and
behind them. -/
def twoParaWins : List Win :=
  plainWins ++ litWins (startsIn alnum) "\n\n".data ++ litWins endWin "\n\n".data

/-- An input in which the removal of one opening marker joins the text around it into
another opening marker. -/
def splitMarker : Str := "<!-- wp<!-- wp:a -->:b -->".data

/-- The input of the table test of `TestHelperFunctions`: a table whose rows and cells
stand on lines of their own. -/
def tableLinesHTML : Str :=
  ("<table>\n  <tr>\n    <th>Header 1</th>\n    <th>Header 2</th>\n  </tr>\n" ++
    "  <tr>\n    <td>Cell 1</td>\n    <td>Cell 2</td>\n  </tr>\n</table>").data

/-- A heading in front of a list with a nested list. -/
def headingNestedHTML : Str := "<h2>T</h2><ul><li>A<ul><li>B</li></ul></li></ul>".data

/-- Two style blocks, one directly behind the other. -/
def twoStyles : Str := "<style>a</style><style>b</style>".data

/-- Two style blocks with a paragraph between them. -/
def stylesApart : Str := "<style>a</style><p>x</p><style>b</style>".data

/-- Three style blocks, the second with a body of sixteen characters. -/
def threeStyles : Str :=
  "<style>a</style><style>bbbbbbbbbbbbbbbb</style><style>c</style>".data

/-- An empty paragraph on a line of its own between two lines of text. -/
def emptyParaBetweenLines : Str := "a\n<p></p>\n\nb".data

/-- A heading block and a paragraph block of the block editor, with three empty lines
between them and two spaces at the end. -/
def blocksWithGaps : Str :=
  ("<!-- wp:heading -->\n<h2>T</h2>\n<!-- /wp:heading -->\n\n\n\n" ++
    "<!-- wp:paragraph -->\n<p>a</p>\n<!-- /wp:paragraph -->  ").data


/-! ## Basic facts about the matcher -/

theorem starLoop_suffix (f : Str → Caps → Res)
    (hf : ∀ s c r, r ∈ f s c → r.1 <:+ s) (g : Bool) :
    ∀ n s c r, r ∈ starLoop f g n s c → r.1 <:+ s := by
  intro n
  induction n with
  | zero =>
    intro s c r hr
    simp [starLoop] at hr
    subst hr
    exact List.suffix_refl _
  | succ n ih =>
    intro s c r hr
    have key : r = (s, c) ∨ ∃ r1, r1 ∈ f s c ∧ r ∈ starLoop f g n r1.1 r1.2 := by
      cases g <;> simp [starLoop, List.mem_flatMap, List.mem_filter] at hr
      · rcases hr with h | ⟨a, b, ⟨h1, _⟩, h2⟩
        · exact Or.inl h
        · exact Or.inr ⟨(a, b), h1, h2⟩
      · rcases hr with ⟨a, b, ⟨h1, _⟩, h2⟩ | h
        · exact Or.inr ⟨(a, b), h1, h2⟩
        · exact Or.inl h
    rcases key with h | ⟨r1, h1, h2⟩
    · subst h; exact List.suffix_refl _
    · exact (ih _ _ _ h2).trans (hf _ _ _ h1)

theorem ms_suffix : ∀ (r : Re) (s : Str) (c : Caps) (x : Str × Caps),
    x ∈ ms r s c → x.1 <:+ s := by
  intro r
  induction r with
  | lit w =>
    intro s c x hx
    simp only [ms] at hx
    split at hx
    · simp at hx; subst hx; exact List.drop_suffix _ _
    · simp at hx
  | cls A =>
    intro s c x hx
    cases s with
    | nil => simp [ms] at hx
    | cons y s1 =>
      simp only [ms] at hx
      split at hx
      · simp at hx; subst hx; exact List.suffix_cons _ _
      · simp at hx
  | seq a b iha ihb =>
    intro s c x hx
    simp only [ms, List.mem_flatMap] at hx
    obtain ⟨y, hy, hx⟩ := hx
    exact (ihb _ _ _ hx).trans (iha _ _ _ hy)
  | alt a b iha ihb =>
    intro s c x hx
    simp only [ms, List.mem_append] at hx
    rcases hx with h | h
    · exact iha _ _ _ h
    · exact ihb _ _ _ h
  | star g a ih =>
    intro s c x hx
    simp only [ms] at hx
    exact starLoop_suffix _ (fun s c r hr => ih s c r hr) g _ _ _ _ hx
  | grp i a ih =>
    intro s c x hx
    simp only [ms, List.mem_map] at hx
    obtain ⟨y, hy, rfl⟩ := hx
    exact ih _ _ y hy

theorem ms_length_le (r : Re) (s : Str) (c : Caps) (x : Str × Caps)
    (hx : x ∈ ms r s c) : x.1.length ≤ s.length :=
  (ms_suffix r s c x hx).length_le

theorem ms_length_lt : ∀ (r : Re), r.nonNull = true → ∀ (s : Str) (c : Caps) (x : Str × Caps),
    x ∈ ms r s c → x.1.length < s.length := by
  intro r
  induction r with
  | lit w =>
    intro hn s c x hx
    simp only [ms] at hx
    split at hx
    · rename_i hp
      simp at hx; subst hx
      have hw : w ≠ [] := by
        intro h; subst h; simp [Re.nonNull] at hn
      have hl : w.length ≤ s.length := (List.isPrefixOf_iff_prefix.mp hp).length_le
      have : 0 < w.length := List.length_pos.mpr hw
      simp only [List.length_drop]
      omega
    · simp at hx
  | cls A =>
    intro hn s c x hx
    cases s with
    | nil => simp [ms] at hx
    | cons y s1 =>
      simp only [ms] at hx
      split at hx
      · simp at hx; subst hx; simp
      · simp at hx
  | seq a b iha ihb =>
    intro hn s c x hx
    simp only [ms, List.mem_flatMap] at hx
    obtain ⟨y, hy, hx⟩ := hx
    simp only [Re.nonNull, Bool.or_eq_true] at hn
    have h1 := ms_length_le a s c y hy
    have h2 := ms_length_le b _ _ x hx
    rcases hn with h | h
    · have := iha h _ _ _ hy; omega
    · have := ihb h _ _ _ hx; omega
  | alt a b iha ihb =>
    intro hn s c x hx
    simp only [Re.nonNull, Bool.and_eq_true] at hn
    simp only [ms, List.mem_append] at hx
    rcases hx with h | h
    · exact iha hn.1 _ _ _ h
    · exact ihb hn.2 _ _ _ h
  | star g a ih =>
    intro hn; simp [Re.nonNull] at hn
  | grp i a ih =>
    intro hn s c x hx
    simp only [ms, List.mem_map] at hx
    obtain ⟨y, hy, rfl⟩ := hx
    exact ih (by simpa [Re.nonNull] using hn) _ _ y hy

theorem ms_nil_of_nonNull (r : Re) (hn : r.nonNull = true) (c : Caps) : ms r [] c = [] := by
  cases h : ms r [] c with
  | nil => rfl
  | cons x xs =>
    have := ms_length_lt r hn [] c x (by rw [h]; exact List.mem_cons_self _ _)
    simp at this


/-! ## Located matches -/

theorem matchAt_some (r : Re) (s : Str) (m : Match) (h : matchAt r s = some m) :
    m.pre = [] ∧ s = m.text ++ m.rest ∧ (ms r s []).head? = some (m.rest, m.caps) := by
  unfold matchAt at h
  split at h
  · rename_i rest c hh
    simp at h
    subst h
    have hmem : (rest, c) ∈ ms r s [] := List.mem_of_mem_head? hh
    have hsuf := ms_suffix r s [] _ hmem
    obtain ⟨t, ht⟩ := hsuf
    refine ⟨rfl, ?_, hh⟩
    simp only
    subst ht
    simp
  · simp at h

theorem matchAt_none (r : Re) (s : Str) : matchAt r s = none ↔ ms r s [] = [] := by
  unfold matchAt
  cases h : ms r s [] with
  | nil => simp
  | cons x xs => simp

theorem matchAt_of_head (r : Re) (w v : Str) (c : Caps)
    (h : (ms r (w ++ v) []).head? = some (v, c)) : matchAt r (w ++ v) = some ⟨[], w, c, v⟩ := by
  unfold matchAt
  rw [h]
  simp

theorem findFirst_some (r : Re) : ∀ (s : Str) (m : Match), findFirst r s = some m →
    s = m.pre ++ m.text ++ m.rest ∧ (ms r (m.text ++ m.rest) []).head? = some (m.rest, m.caps) := by
  intro s
  induction s with
  | nil =>
    intro m h
    simp only [findFirst] at h
    obtain ⟨h1, h2, h3⟩ := matchAt_some r [] m h
    rw [← h2, h1]
    exact ⟨by simpa using h2, h3⟩
  | cons x s ih =>
    intro m h
    simp only [findFirst] at h
    split at h
    · rename_i m1 hm1
      simp at h; subst h
      obtain ⟨h1, h2, h3⟩ := matchAt_some r _ _ hm1
      rw [← h2, h1]
      exact ⟨by simpa using h2, h3⟩
    · rename_i hnone
      cases hf : findFirst r s with
      | none => simp [hf] at h
      | some m2 =>
        simp [hf] at h
        subst h
        obtain ⟨h1, h2⟩ := ih m2 hf
        refine ⟨?_, h2⟩
        simp only [List.cons_append]
        rw [← h1]

theorem findFirst_text_ne (r : Re) (hn : r.nonNull = true) (s : Str) (m : Match)
    (h : findFirst r s = some m) : m.text ≠ [] := by
  obtain ⟨_, h2⟩ := findFirst_some r s m h
  have hmem := List.mem_of_mem_head? h2
  have := ms_length_lt r hn _ _ _ hmem
  intro h0
  simp [h0] at this

theorem findFirst_rest_lt (r : Re) (hn : r.nonNull = true) (s : Str) (m : Match)
    (h : findFirst r s = some m) : m.rest.length < s.length := by
  obtain ⟨h1, h2⟩ := findFirst_some r s m h
  have hne := findFirst_text_ne r hn s m h
  have : 0 < m.text.length := List.length_pos.mpr hne
  rw [h1]; simp; omega

/-! ## The replace and find-all loops for expressions that cannot match the empty string -/

theorem replLoop_some (r : Re) (hn : r.nonNull = true) (repl : Match → Str) :
    ∀ (n : Nat) (b : Bool) (t : Str) (m : Match), t.length < n → findFirst r t = some m →
      replLoop r repl n b [] t =
        m.pre ++ repl m ++ replLoop r repl (m.rest.length + 1) true [] m.rest := by
  intro n
  induction n using Nat.strong_induction_on with
  | _ n ih =>
    intro b t m hlen hf
    cases n with
    | zero => omega
    | succ n =>
      have hne := findFirst_text_ne r hn t m hf
      have hlt := findFirst_rest_lt r hn t m hf
      obtain ⟨a, w, hab⟩ := List.exists_cons_of_ne_nil hne
      conv_lhs => simp only [replLoop, hf]
      simp only [hab, List.nil_append, List.append_eq_nil, List.isEmpty_cons, Bool.not_false,
        Bool.true_or, if_true]
      cases hf2 : findFirst r m.rest with
      | none =>
        have e1 : replLoop r repl n false [] m.rest = m.rest := by
          cases n with
          | zero => simp [replLoop]
          | succ n => simp [replLoop, hf2]
        have e2 : replLoop r repl (m.rest.length + 1) true [] m.rest = m.rest := by
          simp [replLoop, hf2]
        rw [e1, e2]
        simp
      | some m2 =>
        rw [ih n (by omega) false m.rest m2 (by omega) hf2,
          ih (m.rest.length + 1) (by omega) true m.rest m2 (by omega) hf2]
        simp

theorem ReplaceAllStringFunc_some (r : Re) (hn : r.nonNull = true) (f : Str → Str) (s : Str)
    (m : Match) (h : findFirst r s = some m) :
    ReplaceAllStringFunc r s f = m.pre ++ f m.text ++ ReplaceAllStringFunc r m.rest f := by
  unfold ReplaceAllStringFunc
  exact replLoop_some r hn _ _ _ _ _ (by omega) h

theorem ReplaceAllStringFunc_none (r : Re) (f : Str → Str) (s : Str)
    (h : findFirst r s = none) : ReplaceAllStringFunc r s f = s := by
  unfold ReplaceAllStringFunc
  simp [replLoop, h]

theorem ReplaceAllString_some (r : Re) (hn : r.nonNull = true) (t : List Tpl) (s : Str)
    (m : Match) (h : findFirst r s = some m) :
    ReplaceAllString r s t = m.pre ++ expand t m.caps ++ ReplaceAllString r m.rest t := by
  unfold ReplaceAllString
  exact replLoop_some r hn _ _ _ _ _ (by omega) h

theorem ReplaceAllString_none (r : Re) (t : List Tpl) (s : Str)
    (h : findFirst r s = none) : ReplaceAllString r s t = s := by
  unfold ReplaceAllString
  simp [replLoop, h]

theorem allLoop_some (r : Re) (hn : r.nonNull = true) :
    ∀ (n : Nat) (b : Bool) (t : Str) (m : Match), t.length < n → findFirst r t = some m →
      allLoop r n b t = m :: allLoop r (m.rest.length + 1) false m.rest := by
  intro n
  induction n using Nat.strong_induction_on with
  | _ n ih =>
    intro b t m hlen hf
    cases n with
    | zero => omega
    | succ n =>
      have hne := findFirst_text_ne r hn t m hf
      have hlt := findFirst_rest_lt r hn t m hf
      obtain ⟨a, w, hab⟩ := List.exists_cons_of_ne_nil hne
      conv_lhs => simp only [allLoop, hf]
      simp only [hab, List.isEmpty_cons, Bool.false_and]
      cases hf2 : findFirst r m.rest with
      | none =>
        have e1 : allLoop r n true m.rest = [] := by
          cases n with
          | zero => simp [allLoop]
          | succ n => simp [allLoop, hf2]
        have e2 : allLoop r (m.rest.length + 1) false m.rest = [] := by
          simp [allLoop, hf2]
        rw [e1, e2]
        simp
      | some m2 =>
        rw [ih n (by omega) true m.rest m2 (by omega) hf2,
          ih (m.rest.length + 1) (by omega) false m.rest m2 (by omega) hf2]
        simp

theorem FindAll_some (r : Re) (hn : r.nonNull = true) (s : Str) (m : Match)
    (h : findFirst r s = some m) :
    FindAllStringSubmatch r s = m.subs :: FindAllStringSubmatch r m.rest := by
  unfold FindAllStringSubmatch
  rw [allLoop_some r hn _ _ _ _ (by omega) h]
  simp

theorem FindAll_none (r : Re) (s : Str) (h : findFirst r s = none) :
    FindAllStringSubmatch r s = [] := by
  unfold FindAllStringSubmatch
  simp [allLoop, h]

/-! ## Skipping text in which no match starts -/

theorem NoStart_append {r : Re} {a b v : Str} (h1 : NoStart r a (b ++ v)) (h2 : NoStart r b v) :
    NoStart r (a ++ b) v := by
  intro u1 u2 c he hne
  rcases List.append_eq_append_iff.mp he with ⟨a', ha, hb⟩ | ⟨c', hc, hu2⟩
  · -- split point inside `b`: u1 = a ++ a', b = a' ++ u2
    exact h2 a' u2 c hb hne
  · -- split point inside `a`: a = u1 ++ c', u2 = c' ++ b
    subst hu2
    by_cases hc' : c' = []
    · subst hc'
      simp only [List.nil_append] at hne ⊢
      exact h2 [] b c rfl hne
    · have := h1 u1 c' c hc hc'
      simpa [List.append_assoc] using this

theorem NoStart_nil (r : Re) (v : Str) : NoStart r [] v := by
  intro u1 u2 c he hne
  have : u2 = [] := by
    have := congrArg List.length he
    simp at this
    exact List.length_eq_zero.mp (by omega)
  exact absurd this hne

theorem NoStart.tail {r : Re} {x : Char} {u v : Str} (h : NoStart r (x :: u) v) :
    NoStart r u v := by
  intro u1 u2 c he hne
  exact h (x :: u1) u2 c (by simp [he]) hne

theorem findFirst_skip (r : Re) : ∀ (u v : Str), NoStart r u v →
    findFirst r (u ++ v) = (findFirst r v).map (fun m => { m with pre := u ++ m.pre }) := by
  intro u
  induction u with
  | nil =>
    intro v _
    cases hf : findFirst r v with
    | none => simp [hf]
    | some m => simp [hf]
  | cons x u ih =>
    intro v h
    have h0 : matchAt r (x :: (u ++ v)) = none := by
      rw [matchAt_none]
      exact h [] (x :: u) [] rfl (by simp)
    show findFirst r (x :: (u ++ v)) = _
    rw [findFirst, h0]
    simp only
    rw [ih v h.tail]
    cases findFirst r v <;> simp

theorem findFirst_none_of_noStart (r : Re) (hn : r.nonNull = true) (u : Str)
    (h : NoStart r u []) : findFirst r u = none := by
  have := findFirst_skip r u [] h
  simp only [List.append_nil] at this
  rw [this]
  have h0 : findFirst r [] = none := by
    simp only [findFirst, matchAt_none]
    exact ms_nil_of_nonNull r hn []
  simp [h0]

theorem findFirst_here (r : Re) (w v : Str) (c : Caps)
    (h : (ms r (w ++ v) []).head? = some (v, c)) :
    findFirst r (w ++ v) = some ⟨[], w, c, v⟩ := by
  have hm := matchAt_of_head r w v c h
  cases hs : w ++ v with
  | nil => rw [hs] at hm; simpa [findFirst] using hm
  | cons x s => rw [hs] at hm; simp [findFirst, hm]

theorem ReplaceAllString_skip (r : Re) (hn : r.nonNull = true) (t : List Tpl) (u v : Str)
    (h : NoStart r u v) :
    ReplaceAllString r (u ++ v) t = u ++ ReplaceAllString r v t := by
  have hf := findFirst_skip r u v h
  cases hv : findFirst r v with
  | none =>
    rw [hv] at hf
    rw [ReplaceAllString_none r t _ (by simpa using hf), ReplaceAllString_none r t _ hv]
  | some m =>
    rw [hv] at hf
    rw [ReplaceAllString_some r hn t _ _ (by simpa using hf), ReplaceAllString_some r hn t _ _ hv]
    simp

theorem ReplaceAllStringFunc_skip (r : Re) (hn : r.nonNull = true) (f : Str → Str) (u v : Str)
    (h : NoStart r u v) :
    ReplaceAllStringFunc r (u ++ v) f = u ++ ReplaceAllStringFunc r v f := by
  have hf := findFirst_skip r u v h
  cases hv : findFirst r v with
  | none =>
    rw [hv] at hf
    rw [ReplaceAllStringFunc_none r f _ (by simpa using hf), ReplaceAllStringFunc_none r f _ hv]
  | some m =>
    rw [hv] at hf
    rw [ReplaceAllStringFunc_some r hn f _ _ (by simpa using hf),
      ReplaceAllStringFunc_some r hn f _ _ hv]
    simp

theorem FindAll_skip (r : Re) (hn : r.nonNull = true) (u v : Str) (h : NoStart r u v) :
    FindAllStringSubmatch r (u ++ v) = FindAllStringSubmatch r v := by
  have hf := findFirst_skip r u v h
  cases hv : findFirst r v with
  | none =>
    rw [hv] at hf
    rw [FindAll_none r _ (by simpa using hf), FindAll_none r _ hv]
  | some m =>
    rw [hv] at hf
    rw [FindAll_some r hn _ _ (by simpa using hf), FindAll_some r hn _ _ hv]
    simp [Match.subs]

theorem ReplaceAllString_here (r : Re) (hn : r.nonNull = true) (t : List Tpl) (w v : Str)
    (c : Caps) (h : (ms r (w ++ v) []).head? = some (v, c)) :
    ReplaceAllString r (w ++ v) t = expand t c ++ ReplaceAllString r v t := by
  rw [ReplaceAllString_some r hn t _ _ (findFirst_here r w v c h)]
  simp

theorem ReplaceAllStringFunc_here (r : Re) (hn : r.nonNull = true) (f : Str → Str) (w v : Str)
    (c : Caps) (h : (ms r (w ++ v) []).head? = some (v, c)) :
    ReplaceAllStringFunc r (w ++ v) f = f w ++ ReplaceAllStringFunc r v f := by
  rw [ReplaceAllStringFunc_some r hn f _ _ (findFirst_here r w v c h)]
  simp

theorem FindAll_here (r : Re) (hn : r.nonNull = true) (w v : Str)
    (c : Caps) (h : (ms r (w ++ v) []).head? = some (v, c)) :
    FindAllStringSubmatch r (w ++ v) = ((0, w) :: c) :: FindAllStringSubmatch r v := by
  rw [FindAll_some r hn _ _ (findFirst_here r w v c h)]
  simp [Match.subs]

theorem ReplaceAllString_id (r : Re) (hn : r.nonNull = true) (t : List Tpl) (u : Str)
    (h : NoStart r u []) : ReplaceAllString r u t = u :=
  ReplaceAllString_none r t u (findFirst_none_of_noStart r hn u h)

theorem ReplaceAllStringFunc_id (r : Re) (hn : r.nonNull = true) (f : Str → Str) (u : Str)
    (h : NoStart r u []) : ReplaceAllStringFunc r u f = u :=
  ReplaceAllStringFunc_none r f u (findFirst_none_of_noStart r hn u h)

theorem FindAll_nil_of_noStart (r : Re) (hn : r.nonNull = true) (u : Str)
    (h : NoStart r u []) : FindAllStringSubmatch r u = [] :=
  FindAll_none r u (findFirst_none_of_noStart r hn u h)

theorem MatchString_false (r : Re) (hn : r.nonNull = true) (u : Str)
    (h : NoStart r u []) : MatchString r u = false := by
  simp [MatchString, findFirst_none_of_noStart r hn u h]

/-! ## Soundness of the abstract matcher -/

theorem CharSet.meets_of_mem (A B : CharSet) (c : Char) (hA : A.mem c = true)
    (hB : B.mem c = true) : A.meets B = true := by
  simp only [CharSet.mem, List.any_eq_true, Bool.and_eq_true, Nat.ble_eq] at hA hB
  obtain ⟨a, ha, ha1, ha2⟩ := hA
  obtain ⟨b, hb, hb1, hb2⟩ := hB
  simp only [CharSet.meets, List.any_eq_true, Bool.and_eq_true, Nat.ble_eq]
  exact ⟨a, ha, b, hb, by omega, by omega⟩

theorem CharSet.mem_of (c x : Char) : (CharSet.of [c]).mem x = true ↔ x = c := by
  simp only [CharSet.of, CharSet.mem, List.map_cons, List.map_nil, List.any_cons, List.any_nil,
    Bool.or_false, Bool.and_eq_true, Nat.ble_eq]
  constructor
  · intro ⟨h1, h2⟩
    have : x.toNat = c.toNat := by omega
    exact Char.ext (UInt32.ext (by simpa [Char.toNat] using this))
  · rintro rfl; exact ⟨le_refl _, le_refl _⟩

theorem Describes_any (s : Str) : Describes [] false s := by
  simp [Describes]

theorem amLit_sound : ∀ (w : Str) (cs : List CharSet) (closed : Bool) (s : Str),
    Describes cs closed s → w.isPrefixOf s = true →
    ∃ V, amLit w cs closed = some V ∧ Describes V.cs V.closed (s.drop w.length) := by
  intro w
  induction w with
  | nil =>
    intro cs closed s hd _
    exact ⟨⟨cs, closed⟩, by simp [amLit], by simpa using hd⟩
  | cons x w ih =>
    intro cs closed s hd hp
    cases s with
    | nil => simp [List.isPrefixOf] at hp
    | cons y s =>
      simp only [List.isPrefixOf, Bool.and_eq_true, beq_iff_eq] at hp
      obtain ⟨hxy, hp⟩ := hp
      subst hxy
      cases cs with
      | nil =>
        cases closed with
        | true => simp [Describes] at hd
        | false =>
          exact ⟨⟨[], false⟩, by simp [amLit], Describes_any _⟩
      | cons A cs =>
        simp only [Describes] at hd
        obtain ⟨c, s1, hcs, hA, hd⟩ := hd
        simp only [List.cons.injEq] at hcs
        obtain ⟨rfl, rfl⟩ := hcs
        obtain ⟨V, hV, hVd⟩ := ih cs closed s hd hp
        exact ⟨V, by simp [amLit, hA, hV], by simpa using hVd⟩

theorem amStar_sound (f : Str → Caps → Res) (F : Win → List Win)
    (hf : ∀ (W : Win) (s : Str) (c : Caps) (x : Str × Caps), Describes W.cs W.closed s →
      x ∈ f s c → ∃ V ∈ F W, Describes V.cs V.closed x.1) (g : Bool) :
    ∀ (n k : Nat) (W : Win) (s : Str) (c : Caps) (x : Str × Caps), Describes W.cs W.closed s →
      x ∈ starLoop f g n s c → ∃ V ∈ amStar F k W, Describes V.cs V.closed x.1 := by
  intro n
  induction n with
  | zero =>
    intro k W s c x hd hx
    simp [starLoop] at hx
    subst hx
    cases k <;> exact ⟨W, by simp [amStar], hd⟩
  | succ n ih =>
    intro k W s c x hd hx
    have key : x = (s, c) ∨ ∃ r1, r1 ∈ f s c ∧ x ∈ starLoop f g n r1.1 r1.2 := by
      cases g <;> simp [starLoop, List.mem_flatMap, List.mem_filter] at hx
      · rcases hx with h | ⟨a, b, ⟨h1, _⟩, h2⟩
        · exact Or.inl h
        · exact Or.inr ⟨(a, b), h1, h2⟩
      · rcases hx with ⟨a, b, ⟨h1, _⟩, h2⟩ | h
        · exact Or.inr ⟨(a, b), h1, h2⟩
        · exact Or.inl h
    rcases key with h | ⟨r1, h1, h2⟩
    · subst h
      cases k <;> exact ⟨W, by simp [amStar], hd⟩
    · cases k with
      | zero => exact ⟨⟨[], false⟩, by simp [amStar], Describes_any _⟩
      | succ k =>
        obtain ⟨V1, hV1, hd1⟩ := hf W s c r1 hd h1
        obtain ⟨V, hV, hdV⟩ := ih k V1 r1.1 r1.2 x hd1 h2
        exact ⟨V, by simp only [amStar, List.mem_cons, List.mem_flatMap]; exact Or.inr ⟨V1, hV1, hV⟩,
          hdV⟩

theorem am_sound : ∀ (r : Re) (W : Win) (s : Str) (c : Caps) (x : Str × Caps),
    Describes W.cs W.closed s → x ∈ ms r s c → ∃ V ∈ am r W, Describes V.cs V.closed x.1 := by
  intro r
  induction r with
  | lit w =>
    intro W s c x hd hx
    simp only [ms] at hx
    split at hx
    · rename_i hp
      simp at hx; subst hx
      obtain ⟨V, hV, hVd⟩ := amLit_sound w W.cs W.closed s hd hp
      exact ⟨V, by simp [am, hV], hVd⟩
    · simp at hx
  | cls B =>
    intro W s c x hd hx
    cases s with
    | nil => simp [ms] at hx
    | cons y s1 =>
      simp only [ms] at hx
      split at hx
      · rename_i hB
        simp at hx; subst hx
        obtain ⟨cs, closed⟩ := W
        cases cs with
        | nil =>
          cases closed with
          | true => simp [Describes] at hd
          | false => exact ⟨⟨[], false⟩, by simp [am], Describes_any _⟩
        | cons A cs =>
          simp only [Describes] at hd
          obtain ⟨c0, s0, hcs, hA, hd⟩ := hd
          simp only [List.cons.injEq] at hcs
          obtain ⟨rfl, rfl⟩ := hcs
          have hm := CharSet.meets_of_mem A B y hA hB
          exact ⟨⟨cs, closed⟩, by simp [am, hm], hd⟩
      · simp at hx
  | seq a b iha ihb =>
    intro W s c x hd hx
    simp only [ms, List.mem_flatMap] at hx
    obtain ⟨y, hy, hx⟩ := hx
    obtain ⟨V1, hV1, hd1⟩ := iha W s c y hd hy
    obtain ⟨V, hV, hdV⟩ := ihb V1 y.1 y.2 x hd1 hx
    exact ⟨V, by simp only [am, List.mem_flatMap]; exact ⟨V1, hV1, hV⟩, hdV⟩
  | alt a b iha ihb =>
    intro W s c x hd hx
    simp only [ms, List.mem_append] at hx
    rcases hx with h | h
    · obtain ⟨V, hV, hdV⟩ := iha W s c x hd h
      exact ⟨V, by simp [am, hV], hdV⟩
    · obtain ⟨V, hV, hdV⟩ := ihb W s c x hd h
      exact ⟨V, by simp [am, hV], hdV⟩
  | star g a ih =>
    intro W s c x hd hx
    simp only [ms] at hx
    exact amStar_sound _ _ (fun W s c x hd hx => ih W s c x hd hx) g _ _ W s c x hd hx
  | grp i a ih =>
    intro W s c x hd hx
    simp only [ms, List.mem_map] at hx
    obtain ⟨y, hy, rfl⟩ := hx
    exact ih W s c y hd hy

theorem misses_sound (r : Re) (W : Win) (s : Str) (c : Caps) (hm : r.misses W = true)
    (hd : Describes W.cs W.closed s) : ms r s c = [] := by
  cases h : ms r s c with
  | nil => rfl
  | cons x xs =>
    obtain ⟨V, hV, _⟩ := am_sound r W s c x hd (by rw [h]; exact List.mem_cons_self _ _)
    simp only [Re.misses, List.isEmpty_iff] at hm
    rw [hm] at hV
    simp at hV

theorem NoStart_of_covers (r : Re) (Ws : List Win) (u v : Str) (hc : CoversIn Ws u v)
    (hm : r.missesAll Ws = true) : NoStart r u v := by
  intro u1 u2 c he hne
  obtain ⟨W, hW, hd⟩ := hc u1 u2 he hne
  simp only [Re.missesAll, List.all_eq_true] at hm
  exact misses_sound r W _ c (hm W hW) hd

/-! ## Coverage of inputs by windows -/

theorem CoversIn.nil (Ws : List Win) (v : Str) : CoversIn Ws [] v := by
  intro u1 u2 he hne
  have : u2 = [] := by
    have := congrArg List.length he
    simp at this
    exact List.length_eq_zero.mp (by omega)
  exact absurd this hne

theorem CoversIn.append {Ws : List Win} {a b v : Str} (h1 : CoversIn Ws a (b ++ v))
    (h2 : CoversIn Ws b v) : CoversIn Ws (a ++ b) v := by
  intro u1 u2 he hne
  rcases List.append_eq_append_iff.mp he with ⟨a', ha, hb⟩ | ⟨c', hc, hu2⟩
  · exact h2 a' u2 hb hne
  · subst hu2
    by_cases hc' : c' = []
    · subst hc'
      simp only [List.nil_append] at hne ⊢
      exact h2 [] b rfl hne
    · obtain ⟨W, hW, hd⟩ := h1 u1 c' hc hc'
      exact ⟨W, hW, by simpa [List.append_assoc] using hd⟩

theorem CoversIn.mono {Ws Vs : List Win} {u v : Str} (h : CoversIn Ws u v)
    (hsub : ∀ W ∈ Ws, W ∈ Vs) : CoversIn Vs u v := by
  intro u1 u2 he hne
  obtain ⟨W, hW, hd⟩ := h u1 u2 he hne
  exact ⟨W, hsub W hW, hd⟩

theorem Describes_lit : ∀ (u : Str) (cs : List CharSet) (closed : Bool) (v : Str),
    Describes cs closed v →
    Describes (u.map (fun c => CharSet.of [c]) ++ cs) closed (u ++ v) := by
  intro u
  induction u with
  | nil => intro cs closed v h; simpa using h
  | cons x u ih =>
    intro cs closed v h
    simp only [List.map_cons, List.cons_append, Describes]
    exact ⟨x, u ++ v, rfl, (CharSet.mem_of x x).mpr rfl, ih cs closed v h⟩

theorem CoversIn.lit (look : Win) : ∀ (u v : Str), Describes look.cs look.closed v →
    CoversIn (litWins look u) u v := by
  intro u
  induction u with
  | nil => intro v _; exact CoversIn.nil _ _
  | cons x u ih =>
    intro v hd u1 u2 he hne
    cases u1 with
    | nil =>
      simp only [List.nil_append] at he
      subst he
      exact ⟨⟨(x :: u).map (fun c => CharSet.of [c]) ++ look.cs, look.closed⟩,
        by simp [litWins], Describes_lit (x :: u) look.cs look.closed v hd⟩
    | cons y u1 =>
      simp only [List.cons_append, List.cons.injEq] at he
      obtain ⟨W, hW, hd2⟩ := ih v hd u1 u2 he.2 hne
      exact ⟨W, by simp [litWins, hW], hd2⟩

theorem CoversIn.ofClass (A : CharSet) (u v : Str) (h : ∀ c ∈ u, A.mem c = true) :
    CoversIn [startsIn A] u v := by
  intro u1 u2 he hne
  refine ⟨startsIn A, by simp, ?_⟩
  cases u2 with
  | nil => exact absurd rfl hne
  | cons x u2 =>
    simp only [startsIn, List.cons_append, Describes]
    refine ⟨x, u2 ++ v, rfl, h x ?_, by simp⟩
    rw [he]; simp

/-! ## Exact results of literals and class stars -/

theorem ms_lit (w s : Str) (c : Caps) :
    ms (.lit w) s c = if w.isPrefixOf s then [(s.drop w.length, c)] else [] := rfl

theorem ms_cls_nil (A : CharSet) (c : Caps) : ms (.cls A) [] c = [] := rfl

theorem ms_cls_cons (A : CharSet) (x : Char) (s : Str) (c : Caps) :
    ms (.cls A) (x :: s) c = if A.mem x then [(s, c)] else [] := rfl

theorem ms_seq (a b : Re) (s : Str) (c : Caps) :
    ms (.seq a b) s c = (ms a s c).flatMap (fun r => ms b r.1 r.2) := rfl

theorem ms_alt (a b : Re) (s : Str) (c : Caps) :
    ms (.alt a b) s c = ms a s c ++ ms b s c := rfl

theorem ms_star (g : Bool) (a : Re) (s : Str) (c : Caps) :
    ms (.star g a) s c = starLoop (fun s1 c1 => ms a s1 c1) g s.length s c := rfl

theorem ms_grp (i : Nat) (a : Re) (s : Str) (c : Caps) :
    ms (.grp i a) s c =
      (ms a s c).map (fun r => (r.1, (i, s.take (s.length - r.1.length)) :: r.2)) := rfl

theorem starLoop_lazy_cls (A : CharSet) (c : Caps) : ∀ (s : Str) (n : Nat), s.length ≤ n →
    starLoop (fun s1 c1 => ms (.cls A) s1 c1) false n s c = lazyCuts A c s := by
  intro s
  induction s with
  | nil =>
    intro n _
    cases n <;> simp [starLoop, ms_cls_nil, lazyCuts]
  | cons x s ih =>
    intro n hn
    cases n with
    | zero => simp at hn
    | succ n =>
      simp only [List.length_cons, Nat.add_le_add_iff_right] at hn
      by_cases hA : A.mem x = true
      · simp [starLoop, ms_cls_cons, lazyCuts, hA, ih n hn]
      · simp [starLoop, ms_cls_cons, lazyCuts, hA]

theorem starLoop_greedy_cls (A : CharSet) (c : Caps) : ∀ (s : Str) (n : Nat), s.length ≤ n →
    starLoop (fun s1 c1 => ms (.cls A) s1 c1) true n s c = greedyCuts A c s := by
  intro s
  induction s with
  | nil =>
    intro n _
    cases n <;> simp [starLoop, ms_cls_nil, greedyCuts]
  | cons x s ih =>
    intro n hn
    cases n with
    | zero => simp at hn
    | succ n =>
      simp only [List.length_cons, Nat.add_le_add_iff_right] at hn
      by_cases hA : A.mem x = true
      · simp [starLoop, ms_cls_cons, greedyCuts, hA, ih n hn]
      · simp [starLoop, ms_cls_cons, greedyCuts, hA]

theorem ms_star_lazy_cls (A : CharSet) (s : Str) (c : Caps) :
    ms (.star false (.cls A)) s c = lazyCuts A c s := by
  rw [ms_star]
  exact starLoop_lazy_cls A c s _ (le_refl _)

theorem ms_star_greedy_cls (A : CharSet) (s : Str) (c : Caps) :
    ms (.star true (.cls A)) s c = greedyCuts A c s := by
  rw [ms_star]
  exact starLoop_greedy_cls A c s _ (le_refl _)

/-- A literal in front: the expression behind it reads the rest. -/
theorem ms_seq_lit (w : Str) (q : Re) (s : Str) (c : Caps) :
    ms (.seq (.lit w) q) (w ++ s) c = ms q s c := by
  have hp : w.isPrefixOf (w ++ s) = true := List.isPrefixOf_iff_prefix.mpr (List.prefix_append _ _)
  simp [ms_seq, ms_lit, hp]

/-- A literal that the input starts with. -/
theorem ms_lit_append (w : Str) (s : Str) (c : Caps) :
    ms (.lit w) (w ++ s) c = [(s, c)] := by
  have hp : w.isPrefixOf (w ++ s) = true := List.isPrefixOf_iff_prefix.mpr (List.prefix_append _ _)
  simp [ms_lit, hp]

/-- A greedy class star in front of an input that starts outside the class reads
nothing. -/
theorem ms_seq_greedy_stop (A : CharSet) (q : Re) (x : Char) (s : Str) (c : Caps)
    (h : A.mem x = false) : ms (.seq (.star true (.cls A)) q) (x :: s) c = ms q (x :: s) c := by
  rw [ms_seq, ms_star_greedy_cls]
  simp [greedyCuts, h]

theorem lazy_find_aux (A : CharSet) (i : Nat) (q : Re) (c : Caps) (v : Str) :
    ∀ (u p : Str), (∀ x ∈ u, A.mem x = true) → NoStart q u v →
      ms q v ((i, p ++ u) :: c) ≠ [] →
      (((lazyCuts A c (u ++ v)).map (fun r =>
          (r.1, (i, (p ++ u ++ v).take ((p ++ u ++ v).length - r.1.length)) :: r.2))).flatMap
        (fun r => ms q r.1 r.2)).head? = (ms q v ((i, p ++ u) :: c)).head? := by
  intro u
  induction u with
  | nil =>
    intro p _ _ hne
    simp only [List.append_nil, List.nil_append] at hne ⊢
    cases v with
    | nil =>
      simp [lazyCuts]
    | cons y v =>
      simp only [lazyCuts, List.map_cons, List.flatMap_cons]
      have e : (p ++ y :: v).take ((p ++ y :: v).length - (y :: v).length) = p := by
        simp
      rw [e]
      cases hq : ms q (y :: v) ((i, p) :: c) with
      | nil => exact absurd hq hne
      | cons a b => simp
  | cons x u ih =>
    intro p hA hns hne
    have hx : A.mem x = true := hA x (List.mem_cons_self _ _)
    have h0 : ∀ c', ms q (x :: (u ++ v)) c' = [] := fun c' => hns [] (x :: u) c' rfl (by simp)
    have e1 : (x :: u) ++ v = x :: (u ++ v) := rfl
    have e2 : p ++ x :: u ++ v = (p ++ [x]) ++ u ++ v := by simp
    have := ih (p ++ [x]) (fun y hy => hA y (List.mem_cons_of_mem _ hy)) hns.tail
      (by simpa using hne)
    rw [e1, e2]
    simp only [lazyCuts, hx, if_true, List.map_cons, List.flatMap_cons, h0, List.nil_append]
    rw [this]
    simp

/-- A lazy class star in a group, in front of `q`: the group takes the shortest text
after which `q` matches. -/
theorem ms_lazy_find (A : CharSet) (i : Nat) (q : Re) (c : Caps) (u v : Str)
    (hA : ∀ x ∈ u, A.mem x = true) (hns : NoStart q u v) (hne : ms q v ((i, u) :: c) ≠ []) :
    (ms (.seq (.grp i (.star false (.cls A))) q) (u ++ v) c).head? =
      (ms q v ((i, u) :: c)).head? := by
  have := lazy_find_aux A i q c v u [] hA hns (by simpa using hne)
  simp only [List.nil_append] at this
  rw [← this, ms_seq, ms_grp, ms_star_lazy_cls]

/-- The ungrouped form of `ms_lazy_find`. -/
theorem ms_lazy_find_plain (A : CharSet) (q : Re) (c : Caps) (v : Str) :
    ∀ (u : Str), (∀ x ∈ u, A.mem x = true) → NoStart q u v → ms q v c ≠ [] →
    (ms (.seq (.star false (.cls A)) q) (u ++ v) c).head? = (ms q v c).head? := by
  intro u
  rw [ms_seq, ms_star_lazy_cls]
  induction u with
  | nil =>
    intro _ _ hne
    cases v with
    | nil => simp [lazyCuts]
    | cons y v =>
      simp only [List.nil_append, lazyCuts, List.flatMap_cons]
      cases hq : ms q (y :: v) c with
      | nil => exact absurd hq hne
      | cons a b => simp
  | cons x u ih =>
    intro hA hns hne
    have hx : A.mem x = true := hA x (List.mem_cons_self _ _)
    have h0 : ∀ c', ms q (x :: (u ++ v)) c' = [] := fun c' => hns [] (x :: u) c' rfl (by simp)
    have e1 : (x :: u) ++ v = x :: (u ++ v) := rfl
    have := ih (fun y hy => hA y (List.mem_cons_of_mem _ hy)) hns.tail hne
    rw [e1]
    simp only [lazyCuts, hx, if_true, List.flatMap_cons, h0, List.nil_append]
    exact this

/-! ## Derived forms -/

theorem seqs_cons2 (a b : Re) (rest : List Re) :
    seqs (a :: b :: rest) = .seq a (seqs (b :: rest)) := rfl

theorem seqs_one (a : Re) : seqs [a] = a := rfl

/-! ## Expressions whose tail matches nowhere -/

theorem ms_tail_witness : ∀ (r q : Re), q ∈ r.tails → ∀ (s : Str) (c : Caps), ms r s c ≠ [] →
    ∃ u1 u2 c', s = u1 ++ u2 ∧ ms q u2 c' ≠ [] := by
  intro r
  induction r with
  | seq a b iha ihb =>
    intro q hq s c hne
    simp only [Re.tails, List.mem_cons] at hq
    rcases hq with rfl | hq
    · exact ⟨[], s, c, rfl, hne⟩
    · rw [ms_seq] at hne
      obtain ⟨x, hx⟩ := List.exists_mem_of_ne_nil _ hne
      simp only [List.mem_flatMap] at hx
      obtain ⟨y, hy, hx⟩ := hx
      obtain ⟨u1, u2, c', hs, hq2⟩ := ihb q hq y.1 y.2 (List.ne_nil_of_mem hx)
      obtain ⟨t, ht⟩ := ms_suffix a s c y hy
      exact ⟨t ++ u1, u2, c', by rw [← ht, hs]; simp, hq2⟩
  | lit w =>
    intro q hq s c hne
    simp only [Re.tails, List.mem_singleton] at hq
    subst hq; exact ⟨[], s, c, rfl, hne⟩
  | cls A =>
    intro q hq s c hne
    simp only [Re.tails, List.mem_singleton] at hq
    subst hq; exact ⟨[], s, c, rfl, hne⟩
  | alt a b _ _ =>
    intro q hq s c hne
    simp only [Re.tails, List.mem_singleton] at hq
    subst hq; exact ⟨[], s, c, rfl, hne⟩
  | star g a _ =>
    intro q hq s c hne
    simp only [Re.tails, List.mem_singleton] at hq
    subst hq; exact ⟨[], s, c, rfl, hne⟩
  | grp i a _ =>
    intro q hq s c hne
    simp only [Re.tails, List.mem_singleton] at hq
    subst hq; exact ⟨[], s, c, rfl, hne⟩

/-- An input covered by windows that some tail of the expression misses holds no match
of the expression. -/
theorem NoStart_of_absent (r : Re) (Ws : List Win) (u : Str) (hc : CoversIn Ws u [])
    (ha : r.absent Ws = true) : NoStart r u [] := by
  simp only [Re.absent, List.any_eq_true, Bool.and_eq_true] at ha
  obtain ⟨q, hq, hn, hm⟩ := ha
  have hq0 := NoStart_of_covers q Ws u [] hc hm
  intro u1 u2 c he hne
  by_contra hcon
  obtain ⟨v1, v2, c', hs, hq2⟩ := ms_tail_witness r q hq (u2 ++ []) c hcon
  by_cases hv : v2 = []
  · subst hv
    exact hq2 (ms_nil_of_nonNull q hn c')
  · have := hq0 (u1 ++ v1) v2 c' (by rw [he]; simp at hs; rw [hs]; simp) hv
    simp only [List.append_nil] at this
    exact hq2 this

theorem absent_nonNull (r : Re) (Ws : List Win) (ha : r.absent Ws = true) :
    ∀ c, ms r [] c = [] := by
  intro c
  simp only [Re.absent, List.any_eq_true, Bool.and_eq_true] at ha
  obtain ⟨q, hq, hn, hm⟩ := ha
  by_contra hcon
  obtain ⟨v1, v2, c', hs, hq2⟩ := ms_tail_witness r q hq [] c hcon
  have : v2 = [] := by
    have := congrArg List.length hs
    simp at this
    exact List.length_eq_zero.mp (by omega)
  subst this
  exact hq2 (ms_nil_of_nonNull q hn c')

theorem findFirst_none_of_absent (r : Re) (Ws : List Win) (u : Str) (hc : CoversIn Ws u [])
    (ha : r.absent Ws = true) : findFirst r u = none := by
  have h := findFirst_skip r u [] (NoStart_of_absent r Ws u hc ha)
  simp only [List.append_nil] at h
  rw [h]
  have h0 : findFirst r [] = none := by
    simp only [findFirst, matchAt_none]
    exact absent_nonNull r Ws ha []
  simp [h0]

/-- No match, no change: `ReplaceAllString`. -/
theorem ReplaceAllString_absent (r : Re) (Ws : List Win) (u : Str) (t : List Tpl)
    (hc : CoversIn Ws u []) (ha : r.absent Ws = true) : ReplaceAllString r u t = u :=
  ReplaceAllString_none r t u (findFirst_none_of_absent r Ws u hc ha)

/-- No match, no change: `ReplaceAllStringFunc`. -/
theorem ReplaceAllStringFunc_absent (r : Re) (Ws : List Win) (u : Str) (f : Str → Str)
    (hc : CoversIn Ws u []) (ha : r.absent Ws = true) : ReplaceAllStringFunc r u f = u :=
  ReplaceAllStringFunc_none r f u (findFirst_none_of_absent r Ws u hc ha)

theorem MatchString_absent (r : Re) (Ws : List Win) (u : Str)
    (hc : CoversIn Ws u []) (ha : r.absent Ws = true) : MatchString r u = false := by
  simp [MatchString, findFirst_none_of_absent r Ws u hc ha]

theorem FindAll_absent (r : Re) (Ws : List Win) (u : Str)
    (hc : CoversIn Ws u []) (ha : r.absent Ws = true) : FindAllStringSubmatch r u = [] :=
  FindAll_none r u (findFirst_none_of_absent r Ws u hc ha)

/-! ## The string helpers -/

theorem Contains_false_of_noStart (sub : Str) (hsub : sub ≠ []) :
    ∀ (s : Str), NoStart (.lit sub) s [] → Contains s sub = false := by
  intro s
  induction s with
  | nil =>
    intro _
    cases sub with
    | nil => exact absurd rfl hsub
    | cons a b => simp [Contains, List.isPrefixOf]
  | cons x s ih =>
    intro h
    have h0 := h [] (x :: s) [] rfl (by simp)
    simp only [List.nil_append, List.append_nil, ms_lit] at h0
    have hp : sub.isPrefixOf (x :: s) = false := by
      cases hq : sub.isPrefixOf (x :: s) with
      | false => rfl
      | true => simp [hq] at h0
    simp only [Contains, hp, Bool.false_or]
    exact ih h.tail

theorem Contains_absent (sub : Str) (Ws : List Win) (s : Str) (hc : CoversIn Ws s [])
    (ha : (Re.lit sub).absent Ws = true) : Contains s sub = false := by
  have hne : sub ≠ [] := by
    intro h; subst h
    simp [Re.absent, Re.tails, Re.nonNull] at ha
  exact Contains_false_of_noStart sub hne s (NoStart_of_absent _ Ws s hc ha)

theorem dropWhile_id_of_head {p : Char → Bool} : ∀ (s : Str),
    (∀ x, s.head? = some x → p x = false) → s.dropWhile p = s := by
  intro s h
  cases s with
  | nil => rfl
  | cons x s => simp [List.dropWhile, h x rfl]

/-- `TrimSpace` leaves a text that neither starts nor ends with white space. -/
theorem TrimSpace_id (s : Str) (h1 : ∀ x, s.head? = some x → goSpace.mem x = false)
    (h2 : ∀ x, s.getLast? = some x → goSpace.mem x = false) : TrimSpace s = s := by
  unfold TrimSpace
  rw [dropWhile_id_of_head s h1, dropWhile_id_of_head s.reverse (by simpa using h2)]
  simp

/-- `TrimSpace` removes white space around a text that neither starts nor ends with
white space. -/
theorem TrimSpace_strip (a s b : Str) (ha : ∀ x ∈ a, goSpace.mem x = true)
    (hb : ∀ x ∈ b, goSpace.mem x = true)
    (h1 : ∀ x, s.head? = some x → goSpace.mem x = false)
    (h2 : ∀ x, s.getLast? = some x → goSpace.mem x = false) (hs : s ≠ []) :
    TrimSpace (a ++ s ++ b) = s := by
  unfold TrimSpace
  have e1 : (a ++ s ++ b).dropWhile goSpace.mem = s ++ b := by
    rw [List.append_assoc, List.dropWhile_append_of_pos ha]
    obtain ⟨x, t, rfl⟩ := List.exists_cons_of_ne_nil hs
    simp [List.dropWhile, h1 x rfl]
  rw [e1, List.reverse_append, List.dropWhile_append_of_pos (by simpa using hb)]
  rw [dropWhile_id_of_head s.reverse (by simpa using h2)]
  simp

theorem unescapeLoop_id : ∀ (s : Str) (n : Nat), '&' ∉ s → unescapeLoop n s = s := by
  intro s
  induction s with
  | nil => intro n _; cases n <;> rfl
  | cons x s ih =>
    intro n h
    cases n with
    | zero => rfl
    | succ n =>
      simp only [List.mem_cons, not_or] at h
      have hx : x ≠ '&' := fun e => h.1 e.symm
      simp [unescapeLoop, hx, ih n h.2]

/-- `html.UnescapeString` leaves a text without `&` unchanged. -/
theorem UnescapeString_id (s : Str) (h : '&' ∉ s) : UnescapeString s = s :=
  unescapeLoop_id s _ h

/-! ## Decimal numbers -/

theorem itoa_eq (n : Nat) : itoa n = Nat.toDigits 10 n := rfl

theorem digitChar_digit : ∀ k, k < 10 → digits.mem (Nat.digitChar k) = true := by
  decide

theorem toDigitsCore_digits : ∀ (fuel n : Nat) (ds : List Char),
    (∀ c ∈ ds, digits.mem c = true) →
    ∀ c ∈ Nat.toDigitsCore 10 fuel n ds, digits.mem c = true := by
  intro fuel
  induction fuel with
  | zero => intro n ds h; simpa [Nat.toDigitsCore] using h
  | succ fuel ih =>
    intro n ds h
    have hd : digits.mem (Nat.digitChar (n % 10)) = true :=
      digitChar_digit _ (Nat.mod_lt _ (by decide))
    simp only [Nat.toDigitsCore]
    split
    · intro c hc
      simp only [List.mem_cons] at hc
      rcases hc with rfl | hc
      · exact hd
      · exact h c hc
    · apply ih
      intro c hc
      simp only [List.mem_cons] at hc
      rcases hc with rfl | hc
      · exact hd
      · exact h c hc

theorem toDigitsCore_ne_nil : ∀ (fuel n : Nat) (ds : List Char),
    ds ≠ [] ∨ 0 < fuel → Nat.toDigitsCore 10 fuel n ds ≠ [] := by
  intro fuel
  induction fuel with
  | zero =>
    intro n ds h
    rcases h with h | h
    · simpa [Nat.toDigitsCore] using h
    · omega
  | succ fuel ih =>
    intro n ds _
    simp only [Nat.toDigitsCore]
    split
    · simp
    · exact ih _ _ (Or.inl (by simp))

/-- The decimal form of a number is made of digits. -/
theorem itoa_digits (n : Nat) : ∀ c ∈ itoa n, digits.mem c = true := by
  rw [itoa_eq]
  exact toDigitsCore_digits _ _ [] (by simp)

/-- The decimal form of a number is not empty. -/
theorem itoa_ne_nil (n : Nat) : itoa n ≠ [] := by
  rw [itoa_eq]
  exact toDigitsCore_ne_nil _ _ [] (Or.inr (by omega))

/-! ## Character classes -/

theorem CharSet.ne_of_mem (A : CharSet) (c x : Char) (hc : A.mem c = true)
    (hx : A.mem x = false) : c ≠ x := by
  rintro rfl
  rw [hc] at hx
  exact Bool.noConfusion hx

theorem CharSet.mem_append (A B : CharSet) (c : Char) :
    (A ++ B).mem c = (A.mem c || B.mem c) := by
  simp [CharSet.mem, List.any_append]

/-- Membership in a class that contains another one. -/
theorem CharSet.mem_mono (A B : CharSet) (h : ∀ iv ∈ A, ∃ jv ∈ B, jv.1 ≤ iv.1 ∧ iv.2 ≤ jv.2)
    (c : Char) (hc : A.mem c = true) : B.mem c = true := by
  simp only [CharSet.mem, List.any_eq_true, Bool.and_eq_true, Nat.ble_eq] at hc ⊢
  obtain ⟨iv, hiv, h1, h2⟩ := hc
  obtain ⟨jv, hjv, h3, h4⟩ := h iv hiv
  exact ⟨jv, hjv, by omega, by omega⟩

/-! ## Plain texts -/

/-- The characters of a plain text: letters, digits and the space. -/
theorem plainRest_chars : ∀ (s : Str), plainRest s = true →
    ∀ c ∈ s, (alnum ++ CharSet.of [' ']).mem c = true := by
  intro s
  induction s using plainRest.induct with
  | case1 => intro _ c hc; simp at hc
  | case2 x =>
    intro hp c hc
    simp only [plainRest] at hp
    simp only [List.mem_singleton] at hc
    subst hc
    simp [CharSet.mem_append, hp]
  | case3 x d s hx ih =>
    intro hp c hc
    simp only [plainRest, hx, if_true] at hp
    simp only [List.mem_cons] at hc
    rcases hc with rfl | hc
    · simp [CharSet.mem_append, hx]
    · exact ih hp c (by simpa using hc)
  | case4 x d s hx ih =>
    intro hp c hc
    simp only [plainRest, hx, Bool.false_eq_true, if_false, Bool.and_eq_true, beq_iff_eq] at hp
    obtain ⟨⟨hsp, hd⟩, hp⟩ := hp
    simp only [List.mem_cons] at hc
    rcases hc with rfl | rfl | hc
    · subst hsp; decide
    · simp [CharSet.mem_append, hd]
    · exact ih hp c hc

theorem Describes_startsIn (A : CharSet) (x : Char) (s : Str) (h : A.mem x = true) :
    Describes (startsIn A).cs (startsIn A).closed (x :: s) := by
  simp only [startsIn, Describes]
  exact ⟨x, s, rfl, h, by simp⟩

theorem CoversIn.cons {Ws : List Win} {x : Char} {u v : Str}
    (h0 : ∃ W ∈ Ws, Describes W.cs W.closed (x :: (u ++ v))) (h : CoversIn Ws u v) :
    CoversIn Ws (x :: u) v := by
  intro u1 u2 he hne
  cases u1 with
  | nil =>
    simp only [List.nil_append] at he
    subst he
    exact h0
  | cons y u1 =>
    simp only [List.cons_append, List.cons.injEq] at he
    exact h u1 u2 he.2 hne

theorem plainRest_covers (v : Str) : ∀ (s : Str), plainRest s = true →
    CoversIn plainWins s v := by
  intro s
  induction s using plainRest.induct with
  | case1 => intro _; exact CoversIn.nil _ _
  | case2 x =>
    intro hp
    simp only [plainRest] at hp
    exact CoversIn.cons ⟨startsIn alnum, by simp [plainWins], Describes_startsIn _ _ _ hp⟩
      (CoversIn.nil _ _)
  | case3 x d s hx ih =>
    intro hp
    simp only [plainRest, hx, if_true] at hp
    exact CoversIn.cons ⟨startsIn alnum, by simp [plainWins], Describes_startsIn _ _ _ hx⟩ (ih hp)
  | case4 x d s hx ih =>
    intro hp
    simp only [plainRest, hx, Bool.false_eq_true, if_false, Bool.and_eq_true, beq_iff_eq] at hp
    obtain ⟨⟨hsp, hd⟩, hp⟩ := hp
    refine CoversIn.cons ⟨⟨[CharSet.of [' '], alnum], false⟩, by simp [plainWins], ?_⟩
      (CoversIn.cons ⟨startsIn alnum, by simp [plainWins], Describes_startsIn _ _ _ hd⟩ (ih hp))
    simp only [List.cons_append, Describes]
    exact ⟨x, d :: (s ++ v), rfl, (CharSet.mem_of ' ' x).mpr hsp, d, s ++ v, rfl, hd, by simp⟩

theorem plainRest_last : ∀ (s : Str), plainRest s = true →
    ∀ x, s.getLast? = some x → alnum.mem x = true := by
  intro s
  induction s using plainRest.induct with
  | case1 => intro _ x hx; simp at hx
  | case2 y =>
    intro hp x hx
    simp only [plainRest] at hp
    simp at hx; subst hx; exact hp
  | case3 y d s hy ih =>
    intro hp x hx
    simp only [plainRest, hy, if_true] at hp
    rw [List.getLast?_cons_cons] at hx
    exact ih hp x hx
  | case4 y d s hy ih =>
    intro hp x hx
    simp only [plainRest, hy, Bool.false_eq_true, if_false, Bool.and_eq_true, beq_iff_eq] at hp
    obtain ⟨⟨hsp, hd⟩, hp⟩ := hp
    rw [List.getLast?_cons_cons] at hx
    cases s with
    | nil => simp at hx; subst hx; exact hd
    | cons e s2 =>
      rw [List.getLast?_cons_cons] at hx
      exact ih hp x hx

theorem plainRest_of_isPlainText (t : Str) (h : isPlainText t = true) : plainRest t = true := by
  cases t with
  | nil => simp [isPlainText] at h
  | cons a s =>
    simp only [isPlainText, Bool.and_eq_true] at h
    cases s with
    | nil => simpa [plainRest] using h.1
    | cons d s => simpa [plainRest, h.1] using h.2

/-- The facts about a plain text that the proofs use. -/
theorem isPlainText_facts (t : Str) (h : isPlainText t = true) :
    t ≠ [] ∧ (∀ x, t.head? = some x → alnum.mem x = true) ∧
    (∀ x, t.getLast? = some x → alnum.mem x = true) ∧
    (∀ c ∈ t, (alnum ++ CharSet.of [' ']).mem c = true) ∧
    (∀ v, CoversIn plainWins t v) := by
  have hp := plainRest_of_isPlainText t h
  refine ⟨?_, ?_, plainRest_last _ hp, plainRest_chars _ hp, fun v => plainRest_covers v _ hp⟩
  · rintro rfl; simp [isPlainText] at h
  · intro x hx
    cases t with
    | nil => simp at hx
    | cons a s =>
      simp only [isPlainText, Bool.and_eq_true] at h
      simp at hx; subst hx; exact h.1

/-! ## Lemmas about the pipeline -/

/-! ## More on character classes -/

theorem Char.toNat_le_max (c : Char) : c.toNat ≤ 1114111 := by
  have h := c.valid
  simp only [UInt32.isValidChar, Nat.isValidChar] at h
  simp only [Char.toNat]
  omega

theorem Char.eq_of_toNat_eq (c x : Char) (h : c.toNat = x.toNat) : c = x :=
  Char.ext (UInt32.ext (by simpa [Char.toNat] using h))

/-- Membership in the complement of a single character. -/
theorem CharSet.mem_compl_one (x c : Char) :
    (CharSet.compl (CharSet.of [x])).mem c = true ↔ c ≠ x := by
  have hc := Char.toNat_le_max c
  have hx := Char.toNat_le_max x
  have hne : c ≠ x ↔ c.toNat ≠ x.toNat :=
    ⟨fun h e => h (Char.eq_of_toNat_eq c x e), fun h e => h (by rw [e])⟩
  rw [hne]
  simp only [CharSet.compl, CharSet.of, List.map_cons, List.map_nil, CharSet.gaps]
  by_cases h0 : 0 < x.toNat
  · by_cases h1 : x.toNat + 1 ≤ 1114111
    · simp [CharSet.mem, h0, h1, Nat.blt_eq]
      omega
    · simp [CharSet.mem, h0, h1, Nat.blt_eq]
      omega
  · by_cases h1 : x.toNat + 1 ≤ 1114111
    · simp [CharSet.mem, h0, h1, Nat.blt_eq]
      omega
    · simp [CharSet.mem, h0, h1, Nat.blt_eq]
      omega

theorem notLt_covers (s : Str) (h : '<' ∉ s) : CoversIn [startsIn notLt] s [] := by
  apply CoversIn.ofClass
  intro c hc
  rw [notLt, CharSet.mem_compl_one]
  rintro rfl
  exact h hc

theorem CharSet.not_mem_of_disjoint (A B : CharSet) (h : A.meets B = false) (c : Char)
    (hA : A.mem c = true) : B.mem c = false := by
  cases hB : B.mem c with
  | false => rfl
  | true => rw [CharSet.meets_of_mem A B c hA hB] at h; exact Bool.noConfusion h

/-! ## Elements `<name>text</name>` -/

theorem reElem_eq (name : String) : reElem name = elemRe dot name.data := rfl

theorem reElemS_eq (name : String) : reElemS name = elemRe anyChar name.data := rfl

theorem ms_closeTag (name rest : Str) (c : Caps) :
    ms (closeTag name) ("</".data ++ (name ++ (">".data ++ rest))) c = [(rest, c)] := by
  unfold closeTag
  rw [ms_seq_lit, ms_seq_lit, ms_lit_append]

/-- An element without attributes whose text holds no closing tag of its own is matched
as a whole, with its text as submatch 1. -/
theorem ms_elem_head (A : CharSet) (name u rest : Str) (hA : ∀ x ∈ u, A.mem x = true)
    (hns : NoStart (closeTag name) u ("</".data ++ (name ++ (">".data ++ rest)))) :
    (ms (elemRe A name)
      ("<".data ++ (name ++ (">".data ++ (u ++ ("</".data ++ (name ++ (">".data ++ rest))))))) []).head?
      = some (rest, [(1, u)]) := by
  unfold elemRe
  rw [ms_seq_lit, ms_seq_lit]
  have hgt : notGt.mem '>' = false := by decide
  have e : ">".data ++ (u ++ ("</".data ++ (name ++ (">".data ++ rest)))) =
      '>' :: (u ++ ("</".data ++ (name ++ (">".data ++ rest)))) := rfl
  rw [e, ms_seq_greedy_stop notGt _ '>' _ [] hgt, ← e, ms_seq_lit]
  rw [ms_lazy_find A 1 (closeTag name) [] u _ hA hns (by rw [ms_closeTag]; simp)]
  rw [ms_closeTag]
  rfl

/-! ## Flat lists of plain items -/

theorem liItems_cons (t : Str) (ts : List Str) :
    liItems (t :: ts) = "<li>".data ++ (t ++ ("</li>".data ++ liItems ts)) := by
  simp [liItems]

theorem Describes_ltWin_cons (s : Str) : Describes ltWin.cs ltWin.closed ('<' :: s) :=
  Describes_startsIn _ _ _ (by decide)

theorem Describes_lt_items (ts : List Str) (v : Str) (hv : Describes ltWin.cs ltWin.closed v) :
    Describes ltWin.cs ltWin.closed (liItems ts ++ v) := by
  cases ts with
  | nil => simpa [liItems] using hv
  | cons t ts =>
    rw [liItems_cons]
    exact Describes_ltWin_cons _

theorem Describes_alnum_plain (t v : Str) (ht : isPlainText t = true) :
    Describes (startsIn alnum).cs (startsIn alnum).closed (t ++ v) := by
  obtain ⟨hne, hh, _⟩ := isPlainText_facts t ht
  obtain ⟨x, s, rfl⟩ := List.exists_cons_of_ne_nil hne
  exact Describes_startsIn _ _ _ (hh x rfl)

theorem liItems_covers : ∀ (ts : List Str) (v : Str), (∀ t ∈ ts, isPlainText t = true) →
    Describes ltWin.cs ltWin.closed v → CoversIn itemWins (liItems ts) v := by
  intro ts
  induction ts with
  | nil => intro v _ _; exact CoversIn.nil _ _
  | cons t ts ih =>
    intro v hts hv
    have ht := hts t (List.mem_cons_self _ _)
    have hts' : ∀ t ∈ ts, isPlainText t = true := fun t h => hts t (List.mem_cons_of_mem _ h)
    rw [liItems_cons]
    refine CoversIn.append ?_ (CoversIn.append ?_ (CoversIn.append ?_ (ih v hts' hv)))
    · refine (CoversIn.lit (startsIn alnum) _ _ ?_).mono (by intro W hW; simp [itemWins, hW])
      simpa [List.append_assoc] using Describes_alnum_plain t _ ht
    · exact ((isPlainText_facts t ht).2.2.2.2 _).mono (by intro W hW; simp [itemWins, hW])
    · exact (CoversIn.lit ltWin _ _ (Describes_lt_items ts v hv)).mono
        (by intro W hW; simp [itemWins, hW])

/-- A flat list with plain item texts is covered by its windows. -/
theorem list_covers (name : String) (ts : List Str) (hts : ∀ t ∈ ts, isPlainText t = true) :
    CoversIn (listWins name) ("<".data ++ name.data ++ ">".data ++
      (liItems ts ++ ("</".data ++ name.data ++ ">".data))) [] := by
  refine CoversIn.append ?_ (CoversIn.append ?_ ?_)
  · refine (CoversIn.lit ltWin _ _ ?_).mono
      (fun W hW => List.mem_append_left _ (List.mem_append_left _ hW))
    simp only [List.append_nil]
    exact Describes_lt_items ts _ (Describes_ltWin_cons _)
  · refine (liItems_covers ts _ hts ?_).mono
      (fun W hW => List.mem_append_left _ (List.mem_append_right _ hW))
    simp only [List.append_nil]
    exact Describes_ltWin_cons _
  · refine (CoversIn.lit endWin _ _ ?_).mono (fun W hW => List.mem_append_right _ hW)
    simp [endWin, Describes]

/-- Cleaning a plain text changes nothing. -/
theorem plain_clean (t : Str) (ht : isPlainText t = true) :
    stripTags t = t ∧ UnescapeString t = t ∧ TrimSpace t = t := by
  obtain ⟨hne, hh, hl, hc, hcov⟩ := isPlainText_facts t ht
  refine ⟨?_, ?_, ?_⟩
  · exact ReplaceAllString_absent reTag plainWins t [] (hcov []) (by decide)
  · apply UnescapeString_id
    intro h
    have := hc _ h
    revert this
    decide
  · apply TrimSpace_id
    · intro x hx
      exact CharSet.not_mem_of_disjoint alnum goSpace (by decide) x (hh x hx)
    · intro x hx
      exact CharSet.not_mem_of_disjoint alnum goSpace (by decide) x (hl x hx)

theorem cleanText_plain (t : Str) (ht : isPlainText t = true) : cleanText t = t := by
  obtain ⟨h1, h2, h3⟩ := plain_clean t ht
  simp [cleanText, h1, h2, h3]

theorem cleanTextTrimFirst_plain (t : Str) (ht : isPlainText t = true) :
    cleanTextTrimFirst t = t := by
  obtain ⟨h1, h2, h3⟩ := plain_clean t ht
  simp [cleanTextTrimFirst, h1, h2, h3]

theorem plain_dot (t : Str) (ht : isPlainText t = true) : ∀ x ∈ t, dot.mem x = true := by
  intro x hx
  have := (isPlainText_facts t ht).2.2.2.1 x hx
  exact CharSet.mem_mono _ _ (by decide) x this

/-- The items of a run of plain items, as `FindAllStringSubmatch` finds them. -/
theorem FindAll_items : ∀ (ts : List Str) (v : Str), (∀ t ∈ ts, isPlainText t = true) →
    FindAllStringSubmatch (reElem "li") (liItems ts ++ v) =
      ts.map itemSubs ++ FindAllStringSubmatch (reElem "li") v := by
  intro ts
  induction ts with
  | nil => intro v _; simp [liItems]
  | cons t ts ih =>
    intro v hts
    have ht := hts t (List.mem_cons_self _ _)
    have hts' : ∀ t ∈ ts, isPlainText t = true := fun t h => hts t (List.mem_cons_of_mem _ h)
    have hns : NoStart (closeTag "li".data) t
        ("</".data ++ ("li".data ++ (">".data ++ (liItems ts ++ v)))) :=
      NoStart_of_covers _ plainWins _ _ ((isPlainText_facts t ht).2.2.2.2 _) (by decide)
    have hm := ms_elem_head dot "li".data t (liItems ts ++ v) (plain_dot t ht) hns
    have e : liItems (t :: ts) ++ v =
        ("<li>".data ++ t ++ "</li>".data) ++ (liItems ts ++ v) := by
      simp [liItems]
    have e2 : ("<li>".data ++ t ++ "</li>".data) ++ (liItems ts ++ v) =
        "<".data ++ ("li".data ++ (">".data ++ (t ++ ("</".data ++ ("li".data ++
          (">".data ++ (liItems ts ++ v))))))) := by
      simp
    rw [e, reElem_eq]
    rw [FindAll_here _ (by decide) _ _ [(1, t)] (by rw [e2]; exact hm)]
    rw [← reElem_eq, ih v hts']
    simp [itemSubs]

/-! ## Lines of text -/

theorem Join_newline : ∀ (ls : List Str), Join ls "\n".data = joinLines ls := by
  intro ls
  induction ls using joinLines.induct with
  | case1 => rfl
  | case2 l => simp [Join, joinLines, List.intercalate, List.intersperse]
  | case3 l m ls ih =>
    simp only [Join, List.intercalate, List.intersperse, List.join_cons] at ih ⊢
    rw [joinLines, ← ih]

/-- Lines each followed by a newline. -/
theorem flatMap_lines (ls : List Str) (h : ls ≠ []) :
    ls.flatMap (fun l => l ++ "\n".data) = joinLines ls ++ "\n".data := by
  induction ls using joinLines.induct with
  | case1 => exact absurd rfl h
  | case2 l => simp [joinLines]
  | case3 l m ls ih =>
    rw [List.flatMap_cons, ih (by simp), joinLines]
    simp

theorem olItemsMd_items : ∀ (ts : List Str) (i : Nat), (∀ t ∈ ts, isPlainText t = true) →
    olItemsMd i (ts.map itemSubs) = (numberedLines i ts).flatMap (fun l => l ++ "\n".data) := by
  intro ts
  induction ts with
  | nil => intro i _; rfl
  | cons t ts ih =>
    intro i hts
    have ht := hts t (List.mem_cons_self _ _)
    have hts' : ∀ t ∈ ts, isPlainText t = true := fun t h => hts t (List.mem_cons_of_mem _ h)
    have hc : getCap (itemSubs t) 1 = t := by simp [getCap, itemSubs, List.lookup]
    simp only [List.map_cons, olItemsMd, numberedLines, List.flatMap_cons, hc,
      cleanText_plain t ht, ih (i + 1) hts', List.append_assoc]

theorem Describes_digits_line (i : Nat) (t v : Str) :
    Describes (startsIn digits).cs (startsIn digits).closed (itoa (i + 1) ++ v) := by
  obtain ⟨x, s, hs⟩ := List.exists_cons_of_ne_nil (itoa_ne_nil (i + 1))
  rw [hs]
  exact Describes_startsIn _ _ _ (itoa_digits (i + 1) x (by rw [hs]; simp))

theorem line_covers (i : Nat) (t v : Str) (ht : isPlainText t = true) :
    CoversIn lineWins (itoa (i + 1) ++ ". ".data ++ t) v := by
  rw [List.append_assoc]
  refine CoversIn.append ?_ (CoversIn.append ?_ ?_)
  · exact (CoversIn.ofClass digits _ _ (itoa_digits (i + 1))).mono
      (by intro W hW; simp only [List.mem_singleton] at hW; subst hW; simp [lineWins])
  · refine (CoversIn.lit (startsIn alnum) _ _ (Describes_alnum_plain t v ht)).mono ?_
    intro W hW
    exact List.mem_append_left _ (List.mem_append_left _ (List.mem_append_left _
      (List.mem_append_right _ hW)))
  · refine ((isPlainText_facts t ht).2.2.2.2 v).mono ?_
    intro W hW
    exact List.mem_append_left _ (List.mem_append_left _ (List.mem_append_right _ hW))

theorem numbered_covers : ∀ (ts : List Str) (i : Nat) (v : Str),
    (∀ t ∈ ts, isPlainText t = true) → CoversIn lineWins (joinLines (numberedLines i ts)) v := by
  intro ts
  induction ts with
  | nil => intro i v _; exact CoversIn.nil _ _
  | cons t ts ih =>
    intro i v hts
    have ht := hts t (List.mem_cons_self _ _)
    have hts' : ∀ t ∈ ts, isPlainText t = true := fun t h => hts t (List.mem_cons_of_mem _ h)
    cases ts with
    | nil => simpa [numberedLines, joinLines] using line_covers i t v ht
    | cons t2 ts =>
      simp only [numberedLines, joinLines]
      refine CoversIn.append (line_covers i t _ ht) (CoversIn.append ?_ ?_)
      · refine (CoversIn.lit (startsIn digits) _ _ ?_).mono ?_
        · have := ih (i + 1) v hts'
          cases ts with
          | nil =>
            simp only [numberedLines, joinLines, List.append_assoc]
            exact Describes_digits_line _ t2 _
          | cons t3 ts =>
            simp only [numberedLines, joinLines, List.append_assoc]
            exact Describes_digits_line _ t2 _
        · intro W hW
          exact List.mem_append_left _ (List.mem_append_right _ hW)
      · have := ih (i + 1) v hts'
        simpa [numberedLines] using this

/-! ## Stages that change nothing -/

/-- `SanitizeWordPressContent` changes nothing in an input that holds no match of its
patterns and no white space at its ends. -/
theorem Sanitize_id (Ws : List Win) (s : Str) (hc : CoversIn Ws s [])
    (ha : sanitizeRes.all (fun r => r.absent Ws) = true) (ht : TrimSpace s = s) :
    SanitizeWordPressContent s = s := by
  simp only [sanitizeRes, List.all_cons, List.all_nil, Bool.and_true, Bool.and_eq_true] at ha
  obtain ⟨h1, h2, h3, h4, h5, h6, h7⟩ := ha
  simp only [SanitizeWordPressContent, removeGutenbergComments, cleanWhitespace,
    removeEmptyParagraphs, ReplaceAllString_absent _ Ws s _ hc h1,
    ReplaceAllString_absent _ Ws s _ hc h2, ReplaceAllString_absent _ Ws s _ hc h3,
    ReplaceAllString_absent _ Ws s _ hc h4, ReplaceAllString_absent _ Ws s _ hc h5, ht,
    ReplaceAllString_absent _ Ws s _ hc h6, ReplaceAllString_absent _ Ws s _ hc h7]

/-- `ConvertToMarkdown` on the legacy path, as the composition of its stages. -/
theorem ConvertToMarkdown_legacy (content : Str) (h : hasNestedList content = false) :
    ConvertToMarkdown content =
      markdownFinish (markdownRules (convertUnorderedLists (convertOrderedLists
        (SanitizeWordPressContent content)))) := by
  unfold ConvertToMarkdown
  rw [h]
  rfl

theorem markdownRules_id (s : Str) (hc : CoversIn [startsIn notLt] s []) :
    markdownRules s = s := by
  unfold markdownRules
  simp only [wrapElem, convertHeading, convertTables, stripTags]
  simp (disch := first | assumption | decide) only [ReplaceAllString_absent,
    ReplaceAllStringFunc_absent]

theorem convertUnorderedLists_id (s : Str) (hc : CoversIn [startsIn notLt] s []) :
    convertUnorderedLists s = s := by
  unfold convertUnorderedLists
  simp (disch := first | assumption | decide) only [ReplaceAllString_absent,
    ReplaceAllStringFunc_absent]

/-- The end of `ConvertToMarkdown` on a text without entities and without matches of
the cleanup patterns, surrounded by white space `a` and `b`: only the white space around
the text is removed. -/
theorem markdownFinish_strip (Ws : List Win) (a s b : Str) (hamp : '&' ∉ a ++ s ++ b)
    (hc : CoversIn Ws (a ++ s ++ b) []) (hc2 : CoversIn Ws s [])
    (hq : finishRes.all (fun r => r.absent Ws) = true)
    (ha : ∀ x ∈ a, goSpace.mem x = true) (hb : ∀ x ∈ b, goSpace.mem x = true)
    (h1 : ∀ x, s.head? = some x → goSpace.mem x = false)
    (h2 : ∀ x, s.getLast? = some x → goSpace.mem x = false) (hs : s ≠ []) :
    markdownFinish (a ++ s ++ b) = s := by
  simp only [finishRes, List.all_cons, List.all_nil, Bool.and_true, Bool.and_eq_true] at hq
  obtain ⟨q1, q2, q3, q4⟩ := hq
  simp only [markdownFinish, cleanWhitespace, UnescapeString_id _ hamp,
    ReplaceAllString_absent _ Ws _ _ hc q1, ReplaceAllString_absent _ Ws _ _ hc q2,
    ReplaceAllString_absent _ Ws _ _ hc q3, TrimSpace_strip a s b ha hb h1 h2 hs,
    ReplaceAllString_absent _ Ws _ _ hc2 q1, ReplaceAllString_absent _ Ws _ _ hc2 q4,
    TrimSpace_id s h1 h2]

/-! ## Ordered lists in Markdown -/

theorem olHtml_form (ts : List Str) :
    olHtml ts = "<".data ++ "ol".data ++ ">".data ++
      (liItems ts ++ ("</".data ++ "ol".data ++ ">".data)) := by
  simp [olHtml]

theorem liItems_dot : ∀ (ts : List Str), (∀ t ∈ ts, isPlainText t = true) →
    ∀ x ∈ liItems ts, dot.mem x = true := by
  intro ts
  induction ts with
  | nil => intro _ x hx; simp [liItems] at hx
  | cons t ts ih =>
    intro hts x hx
    have ht := hts t (List.mem_cons_self _ _)
    rw [liItems_cons] at hx
    simp only [List.mem_append] at hx
    rcases hx with h | h | h | h
    · revert x; decide
    · exact plain_dot t ht x h
    · revert x; decide
    · exact ih (fun t h => hts t (List.mem_cons_of_mem _ h)) x h

theorem head_getLast_of_wrap (a : Char) (u : Str) (b : Char) :
    (a :: (u ++ [b])).head? = some a ∧ (a :: (u ++ [b])).getLast? = some b := by
  refine ⟨rfl, ?_⟩
  rw [← List.cons_append, List.getLast?_append]
  simp

theorem convertOrderedLists_flat (ts : List Str) (hts : ∀ t ∈ ts, isPlainText t = true) :
    convertOrderedLists (olHtml ts) =
      "\n".data ++ (numberedLines 0 ts).flatMap (fun l => l ++ "\n".data) ++ "\n".data := by
  have hns : NoStart (closeTag "ol".data) (liItems ts) ("</".data ++ ("ol".data ++ (">".data ++ []))) :=
    NoStart_of_covers _ itemWins _ _ (liItems_covers ts _ hts (Describes_ltWin_cons _))
      (by decide)
  have hm := ms_elem_head dot "ol".data (liItems ts) [] (liItems_dot ts hts) hns
  have e : olHtml ts = "<".data ++ ("ol".data ++ (">".data ++ (liItems ts ++
      ("</".data ++ ("ol".data ++ (">".data ++ [])))))) := by
    simp [olHtml]
  have hf : FindAllStringSubmatch (reElem "li") (olHtml ts) = ts.map itemSubs := by
    have e3 : olHtml ts = "<ol>".data ++ (liItems ts ++ "</ol>".data) := by simp [olHtml]
    rw [e3, FindAll_skip _ (by decide) _ _
      (NoStart_of_covers _ (litWins ltWin "<ol>".data) _ _
        (CoversIn.lit ltWin _ _ (Describes_lt_items ts _ (Describes_ltWin_cons _))) (by decide)),
      FindAll_items ts _ hts]
    have : FindAllStringSubmatch (reElem "li") "</ol>".data = [] := by decide
    rw [this]
    simp
  unfold convertOrderedLists
  have hw : olHtml ts = olHtml ts ++ [] := by simp
  rw [hw, reElem_eq, ReplaceAllStringFunc_here _ (by decide) _ (olHtml ts) [] [(1, liItems ts)]
    (by rw [List.append_nil, e]; exact hm)]
  rw [← reElem_eq, hf, olItemsMd_items ts 0 hts]
  have : ReplaceAllStringFunc (reElem "ol") [] (fun m =>
      "\n".data ++ olItemsMd 0 (FindAllStringSubmatch (reElem "li") m) ++ "\n".data) = [] := by
    apply ReplaceAllStringFunc_none
    decide
  rw [this]
  simp

theorem getLast?_append_ne (a b : Str) (hb : b ≠ []) : (a ++ b).getLast? = b.getLast? := by
  rw [List.getLast?_append]
  obtain ⟨x, hx⟩ : ∃ x, b.getLast? = some x := by
    cases h : b.getLast? with
    | none => exact absurd (List.getLast?_eq_none_iff.mp h) hb
    | some x => exact ⟨x, rfl⟩
  simp [hx]

theorem numbered_ne_nil (ts : List Str) (i : Nat) (hne : ts ≠ []) :
    numberedLines i ts ≠ [] := by
  cases ts with
  | nil => exact absurd rfl hne
  | cons t ts => simp [numberedLines]

theorem numbered_last : ∀ (ts : List Str) (i : Nat), ts ≠ [] →
    (∀ t ∈ ts, isPlainText t = true) →
    joinLines (numberedLines i ts) ≠ [] ∧
    ∀ x, (joinLines (numberedLines i ts)).getLast? = some x → alnum.mem x = true := by
  intro ts
  induction ts with
  | nil => intro i h; exact absurd rfl h
  | cons t ts ih =>
    intro i _ hts
    have ht := hts t (List.mem_cons_self _ _)
    obtain ⟨hne, _, hl, _⟩ := isPlainText_facts t ht
    cases ts with
    | nil =>
      simp only [numberedLines, joinLines]
      refine ⟨by simp [hne], ?_⟩
      rw [getLast?_append_ne _ t hne]
      exact hl
    | cons t2 ts =>
      obtain ⟨h1, h2⟩ := ih (i + 1) (by simp) (fun t h => hts t (List.mem_cons_of_mem _ h))
      simp only [numberedLines, joinLines] at h1 h2 ⊢
      refine ⟨by simp [hne], ?_⟩
      rw [getLast?_append_ne _ _ (by simp), getLast?_append_ne _ _ h1]
      exact h2

theorem numbered_head (ts : List Str) (i : Nat) (hne : ts ≠ []) :
    ∀ x, (joinLines (numberedLines i ts)).head? = some x → digits.mem x = true := by
  obtain ⟨y, s, hs⟩ := List.exists_cons_of_ne_nil (itoa_ne_nil (i + 1))
  have hy : digits.mem y = true := itoa_digits (i + 1) y (by rw [hs]; simp)
  cases ts with
  | nil => exact absurd rfl hne
  | cons t ts =>
    cases ts with
    | nil =>
      simp only [numberedLines, joinLines, hs, List.cons_append, List.head?_cons]
      intro x hx
      simp at hx; subst hx; exact hy
    | cons t2 ts =>
      simp only [numberedLines, joinLines, hs, List.cons_append, List.head?_cons]
      intro x hx
      simp at hx; subst hx; exact hy

theorem line_chars (i : Nat) (t : Str) (ht : isPlainText t = true) :
    ∀ c ∈ itoa (i + 1) ++ ". ".data ++ t, lineChars.mem c = true := by
  intro c hc
  simp only [List.mem_append] at hc
  rcases hc with (h | h) | h
  · exact CharSet.mem_mono digits lineChars (by decide) c (itoa_digits _ c h)
  · revert c; decide
  · exact CharSet.mem_mono _ lineChars (by decide) c ((isPlainText_facts t ht).2.2.2.1 c h)

theorem numbered_chars : ∀ (ts : List Str) (i : Nat), (∀ t ∈ ts, isPlainText t = true) →
    ∀ c ∈ joinLines (numberedLines i ts), lineChars.mem c = true := by
  intro ts
  induction ts with
  | nil => intro i _ c hc; simp [numberedLines, joinLines] at hc
  | cons t ts ih =>
    intro i hts c hc
    have ht := hts t (List.mem_cons_self _ _)
    have hrec := ih (i + 1) (fun t h => hts t (List.mem_cons_of_mem _ h))
    cases ts with
    | nil =>
      simp only [numberedLines, joinLines] at hc
      exact line_chars i t ht c hc
    | cons t2 ts =>
      simp only [numberedLines, joinLines] at hc hrec
      rcases List.mem_append.mp hc with h | h
      · exact line_chars i t ht c h
      · rcases List.mem_append.mp h with h | h
        · exact (by decide : ∀ c ∈ "\n".data, lineChars.mem c = true) c h
        · exact hrec c h

/-! ## Unordered lists in plain text -/

/-- `ConvertToPlainText` on the legacy path, as the composition of its stages. -/
theorem ConvertToPlainText_legacy (content : Str) (h : hasNestedList content = false) :
    ConvertToPlainText content =
      cleanWhitespace (UnescapeString (stripTags (ReplaceAllString rePClose
        (ReplaceAllString reBrWs (convertUnorderedListsToPlainText
          (convertOrderedListsToPlainText (SanitizeWordPressContent content))) [T "\n"])
        [T "\n\n"]))) := by
  unfold ConvertToPlainText
  rw [h]
  rfl

/-- An input in two parts: no match starts in the first part, and the second part holds
no match: the whole input holds no match. -/
theorem findFirst_none_split (r : Re) (Ws : List Win) (a b : Str) (h1 : NoStart r a b)
    (hc : CoversIn Ws b []) (ha : r.absent Ws = true) : findFirst r (a ++ b) = none := by
  rw [findFirst_skip r a b h1, findFirst_none_of_absent r Ws b hc ha]
  rfl

theorem ulHtml_form (ts : List Str) :
    ulHtml ts = "<".data ++ "ul".data ++ ">".data ++
      (liItems ts ++ ("</".data ++ "ul".data ++ ">".data)) := by
  simp [ulHtml]

theorem listTail_covers (name : String) (ts : List Str)
    (hts : ∀ t ∈ ts, isPlainText t = true) :
    CoversIn (listTailWins name) (liItems ts ++ ("</".data ++ name.data ++ ">".data)) [] := by
  refine CoversIn.append ?_ ?_
  · refine (liItems_covers ts _ hts ?_).mono (fun W hW => List.mem_append_left _ hW)
    simp only [List.append_nil]
    exact Describes_ltWin_cons _
  · refine (CoversIn.lit endWin _ _ ?_).mono (fun W hW => List.mem_append_right _ hW)
    simp [endWin, Describes]

/-- In a flat unordered list no pattern that needs a list tag behind an item tag
matches. -/
theorem ul_no_nested (r : Re) (ts : List Str) (hts : ∀ t ∈ ts, isPlainText t = true)
    (h1 : r.missesAll (litWins ltWin "<ul>".data) = true)
    (h2 : r.absent (listTailWins "ul") = true) : findFirst r (ulHtml ts) = none := by
  have e : ulHtml ts = "<ul>".data ++ (liItems ts ++ ("</".data ++ "ul".data ++ ">".data)) := by
    simp [ulHtml]
  rw [e]
  refine findFirst_none_split r (listTailWins "ul") _ _ ?_ (listTail_covers "ul" ts hts) h2
  refine NoStart_of_covers r _ _ _ (CoversIn.lit ltWin _ _ ?_) h1
  exact Describes_lt_items ts _ (Describes_ltWin_cons _)

theorem FindAll_items_ul (ts : List Str) (hts : ∀ t ∈ ts, isPlainText t = true) :
    FindAllStringSubmatch (reElem "li") (ulHtml ts) = ts.map itemSubs := by
  have e3 : ulHtml ts = "<ul>".data ++ (liItems ts ++ "</ul>".data) := by simp [ulHtml]
  rw [e3, FindAll_skip _ (by decide) _ _
    (NoStart_of_covers _ (litWins ltWin "<ul>".data) _ _
      (CoversIn.lit ltWin _ _ (Describes_lt_items ts _ (Describes_ltWin_cons _))) (by decide)),
    FindAll_items ts _ hts]
  have : FindAllStringSubmatch (reElem "li") "</ul>".data = [] := by decide
  rw [this]
  simp

theorem legacyItems_plain (label : Nat → Str) (sub : Nat → Nat → Str) (trimFirst : Bool) :
    ∀ (ts : List Str) (i : Nat), (∀ t ∈ ts, isPlainText t = true) →
    legacyItems "ul" label sub trimFirst i (ts.map itemSubs) =
      (ts.enumFrom i).flatMap (fun p => label p.1 ++ p.2 ++ "\n".data) := by
  intro ts
  induction ts with
  | nil => intro i _; rfl
  | cons t ts ih =>
    intro i hts
    have ht := hts t (List.mem_cons_self _ _)
    have hts' : ∀ t ∈ ts, isPlainText t = true := fun t h => hts t (List.mem_cons_of_mem _ h)
    have hc : getCap (itemSubs t) 1 = t := by simp [getCap, itemSubs, List.lookup]
    have hno : Contains t ("<".data ++ "ul".data ++ ">".data) = false :=
      Contains_absent _ plainWins t ((isPlainText_facts t ht).2.2.2.2 []) (by decide)
    simp only [List.map_cons, legacyItems, List.enumFrom_cons, List.flatMap_cons, hc, legacyItem,
      hno, Bool.false_eq_true, if_false, cleanText_plain t ht, cleanTextTrimFirst_plain t ht,
      ih (i + 1) hts']
    cases trimFirst <;> simp

theorem bullet_lines (ts : List Str) (i : Nat) :
    (ts.enumFrom i).flatMap (fun p => bulletLabel p.1 ++ p.2 ++ "\n".data) =
      (bulletLines ts).flatMap (fun l => l ++ "\n".data) := by
  induction ts generalizing i with
  | nil => rfl
  | cons t ts ih =>
    have := ih (i + 1)
    simp only [bulletLines, bulletLabel] at this
    simp only [List.enumFrom_cons, List.flatMap_cons, bulletLines, List.map_cons, bulletLabel,
      this]

theorem convertUnorderedListsToPlainText_flat (ts : List Str)
    (hts : ∀ t ∈ ts, isPlainText t = true) :
    convertUnorderedListsToPlainText (ulHtml ts) =
      (bulletLines ts).flatMap (fun l => l ++ "\n".data) := by
  have hns : NoStart (closeTag "ul".data) (liItems ts) ("</".data ++ ("ul".data ++ (">".data ++ []))) :=
    NoStart_of_covers _ itemWins _ _ (liItems_covers ts _ hts (Describes_ltWin_cons _))
      (by decide)
  have hm := ms_elem_head dot "ul".data (liItems ts) [] (liItems_dot ts hts) hns
  have e : ulHtml ts = "<".data ++ ("ul".data ++ (">".data ++ (liItems ts ++
      ("</".data ++ ("ul".data ++ (">".data ++ [])))))) := by
    simp [ulHtml]
  unfold convertUnorderedListsToPlainText
  rw [ReplaceAllString_none _ _ _ (ul_no_nested _ ts hts (by decide) (by decide))]
  have hw : ulHtml ts = ulHtml ts ++ [] := by simp
  rw [hw, reElem_eq, ReplaceAllStringFunc_here _ (by decide) _ (ulHtml ts) [] [(1, liItems ts)]
    (by rw [List.append_nil, e]; exact hm)]
  rw [← reElem_eq, FindAll_items_ul ts hts, legacyItems_plain _ _ _ ts 0 hts, bullet_lines]
  have : ReplaceAllStringFunc (reElem "ul") [] (fun m =>
      legacyItems "ul" bulletLabel (fun _ _ => "  • ".data) true 0
        (FindAllStringSubmatch (reElem "li") m)) = [] := by
    apply ReplaceAllStringFunc_none
    decide
  rw [this]
  simp

theorem bullet_covers : ∀ (ts : List Str) (v : Str),
    (∀ t ∈ ts, isPlainText t = true) → CoversIn bulletWins (joinLines (bulletLines ts)) v := by
  intro ts
  induction ts with
  | nil => intro v _; exact CoversIn.nil _ _
  | cons t ts ih =>
    intro v hts
    have ht := hts t (List.mem_cons_self _ _)
    have hts' : ∀ t ∈ ts, isPlainText t = true := fun t h => hts t (List.mem_cons_of_mem _ h)
    have hline : ∀ w, CoversIn bulletWins ("• ".data ++ t) w := by
      intro w
      refine CoversIn.append ?_ ?_
      · exact (CoversIn.lit (startsIn alnum) _ _ (Describes_alnum_plain t w ht)).mono
          (fun W hW => List.mem_append_left _ (List.mem_append_left _
            (List.mem_append_left _ hW)))
      · exact ((isPlainText_facts t ht).2.2.2.2 w).mono
          (fun W hW => List.mem_append_left _ (List.mem_append_left _
            (List.mem_append_right _ hW)))
    cases ts with
    | nil => simpa [bulletLines, joinLines] using hline v
    | cons t2 ts =>
      simp only [bulletLines, List.map_cons, joinLines]
      refine CoversIn.append (hline _) (CoversIn.append ?_ ?_)
      · refine (CoversIn.lit (startsIn (CharSet.of ['•'])) _ _ ?_).mono
          (fun W hW => List.mem_append_left _ (List.mem_append_right _ hW))
        cases ts with
        | nil =>
          simp only [List.map_nil, joinLines, List.append_assoc]
          exact Describes_startsIn _ _ _ (by decide)
        | cons t3 ts =>
          simp only [List.map_cons, joinLines, List.append_assoc]
          exact Describes_startsIn _ _ _ (by decide)
      · have := ih v hts'
        simpa [bulletLines] using this

theorem bullet_facts : ∀ (ts : List Str), ts ≠ [] → (∀ t ∈ ts, isPlainText t = true) →
    joinLines (bulletLines ts) ≠ [] ∧
    (joinLines (bulletLines ts)).head? = some '•' ∧
    (∀ x, (joinLines (bulletLines ts)).getLast? = some x → alnum.mem x = true) ∧
    (∀ c ∈ joinLines (bulletLines ts), lineChars.mem c = true) := by
  intro ts
  induction ts with
  | nil => intro h; exact absurd rfl h
  | cons t ts ih =>
    intro _ hts
    have ht := hts t (List.mem_cons_self _ _)
    obtain ⟨hne, _, hl, hch, _⟩ := isPlainText_facts t ht
    have hline : ∀ c ∈ "• ".data ++ t, lineChars.mem c = true := by
      intro c hc
      rcases List.mem_append.mp hc with h | h
      · exact (by decide : ∀ c ∈ "• ".data, lineChars.mem c = true) c h
      · exact CharSet.mem_mono _ lineChars (by decide) c (hch c h)
    cases ts with
    | nil =>
      simp only [bulletLines, List.map_cons, List.map_nil, joinLines]
      refine ⟨by simp, rfl, ?_, hline⟩
      rw [getLast?_append_ne _ t hne]
      exact hl
    | cons t2 ts =>
      obtain ⟨h1, _, h3, h4⟩ := ih (by simp) (fun t h => hts t (List.mem_cons_of_mem _ h))
      simp only [bulletLines, List.map_cons, joinLines] at h1 h3 h4 ⊢
      refine ⟨by simp, rfl, ?_, ?_⟩
      · rw [getLast?_append_ne _ _ (by simp), getLast?_append_ne _ _ h1]
        exact h3
      · intro c hc
        rcases List.mem_append.mp hc with h | h
        · exact hline c h
        · rcases List.mem_append.mp h with h | h
          · exact (by decide : ∀ c ∈ "\n".data, lineChars.mem c = true) c h
          · exact h4 c h

/-- `cleanWhitespace` on a text without matches of its patterns, surrounded by white
space `a` and `b`: only the white space around the text is removed. -/
theorem cleanWhitespace_strip (Ws : List Win) (a s b : Str)
    (hc : CoversIn Ws (a ++ s ++ b) [])
    (hq : cleanRes.all (fun r => r.absent Ws) = true)
    (ha : ∀ x ∈ a, goSpace.mem x = true) (hb : ∀ x ∈ b, goSpace.mem x = true)
    (h1 : ∀ x, s.head? = some x → goSpace.mem x = false)
    (h2 : ∀ x, s.getLast? = some x → goSpace.mem x = false) (hs : s ≠ []) :
    cleanWhitespace (a ++ s ++ b) = s := by
  simp only [cleanRes, List.all_cons, List.all_nil, Bool.and_true, Bool.and_eq_true] at hq
  obtain ⟨q1, q2, q3⟩ := hq
  simp only [cleanWhitespace, ReplaceAllString_absent _ Ws _ _ hc q1,
    ReplaceAllString_absent _ Ws _ _ hc q2, ReplaceAllString_absent _ Ws _ _ hc q3,
    TrimSpace_strip a s b ha hb h1 h2 hs]

theorem TrimSpace_list (name : String) (ts : List Str) :
    TrimSpace ("<".data ++ name.data ++ ">".data ++
      (liItems ts ++ ("</".data ++ name.data ++ ">".data))) =
    "<".data ++ name.data ++ ">".data ++ (liItems ts ++ ("</".data ++ name.data ++ ">".data)) := by
  have e : "<".data ++ name.data ++ ">".data ++
      (liItems ts ++ ("</".data ++ name.data ++ ">".data)) =
      '<' :: ((name.data ++ ">".data ++ liItems ts ++ "</".data ++ name.data) ++ ['>']) := by
    simp
  obtain ⟨h1, h2⟩ := head_getLast_of_wrap '<'
    (name.data ++ ">".data ++ liItems ts ++ "</".data ++ name.data) '>'
  rw [← e] at h1 h2
  apply TrimSpace_id
  · intro x hx; rw [h1] at hx; simp at hx; subst hx; decide
  · intro x hx; rw [h2] at hx; simp at hx; subst hx; decide

/-! ## Headings in Markdown -/

theorem headingHtml_form (n : Nat) (t : Str) :
    headingHtml n t = elemHtml ('h' :: itoa n) t := by
  simp [headingHtml, elemHtml]

theorem elem_covers (name t : Str) (ht : isPlainText t = true) :
    CoversIn (elemWins name) (elemHtml name t) [] := by
  have e : elemHtml name t =
      ("<".data ++ name ++ ">".data) ++ (t ++ ("</".data ++ name ++ ">".data)) := by
    simp [elemHtml]
  rw [e]
  refine CoversIn.append ?_ (CoversIn.append ?_ ?_)
  · refine (CoversIn.lit (startsIn alnum) _ _ ?_).mono
      (fun W hW => List.mem_append_left _ (List.mem_append_left _ hW))
    simpa [List.append_assoc] using Describes_alnum_plain t _ ht
  · exact ((isPlainText_facts t ht).2.2.2.2 _).mono
      (fun W hW => List.mem_append_left _ (List.mem_append_right _ hW))
  · exact (CoversIn.lit endWin _ _ (by simp [endWin, Describes])).mono
      (fun W hW => List.mem_append_right _ hW)

theorem TrimSpace_elem (name t : Str) : TrimSpace (elemHtml name t) = elemHtml name t := by
  have e : elemHtml name t =
      '<' :: ((name ++ ">".data ++ t ++ "</".data ++ name) ++ ['>']) := by
    simp [elemHtml]
  obtain ⟨h1, h2⟩ := head_getLast_of_wrap '<' (name ++ ">".data ++ t ++ "</".data ++ name) '>'
  rw [← e] at h1 h2
  apply TrimSpace_id
  · intro x hx; rw [h1] at hx; simp at hx; subst hx; decide
  · intro x hx; rw [h2] at hx; simp at hx; subst hx; decide

/-- A heading rule whose pattern matches nowhere changes nothing. -/
theorem convertHeading_absent (k : Nat) (Ws : List Win) (s : Str) (hc : CoversIn Ws s [])
    (ha : (reElemS (String.mk ('h' :: itoa k))).absent Ws = true) : convertHeading k s = s :=
  ReplaceAllString_absent _ Ws s _ hc ha

/-- An element rule whose pattern matches nowhere changes nothing. -/
theorem wrapElem_absent (name opening closing : String) (Ws : List Win) (s : Str)
    (hc : CoversIn Ws s []) (ha : (reElemS name).absent Ws = true) :
    wrapElem name opening closing s = s :=
  ReplaceAllString_absent _ Ws s _ hc ha

theorem convertTables_absent (Ws : List Win) (s : Str)
    (hc : CoversIn Ws s []) (ha : (reElem "table").absent Ws = true) : convertTables s = s :=
  ReplaceAllStringFunc_absent _ Ws s _ hc ha

theorem stripTags_absent (Ws : List Win) (s : Str)
    (hc : CoversIn Ws s []) (ha : reTag.absent Ws = true) : stripTags s = s :=
  ReplaceAllString_absent _ Ws s _ hc ha

theorem ReplaceAllString_nil (r : Re) (hn : r.nonNull = true) (t : List Tpl) :
    ReplaceAllString r [] t = [] := by
  apply ReplaceAllString_none
  simp only [findFirst, matchAt_none]
  exact ms_nil_of_nonNull r hn []

/-- The heading rule of level `n` on the heading element of level `n`. -/
theorem convertHeading_match (n : Nat) (h1 : 1 ≤ n) (h6 : n ≤ 6) (t : Str)
    (ht : isPlainText t = true) :
    convertHeading n (elemHtml ('h' :: itoa n) t) =
      "\n".data ++ headingLine n t ++ "\n\n".data := by
  have hany : ∀ x ∈ t, anyChar.mem x = true := by
    intro x hx
    exact CharSet.mem_mono _ anyChar (by decide) x ((isPlainText_facts t ht).2.2.2.1 x hx)
  have hmiss : (closeTag ('h' :: itoa n)).missesAll plainWins = true := by
    interval_cases n <;> decide
  have hnn : (elemRe anyChar ('h' :: itoa n)).nonNull = true := by
    interval_cases n <;> decide
  have hns : NoStart (closeTag ('h' :: itoa n)) t
      ("</".data ++ (('h' :: itoa n) ++ (">".data ++ []))) :=
    NoStart_of_covers _ plainWins _ _ ((isPlainText_facts t ht).2.2.2.2 _) hmiss
  have hm := ms_elem_head anyChar ('h' :: itoa n) t [] hany hns
  unfold convertHeading
  have hw : elemHtml ('h' :: itoa n) t = elemHtml ('h' :: itoa n) t ++ [] := by simp
  rw [hw, reElemS_eq, ReplaceAllString_here _ hnn _ _ [] [(1, t)]
    (by rw [List.append_nil]; exact hm), ReplaceAllString_nil _ hnn]
  simp [expand, getCap, T, headingLine, List.lookup]

theorem headingLine_covers (n : Nat) (t v : Str) (ht : isPlainText t = true) :
    CoversIn (headWins n) (headingLine n t) v := by
  unfold headingLine
  refine CoversIn.append ?_ ?_
  · exact (CoversIn.lit (startsIn alnum) _ _ (Describes_alnum_plain t v ht)).mono
      (fun W hW => List.mem_append_left _ (List.mem_append_left _ (List.mem_append_left _ hW)))
  · exact ((isPlainText_facts t ht).2.2.2.2 v).mono
      (fun W hW => List.mem_append_left _ (List.mem_append_left _ (List.mem_append_right _ hW)))

theorem headingLine_facts (n : Nat) (h1 : 1 ≤ n) (t : Str) (ht : isPlainText t = true) :
    headingLine n t ≠ [] ∧ (headingLine n t).head? = some '#' ∧
    (∀ x, (headingLine n t).getLast? = some x → alnum.mem x = true) ∧
    (∀ c ∈ headingLine n t, (alnum ++ CharSet.of [' ', '#']).mem c = true) := by
  obtain ⟨hne, _, hl, hch, _⟩ := isPlainText_facts t ht
  obtain ⟨k, rfl⟩ : ∃ k, n = k + 1 := ⟨n - 1, by omega⟩
  refine ⟨by simp [headingLine], by simp [headingLine, List.replicate_succ], ?_, ?_⟩
  · rw [headingLine, getLast?_append_ne _ t hne]
    exact hl
  · intro c hc
    simp only [headingLine, List.mem_append, List.mem_replicate] at hc
    rcases hc with (h | h) | h
    · rw [h.2]; decide
    · exact (by decide : ∀ c ∈ " ".data, (alnum ++ CharSet.of [' ', '#']).mem c = true) c h
    · exact CharSet.mem_mono _ _ (by decide) c (hch c h)

/-- An input without `<ul` is not routed to the nested-list converters. -/
theorem hasNestedList_absent (Ws : List Win) (s : Str) (hc : CoversIn Ws s [])
    (ha : (Re.lit "<ul".data).absent Ws = true) : hasNestedList s = false := by
  unfold hasNestedList
  rw [Contains_absent "<ul".data Ws s hc ha]
  rfl

/-! ## Emphasis in Markdown -/

theorem Describes_litWin (w v : Str) : Describes (litWin w).cs (litWin w).closed (w ++ v) := by
  have := Describes_lit w [] false v (Describes_any v)
  simpa [litWin] using this

theorem Describes_exactWin (w : Str) : Describes (exactWin w).cs (exactWin w).closed w := by
  have := Describes_lit w [] true [] (by simp [Describes])
  simpa [exactWin] using this

theorem Describes_space_plain (t v : Str) (ht : isPlainText t = true) :
    Describes [CharSet.of [' '], alnum] false (" ".data ++ t ++ v) := by
  obtain ⟨hne, hh, _⟩ := isPlainText_facts t ht
  obtain ⟨x, s, rfl⟩ := List.exists_cons_of_ne_nil hne
  simp only [Describes]
  exact ⟨' ', x :: s ++ v, rfl, by decide, x, s ++ v, rfl, hh x rfl, by simp⟩

/-- The part `<p>lead` of the paragraph is covered by its windows. -/
theorem paraPre_covers (name : Str) (lead : Option Str) (v : Str)
    (hl : ∀ t ∈ lead, isPlainText t = true) :
    CoversIn (paraPreWins name) ("<p>".data ++ leadOf lead) ("<".data ++ name ++ ">".data ++ v) := by
  cases lead with
  | none =>
    simp only [leadOf, List.append_nil]
    exact (CoversIn.lit (litWin ("<".data ++ name ++ ">".data)) _ _ (Describes_litWin _ v)).mono
      (fun W hW => List.mem_append_left _ (List.mem_append_left _ (List.mem_append_right _ hW)))
  | some t =>
    have ht := hl t rfl
    simp only [leadOf]
    refine CoversIn.append ?_ (CoversIn.append ?_ ?_)
    · refine (CoversIn.lit (startsIn alnum) _ _ ?_).mono
        (fun W hW => List.mem_append_left _ (List.mem_append_left _ (List.mem_append_left _ hW)))
      simpa [List.append_assoc] using Describes_alnum_plain t _ ht
    · exact ((isPlainText_facts t ht).2.2.2.2 _).mono
        (fun W hW => List.mem_append_left _ (List.mem_append_right _ hW))
    · exact (CoversIn.lit (litWin ("<".data ++ name ++ ">".data)) _ _
        (Describes_litWin _ v)).mono (fun W hW => List.mem_append_right _ hW)

/-- The part ` trail</p>` of the paragraph is covered by its windows. -/
theorem paraPost_covers (trail : Option Str) (ht : ∀ t ∈ trail, isPlainText t = true) :
    CoversIn paraPostWins (trailOf trail ++ "</p>".data) [] := by
  have hend : CoversIn paraPostWins "</p>".data [] :=
    (CoversIn.lit endWin _ _ (by simp [endWin, Describes])).mono
      (fun W hW => List.mem_append_right _ hW)
  cases trail with
  | none => simpa [trailOf] using hend
  | some t =>
    have h := ht t rfl
    simp only [trailOf]
    rw [List.append_assoc]
    refine CoversIn.append ?_ (CoversIn.append ?_ hend)
    · refine (CoversIn.lit (startsIn alnum) _ _ ?_).mono
        (fun W hW => List.mem_append_left _ (List.mem_append_left _ hW))
      simpa [List.append_assoc] using Describes_alnum_plain t _ h
    · exact ((isPlainText_facts t h).2.2.2.2 _).mono
        (fun W hW => List.mem_append_left _ (List.mem_append_right _ hW))

/-- The element inside the paragraph is covered by its windows. -/
theorem paraElem_covers (name x : Str) (trail : Option Str) (hx : isPlainText x = true)
    (ht : ∀ t ∈ trail, isPlainText t = true) :
    CoversIn (paraElemWins name)
      ("<".data ++ name ++ ">".data ++ (x ++ ("</".data ++ name ++ ">".data)))
      (trailOf trail ++ "</p>".data) := by
  refine CoversIn.append ?_ (CoversIn.append ?_ ?_)
  · refine (CoversIn.lit (startsIn alnum) _ _ ?_).mono
      (fun W hW => List.mem_append_left _ (List.mem_append_left _ (List.mem_append_left _ hW)))
    simpa [List.append_assoc] using Describes_alnum_plain x _ hx
  · exact ((isPlainText_facts x hx).2.2.2.2 _).mono
      (fun W hW => List.mem_append_left _ (List.mem_append_left _ (List.mem_append_right _ hW)))
  · cases trail with
    | none =>
      refine (CoversIn.lit (exactWin "</p>".data) _ _ ?_).mono
        (fun W hW => List.mem_append_right _ hW)
      simpa [trailOf] using Describes_exactWin "</p>".data
    | some t =>
      refine (CoversIn.lit ⟨[CharSet.of [' '], alnum], false⟩ _ _ ?_).mono
        (fun W hW => List.mem_append_left _ (List.mem_append_right _ hW))
      simpa [trailOf, List.append_assoc] using Describes_space_plain t "</p>".data (ht t rfl)

theorem plainRest_of_all : ∀ (s : Str), s.all alnum.mem = true → plainRest s = true := by
  intro s
  induction s with
  | nil => intro _; rfl
  | cons c s ih =>
    intro h
    simp only [List.all_cons, Bool.and_eq_true] at h
    cases s with
    | nil => simpa [plainRest] using h.1
    | cons d s => simp only [plainRest, h.1, if_true]; exact ih h.2

/-- A word is a plain text. -/
theorem isPlainText_of_isWord (x : Str) (h : isWord x = true) : isPlainText x = true := by
  cases x with
  | nil => simp [isWord] at h
  | cons c s =>
    simp only [isWord, List.all_cons, Bool.and_eq_true] at h
    simp only [isPlainText, Bool.and_eq_true]
    exact ⟨h.2.1, plainRest_of_all s h.2.2⟩

/-- The whole paragraph is covered by its windows. -/
theorem para_covers (name : String) (lead : Option Str) (x : Str) (trail : Option Str)
    (hx : isPlainText x = true) (hl : ∀ t ∈ lead, isPlainText t = true)
    (ht : ∀ t ∈ trail, isPlainText t = true) :
    CoversIn (paraWins name.data) (emphasisPara name lead x trail) [] := by
  have e : emphasisPara name lead x trail =
      ("<p>".data ++ leadOf lead) ++ (("<".data ++ name.data ++ ">".data ++
        (x ++ ("</".data ++ name.data ++ ">".data))) ++ (trailOf trail ++ "</p>".data)) := by
    simp only [emphasisPara, List.append_assoc]
  rw [e]
  refine CoversIn.append ?_ (CoversIn.append ?_ ?_)
  · have h := paraPre_covers name.data lead
      (x ++ ("</".data ++ name.data ++ ">".data) ++ (trailOf trail ++ "</p>".data ++ [])) hl
    simp only [List.append_assoc] at h ⊢
    exact h.mono (fun W hW => List.mem_append_left _ (List.mem_append_left _ hW))
  · have h := paraElem_covers name.data x trail hx ht
    simp only [List.append_assoc, List.append_nil] at h ⊢
    exact h.mono (fun W hW => List.mem_append_left _ (List.mem_append_right _ hW))
  · exact (paraPost_covers trail ht).mono (fun W hW => List.mem_append_right _ hW)

theorem TrimSpace_para (name : String) (lead : Option Str) (x : Str) (trail : Option Str) :
    TrimSpace (emphasisPara name lead x trail) = emphasisPara name lead x trail := by
  apply TrimSpace_id
  · intro c hc
    simp [emphasisPara] at hc
    subst hc; decide
  · intro c hc
    rw [emphasisPara, getLast?_append_ne _ _ (by decide)] at hc
    simp at hc
    subst hc; decide

/-- The rule of an emphasis tag on the paragraph: the element becomes the marked word. -/
theorem wrapElem_para (name marker : String) (lead : Option Str) (x : Str)
    (trail : Option Str) (hx : isPlainText x = true) (hl : ∀ t ∈ lead, isPlainText t = true)
    (ht : ∀ t ∈ trail, isPlainText t = true)
    (hclose : (closeTag name.data).missesAll plainWins = true)
    (hpre : (elemRe anyChar name.data).missesAll (paraPreWins name.data) = true)
    (hpost : (elemRe anyChar name.data).absent paraPostWins = true) :
    wrapElem name marker marker (emphasisPara name lead x trail) =
      elemHtml "p".data (emphasisMd marker lead x trail) := by
  have hany : ∀ c ∈ x, anyChar.mem c = true := by
    intro c hc
    exact CharSet.mem_mono _ anyChar (by decide) c ((isPlainText_facts x hx).2.2.2.1 c hc)
  have hnn : (elemRe anyChar name.data).nonNull = true := by
    simp [elemRe, Re.nonNull]
  have hns : NoStart (closeTag name.data) x
      ("</".data ++ (name.data ++ (">".data ++ (trailOf trail ++ "</p>".data)))) :=
    NoStart_of_covers _ plainWins _ _ ((isPlainText_facts x hx).2.2.2.2 _) hclose
  have hm := ms_elem_head anyChar name.data x (trailOf trail ++ "</p>".data) hany hns
  have hskip : NoStart (elemRe anyChar name.data) ("<p>".data ++ leadOf lead)
      ("<".data ++ (name.data ++ (">".data ++ (x ++ ("</".data ++ (name.data ++ (">".data ++
        (trailOf trail ++ "</p>".data)))))))) := by
    have h := paraPre_covers name.data lead
      (x ++ ("</".data ++ (name.data ++ (">".data ++ (trailOf trail ++ "</p>".data))))) hl
    simp only [List.append_assoc] at h
    exact NoStart_of_covers _ _ _ _ h hpre
  have e : emphasisPara name lead x trail =
      ("<p>".data ++ leadOf lead) ++ (("<".data ++ (name.data ++ (">".data ++ (x ++ ("</".data ++
        (name.data ++ ">".data)))))) ++ (trailOf trail ++ "</p>".data)) := by
    simp only [emphasisPara, List.append_assoc]
  have e2 : ("<".data ++ (name.data ++ (">".data ++ (x ++ ("</".data ++
        (name.data ++ ">".data)))))) ++ (trailOf trail ++ "</p>".data) =
      "<".data ++ (name.data ++ (">".data ++ (x ++ ("</".data ++ (name.data ++ (">".data ++
        (trailOf trail ++ "</p>".data))))))) := by
    simp only [List.append_assoc]
  unfold wrapElem
  rw [reElemS_eq, e, ReplaceAllString_skip _ hnn _ _ _ (by rw [e2]; exact hskip),
    ReplaceAllString_here _ hnn _ _ _ [(1, x)] (by rw [e2]; exact hm),
    ReplaceAllString_absent _ paraPostWins _ _ (paraPost_covers trail ht) hpost]
  simp [expand, getCap, T, elemHtml, emphasisMd, List.lookup, List.append_assoc]

/-- An input without `<` is covered by the window of the other characters, whatever
follows. -/
theorem notLt_coversIn (s v : Str) (h : '<' ∉ s) : CoversIn [startsIn notLt] s v := by
  apply CoversIn.ofClass
  intro c hc
  have hne : c ≠ '<' := fun e => h (e ▸ hc)
  exact (CharSet.mem_compl_one '<' c).mpr hne

/-- The rule of an element on that element alone, its text without `<`. -/
theorem wrapElem_whole (name opening closing : String) (m : Str) (hlt : '<' ∉ m) :
    wrapElem name opening closing (elemHtml name.data m) =
      opening.data ++ m ++ closing.data := by
  have hnn : (elemRe anyChar name.data).nonNull = true := by
    simp [elemRe, Re.nonNull]
  have hany : ∀ c ∈ m, anyChar.mem c = true := by
    intro c hc
    exact CharSet.mem_mono notLt anyChar (by decide) c
      ((CharSet.mem_compl_one '<' c).mpr (fun e => hlt (e ▸ hc)))
  have hmiss : (closeTag name.data).missesAll [startsIn notLt] = true := by
    have h0 : notLt.mem '<' = false := by decide
    simp [closeTag, Re.missesAll, Re.misses, am, amLit, startsIn, h0]
  have hns : NoStart (closeTag name.data) m ("</".data ++ (name.data ++ (">".data ++ []))) :=
    NoStart_of_covers _ _ _ _ (notLt_coversIn m _ hlt) hmiss
  have hm := ms_elem_head anyChar name.data m [] hany hns
  unfold wrapElem
  have hw : elemHtml name.data m = elemHtml name.data m ++ [] := by simp
  rw [hw, reElemS_eq, ReplaceAllString_here _ hnn _ _ [] [(1, m)]
    (by rw [List.append_nil]; exact hm), ReplaceAllString_nil _ hnn]
  simp [expand, getCap, T, List.lookup]

/-- An element whose text is non-empty and without `<` is covered by its windows. -/
theorem whole_covers (name m : Str) (hne : m ≠ []) (hlt : '<' ∉ m) :
    CoversIn (wholeWins name) (elemHtml name m) [] := by
  have e : elemHtml name m =
      ("<".data ++ name ++ ">".data) ++ (m ++ ("</".data ++ name ++ ">".data)) := by
    simp only [elemHtml, List.append_assoc, List.append_nil]
  rw [e]
  refine CoversIn.append ?_ (CoversIn.append ?_ ?_)
  · refine (CoversIn.lit (startsIn notLt) _ _ ?_).mono
      (fun W hW => List.mem_append_left _ (List.mem_append_left _ hW))
    obtain ⟨c, r, rfl⟩ := List.exists_cons_of_ne_nil hne
    exact Describes_startsIn _ _ _
      ((CharSet.mem_compl_one '<' c).mpr (fun e => hlt (e ▸ List.mem_cons_self _ _)))
  · exact (notLt_coversIn m _ hlt).mono
      (fun W hW => List.mem_append_left _ (List.mem_append_right _ hW))
  · exact (CoversIn.lit endWin _ _ (by simp [endWin, Describes])).mono
      (fun W hW => List.mem_append_right _ hW)

/-- The Markdown text of an emphasis paragraph is covered by its windows, whatever
follows. -/
theorem md_covers (marker : String) (lead : Option Str) (x : Str) (trail : Option Str) (v : Str)
    (hx : isPlainText x = true) (hl : ∀ t ∈ lead, isPlainText t = true)
    (ht : ∀ t ∈ trail, isPlainText t = true) (hm0 : marker.data ≠ [])
    (hm : ∀ c ∈ marker.data, markChars.mem c = true) :
    CoversIn mdWins (emphasisMd marker lead x trail) v := by
  have hP : ∀ W ∈ plainWins, W ∈ mdWins := by decide
  have hM : ∀ W ∈ [startsIn markChars], W ∈ mdWins := by decide
  have hS : ∀ W ∈ litWins (startsIn markChars) " ".data, W ∈ mdWins := by decide
  have hA : ∀ W ∈ litWins (startsIn alnum) " ".data, W ∈ mdWins := by decide
  have hmark : ∀ w, Describes (startsIn markChars).cs (startsIn markChars).closed
      (marker.data ++ w) := by
    intro w
    obtain ⟨c, r, hr⟩ := List.exists_cons_of_ne_nil hm0
    rw [hr]
    exact Describes_startsIn _ _ _ (hm c (by rw [hr]; exact List.mem_cons_self _ _))
  have e : emphasisMd marker lead x trail =
      leadOf lead ++ (marker.data ++ (x ++ (marker.data ++ trailOf trail))) := by
    simp only [emphasisMd, List.append_assoc]
  rw [e]
  refine CoversIn.append ?_ (CoversIn.append ((CoversIn.ofClass _ _ _ hm).mono hM)
    (CoversIn.append (((isPlainText_facts x hx).2.2.2.2 _).mono hP)
    (CoversIn.append ((CoversIn.ofClass _ _ _ hm).mono hM) ?_)))
  · cases lead with
    | none => exact CoversIn.nil _ _
    | some t =>
      simp only [leadOf]
      refine CoversIn.append (((isPlainText_facts t (hl t rfl)).2.2.2.2 _).mono hP) ?_
      refine (CoversIn.lit (startsIn markChars) _ _ ?_).mono hS
      rw [List.append_assoc]
      exact hmark _
  · cases trail with
    | none => exact CoversIn.nil _ _
    | some t =>
      simp only [trailOf]
      refine CoversIn.append ?_ (((isPlainText_facts t (ht t rfl)).2.2.2.2 _).mono hP)
      exact (CoversIn.lit (startsIn alnum) _ _ (Describes_alnum_plain t v (ht t rfl))).mono hA

theorem leadOf_chars (lead : Option Str) (hl : ∀ t ∈ lead, isPlainText t = true) :
    ∀ c ∈ leadOf lead, mdChars.mem c = true := by
  intro c hc
  cases lead with
  | none => simp [leadOf] at hc
  | some t =>
    simp only [leadOf, List.mem_append] at hc
    rcases hc with h | h
    · exact CharSet.mem_mono _ _ (by decide) c ((isPlainText_facts t (hl t rfl)).2.2.2.1 c h)
    · exact (by decide : ∀ c ∈ " ".data, mdChars.mem c = true) c h

theorem trailOf_chars (trail : Option Str) (ht : ∀ t ∈ trail, isPlainText t = true) :
    ∀ c ∈ trailOf trail, mdChars.mem c = true := by
  intro c hc
  cases trail with
  | none => simp [trailOf] at hc
  | some t =>
    simp only [trailOf, List.mem_append] at hc
    rcases hc with h | h
    · exact (by decide : ∀ c ∈ " ".data, mdChars.mem c = true) c h
    · exact CharSet.mem_mono _ _ (by decide) c ((isPlainText_facts t (ht t rfl)).2.2.2.1 c h)

/-- The Markdown text of an emphasis paragraph: it is not empty, starts and ends with a
letter, a digit or a marker character, and holds only letters, digits, spaces and marker
characters. -/
theorem md_facts (marker : String) (lead : Option Str) (x : Str) (trail : Option Str)
    (hx : isPlainText x = true) (hl : ∀ t ∈ lead, isPlainText t = true)
    (ht : ∀ t ∈ trail, isPlainText t = true) (hm0 : marker.data ≠ [])
    (hm : ∀ c ∈ marker.data, markChars.mem c = true) :
    emphasisMd marker lead x trail ≠ [] ∧
    (∀ c, (emphasisMd marker lead x trail).head? = some c → mdEnds.mem c = true) ∧
    (∀ c, (emphasisMd marker lead x trail).getLast? = some c → mdEnds.mem c = true) ∧
    (∀ c ∈ emphasisMd marker lead x trail, mdChars.mem c = true) := by
  obtain ⟨a, r, hr⟩ := List.exists_cons_of_ne_nil hm0
  have ha : markChars.mem a = true := hm a (by rw [hr]; exact List.mem_cons_self _ _)
  have hlast : ∀ c, marker.data.getLast? = some c → mdEnds.mem c = true := by
    intro c hc
    exact CharSet.mem_mono markChars _ (by decide) c (hm c (List.mem_of_mem_getLast? hc))
  refine ⟨?_, ?_, ?_, ?_⟩
  · simp [emphasisMd, hm0]
  · intro c hc
    cases lead with
    | none =>
      simp [emphasisMd, leadOf, hr] at hc
      subst hc
      exact CharSet.mem_mono markChars _ (by decide) _ ha
    | some t =>
      obtain ⟨hne, hh, _⟩ := isPlainText_facts t (hl t rfl)
      obtain ⟨b, q, rfl⟩ := List.exists_cons_of_ne_nil hne
      simp [emphasisMd, leadOf] at hc
      subst hc
      exact CharSet.mem_mono alnum _ (by decide) _ (hh b rfl)
  · intro c hc
    cases trail with
    | none =>
      rw [emphasisMd, trailOf, List.append_nil, getLast?_append_ne _ _ hm0] at hc
      exact hlast c hc
    | some t =>
      obtain ⟨hne, _, hh, _⟩ := isPlainText_facts t (ht t rfl)
      rw [emphasisMd, getLast?_append_ne _ _ (by simp [trailOf]), trailOf,
        getLast?_append_ne _ _ hne] at hc
      exact CharSet.mem_mono alnum _ (by decide) _ (hh c hc)
  · intro c hc
    simp only [emphasisMd, List.mem_append] at hc
    rcases hc with (((h | h) | h) | h) | h
    · exact leadOf_chars lead hl c h
    · exact CharSet.mem_mono markChars _ (by decide) c (hm c h)
    · exact CharSet.mem_mono _ _ (by decide) c ((isPlainText_facts x hx).2.2.2.1 c h)
    · exact CharSet.mem_mono markChars _ (by decide) c (hm c h)
    · exact trailOf_chars trail ht c h

/-- A string contains each of its infixes. -/
theorem Contains_infix (w b : Str) : ∀ (a : Str), Contains (a ++ (w ++ b)) w = true := by
  intro a
  induction a with
  | nil =>
    cases h : w ++ b with
    | nil =>
      have : w = [] := (List.append_eq_nil.mp h).1
      subst this
      simp [Contains]
    | cons c r =>
      simp only [List.nil_append, h, Contains, Bool.or_eq_true]
      left
      rw [← h, List.isPrefixOf_iff_prefix]
      exact List.prefix_append w b
  | cons c a ih =>
    simp only [List.cons_append, Contains, Bool.or_eq_true]
    right
    exact ih

theorem noLt_of_mdChars (s : Str) (h : ∀ c ∈ s, mdChars.mem c = true) : '<' ∉ s := by
  intro hc; have := h _ hc; revert this; decide

theorem noAmp_of_mdChars (s : Str) (h : ∀ c ∈ s, mdChars.mem c = true) : '&' ∉ s := by
  intro hc; have := h _ hc; revert this; decide

/-- The stages of `ConvertToMarkdown` behind the emphasis rules, on the paragraph
`<p>m</p>` with the Markdown text `m` of an emphasis paragraph. -/
theorem emphasis_setup (marker : String) (lead : Option Str) (x : Str) (trail : Option Str)
    (hx : isPlainText x = true) (hl : ∀ t ∈ lead, isPlainText t = true)
    (ht : ∀ t ∈ trail, isPlainText t = true) (hm0 : marker.data ≠ [])
    (hm : ∀ c ∈ marker.data, markChars.mem c = true) :
    CoversIn (wholeWins "p".data) (elemHtml "p".data (emphasisMd marker lead x trail)) [] ∧
    wrapElem "p" "" "\n\n" (elemHtml "p".data (emphasisMd marker lead x trail)) =
      "".data ++ emphasisMd marker lead x trail ++ "\n\n".data ∧
    CoversIn [startsIn notLt] ("".data ++ emphasisMd marker lead x trail ++ "\n\n".data) [] ∧
    markdownFinish ("".data ++ emphasisMd marker lead x trail ++ "\n\n".data) =
      emphasisMd marker lead x trail ∧
    '<' ∉ emphasisMd marker lead x trail := by
  obtain ⟨hne, hhead, hlast, hch⟩ := md_facts marker lead x trail hx hl ht hm0 hm
  have hlt := noLt_of_mdChars _ hch
  have hch2 : ∀ c ∈ "".data ++ emphasisMd marker lead x trail ++ "\n\n".data,
      (mdChars ++ CharSet.of ['\n']).mem c = true := by
    intro c hc
    simp only [List.mem_append] at hc
    rcases hc with (h | h) | h
    · exact absurd h (List.not_mem_nil c)
    · exact CharSet.mem_mono _ _ (by decide) c (hch c h)
    · exact (by decide : ∀ c ∈ "\n\n".data, (mdChars ++ CharSet.of ['\n']).mem c = true) c h
  have hlt2 : '<' ∉ "".data ++ emphasisMd marker lead x trail ++ "\n\n".data := by
    intro hc; have := hch2 _ hc; revert this; decide
  have hamp2 : '&' ∉ "".data ++ emphasisMd marker lead x trail ++ "\n\n".data := by
    intro hc; have := hch2 _ hc; revert this; decide
  have hc1 : CoversIn mdWins ("".data ++ emphasisMd marker lead x trail ++ "\n\n".data) [] := by
    refine CoversIn.append (CoversIn.append (CoversIn.nil _ _)
      (md_covers marker lead x trail _ hx hl ht hm0 hm)) ?_
    exact (CoversIn.lit endWin _ _ (by simp [endWin, Describes])).mono
      (fun W hW => List.mem_append_right _ hW)
  refine ⟨whole_covers _ _ hne hlt, wrapElem_whole "p" "" "\n\n" _ hlt,
    notLt_covers _ hlt2, ?_, hlt⟩
  exact markdownFinish_strip mdWins _ _ _ hamp2 hc1
    (md_covers marker lead x trail [] hx hl ht hm0 hm) (by decide) (by decide) (by decide)
    (fun c hc => CharSet.not_mem_of_disjoint mdEnds goSpace (by decide) c (hhead c hc))
    (fun c hc => CharSet.not_mem_of_disjoint mdEnds goSpace (by decide) c (hlast c hc)) hne

/-- The Markdown of an emphasis paragraph. -/
theorem emphasis_markdown (name marker : String) (hm : (name, marker) ∈ emphasisTags)
    (lead : Option Str) (x : Str) (trail : Option Str) (hx : isPlainText x = true)
    (hl : ∀ t ∈ lead, isPlainText t = true) (ht : ∀ t ∈ trail, isPlainText t = true) :
    ConvertToMarkdown (emphasisPara name lead x trail) = emphasisMd marker lead x trail := by
  have hcov := para_covers name lead x trail hx hl ht
  have htrim := TrimSpace_para name lead x trail
  have hset := emphasis_setup marker lead x trail hx hl ht
  have hname := wrapElem_para name marker lead x trail hx hl ht
  simp only [emphasisTags, List.mem_cons, Prod.mk.injEq, List.not_mem_nil, or_false] at hm
  rcases hm with ⟨rfl, rfl⟩ | ⟨rfl, rfl⟩ | ⟨rfl, rfl⟩ | ⟨rfl, rfl⟩ | ⟨rfl, rfl⟩ | ⟨rfl, rfl⟩ <;>
  · obtain ⟨hcov1, hp, hcov2, hfin, _⟩ := hset (by decide) (by decide)
    specialize hname (by decide) (by decide) (by decide)
    rw [ConvertToMarkdown_legacy _ (hasNestedList_absent _ _ hcov (by decide)),
      Sanitize_id _ _ hcov (by decide) htrim]
    simp only [convertOrderedLists, convertUnorderedLists, markdownRules]
    simp (disch := first | assumption | decide) only [ReplaceAllString_absent,
      ReplaceAllStringFunc_absent, convertHeading_absent, wrapElem_absent, convertTables_absent,
      stripTags_absent, hname, hp]
    exact hfin

/-- A text without `<` contains none of the emphasis tags. -/
theorem no_emphasis_tags (s : Str) (hlt : '<' ∉ s) :
    ∀ p ∈ emphasisTags, Contains s ("<".data ++ p.1.data ++ ">".data) = false ∧
      Contains s ("</".data ++ p.1.data ++ ">".data) = false := by
  have hc := notLt_covers s hlt
  intro p hp
  simp only [emphasisTags, List.mem_cons, List.not_mem_nil, or_false] at hp
  rcases hp with rfl | rfl | rfl | rfl | rfl | rfl <;>
  exact ⟨Contains_absent _ _ s hc (by decide), Contains_absent _ _ s hc (by decide)⟩

/-! ## Fixed points of the sanitizer -/

theorem isPrefixOf_false_of_not_contains (w : Str) : ∀ (a b : Str),
    Contains (a ++ b) w = false → w.isPrefixOf b = false := by
  intro a
  induction a with
  | nil =>
    intro b h
    cases b with
    | nil => simpa [Contains] using h
    | cons x b =>
      simp only [List.nil_append, Contains, Bool.or_eq_false_iff] at h
      exact h.1
  | cons x a ih =>
    intro b h
    simp only [List.cons_append, Contains, Bool.or_eq_false_iff] at h
    exact ih b h.2

/-- An expression that has to read the literal `w` matches nowhere in an input that does
not contain `w`. -/
theorem findFirst_none_of_not_contains (r : Re) (hn : r.nonNull = true) (w : Str) (q : Re)
    (hq : Re.seq (.lit w) q ∈ r.tails) (s : Str) (h : Contains s w = false) :
    findFirst r s = none := by
  apply findFirst_none_of_noStart r hn
  intro u1 u2 c he hne
  by_contra hcon
  obtain ⟨v1, v2, c', hs, hq2⟩ := ms_tail_witness r _ hq (u2 ++ []) c hcon
  have hp : w.isPrefixOf v2 = false :=
    isPrefixOf_false_of_not_contains w (u1 ++ v1) v2
      (by rw [List.append_assoc, ← hs, List.append_nil, ← he]; exact h)
  apply hq2
  rw [ms_seq, ms_lit, hp]
  rfl

theorem ReplaceAllString_of_no_match (r : Re) (s : Str) (t : List Tpl)
    (h : MatchString r s = false) : ReplaceAllString r s t = s := by
  apply ReplaceAllString_none
  cases hf : findFirst r s with
  | none => rfl
  | some m => simp [MatchString, hf] at h

/-- A text without block markers, without a match of the clean-up patterns and without
white space at its ends is a fixed point of the sanitizer. -/
theorem Sanitize_fixed (t : Str)
    (hopen : Contains t "<!-- wp:".data = false) (hclose : Contains t "<!-- /wp:".data = false)
    (h3 : MatchString reNewlines3 t = false) (h4 : MatchString reTrailingBlanks t = false)
    (h5 : MatchString reBetweenTags t = false) (h6 : MatchString reEmptyP t = false)
    (h7 : MatchString reBrOnlyP t = false) (ht : TrimSpace t = t) :
    SanitizeWordPressContent t = t := by
  have h1 : ReplaceAllString reBlockOpen t [] = t :=
    ReplaceAllString_none _ _ _
      (findFirst_none_of_not_contains reBlockOpen (by decide) "<!-- wp:".data
        (seqs [attrs, L "-->", ws0]) (List.mem_cons_self _ _) t hopen)
  have h2 : ReplaceAllString reBlockClose t [] = t :=
    ReplaceAllString_none _ _ _
      (findFirst_none_of_not_contains reBlockClose (by decide) "<!-- /wp:".data
        (seqs [attrs, L "-->"]) (List.mem_cons_of_mem _ (List.mem_cons_self _ _)) t hclose)
  simp only [SanitizeWordPressContent, removeGutenbergComments, cleanWhitespace,
    removeEmptyParagraphs, h1, h2, ReplaceAllString_of_no_match _ t _ h3,
    ReplaceAllString_of_no_match _ t _ h4, ReplaceAllString_of_no_match _ t _ h5, ht,
    ReplaceAllString_of_no_match _ t _ h6, ReplaceAllString_of_no_match _ t _ h7]

/-! ## Characters of the results

Replacing matches creates no characters: what a replacement returns is made of the
characters of the input and of the literal text of the template. -/

theorem charsOk_nil (P : Char → Prop) : charsOk P [] := by
  intro x hx; cases hx

theorem charsOk_append {P : Char → Prop} {a b : Str} :
    charsOk P (a ++ b) ↔ charsOk P a ∧ charsOk P b := by
  constructor
  · intro h
    exact ⟨fun x hx => h x (List.mem_append_left _ hx), fun x hx => h x (List.mem_append_right _ hx)⟩
  · intro h x hx
    rcases List.mem_append.mp hx with h1 | h1
    · exact h.1 x h1
    · exact h.2 x h1

theorem charsOk_cons {P : Char → Prop} {a : Char} {b : Str} :
    charsOk P (a :: b) ↔ P a ∧ charsOk P b := by
  constructor
  · intro h
    exact ⟨h a (List.mem_cons_self _ _), fun x hx => h x (List.mem_cons_of_mem _ hx)⟩
  · intro h x hx
    rcases List.mem_cons.mp hx with h1 | h1
    · rw [h1]; exact h.1
    · exact h.2 x h1

theorem charsOk_of_sublist {P : Char → Prop} {a b : Str} (h : a.Sublist b) (hb : charsOk P b) :
    charsOk P a := fun x hx => hb x (h.subset hx)

theorem charsOk_of_suffix {P : Char → Prop} {a b : Str} (h : a <:+ b) (hb : charsOk P b) :
    charsOk P a := charsOk_of_sublist h.sublist hb

theorem charsOk_take {P : Char → Prop} (n : Nat) {s : Str} (h : charsOk P s) :
    charsOk P (s.take n) := charsOk_of_sublist (List.take_sublist _ _) h

theorem charsOk_drop {P : Char → Prop} (n : Nat) {s : Str} (h : charsOk P s) :
    charsOk P (s.drop n) := charsOk_of_sublist (List.drop_sublist _ _) h

theorem capsOk_nil (P : Char → Prop) : capsOk P [] := by
  intro e he; cases he

theorem capsOk_cons {P : Char → Prop} {i : Nat} {w : Str} {c : Caps} (hw : charsOk P w)
    (hc : capsOk P c) : capsOk P ((i, w) :: c) := by
  intro e he
  rcases List.mem_cons.mp he with h | h
  · rw [h]; exact hw
  · exact hc e h

theorem starLoop_chars (P : Char → Prop) (f : Str → Caps → Res)
    (hf : ∀ s c r, charsOk P s → capsOk P c → r ∈ f s c → charsOk P r.1 ∧ capsOk P r.2)
    (g : Bool) :
    ∀ n s c r, charsOk P s → capsOk P c → r ∈ starLoop f g n s c →
      charsOk P r.1 ∧ capsOk P r.2 := by
  intro n
  induction n with
  | zero =>
    intro s c r hs hc hr
    simp [starLoop] at hr
    subst hr
    exact ⟨hs, hc⟩
  | succ n ih =>
    intro s c r hs hc hr
    have key : r = (s, c) ∨ ∃ r1, r1 ∈ f s c ∧ r ∈ starLoop f g n r1.1 r1.2 := by
      cases g <;> simp [starLoop, List.mem_flatMap, List.mem_filter] at hr
      · rcases hr with h | ⟨a, b, ⟨h1, _⟩, h2⟩
        · exact Or.inl h
        · exact Or.inr ⟨(a, b), h1, h2⟩
      · rcases hr with ⟨a, b, ⟨h1, _⟩, h2⟩ | h
        · exact Or.inr ⟨(a, b), h1, h2⟩
        · exact Or.inl h
    rcases key with h | ⟨r1, h1, h2⟩
    · subst h; exact ⟨hs, hc⟩
    · obtain ⟨h3, h4⟩ := hf _ _ _ hs hc h1
      exact ih _ _ _ h3 h4 h2

/-- What a match leaves unread and what it captures is made of characters of the
input. -/
theorem ms_chars (P : Char → Prop) : ∀ (r : Re) (s : Str) (c : Caps) (x : Str × Caps),
    charsOk P s → capsOk P c → x ∈ ms r s c → charsOk P x.1 ∧ capsOk P x.2 := by
  intro r
  induction r with
  | lit w =>
    intro s c x hs hc hx
    simp only [ms] at hx
    split at hx
    · simp at hx; subst hx; exact ⟨charsOk_drop _ hs, hc⟩
    · simp at hx
  | cls A =>
    intro s c x hs hc hx
    cases s with
    | nil => simp [ms] at hx
    | cons y s1 =>
      simp only [ms] at hx
      split at hx
      · simp at hx; subst hx; exact ⟨(charsOk_cons.mp hs).2, hc⟩
      · simp at hx
  | seq a b iha ihb =>
    intro s c x hs hc hx
    simp only [ms, List.mem_flatMap] at hx
    obtain ⟨y, hy, hx⟩ := hx
    obtain ⟨h1, h2⟩ := iha _ _ _ hs hc hy
    exact ihb _ _ _ h1 h2 hx
  | alt a b iha ihb =>
    intro s c x hs hc hx
    simp only [ms, List.mem_append] at hx
    rcases hx with h | h
    · exact iha _ _ _ hs hc h
    · exact ihb _ _ _ hs hc h
  | star g a ih =>
    intro s c x hs hc hx
    simp only [ms] at hx
    exact starLoop_chars P _ (fun s c r hs hc hr => ih s c r hs hc hr) g _ _ _ _ hs hc hx
  | grp i a ih =>
    intro s c x hs hc hx
    simp only [ms, List.mem_map] at hx
    obtain ⟨y, hy, rfl⟩ := hx
    obtain ⟨h1, h2⟩ := ih _ _ y hs hc hy
    exact ⟨h1, capsOk_cons (charsOk_take _ hs) h2⟩

/-- The parts of the leftmost match are made of characters of the input. -/
theorem findFirst_chars (P : Char → Prop) (r : Re) (s : Str) (m : Match)
    (h : findFirst r s = some m) (hs : charsOk P s) :
    charsOk P m.pre ∧ charsOk P m.text ∧ charsOk P m.rest ∧ capsOk P m.caps := by
  obtain ⟨he, hm⟩ := findFirst_some r s m h
  rw [he] at hs
  obtain ⟨h1, h2⟩ := charsOk_append.mp hs
  obtain ⟨h3, h4⟩ := charsOk_append.mp h1
  refine ⟨h3, h4, h2, ?_⟩
  have hmem : (m.rest, m.caps) ∈ ms r (m.text ++ m.rest) [] := List.mem_of_mem_head? hm
  exact (ms_chars P r _ [] _ (charsOk_append.mpr ⟨h4, h2⟩) (capsOk_nil P) hmem).2

theorem replLoop_chars (P : Char → Prop) (r : Re) (repl : Match → Str)
    (hrepl : ∀ m, charsOk P m.text → capsOk P m.caps → charsOk P (repl m)) :
    ∀ (n : Nat) (b : Bool) (pending s : Str), charsOk P pending → charsOk P s →
      charsOk P (replLoop r repl n b pending s) := by
  intro n
  induction n with
  | zero =>
    intro b pending s hp hs
    simp only [replLoop]
    exact charsOk_append.mpr ⟨hp, hs⟩
  | succ n ih =>
    intro b pending s hp hs
    simp only [replLoop]
    cases hf : findFirst r s with
    | none => exact charsOk_append.mpr ⟨hp, hs⟩
    | some m =>
      obtain ⟨h1, h2, h3, h4⟩ := findFirst_chars P r s m hf hs
      have hr := hrepl m h2 h4
      have hout : charsOk P (pending ++ m.pre ++
          (if !(pending ++ m.pre ++ m.text).isEmpty || (b && m.pre.isEmpty)
            then repl m else [])) := by
        refine charsOk_append.mpr ⟨charsOk_append.mpr ⟨hp, h1⟩, ?_⟩
        split
        · exact hr
        · exact charsOk_nil P
      simp only []
      split
      · exact charsOk_append.mpr ⟨hout, ih false [] m.rest (charsOk_nil P) h3⟩
      · cases s with
        | nil => exact hout
        | cons x s1 =>
          obtain ⟨hx, hs1⟩ := charsOk_cons.mp hs
          exact charsOk_append.mpr ⟨hout, ih false [x] s1 (charsOk_cons.mpr ⟨hx, charsOk_nil P⟩) hs1⟩

theorem getCap_chars {P : Char → Prop} {c : Caps} (hc : capsOk P c) (i : Nat) :
    charsOk P (getCap c i) := by
  unfold getCap
  cases h : c.lookup i with
  | none => exact charsOk_nil P
  | some w =>
    have : (i, w) ∈ c := by
      clear hc
      induction c with
      | nil => simp [List.lookup] at h
      | cons e c ih =>
        obtain ⟨j, v⟩ := e
        simp only [List.lookup] at h
        split at h
        · rename_i heq
          simp at h; subst h
          have : i = j := by simpa using heq
          subst this
          exact List.mem_cons_self _ _
        · exact List.mem_cons_of_mem _ (ih h)
    exact hc _ this

theorem expand_chars {P : Char → Prop} {t : List Tpl} {c : Caps} (ht : tplOk P t)
    (hc : capsOk P c) : charsOk P (expand t c) := by
  intro x hx
  simp only [expand, List.mem_flatMap] at hx
  obtain ⟨p, hp, hx⟩ := hx
  cases p with
  | txt w => exact ht w hp x hx
  | ref i => exact getCap_chars hc i x hx

/-- `ReplaceAllString` creates no characters. -/
theorem ReplaceAllString_chars (P : Char → Prop) (r : Re) (s : Str) (t : List Tpl)
    (hs : charsOk P s) (ht : tplOk P t) : charsOk P (ReplaceAllString r s t) :=
  replLoop_chars P r _ (fun m _ hc => expand_chars ht hc) _ _ _ _ (charsOk_nil P) hs

/-- `ReplaceAllStringFunc` creates no characters when the function creates none. -/
theorem ReplaceAllStringFunc_chars (P : Char → Prop) (r : Re) (s : Str) (f : Str → Str)
    (hs : charsOk P s) (hf : ∀ w, charsOk P w → charsOk P (f w)) :
    charsOk P (ReplaceAllStringFunc r s f) :=
  replLoop_chars P r _ (fun m hm _ => hf _ hm) _ _ _ _ (charsOk_nil P) hs

theorem TrimSpace_chars {P : Char → Prop} {s : Str} (hs : charsOk P s) :
    charsOk P (TrimSpace s) := by
  intro x hx
  unfold TrimSpace at hx
  rw [List.mem_reverse] at hx
  have h1 := (List.dropWhile_sublist _).subset hx
  rw [List.mem_reverse] at h1
  exact hs x ((List.dropWhile_sublist _).subset h1)

theorem tplOk_nil (P : Char → Prop) : tplOk P [] := by
  intro w hw; cases hw

/-- The sanitizer creates no characters: a property of the characters that holds for
the marker-free text, the newline, `>` and `<` passes through. -/
theorem cleanWhitespace_chars (P : Char → Prop) (hn : P '\n') (hg : P '>') (hl : P '<')
    (s : Str) (hs : charsOk P s) : charsOk P (cleanWhitespace s) := by
  have t1 : tplOk P [T "\n\n"] := by
    intro w hw
    simp only [List.mem_singleton, T, Tpl.txt.injEq] at hw
    subst hw
    intro x hx
    have : x = '\n' := by simpa using hx
    rw [this]; exact hn
  have t2 : tplOk P [T "\n"] := by
    intro w hw
    simp only [List.mem_singleton, T, Tpl.txt.injEq] at hw
    subst hw
    intro x hx
    have : x = '\n' := by simpa using hx
    rw [this]; exact hn
  have t3 : tplOk P [T "><"] := by
    intro w hw
    simp only [List.mem_singleton, T, Tpl.txt.injEq] at hw
    subst hw
    intro x hx
    have : x = '>' ∨ x = '<' := by simpa using hx
    rcases this with h | h
    · rw [h]; exact hg
    · rw [h]; exact hl
  unfold cleanWhitespace
  exact TrimSpace_chars (ReplaceAllString_chars P _ _ _
    (ReplaceAllString_chars P _ _ _ (ReplaceAllString_chars P _ _ _ hs t1) t2) t3)

theorem removeEmptyParagraphs_chars (P : Char → Prop) (s : Str) (hs : charsOk P s) :
    charsOk P (removeEmptyParagraphs s) := by
  unfold removeEmptyParagraphs
  exact ReplaceAllString_chars P _ _ _ (ReplaceAllString_chars P _ _ _ hs (tplOk_nil P))
    (tplOk_nil P)

theorem removeGutenbergComments_chars (P : Char → Prop) (s : Str) (hs : charsOk P s) :
    charsOk P (removeGutenbergComments s) := by
  unfold removeGutenbergComments
  exact ReplaceAllString_chars P _ _ _ (ReplaceAllString_chars P _ _ _ hs (tplOk_nil P))
    (tplOk_nil P)

theorem Sanitize_chars (P : Char → Prop) (hn : P '\n') (hg : P '>') (hl : P '<')
    (s : Str) (hs : charsOk P s) : charsOk P (SanitizeWordPressContent s) := by
  unfold SanitizeWordPressContent
  exact removeEmptyParagraphs_chars P _
    (cleanWhitespace_chars P hn hg hl _ (removeGutenbergComments_chars P _ hs))

/-! ## Greedy stars in front of a literal -/

/-- A literal that ends with a character outside the class `A` and is a prefix of a run
of `A` followed by that character: the run is the literal without its last character. -/
theorem eq_of_isPrefixOf_stop (A : CharSet) (z : Char) (hz : A.mem z = false) (rest : Str) :
    ∀ (w t : Str), (∀ x ∈ w, A.mem x = true) → (∀ x ∈ t, A.mem x = true) →
      (w ++ [z]).isPrefixOf (t ++ z :: rest) = true → t = w := by
  intro w
  induction w with
  | nil =>
    intro t _ ht h
    cases t with
    | nil => rfl
    | cons a t =>
      simp only [List.nil_append, List.cons_append, List.isPrefixOf, Bool.and_eq_true,
        beq_iff_eq] at h
      have := ht a (List.mem_cons_self _ _)
      rw [← h.1, hz] at this
      exact Bool.noConfusion this
  | cons b w ih =>
    intro t hw ht h
    cases t with
    | nil =>
      simp only [List.nil_append, List.cons_append, List.isPrefixOf, Bool.and_eq_true,
        beq_iff_eq] at h
      have := hw b (List.mem_cons_self _ _)
      rw [h.1, hz] at this
      exact Bool.noConfusion this
    | cons a t =>
      simp only [List.cons_append, List.isPrefixOf, Bool.and_eq_true, beq_iff_eq] at h
      rw [h.1, ih t (fun x hx => hw x (List.mem_cons_of_mem _ hx))
        (fun x hx => ht x (List.mem_cons_of_mem _ hx)) h.2]

/-- The cuts of a short run of `A` in front of a stop character give nothing to a
continuation that needs a longer literal. -/
theorem greedyCuts_short (A : CharSet) (z : Char) (hz : A.mem z = false) (w rest : Str)
    (c : Caps) (f : Str × Caps → Res) (hw : ∀ x ∈ w, A.mem x = true)
    (hf : ∀ s, (w ++ [z]).isPrefixOf s = false → f (s, c) = []) :
    ∀ (t : Str), (∀ x ∈ t, A.mem x = true) → t.length < w.length →
      (greedyCuts A c (t ++ z :: rest)).flatMap f = [] := by
  have hcut : ∀ (t : Str), (∀ x ∈ t, A.mem x = true) → t.length < w.length →
      f (t ++ z :: rest, c) = [] := by
    intro t ht hlen
    apply hf
    cases hp : (w ++ [z]).isPrefixOf (t ++ z :: rest) with
    | false => rfl
    | true =>
      have := eq_of_isPrefixOf_stop A z hz rest w t hw ht hp
      rw [this] at hlen
      exact absurd hlen (Nat.lt_irrefl _)
  intro t
  induction t with
  | nil =>
    intro ht hlen
    have := hcut [] ht hlen
    simp only [List.nil_append] at this ⊢
    simp [greedyCuts, hz, this]
  | cons a t ih =>
    intro ht hlen
    have ha := ht a (List.mem_cons_self _ _)
    have h1 := ih (fun x hx => ht x (List.mem_cons_of_mem _ hx))
      (by simp only [List.length_cons] at hlen; omega)
    have h2 := hcut (a :: t) ht hlen
    have e : (a :: t) ++ z :: rest = a :: (t ++ z :: rest) := rfl
    rw [e] at h2 ⊢
    simp only [greedyCuts, ha, if_true, List.flatMap_append, h1, List.nil_append,
      List.flatMap_cons, List.flatMap_nil, List.append_nil, h2]

/-- The cuts of a run of `A` that ends with `w`, in front of a stop character: the
continuation that needs the literal `w` and the stop character succeeds at one cut only,
the one that leaves `w`. -/
theorem greedyCuts_until (A : CharSet) (z : Char) (hz : A.mem z = false) (w rest : Str)
    (c : Caps) (f : Str × Caps → Res) (hw : ∀ x ∈ w, A.mem x = true)
    (hf : ∀ s, (w ++ [z]).isPrefixOf s = false → f (s, c) = []) :
    ∀ (y : Str), (∀ x ∈ y, A.mem x = true) →
      (greedyCuts A c (y ++ (w ++ z :: rest))).flatMap f = f (w ++ z :: rest, c) := by
  intro y
  induction y with
  | nil =>
    intro _
    cases w with
    | nil => simp [greedyCuts, hz]
    | cons b w =>
      have hb := hw b (List.mem_cons_self _ _)
      have h1 := greedyCuts_short A z hz (b :: w) rest c f hw hf w
        (fun x hx => hw x (List.mem_cons_of_mem _ hx)) (by simp)
      have e : (b :: w) ++ z :: rest = b :: (w ++ z :: rest) := rfl
      rw [List.nil_append, e]
      simp only [greedyCuts, hb, if_true, List.flatMap_append, h1, List.nil_append,
        List.flatMap_cons, List.flatMap_nil, List.append_nil]
  | cons a y ih =>
    intro hy
    have ha := hy a (List.mem_cons_self _ _)
    have h1 := ih (fun x hx => hy x (List.mem_cons_of_mem _ hx))
    have h2 : f (a :: (y ++ (w ++ z :: rest)), c) = [] := by
      apply hf
      cases hp : (w ++ [z]).isPrefixOf (a :: (y ++ (w ++ z :: rest))) with
      | false => rfl
      | true =>
        have e : a :: (y ++ (w ++ z :: rest)) = (a :: y ++ w) ++ z :: rest := by simp
        rw [e] at hp
        have := eq_of_isPrefixOf_stop A z hz rest w (a :: y ++ w) hw (by
          intro x hx
          simp only [List.cons_append, List.mem_cons, List.mem_append] at hx
          rcases hx with rfl | hx | hx
          · exact ha
          · exact hy x (List.mem_cons_of_mem _ hx)
          · exact hw x hx) hp
        have := congrArg List.length this
        simp at this
        omega
    have e : (a :: y) ++ (w ++ z :: rest) = a :: (y ++ (w ++ z :: rest)) := rfl
    rw [e]
    simp only [greedyCuts, ha, if_true, List.flatMap_append, h1, List.flatMap_cons,
      List.flatMap_nil, List.append_nil, h2]

/-- A greedy star over `A`, then a literal that ends with a character outside `A`, then
`q`: on a run of `A` that ends with the literal the star gives back exactly the literal. -/
theorem ms_greedy_until_seq (A : CharSet) (z : Char) (hz : A.mem z = false) (w : Str) (q : Re)
    (y rest : Str) (c : Caps) (hy : ∀ x ∈ y, A.mem x = true) (hw : ∀ x ∈ w, A.mem x = true) :
    ms (.seq (.star true (.cls A)) (.seq (.lit (w ++ [z])) q)) (y ++ (w ++ z :: rest)) c =
      ms q rest c := by
  rw [ms_seq, ms_star_greedy_cls,
    greedyCuts_until A z hz w rest c (fun r => ms (.seq (.lit (w ++ [z])) q) r.1 r.2) hw
      (fun s hs => by simp only [ms_seq, ms_lit, hs]; rfl) y hy]
  have e : w ++ z :: rest = (w ++ [z]) ++ rest := by simp
  simp only [e, ms_seq_lit]

/-- The same with the literal at the end of the expression. -/
theorem ms_greedy_until_lit (A : CharSet) (z : Char) (hz : A.mem z = false) (w : Str)
    (y rest : Str) (c : Caps) (hy : ∀ x ∈ y, A.mem x = true) (hw : ∀ x ∈ w, A.mem x = true) :
    ms (.seq (.star true (.cls A)) (.lit (w ++ [z]))) (y ++ (w ++ z :: rest)) c =
      [(rest, c)] := by
  rw [ms_seq, ms_star_greedy_cls,
    greedyCuts_until A z hz w rest c (fun r => ms (.lit (w ++ [z])) r.1 r.2) hw
      (fun s hs => by simp only [ms_lit, hs]; rfl) y hy]
  have e : w ++ z :: rest = (w ++ [z]) ++ rest := by simp
  simp only [e, ms_lit_append]

/-- The preferred cut of a greedy star over `A`: behind the whole run of `A`. -/
theorem greedyCuts_head (A : CharSet) (c : Caps) (v : Str)
    (hv : ∀ x, v.head? = some x → A.mem x = false) :
    ∀ (u : Str), (∀ x ∈ u, A.mem x = true) → (greedyCuts A c (u ++ v)).head? = some (v, c) := by
  intro u
  induction u with
  | nil =>
    intro _
    cases v with
    | nil => rfl
    | cons x v => simp [greedyCuts, hv x rfl]
  | cons a u ih =>
    intro hu
    have ha := hu a (List.mem_cons_self _ _)
    have h1 := ih (fun x hx => hu x (List.mem_cons_of_mem _ hx))
    have e : (a :: u) ++ v = a :: (u ++ v) := rfl
    rw [e]
    simp only [greedyCuts, ha, if_true]
    cases hg : greedyCuts A c (u ++ v) with
    | nil => rw [hg] at h1; exact Option.noConfusion h1
    | cons g gs => rw [hg] at h1; simpa using h1

/-- A greedy star over `A` in front of an expression that cannot start with a character
of `A`: on a run of `A` the expression is tried behind the run only. -/
theorem ms_star_skip (A : CharSet) (q : Re) (c : Caps) (v : Str)
    (hq : ∀ a s, A.mem a = true → ms q (a :: s) c = [])
    (hv : ∀ x, v.head? = some x → A.mem x = false) :
    ∀ (u : Str), (∀ x ∈ u, A.mem x = true) →
      ms (.seq (.star true (.cls A)) q) (u ++ v) c = ms q v c := by
  intro u
  induction u with
  | nil =>
    intro _
    rw [ms_seq, ms_star_greedy_cls]
    cases v with
    | nil => simp [greedyCuts]
    | cons x v => simp [greedyCuts, hv x rfl]
  | cons a u ih =>
    intro hu
    have ha := hu a (List.mem_cons_self _ _)
    have h1 := ih (fun x hx => hu x (List.mem_cons_of_mem _ hx))
    rw [ms_seq, ms_star_greedy_cls] at h1 ⊢
    have e : (a :: u) ++ v = a :: (u ++ v) := rfl
    rw [e]
    simp only [greedyCuts, ha, if_true, List.flatMap_append, h1, List.flatMap_cons,
      List.flatMap_nil, List.append_nil, hq a (u ++ v) ha]

/-! ## Inputs made of texts and block markers -/

theorem renderToks_cons (t : Tok) (ps : List Tok) :
    renderToks (t :: ps) = t.render ++ renderToks ps := rfl

theorem renderToks_toks (ps : List Piece) :
    renderToks (ps.flatMap Piece.toks) = renderPieces ps := by
  induction ps with
  | nil => rfl
  | cons p ps ih =>
    have h : renderToks p.toks = p.render := by
      cases p with
      | text t =>
        simp only [Piece.toks, Piece.render]
        induction t with
        | nil => rfl
        | cons c t iht => simp only [List.map_cons, renderToks_cons, iht]; rfl
      | opening x => simp [Piece.toks, Piece.render, renderToks, Tok.render]
      | closing x => simp [Piece.toks, Piece.render, renderToks, Tok.render]
    have e : renderToks (p.toks ++ ps.flatMap Piece.toks) =
        renderToks p.toks ++ renderToks (ps.flatMap Piece.toks) := by
      simp [renderToks, List.flatMap_append]
    simp only [List.flatMap_cons, renderPieces] at ih ⊢
    rw [e, ih, h]

theorem toks_ok (ps : List Piece) (h : ∀ p ∈ ps, p.wellFormed = true) :
    ∀ t ∈ ps.flatMap Piece.toks, t.ok = true := by
  intro t ht
  simp only [List.mem_flatMap] at ht
  obtain ⟨p, hp, ht⟩ := ht
  have hw := h p hp
  cases p with
  | text x =>
    simp only [Piece.toks, List.mem_map] at ht
    obtain ⟨c, hc, rfl⟩ := ht
    simp only [Piece.wellFormed, List.all_eq_true] at hw
    exact hw c hc
  | opening x =>
    simp only [Piece.toks, List.mem_singleton] at ht
    subst ht; exact hw
  | closing x =>
    simp only [Piece.toks, List.mem_singleton] at ht
    subst ht; exact hw

/-- The input of well-formed tokens does not start with `!`. -/
theorem renderToks_head (ps : List Tok) (h : ∀ t ∈ ps, t.ok = true) :
    ∀ c, (renderToks ps).head? = some c → c ≠ '!' := by
  intro c hc
  cases ps with
  | nil => simp [renderToks] at hc
  | cons t ps =>
    have ht := h t (List.mem_cons_self _ _)
    cases t with
    | ch d =>
      simp [renderToks_cons, Tok.render] at hc
      subst hc
      simpa [Tok.ok] using ht
    | opening x =>
      simp [renderToks_cons, Tok.render] at hc
      subst hc; decide
    | closing x =>
      simp [renderToks_cons, Tok.render] at hc
      subst hc; decide

/-- The leading white space of the input of tokens. -/
theorem renderToks_span (ps : List Tok) :
    renderToks ps = renderToks (ps.takeWhile Tok.isWs) ++ renderToks (ps.dropWhile Tok.isWs) ∧
    (∀ c ∈ renderToks (ps.takeWhile Tok.isWs), reSpace.mem c = true) ∧
    (∀ c, (renderToks (ps.dropWhile Tok.isWs)).head? = some c → reSpace.mem c = false) := by
  induction ps with
  | nil => exact ⟨rfl, by simp [renderToks], by simp [renderToks]⟩
  | cons t ps ih =>
    cases hw : t.isWs with
    | true =>
      obtain ⟨h1, h2, h3⟩ := ih
      simp only [List.takeWhile_cons, List.dropWhile_cons, hw, if_true, renderToks_cons]
      refine ⟨by rw [List.append_assoc, ← h1], ?_, h3⟩
      intro c hc
      simp only [List.mem_append] at hc
      rcases hc with hc | hc
      · cases t with
        | ch d =>
          simp only [Tok.render, List.mem_singleton] at hc
          subst hc; exact hw
        | opening x => exact Bool.noConfusion hw
        | closing x => exact Bool.noConfusion hw
      · exact h2 c hc
    | false =>
      simp only [List.takeWhile_cons, List.dropWhile_cons, hw, renderToks_cons]
      refine ⟨by simp [renderToks], by simp [renderToks], ?_⟩
      intro c hc
      cases t with
      | ch d =>
        simp [renderToks_cons, Tok.render] at hc
        subst hc; exact hw
      | opening x =>
        simp [renderToks_cons, Tok.render] at hc
        subst hc; decide
      | closing x =>
        simp [renderToks_cons, Tok.render] at hc
        subst hc; decide

theorem bodyOk_notGt (x : Str) (h : bodyOk x = true) : ∀ c ∈ x, notGt.mem c = true := by
  intro c hc
  simp only [bodyOk, List.all_eq_true, Bool.and_eq_true, bne_iff_ne] at h
  exact (CharSet.mem_compl_one '>' c).mpr (h c hc).2

theorem bodyOk_notLt (x : Str) (h : bodyOk x = true) : ∀ c ∈ x, notLt.mem c = true := by
  intro c hc
  simp only [bodyOk, List.all_eq_true, Bool.and_eq_true, bne_iff_ne] at h
  exact (CharSet.mem_compl_one '<' c).mpr (h c hc).1

/-- A literal that starts with `<!` is no prefix of an input whose second character is
not `!`. -/
theorem isPrefixOf_bang (w : Str) (c : Char) (v : Str) (hv : ∀ d, v.head? = some d → d ≠ '!') :
    ('<' :: '!' :: w).isPrefixOf (c :: v) = false := by
  cases v with
  | nil => simp [List.isPrefixOf]
  | cons d v =>
    have := hv d rfl
    simp only [List.isPrefixOf, Bool.and_eq_false_iff, beq_eq_false_iff_ne, ne_eq]
    right; left
    exact fun e => this e.symm

/-- The opening pattern does not match at a character of a text. -/
theorem ms_open_ch (c : Char) (v : Str) (c0 : Caps) (hv : ∀ d, v.head? = some d → d ≠ '!') :
    ms reBlockOpen (c :: v) c0 = [] := by
  show ms (.seq (.lit ('<' :: '!' :: "-- wp:".data)) _) (c :: v) c0 = []
  rw [ms_seq, ms_lit, isPrefixOf_bang _ c v hv]
  rfl

/-- The closing pattern without its white space does not match at a character of a
text. -/
theorem ms_closeTail_ch (c : Char) (v : Str) (c0 : Caps)
    (hv : ∀ d, v.head? = some d → d ≠ '!') : ms reBlockCloseTail (c :: v) c0 = [] := by
  show ms (.seq (.lit ('<' :: '!' :: "-- /wp:".data)) _) (c :: v) c0 = []
  rw [ms_seq, ms_lit, isPrefixOf_bang _ c v hv]
  rfl

theorem ms_closeTail_nil (c0 : Caps) : ms reBlockCloseTail [] c0 = [] := rfl

/-- The closing pattern without its white space does not match at an opening marker. -/
theorem ms_closeTail_opening (x v : Str) (c0 : Caps) :
    ms reBlockCloseTail ((Tok.opening x).render ++ v) c0 = [] := rfl

/-- The closing pattern without its white space does not match at white space. -/
theorem ms_closeTail_ws (a : Char) (s : Str) (c0 : Caps) (ha : reSpace.mem a = true) :
    ms reBlockCloseTail (a :: s) c0 = [] := by
  show ms (.seq (.lit ('<' :: "!-- /wp:".data)) _) (a :: s) c0 = []
  have hne : ('<' == a) = false := by
    cases h : ('<' == a) with
    | false => rfl
    | true =>
      have := beq_iff_eq.mp h
      subst this
      exact absurd ha (by decide)
  rw [ms_seq, ms_lit]
  simp [List.isPrefixOf, hne]

/-- The closing pattern without its white space matches a closing marker exactly. -/
theorem ms_closeTail_closing (x v : Str) (c0 : Caps) (hx : bodyOk x = true) :
    ms reBlockCloseTail ((Tok.closing x).render ++ v) c0 = [(v, c0)] := by
  show ms (.seq (.lit "<!-- /wp:".data) (.seq (.star true (.cls notGt))
    (.lit ("--".data ++ ['>'])))) (("<!-- /wp:".data ++ (x ++ "-->".data)) ++ v) c0 = _
  have e : ("<!-- /wp:".data ++ (x ++ "-->".data)) ++ v =
      "<!-- /wp:".data ++ (x ++ ("--".data ++ '>' :: v)) := by simp
  rw [e, ms_seq_lit, ms_greedy_until_lit notGt '>' (by decide) "--".data x v c0
    (bodyOk_notGt x hx) (by decide)]

/-- The closing pattern on white space in front of an input that does not start with
white space. -/
theorem ms_close_span (u v : Str) (c0 : Caps) (hu : ∀ c ∈ u, reSpace.mem c = true)
    (hv : ∀ c, v.head? = some c → reSpace.mem c = false) :
    ms reBlockClose (u ++ v) c0 = ms reBlockCloseTail v c0 :=
  ms_star_skip reSpace reBlockCloseTail c0 v (fun a s ha => ms_closeTail_ws a s c0 ha) hv u hu

/-- The opening pattern matches an opening marker and the white space behind it. -/
theorem ms_open_opening (x u v : Str) (hx : bodyOk x = true)
    (hu : ∀ c ∈ u, reSpace.mem c = true)
    (hv : ∀ c, v.head? = some c → reSpace.mem c = false) :
    (ms reBlockOpen (((Tok.opening x).render ++ u) ++ v) []).head? = some (v, []) := by
  show (ms (.seq (.lit "<!-- wp:".data) (.seq (.star true (.cls notGt))
    (.seq (.lit ("--".data ++ ['>'])) (.star true (.cls reSpace)))))
    ((("<!-- wp:".data ++ (x ++ "-->".data)) ++ u) ++ v) []).head? = _
  have e : (("<!-- wp:".data ++ (x ++ "-->".data)) ++ u) ++ v =
      "<!-- wp:".data ++ (x ++ ("--".data ++ '>' :: (u ++ v))) := by simp
  rw [e, ms_seq_lit, ms_greedy_until_seq notGt '>' (by decide) "--".data _ x (u ++ v) []
    (bodyOk_notGt x hx) (by decide), ms_star_greedy_cls]
  exact greedyCuts_head reSpace [] v hv u hu

/-- No match of the opening pattern starts inside a closing marker. -/
theorem noStart_open_closing (x v : Str) (hx : bodyOk x = true) :
    NoStart reBlockOpen (Tok.closing x).render v := by
  apply NoStart_of_covers reBlockOpen closingWins _ _ _ (by decide)
  show CoversIn closingWins ('<' :: ("!-- /wp:".data ++ (x ++ "-->".data))) v
  refine CoversIn.cons ⟨litWin "<!-- /".data, by simp [closingWins], ?_⟩ ?_
  · exact Describes_litWin "<!-- /".data ("wp:".data ++ (x ++ "-->".data) ++ v)
  · refine (CoversIn.ofClass notLt _ v ?_).mono (fun W hW => by simp at hW; simp [closingWins, hW])
    intro c hc
    simp only [List.mem_append] at hc
    rcases hc with h | h | h
    · exact (by decide : ∀ c ∈ "!-- /wp:".data, notLt.mem c = true) c h
    · exact bodyOk_notLt x hx c h
    · exact (by decide : ∀ c ∈ "-->".data, notLt.mem c = true) c h

theorem NoStart_single (r : Re) (c : Char) (v : Str) (h : ∀ c0, ms r (c :: v) c0 = []) :
    NoStart r [c] v := by
  intro u1 u2 c0 he hne
  cases u1 with
  | nil =>
    simp only [List.nil_append] at he
    subst he
    exact h c0
  | cons a u1 =>
    have := congrArg List.length he
    simp only [List.length_cons, List.length_nil, List.length_append] at this
    have : u2 = [] := List.length_eq_zero.mp (by omega)
    exact absurd this hne

theorem ok_dropWhile (ps : List Tok) (h : ∀ t ∈ ps, t.ok = true) :
    ∀ t ∈ ps.dropWhile Tok.isWs, t.ok = true :=
  fun t ht => h t ((List.dropWhile_sublist _).subset ht)

/-- The pass of the opening pattern: all opening markers are removed, and what is left
is again an input of well-formed tokens. -/
theorem open_pass : ∀ (n : Nat) (ps : List Tok), ps.length ≤ n → (∀ t ∈ ps, t.ok = true) →
    ∃ qs : List Tok, (∀ t ∈ qs, t.ok = true) ∧ (∀ t ∈ qs, t.notOpening = true) ∧
      ReplaceAllString reBlockOpen (renderToks ps) [] = renderToks qs := by
  have hn : reBlockOpen.nonNull = true := by decide
  intro n
  induction n with
  | zero =>
    intro ps hlen _
    have : ps = [] := List.length_eq_zero.mp (by omega)
    subst this
    exact ⟨[], by simp, by simp, ReplaceAllString_nil _ hn _⟩
  | succ n ih =>
    intro ps hlen hok
    cases ps with
    | nil => exact ⟨[], by simp, by simp, ReplaceAllString_nil _ hn _⟩
    | cons t ps =>
      have hok1 : ∀ t ∈ ps, t.ok = true := fun t ht => hok t (List.mem_cons_of_mem _ ht)
      have hlen1 : ps.length ≤ n := by simp only [List.length_cons] at hlen; omega
      have ht := hok t (List.mem_cons_self _ _)
      cases t with
      | ch c =>
        obtain ⟨qs, h1, h2, h3⟩ := ih ps hlen1 hok1
        refine ⟨Tok.ch c :: qs, ?_, ?_, ?_⟩
        · intro t ht1
          rcases List.mem_cons.mp ht1 with h | h
          · rw [h]; exact ht
          · exact h1 t h
        · intro t ht1
          rcases List.mem_cons.mp ht1 with h | h
          · rw [h]; rfl
          · exact h2 t h
        · have hns : NoStart reBlockOpen [c] (renderToks ps) :=
            NoStart_single _ c _ (fun c0 => ms_open_ch c _ c0 (renderToks_head ps hok1))
          rw [renderToks_cons, renderToks_cons]
          show ReplaceAllString reBlockOpen ([c] ++ renderToks ps) [] = [c] ++ renderToks qs
          rw [ReplaceAllString_skip _ hn _ _ _ hns, h3]
      | closing x =>
        obtain ⟨qs, h1, h2, h3⟩ := ih ps hlen1 hok1
        refine ⟨Tok.closing x :: qs, ?_, ?_, ?_⟩
        · intro t ht1
          rcases List.mem_cons.mp ht1 with h | h
          · rw [h]; exact ht
          · exact h1 t h
        · intro t ht1
          rcases List.mem_cons.mp ht1 with h | h
          · rw [h]; rfl
          · exact h2 t h
        · rw [renderToks_cons, renderToks_cons,
            ReplaceAllString_skip _ hn _ _ _ (noStart_open_closing x _ ht), h3]
      | opening x =>
        obtain ⟨hs1, hs2, hs3⟩ := renderToks_span ps
        obtain ⟨qs, h1, h2, h3⟩ := ih (ps.dropWhile Tok.isWs)
          (Nat.le_trans (List.dropWhile_sublist _).length_le hlen1) (ok_dropWhile ps hok1)
        refine ⟨qs, h1, h2, ?_⟩
        have e : renderToks (Tok.opening x :: ps) =
            ((Tok.opening x).render ++ renderToks (ps.takeWhile Tok.isWs)) ++
              renderToks (ps.dropWhile Tok.isWs) := by
          rw [renderToks_cons, List.append_assoc, ← hs1]
        rw [e, ReplaceAllString_here _ hn _ _ _ [] (ms_open_opening x _ _ ht hs2 hs3), h3]
        rfl

/-- The pass of the closing pattern on an input of well-formed tokens without opening
markers: no `!` is left. -/
theorem close_pass : ∀ (n : Nat) (ps : List Tok), ps.length ≤ n → (∀ t ∈ ps, t.ok = true) →
    (∀ t ∈ ps, t.notOpening = true) →
    charsOk (fun c => c ≠ '!') (ReplaceAllString reBlockClose (renderToks ps) []) := by
  have hn : reBlockClose.nonNull = true := by decide
  intro n
  induction n with
  | zero =>
    intro ps hlen _ _
    have : ps = [] := List.length_eq_zero.mp (by omega)
    subst this
    rw [show renderToks [] = [] from rfl, ReplaceAllString_nil _ hn]
    exact charsOk_nil _
  | succ n ih =>
    intro ps hlen hok hno
    cases ps with
    | nil =>
      rw [show renderToks [] = [] from rfl, ReplaceAllString_nil _ hn]
      exact charsOk_nil _
    | cons t ps =>
      have hok1 : ∀ t ∈ ps, t.ok = true := fun t ht => hok t (List.mem_cons_of_mem _ ht)
      have hno1 : ∀ t ∈ ps, t.notOpening = true := fun t ht => hno t (List.mem_cons_of_mem _ ht)
      have hlen1 : ps.length ≤ n := by simp only [List.length_cons] at hlen; omega
      have ht := hok t (List.mem_cons_self _ _)
      obtain ⟨hs1, hs2, hs3⟩ := renderToks_span (t :: ps)
      have hsub := (List.dropWhile_sublist Tok.isWs : (t :: ps).dropWhile Tok.isWs |>.Sublist (t :: ps))
      -- the pattern at the first position
      have hms : ∀ c0, ms reBlockClose (renderToks (t :: ps)) c0 =
          ms reBlockCloseTail (renderToks ((t :: ps).dropWhile Tok.isWs)) c0 := by
        intro c0
        rw [hs1]
        exact ms_close_span _ _ c0 hs2 hs3
      cases hq : (t :: ps).dropWhile Tok.isWs with
      | nil =>
        rw [hq] at hms
        cases t with
        | ch c =>
          have hns : NoStart reBlockClose [c] (renderToks ps) :=
            NoStart_single _ c _ (fun c0 => by
              have := hms c0
              rw [renderToks_cons] at this
              exact this.trans rfl)
          rw [renderToks_cons]
          show charsOk _ (ReplaceAllString reBlockClose ([c] ++ renderToks ps) [])
          rw [ReplaceAllString_skip _ hn _ _ _ hns]
          exact charsOk_append.mpr ⟨charsOk_cons.mpr ⟨by simpa [Tok.ok] using ht, charsOk_nil _⟩,
            ih ps hlen1 hok1 hno1⟩
        | opening x => exact absurd (hno _ (List.mem_cons_self _ _)) (by simp [Tok.notOpening])
        | closing x => simp [List.dropWhile, Tok.isWs] at hq
      | cons q qs =>
        rw [hq] at hms hsub
        have hqs_ok : ∀ t ∈ qs, t.ok = true :=
          fun t ht1 => hok t (hsub.subset (List.mem_cons_of_mem _ ht1))
        have hqs_no : ∀ t ∈ qs, t.notOpening = true :=
          fun t ht1 => hno t (hsub.subset (List.mem_cons_of_mem _ ht1))
        have hqs_len : qs.length ≤ n := by
          have := hsub.length_le
          simp only [List.length_cons] at this hlen
          omega
        have hq_ok := hok q (hsub.subset (List.mem_cons_self _ _))
        cases q with
        | closing x =>
          have hm : (ms reBlockClose ((renderToks ((t :: ps).takeWhile Tok.isWs) ++
              (Tok.closing x).render) ++ renderToks qs) []).head? = some (renderToks qs, []) := by
            have := hms []
            rw [hs1, hq, renderToks_cons] at this
            rw [List.append_assoc, this, ms_closeTail_closing x _ [] hq_ok]
            rfl
          have e : renderToks (t :: ps) = (renderToks ((t :: ps).takeWhile Tok.isWs) ++
              (Tok.closing x).render) ++ renderToks qs := by
            rw [hs1, hq, renderToks_cons, List.append_assoc]
          rw [e, ReplaceAllString_here _ hn _ _ _ [] hm]
          exact charsOk_append.mpr ⟨charsOk_nil _, ih qs hqs_len hqs_ok hqs_no⟩
        | opening x =>
          exact absurd (hno _ (hsub.subset (List.mem_cons_self _ _))) (by simp [Tok.notOpening])
        | ch d =>
          have hnil : ∀ c0, ms reBlockClose (renderToks (t :: ps)) c0 = [] := by
            intro c0
            rw [hms c0, renderToks_cons]
            exact ms_closeTail_ch d _ c0 (renderToks_head qs hqs_ok)
          cases t with
          | ch c =>
            have hns : NoStart reBlockClose [c] (renderToks ps) :=
              NoStart_single _ c _ (fun c0 => hnil c0)
            rw [renderToks_cons]
            show charsOk _ (ReplaceAllString reBlockClose ([c] ++ renderToks ps) [])
            rw [ReplaceAllString_skip _ hn _ _ _ hns]
            exact charsOk_append.mpr
              ⟨charsOk_cons.mpr ⟨by simpa [Tok.ok] using ht, charsOk_nil _⟩,
                ih ps hlen1 hok1 hno1⟩
          | opening x => exact absurd (hno _ (List.mem_cons_self _ _)) (by simp [Tok.notOpening])
          | closing x => simp [List.dropWhile, Tok.isWs] at hq

theorem mem_of_contains (w : Str) : ∀ (s : Str), Contains s w = true → ∀ x ∈ w, x ∈ s := by
  intro s
  induction s with
  | nil =>
    intro h x hx
    simp only [Contains] at h
    have := List.isPrefixOf_iff_prefix.mp h
    exact this.subset hx
  | cons a s ih =>
    intro h x hx
    simp only [Contains, Bool.or_eq_true] at h
    rcases h with h | h
    · exact (List.isPrefixOf_iff_prefix.mp h).subset hx
    · exact List.mem_cons_of_mem _ (ih h x hx)

/-- A string does not contain a text one of whose characters it lacks. -/
theorem not_contains_of_char (s w : Str) (c : Char) (hc : c ∈ w) (hs : c ∉ s) :
    Contains s w = false := by
  cases h : Contains s w with
  | false => rfl
  | true => exact absurd (mem_of_contains w s h c hc) hs

/-- The sanitizer on an input of well-formed tokens leaves no `!`. -/
theorem Sanitize_toks (ps : List Tok) (hok : ∀ t ∈ ps, t.ok = true) :
    charsOk (fun c => c ≠ '!') (SanitizeWordPressContent (renderToks ps)) := by
  obtain ⟨qs, h1, h2, h3⟩ := open_pass ps.length ps (Nat.le_refl _) hok
  have h4 := close_pass qs.length qs (Nat.le_refl _) h1 h2
  unfold SanitizeWordPressContent removeGutenbergComments
  rw [h3]
  exact removeEmptyParagraphs_chars _ _
    (cleanWhitespace_chars _ (by decide) (by decide) (by decide) _ h4)

/-! ## Angle brackets of a text -/

theorem brackets_append (a b : Str) : brackets (a ++ b) = brackets a ++ brackets b :=
  List.filter_append _ _

theorem brackets_cons_of_not (c : Char) (s : Str) (h : isBracket c = false) :
    brackets (c :: s) = brackets s := by
  simp [brackets, List.filter_cons, h]

theorem any_gt_brackets (s : Str) :
    (brackets s).any (fun d => d == '>') = s.any (fun d => d == '>') := by
  induction s with
  | nil => rfl
  | cons c s ih =>
    cases hb : isBracket c with
    | true =>
      have : brackets (c :: s) = c :: brackets s := by simp [brackets, List.filter_cons, hb]
      rw [this, List.any_cons, List.any_cons, ih]
    | false =>
      rw [brackets_cons_of_not c s hb, List.any_cons, ih]
      have : (c == '>') = false := by
        simp only [isBracket, Bool.or_eq_false_iff] at hb
        exact hb.2
      rw [this, Bool.false_or]

/-- Whether a text holds a tag depends on its angle brackets only. -/
theorem hasTag_brackets (s : Str) : hasTag (brackets s) = hasTag s := by
  induction s with
  | nil => rfl
  | cons c s ih =>
    cases hb : isBracket c with
    | true =>
      have : brackets (c :: s) = c :: brackets s := by simp [brackets, List.filter_cons, hb]
      rw [this, hasTag, hasTag, ih, any_gt_brackets]
    | false =>
      rw [brackets_cons_of_not c s hb, ih, hasTag]
      have : (c == '<') = false := by
        simp only [isBracket, Bool.or_eq_false_iff] at hb
        exact hb.1
      rw [this, Bool.false_and, Bool.false_or]

theorem hasTag_congr (a b : Str) (h : brackets a = brackets b) : hasTag a = hasTag b := by
  rw [← hasTag_brackets a, ← hasTag_brackets b, h]

theorem brackets_of_sublist_ends (s : Str) : brackets (TrimSpace s) = brackets s := by
  have key : ∀ (t : Str), brackets (t.dropWhile goSpace.mem) = brackets t := by
    intro t
    induction t with
    | nil => rfl
    | cons c t ih =>
      simp only [List.dropWhile_cons]
      split
      · rename_i hc
        rw [ih, brackets_cons_of_not c t]
        have h1 : c ≠ '<' := CharSet.ne_of_mem goSpace c '<' hc (by decide)
        have h2 : c ≠ '>' := CharSet.ne_of_mem goSpace c '>' hc (by decide)
        simp [isBracket, h1, h2]
      · rfl
  have hrev : ∀ (t : Str), brackets t.reverse = (brackets t).reverse := by
    intro t
    simp [brackets, List.filter_reverse]
  unfold TrimSpace
  rw [hrev, key, hrev, List.reverse_reverse, key]

theorem starLoop_sig (f : Str → Caps → Res)
    (hf : ∀ s c r, r ∈ f s c → brackets s = brackets r.1) (g : Bool) :
    ∀ n s c r, r ∈ starLoop f g n s c → brackets s = brackets r.1 := by
  intro n
  induction n with
  | zero =>
    intro s c r hr
    simp [starLoop] at hr
    subst hr
    rfl
  | succ n ih =>
    intro s c r hr
    have key : r = (s, c) ∨ ∃ r1, r1 ∈ f s c ∧ r ∈ starLoop f g n r1.1 r1.2 := by
      cases g <;> simp [starLoop, List.mem_flatMap, List.mem_filter] at hr
      · rcases hr with h | ⟨a, b, ⟨h1, _⟩, h2⟩
        · exact Or.inl h
        · exact Or.inr ⟨(a, b), h1, h2⟩
      · rcases hr with ⟨a, b, ⟨h1, _⟩, h2⟩ | h
        · exact Or.inr ⟨(a, b), h1, h2⟩
        · exact Or.inl h
    rcases key with h | ⟨r1, h1, h2⟩
    · subst h; rfl
    · rw [hf _ _ _ h1]
      exact ih _ _ _ h2

/-- The angle brackets of the input are those of the expression, then those of what the
match leaves unread. -/
theorem ms_sig : ∀ (r : Re) (b : Str), r.sig = some b → ∀ (s : Str) (c : Caps) (x : Str × Caps),
    x ∈ ms r s c → brackets s = b ++ brackets x.1 := by
  intro r
  induction r with
  | lit w =>
    intro b hb s c x hx
    simp only [Re.sig, Option.some.injEq] at hb
    subst hb
    simp only [ms] at hx
    split at hx
    · rename_i hp
      simp at hx; subst hx
      obtain ⟨t, ht⟩ := List.isPrefixOf_iff_prefix.mp hp
      rw [← ht, List.drop_left, brackets_append]
    · simp at hx
  | cls A =>
    intro b hb s c x hx
    simp only [Re.sig] at hb
    split at hb
    · exact Option.noConfusion hb
    · rename_i hA
      simp only [Option.some.injEq] at hb
      subst hb
      simp only [Bool.or_eq_true, not_or, Bool.not_eq_true] at hA
      cases s with
      | nil => simp [ms] at hx
      | cons y s1 =>
        simp only [ms] at hx
        split at hx
        · rename_i hy
          simp at hx; subst hx
          rw [List.nil_append, brackets_cons_of_not]
          have h1 : y ≠ '<' := CharSet.ne_of_mem A y '<' hy hA.1
          have h2 : y ≠ '>' := CharSet.ne_of_mem A y '>' hy hA.2
          simp [isBracket, h1, h2]
        · simp at hx
  | seq a b iha ihb =>
    intro bb hb s c x hx
    simp only [Re.sig] at hb
    cases ha : a.sig with
    | none => simp [ha] at hb
    | some xa =>
      cases hb2 : b.sig with
      | none => simp [ha, hb2] at hb
      | some xb =>
        simp only [ha, hb2, Option.some.injEq] at hb
        subst hb
        simp only [ms, List.mem_flatMap] at hx
        obtain ⟨y, hy, hx⟩ := hx
        rw [iha xa ha _ _ _ hy, ihb xb hb2 _ _ _ hx, List.append_assoc]
  | alt a b iha ihb =>
    intro bb hb s c x hx
    simp only [Re.sig] at hb
    cases ha : a.sig with
    | none => simp [ha] at hb
    | some xa =>
      cases hb2 : b.sig with
      | none => simp [ha, hb2] at hb
      | some xb =>
        simp only [ha, hb2] at hb
        split at hb
        · rename_i he
          simp only [Option.some.injEq] at hb
          subst hb
          simp only [ms, List.mem_append] at hx
          rcases hx with h | h
          · exact iha xa ha _ _ _ h
          · exact ihb xa (by rw [hb2, he]) _ _ _ h
        · exact Option.noConfusion hb
  | star g a ih =>
    intro bb hb s c x hx
    simp only [Re.sig] at hb
    cases ha : a.sig with
    | none => simp [ha] at hb
    | some xa =>
      cases xa with
      | nil =>
        simp only [ha, Option.some.injEq] at hb
        subst hb
        simp only [ms] at hx
        rw [List.nil_append]
        exact starLoop_sig _ (fun s c r hr => by simpa using ih [] ha s c r hr) g _ _ _ _ hx
      | cons y ys => simp [ha] at hb
  | grp i a ih =>
    intro bb hb s c x hx
    simp only [Re.sig] at hb
    simp only [ms, List.mem_map] at hx
    obtain ⟨y, hy, rfl⟩ := hx
    exact ih bb hb _ _ y hy

/-- A replacement whose pattern and template agree in their angle brackets keeps the
angle brackets of the input. -/
theorem ReplaceAllString_brackets (r : Re) (hn : r.nonNull = true) (b : Str)
    (hsig : r.sig = some b) (t : List Tpl) (ht : ∀ c, brackets (expand t c) = b) :
    ∀ (n : Nat) (s : Str), s.length ≤ n → brackets (ReplaceAllString r s t) = brackets s := by
  intro n
  induction n with
  | zero =>
    intro s hs
    have : s = [] := List.length_eq_zero.mp (by omega)
    subst this
    rw [ReplaceAllString_nil r hn]
  | succ n ih =>
    intro s hs
    cases hf : findFirst r s with
    | none => rw [ReplaceAllString_none r t s hf]
    | some m =>
      obtain ⟨he, hm⟩ := findFirst_some r s m hf
      have hlt := findFirst_rest_lt r hn s m hf
      have h1 := ms_sig r b hsig _ _ _ (List.mem_of_mem_head? hm)
      rw [ReplaceAllString_some r hn t s m hf, brackets_append, brackets_append, ht,
        ih m.rest (by omega)]
      conv_rhs => rw [he, List.append_assoc, brackets_append, h1]
      simp [List.append_assoc]

/-- The white-space clean-up keeps the angle brackets. -/
theorem cleanWhitespace_brackets (s : Str) : brackets (cleanWhitespace s) = brackets s := by
  unfold cleanWhitespace
  rw [brackets_of_sublist_ends,
    ReplaceAllString_brackets reBetweenTags (by decide) "><".data (by decide) [T "><"]
      (fun _ => rfl) _ _ (Nat.le_refl _),
    ReplaceAllString_brackets reTrailingBlanks (by decide) [] (by decide) [T "\n"]
      (fun _ => rfl) _ _ (Nat.le_refl _),
    ReplaceAllString_brackets reNewlines3 (by decide) [] (by decide) [T "\n\n"]
      (fun _ => rfl) _ _ (Nat.le_refl _)]

/-- When no match is found, the expression matches at no position. -/
theorem findFirst_none_all (r : Re) : ∀ (s : Str), findFirst r s = none →
    ∀ a b, s = a ++ b → ms r b [] = [] := by
  intro s
  induction s with
  | nil =>
    intro h a b he
    have hb : b = [] := (List.append_eq_nil.mp he.symm).2
    subst hb
    simp only [findFirst] at h
    exact (matchAt_none r []).mp h
  | cons x s ih =>
    intro h a b he
    simp only [findFirst] at h
    cases hm : matchAt r (x :: s) with
    | some m => simp [hm] at h
    | none =>
      simp only [hm, Option.map_eq_none'] at h
      cases a with
      | nil =>
        simp only [List.nil_append] at he
        subst he
        exact (matchAt_none r _).mp hm
      | cons y a =>
        simp only [List.cons_append, List.cons.injEq] at he
        exact ih h a b he.2

/-- No match starts inside the text in front of the leftmost match. -/
theorem findFirst_pre (r : Re) : ∀ (s : Str) (m : Match), findFirst r s = some m →
    ∀ a b, m.pre = a ++ b → b ≠ [] → ms r (b ++ (m.text ++ m.rest)) [] = [] := by
  intro s
  induction s with
  | nil =>
    intro m h a b he hb
    simp only [findFirst] at h
    have := (matchAt_some r [] m h).1
    rw [this] at he
    exact absurd (List.append_eq_nil.mp he.symm).2 hb
  | cons x s ih =>
    intro m h a b he hb
    simp only [findFirst] at h
    cases hm : matchAt r (x :: s) with
    | some m1 =>
      simp only [hm, Option.some.injEq] at h
      subst h
      have := (matchAt_some r _ m1 hm).1
      rw [this] at he
      exact absurd (List.append_eq_nil.mp he.symm).2 hb
    | none =>
      simp only [hm] at h
      cases hf : findFirst r s with
      | none => simp [hf] at h
      | some m0 =>
        simp only [hf, Option.map_some', Option.some.injEq] at h
        subst h
        simp only at he ⊢
        obtain ⟨hs, _⟩ := findFirst_some r s m0 hf
        cases a with
        | nil =>
          simp only [List.nil_append] at he
          subst he
          have e : (x :: m0.pre) ++ (m0.text ++ m0.rest) = x :: s := by
            rw [hs]; simp
          rw [e]
          exact (matchAt_none r _).mp hm
        | cons y a =>
          simp only [List.cons_append, List.cons.injEq] at he
          exact ih m0 hf a b he.2 hb

theorem split_first_gt : ∀ (s : Str), '>' ∈ s → ∃ y rest, s = y ++ '>' :: rest ∧ '>' ∉ y := by
  intro s
  induction s with
  | nil => intro h; cases h
  | cons c s ih =>
    intro h
    by_cases hc : c = '>'
    · exact ⟨[], s, by rw [hc]; rfl, by simp⟩
    · have hs : '>' ∈ s := by
        rcases List.mem_cons.mp h with h1 | h1
        · exact absurd h1.symm hc
        · exact h1
      obtain ⟨y, rest, he, hy⟩ := ih hs
      refine ⟨c :: y, rest, by rw [he]; rfl, ?_⟩
      intro hm
      rcases List.mem_cons.mp hm with h1 | h1
      · exact hc h1.symm
      · exact hy h1

/-- The tag pattern matches at every `<` that is followed by a `>`. -/
theorem ms_reTag_here (b : Str) (c : Caps) (h : '>' ∈ b) : ms reTag ('<' :: b) c ≠ [] := by
  obtain ⟨y, rest, he, hy⟩ := split_first_gt b h
  have hA : ∀ x ∈ y, notGt.mem x = true := by
    intro x hx
    exact (CharSet.mem_compl_one '>' x).mpr (fun e => hy (e ▸ hx))
  have : ms reTag ('<' :: b) c = [(rest, c)] := by
    show ms (.seq (.lit "<".data) (.seq (.star true (.cls notGt)) (.lit ([] ++ ['>']))))
      ("<".data ++ b) c = _
    rw [ms_seq_lit, he]
    exact ms_greedy_until_lit notGt '>' (by decide) [] y rest c hA (by simp)
  rw [this]
  simp

theorem hasTag_split : ∀ (s : Str), hasTag s = true → ∃ a b, s = a ++ '<' :: b ∧ '>' ∈ b := by
  intro s
  induction s with
  | nil => intro h; exact Bool.noConfusion h
  | cons c s ih =>
    intro h
    simp only [hasTag, Bool.or_eq_true, Bool.and_eq_true, beq_iff_eq, List.any_eq_true] at h
    rcases h with ⟨h1, d, hd, h2⟩ | h
    · subst h1; subst h2
      exact ⟨[], s, rfl, hd⟩
    · obtain ⟨a, b, he, hb⟩ := ih h
      exact ⟨c :: a, b, by rw [he]; rfl, hb⟩

theorem hasTag_append_of_noLt : ∀ (p x : Str), '<' ∉ p → hasTag (p ++ x) = hasTag x := by
  intro p
  induction p with
  | nil => intro x _; rfl
  | cons c p ih =>
    intro x h
    have hc : (c == '<') = false := by
      cases hq : (c == '<') with
      | false => rfl
      | true => exact absurd (by rw [beq_iff_eq.mp hq]; exact List.mem_cons_self _ _) h
    have hp : '<' ∉ p := fun hm => h (List.mem_cons_of_mem _ hm)
    rw [List.cons_append, hasTag, hc, Bool.false_and, Bool.false_or, ih x hp]

/-- What is left after the removal of the tags holds no tag: no `<` that is followed
later by a `>`. -/
theorem stripTags_noTag : ∀ (n : Nat) (s : Str), s.length ≤ n → hasTag (stripTags s) = false := by
  have hn : reTag.nonNull = true := by decide
  intro n
  induction n with
  | zero =>
    intro s hs
    have : s = [] := List.length_eq_zero.mp (by omega)
    subst this
    unfold stripTags
    rw [ReplaceAllString_nil _ hn]
    rfl
  | succ n ih =>
    intro s hs
    unfold stripTags
    cases hf : findFirst reTag s with
    | none =>
      rw [ReplaceAllString_none _ _ _ hf]
      cases ht : hasTag s with
      | false => rfl
      | true =>
        obtain ⟨a, b, he, hb⟩ := hasTag_split s ht
        exact absurd (findFirst_none_all reTag s hf a _ he) (ms_reTag_here b [] hb)
    | some m =>
      obtain ⟨he, hm⟩ := findFirst_some reTag s m hf
      have hlt := findFirst_rest_lt reTag hn s m hf
      have hgt : '>' ∈ m.text ++ m.rest := by
        obtain ⟨u1, u2, c1, hu, hq⟩ := ms_tail_witness reTag (.lit ">".data)
          (List.mem_cons_of_mem _ (List.mem_cons_of_mem _ (List.mem_singleton.mpr rfl)))
          (m.text ++ m.rest) [] (List.ne_nil_of_mem (List.mem_of_mem_head? hm))
        rw [ms_lit] at hq
        have hp : ">".data.isPrefixOf u2 = true := by
          cases hq2 : ">".data.isPrefixOf u2 with
          | true => rfl
          | false => simp [hq2] at hq
        rw [hu]
        exact List.mem_append_right _
          ((List.isPrefixOf_iff_prefix.mp hp).subset (List.mem_singleton.mpr rfl))
      have hpre : '<' ∉ m.pre := by
        intro hmem
        obtain ⟨a, b, hab⟩ := List.append_of_mem hmem
        have h1 := findFirst_pre reTag s m hf a ('<' :: b) hab (by simp)
        exact ms_reTag_here (b ++ (m.text ++ m.rest)) [] (List.mem_append_right _ hgt) h1
      rw [ReplaceAllString_some _ hn _ _ _ hf, List.append_assoc,
        hasTag_append_of_noLt _ _ hpre]
      show hasTag ([] ++ stripTags m.rest) = false
      exact ih m.rest (by omega)

/-! ## Texts without `&`

The stages of the converters in front of the entity decoding create no `&`. -/

theorem ampFree_of_not_mem (s : Str) (h : '&' ∉ s) : ampFree s :=
  fun x hx e => h (e ▸ hx)

theorem ampFree_not_mem (s : Str) (h : ampFree s) : '&' ∉ s := fun hm => h _ hm rfl

theorem ampFree_append {a b : Str} : ampFree (a ++ b) ↔ ampFree a ∧ ampFree b :=
  charsOk_append

theorem tplOk_cons_txt {P : Char → Prop} {w : Str} {t : List Tpl} (hw : charsOk P w)
    (ht : tplOk P t) : tplOk P (.txt w :: t) := by
  intro v hv
  rcases List.mem_cons.mp hv with h | h
  · cases h; exact hw
  · exact ht v h

theorem tplOk_cons_ref {P : Char → Prop} {i : Nat} {t : List Tpl} (ht : tplOk P t) :
    tplOk P (.ref i :: t) := by
  intro v hv
  rcases List.mem_cons.mp hv with h | h
  · cases h
  · exact ht v h

theorem allLoop_chars (P : Char → Prop) (r : Re) :
    ∀ (n : Nat) (b : Bool) (s : Str), charsOk P s →
      ∀ m ∈ allLoop r n b s, charsOk P m.text ∧ capsOk P m.caps := by
  intro n
  induction n with
  | zero => intro b s _ m hm; simp [allLoop] at hm
  | succ n ih =>
    intro b s hs m hm
    simp only [allLoop] at hm
    cases hf : findFirst r s with
    | none => simp [hf] at hm
    | some m0 =>
      obtain ⟨h1, h2, h3, h4⟩ := findFirst_chars P r s m0 hf hs
      simp only [hf] at hm
      split at hm
      · rcases List.mem_append.mp hm with h | h
        · split at h
          · cases h
          · rw [List.mem_singleton.mp h]; exact ⟨h2, h4⟩
        · cases s with
          | nil => cases h
          | cons x s1 => exact ih false s1 (charsOk_cons.mp hs).2 m h
      · rcases List.mem_cons.mp hm with h | h
        · rw [h]; exact ⟨h2, h4⟩
        · exact ih true m0.rest h3 m h

/-- The submatches that `FindAllStringSubmatch` returns are made of characters of the
input. -/
theorem FindAll_chars (P : Char → Prop) (r : Re) (s : Str) (hs : charsOk P s) :
    ∀ c ∈ FindAllStringSubmatch r s, capsOk P c := by
  intro c hc
  simp only [FindAllStringSubmatch, List.mem_map] at hc
  obtain ⟨m, hm, rfl⟩ := hc
  obtain ⟨h1, h2⟩ := allLoop_chars P r _ _ s hs m hm
  exact capsOk_cons h1 h2

theorem FindString_chars (P : Char → Prop) (r : Re) (s : Str) (hs : charsOk P s) :
    ∀ c, FindStringSubmatch r s = some c → capsOk P c := by
  intro c hc
  simp only [FindStringSubmatch, Option.map_eq_some'] at hc
  obtain ⟨m, hm, rfl⟩ := hc
  obtain ⟨_, h2, _, h4⟩ := findFirst_chars P r s m hm hs
  exact capsOk_cons h2 h4

theorem UnescapeString_ampFree {s : Str} (h : ampFree s) : ampFree (UnescapeString s) := by
  rw [UnescapeString_id s (ampFree_not_mem s h)]
  exact h

theorem stripTags_ampFree {s : Str} (h : ampFree s) : ampFree (stripTags s) :=
  ReplaceAllString_chars _ _ _ _ h (tplOk_nil _)

theorem cleanText_ampFree {s : Str} (h : ampFree s) : ampFree (cleanText s) :=
  TrimSpace_chars (UnescapeString_ampFree (stripTags_ampFree h))

theorem cleanTextTrimFirst_ampFree {s : Str} (h : ampFree s) :
    ampFree (cleanTextTrimFirst s) :=
  UnescapeString_ampFree (TrimSpace_chars (stripTags_ampFree h))

theorem itoa_ampFree (n : Nat) : ampFree (itoa n) := by
  intro x hx
  exact CharSet.ne_of_mem digits x '&' (itoa_digits n x hx) (by decide)

theorem olItemsMd_ampFree : ∀ (ms : List Caps) (i : Nat), (∀ c ∈ ms, capsOk (fun c => c ≠ '&') c) →
    ampFree (olItemsMd i ms) := by
  intro ms
  induction ms with
  | nil => intro i _; exact charsOk_nil _
  | cons m rest ih =>
    intro i h
    simp only [olItemsMd]
    refine ampFree_append.mpr ⟨ampFree_append.mpr ⟨ampFree_append.mpr
      ⟨ampFree_append.mpr ⟨itoa_ampFree _, ampFree_of_not_mem _ (by decide)⟩,
        cleanText_ampFree (getCap_chars (h m (List.mem_cons_self _ _)) 1)⟩,
      ampFree_of_not_mem _ (by decide)⟩,
      ih (i + 1) (fun c hc => h c (List.mem_cons_of_mem _ hc))⟩

theorem convertOrderedLists_ampFree {s : Str} (h : ampFree s) :
    ampFree (convertOrderedLists s) := by
  unfold convertOrderedLists
  refine ReplaceAllStringFunc_chars _ _ _ _ h (fun w hw => ?_)
  exact ampFree_append.mpr ⟨ampFree_append.mpr ⟨ampFree_of_not_mem _ (by decide),
    olItemsMd_ampFree _ 0 (FindAll_chars _ _ _ hw)⟩, ampFree_of_not_mem _ (by decide)⟩

theorem nestedLines_ampFree (label : Nat → Str) (hl : ∀ j, ampFree (label j)) :
    ∀ (ms : List Caps) (j : Nat), (∀ c ∈ ms, capsOk (fun c => c ≠ '&') c) →
      ampFree (nestedLines label j ms) := by
  intro ms
  induction ms with
  | nil => intro j _; exact charsOk_nil _
  | cons m rest ih =>
    intro j h
    simp only [nestedLines]
    refine ampFree_append.mpr ⟨ampFree_append.mpr ⟨ampFree_append.mpr
      ⟨hl j, cleanText_ampFree (getCap_chars (h m (List.mem_cons_self _ _)) 1)⟩,
      ampFree_of_not_mem _ (by decide)⟩,
      ih (j + 1) (fun c hc => h c (List.mem_cons_of_mem _ hc))⟩

theorem afterListText_ampFree (closeTag : Str) {s : Str} (h : ampFree s) :
    ampFree (afterListText closeTag s) := by
  unfold afterListText
  split
  · split
    · exact cleanText_ampFree (charsOk_drop _ h)
    · exact charsOk_nil _
  · exact charsOk_nil _

theorem legacyItem_ampFree (name : String) (label : Nat → Str) (sub : Nat → Nat → Str)
    (trimFirst : Bool) (hl : ∀ i, ampFree (label i)) (hsub : ∀ i j, ampFree (sub i j))
    (i : Nat) {s : Str} (h : ampFree s) :
    ampFree (legacyItem name label sub trimFirst i s) := by
  unfold legacyItem
  simp only []
  split
  · refine ampFree_append.mpr ⟨ampFree_append.mpr ⟨ampFree_append.mpr
      ⟨ampFree_append.mpr ⟨hl i, cleanText_ampFree ?_⟩, ampFree_of_not_mem _ (by decide)⟩, ?_⟩, ?_⟩
    · split
      · exact charsOk_take _ h
      · exact h
    · split
      · rename_i nm hnm
        exact nestedLines_ampFree _ (hsub i) _ 0
          (FindAll_chars _ _ _ (getCap_chars (FindString_chars _ _ _ h nm hnm) 1))
      · exact charsOk_nil _
    · split
      · exact charsOk_nil _
      · exact ampFree_append.mpr ⟨ampFree_append.mpr ⟨hl _, afterListText_ampFree _ h⟩,
          ampFree_of_not_mem _ (by decide)⟩
  · refine ampFree_append.mpr ⟨ampFree_append.mpr ⟨hl i, ?_⟩, ampFree_of_not_mem _ (by decide)⟩
    split
    · exact cleanTextTrimFirst_ampFree h
    · exact cleanText_ampFree h

theorem legacyItems_ampFree (name : String) (label : Nat → Str) (sub : Nat → Nat → Str)
    (trimFirst : Bool) (hl : ∀ i, ampFree (label i)) (hsub : ∀ i j, ampFree (sub i j)) :
    ∀ (ms : List Caps) (i : Nat), (∀ c ∈ ms, capsOk (fun c => c ≠ '&') c) →
      ampFree (legacyItems name label sub trimFirst i ms) := by
  intro ms
  induction ms with
  | nil => intro i _; exact charsOk_nil _
  | cons m rest ih =>
    intro i h
    simp only [legacyItems]
    exact ampFree_append.mpr
      ⟨legacyItem_ampFree name label sub trimFirst hl hsub i
        (getCap_chars (h m (List.mem_cons_self _ _)) 1),
      ih (i + 1) (fun c hc => h c (List.mem_cons_of_mem _ hc))⟩

theorem tplHasChild_ok (name : String) (h : '&' ∉ name.data) :
    tplOk (fun c => c ≠ '&') (tplHasChild name) := by
  unfold tplHasChild
  have hn : ampFree name.data := ampFree_of_not_mem _ h
  exact tplOk_cons_txt (ampFree_of_not_mem _ (by decide)) (tplOk_cons_ref
    (tplOk_cons_txt (ampFree_of_not_mem _ (by decide)) (tplOk_cons_txt hn
    (tplOk_cons_txt (ampFree_of_not_mem _ (by decide)) (tplOk_cons_ref
    (tplOk_cons_txt (ampFree_of_not_mem _ (by decide)) (tplOk_cons_txt hn
    (tplOk_cons_txt (ampFree_of_not_mem _ (by decide)) (tplOk_cons_ref
    (tplOk_cons_txt (ampFree_of_not_mem _ (by decide)) (tplOk_nil _)))))))))))

theorem numLabel_ampFree (i : Nat) : ampFree (numLabel i) :=
  ampFree_append.mpr ⟨itoa_ampFree _, ampFree_of_not_mem _ (by decide)⟩

theorem convertUnorderedLists_ampFree {s : Str} (h : ampFree s) :
    ampFree (convertUnorderedLists s) := by
  unfold convertUnorderedLists
  refine ReplaceAllStringFunc_chars _ _ _ _
    (ReplaceAllString_chars _ _ _ _ h (tplHasChild_ok "ul" (by decide))) (fun w hw => ?_)
  exact ampFree_append.mpr ⟨ampFree_append.mpr ⟨ampFree_of_not_mem _ (by decide),
    legacyItems_ampFree _ _ _ _
      (fun _ => ampFree_of_not_mem "- ".data (by decide))
      (fun _ _ => ampFree_of_not_mem _ (by decide)) _ 0 (FindAll_chars _ _ _ hw)⟩,
    ampFree_of_not_mem _ (by decide)⟩

theorem convertOrderedListsToPlainText_ampFree {s : Str} (h : ampFree s) :
    ampFree (convertOrderedListsToPlainText s) := by
  unfold convertOrderedListsToPlainText
  refine ReplaceAllStringFunc_chars _ _ _ _
    (ReplaceAllString_chars _ _ _ _ h (tplHasChild_ok "ol" (by decide))) (fun w hw => ?_)
  exact legacyItems_ampFree _ _ _ _ numLabel_ampFree
    (fun i j => ampFree_append.mpr ⟨ampFree_append.mpr ⟨ampFree_append.mpr
      ⟨ampFree_append.mpr ⟨ampFree_of_not_mem _ (by decide), itoa_ampFree _⟩,
        ampFree_of_not_mem _ (by decide)⟩, itoa_ampFree _⟩, ampFree_of_not_mem _ (by decide)⟩)
    _ 0 (FindAll_chars _ _ _ hw)

theorem convertUnorderedListsToPlainText_ampFree {s : Str} (h : ampFree s) :
    ampFree (convertUnorderedListsToPlainText s) := by
  unfold convertUnorderedListsToPlainText
  refine ReplaceAllStringFunc_chars _ _ _ _
    (ReplaceAllString_chars _ _ _ _ h (tplHasChild_ok "ul" (by decide))) (fun w hw => ?_)
  exact legacyItems_ampFree _ _ _ _ (fun _ => ampFree_of_not_mem "• ".data (by decide))
    (fun _ _ => ampFree_of_not_mem _ (by decide)) _ 0 (FindAll_chars _ _ _ hw)

/-- A template of literal texts without `&` and of references. -/
theorem tplOk_T (w : String) (t : List Tpl) (hw : '&' ∉ w.data)
    (ht : tplOk (fun c => c ≠ '&') t) : tplOk (fun c => c ≠ '&') (T w :: t) :=
  tplOk_cons_txt (ampFree_of_not_mem _ hw) ht

theorem splitLines_ampFree : ∀ (s : Str), ampFree s → ∀ l ∈ splitLines s, ampFree l := by
  intro s
  induction s with
  | nil =>
    intro _ l hl
    simp only [splitLines, List.mem_singleton] at hl
    subst hl; exact charsOk_nil _
  | cons c s ih =>
    intro h l hl
    obtain ⟨hc, hs⟩ := charsOk_cons.mp h
    simp only [splitLines] at hl
    split at hl
    · rcases List.mem_cons.mp hl with h1 | h1
      · subst h1; exact charsOk_nil _
      · exact ih hs l h1
    · split at hl
      · simp only [List.mem_singleton] at hl
        subst hl
        exact charsOk_cons.mpr ⟨hc, charsOk_nil _⟩
      · rename_i l0 ls heq
        rcases List.mem_cons.mp hl with h1 | h1
        · subst h1
          exact charsOk_cons.mpr ⟨hc, ih hs l0 (by rw [heq]; exact List.mem_cons_self _ _)⟩
        · exact ih hs l (by rw [heq]; exact List.mem_cons_of_mem _ h1)

theorem quoteLines_ampFree : ∀ (ls : List Str), (∀ l ∈ ls, ampFree l) →
    ampFree (quoteLines ls) := by
  intro ls
  induction ls with
  | nil => intro _; exact charsOk_nil _
  | cons l rest ih =>
    intro h
    simp only [quoteLines]
    refine ampFree_append.mpr ⟨?_, ih (fun l hl => h l (List.mem_cons_of_mem _ hl))⟩
    split
    · exact charsOk_nil _
    · exact ampFree_append.mpr ⟨ampFree_append.mpr ⟨ampFree_of_not_mem _ (by decide),
        TrimSpace_chars (h l (List.mem_cons_self _ _))⟩, ampFree_of_not_mem _ (by decide)⟩

theorem convertBlockquote_ampFree {s : Str} (h : ampFree s) : ampFree (convertBlockquote s) := by
  unfold convertBlockquote
  split
  · rename_i found hf
    have hc := getCap_chars (FindString_chars _ _ _ h found hf) 1
    exact ampFree_append.mpr ⟨ampFree_append.mpr ⟨ampFree_of_not_mem _ (by decide),
      quoteLines_ampFree _ (splitLines_ampFree _
        (UnescapeString_ampFree (TrimSpace_chars (stripTags_ampFree hc))))⟩,
      ampFree_of_not_mem _ (by decide)⟩
  · exact h

theorem escapePipes_ampFree {s : Str} (h : ampFree s) : ampFree (escapePipes s) := by
  intro x hx
  simp only [escapePipes, List.mem_flatMap] at hx
  obtain ⟨c, hc, hx⟩ := hx
  split at hx
  · have : x = '\\' ∨ x = '|' := by simpa using hx
    rcases this with e | e <;> rw [e] <;> decide
  · rw [List.mem_singleton.mp hx]
    exact h c hc

theorem tableCells_ampFree : ∀ (cs : List Caps), (∀ c ∈ cs, capsOk (fun c => c ≠ '&') c) →
    ampFree (tableCells cs) := by
  intro cs
  induction cs with
  | nil => intro _; exact charsOk_nil _
  | cons c rest ih =>
    intro h
    simp only [tableCells]
    exact ampFree_append.mpr ⟨ampFree_append.mpr ⟨ampFree_append.mpr
      ⟨ampFree_of_not_mem _ (by decide),
        escapePipes_ampFree (cleanTextTrimFirst_ampFree
          (getCap_chars (h c (List.mem_cons_self _ _)) 1))⟩,
      ampFree_of_not_mem _ (by decide)⟩, ih (fun c hc => h c (List.mem_cons_of_mem _ hc))⟩

theorem separatorCells_ampFree : ∀ (cs : List Caps), ampFree (separatorCells cs) := by
  intro cs
  induction cs with
  | nil => exact charsOk_nil _
  | cons c rest ih =>
    simp only [separatorCells]
    exact ampFree_append.mpr ⟨ampFree_of_not_mem _ (by decide), ih⟩

theorem tableRows_ampFree : ∀ (rows : List Caps) (b : Bool),
    (∀ c ∈ rows, capsOk (fun c => c ≠ '&') c) → ampFree (tableRows b rows) := by
  intro rows
  induction rows with
  | nil => intro b _; exact charsOk_nil _
  | cons row rest ih =>
    intro b h
    have hr := fun c hc => h c (List.mem_cons_of_mem _ hc)
    have hcells := FindAll_chars (fun c => c ≠ '&') reCell _
      (getCap_chars (h row (List.mem_cons_self _ _)) 1)
    simp only [tableRows]
    split
    · exact ih b hr
    · refine ampFree_append.mpr ⟨ampFree_append.mpr ⟨ampFree_append.mpr
        ⟨ampFree_append.mpr ⟨ampFree_of_not_mem _ (by decide), tableCells_ampFree _ hcells⟩,
          ampFree_of_not_mem _ (by decide)⟩, ?_⟩, ih false hr⟩
      split
      · exact ampFree_append.mpr ⟨ampFree_append.mpr ⟨ampFree_of_not_mem _ (by decide),
          separatorCells_ampFree _⟩, ampFree_of_not_mem _ (by decide)⟩
      · exact charsOk_nil _

theorem convertTable_ampFree {s : Str} (h : ampFree s) : ampFree (convertTable s) := by
  unfold convertTable
  split
  · rename_i tc hf
    have hc := getCap_chars (FindString_chars _ _ _ h tc hf) 1
    exact ampFree_append.mpr ⟨ampFree_append.mpr ⟨ampFree_of_not_mem _ (by decide),
      tableRows_ampFree _ true (FindAll_chars _ _ _ hc)⟩, ampFree_of_not_mem _ (by decide)⟩
  · exact h

theorem convertTables_ampFree {s : Str} (h : ampFree s) : ampFree (convertTables s) :=
  ReplaceAllStringFunc_chars _ _ _ _ h (fun _ hw => convertTable_ampFree hw)

theorem convertHeading_ampFree (n : Nat) {s : Str} (h : ampFree s) :
    ampFree (convertHeading n s) := by
  unfold convertHeading
  refine ReplaceAllString_chars _ _ _ _ h ?_
  refine tplOk_T _ _ (by decide) (tplOk_cons_txt ?_ (tplOk_T _ _ (by decide)
    (tplOk_cons_ref (tplOk_T _ _ (by decide) (tplOk_nil _)))))
  intro x hx
  rw [(List.mem_replicate.mp hx).2]
  decide

theorem wrapElem_ampFree (name opening closing : String) (ho : '&' ∉ opening.data)
    (hc : '&' ∉ closing.data) {s : Str} (h : ampFree s) :
    ampFree (wrapElem name opening closing s) := by
  unfold wrapElem
  exact ReplaceAllString_chars _ _ _ _ h
    (tplOk_T _ _ ho (tplOk_cons_ref (tplOk_T _ _ hc (tplOk_nil _))))

/-! ## No tag is left in the converted text -/

/-- A text that `hasTag` rejects: no `<` of it is followed later by a `>`. -/
theorem noTag_of_hasTag : ∀ (a s b : Str), hasTag s = false → s = a ++ '<' :: b → '>' ∉ b := by
  intro a
  induction a with
  | nil =>
    intro s b h he
    subst he
    simp only [List.nil_append, hasTag, beq_self_eq_true, Bool.true_and,
      Bool.or_eq_false_iff] at h
    intro hm
    have : b.any (fun d => d == '>') = true := List.any_eq_true.mpr ⟨'>', hm, by simp⟩
    rw [h.1] at this
    exact Bool.noConfusion this
  | cons c a ih =>
    intro s b h he
    subst he
    simp only [List.cons_append, hasTag, Bool.or_eq_false_iff] at h
    exact ih _ b h.2 rfl

theorem hasTag_TrimSpace (s : Str) : hasTag (TrimSpace s) = hasTag s :=
  hasTag_congr _ _ (brackets_of_sublist_ends s)

theorem hasTag_newlines3 (s : Str) :
    hasTag (ReplaceAllString reNewlines3 s [T "\n\n"]) = hasTag s :=
  hasTag_congr _ _ (ReplaceAllString_brackets reNewlines3 (by decide) [] (by decide)
    [T "\n\n"] (fun _ => rfl) _ _ (Nat.le_refl _))

theorem hasTag_blankLines (s : Str) :
    hasTag (ReplaceAllString reBlankLines s [T "\n\n"]) = hasTag s :=
  hasTag_congr _ _ (ReplaceAllString_brackets reBlankLines (by decide) [] (by decide)
    [T "\n\n"] (fun _ => rfl) _ _ (Nat.le_refl _))

theorem hasTag_cleanWhitespace (s : Str) : hasTag (cleanWhitespace s) = hasTag s :=
  hasTag_congr _ _ (cleanWhitespace_brackets s)

/-- The nested-aware converters end with the removal of the tags: no tag is left. -/
theorem NestedListsToPlainText_noTag (s : Str) : hasTag (NestedListsToPlainText s) = false := by
  unfold NestedListsToPlainText
  simp only []
  rw [hasTag_TrimSpace, hasTag_newlines3]
  exact stripTags_noTag _ _ (Nat.le_refl _)

theorem NestedListsToMarkdown_noTag (s : Str) : hasTag (NestedListsToMarkdown s) = false := by
  unfold NestedListsToMarkdown
  simp only []
  rw [hasTag_TrimSpace, hasTag_newlines3]
  exact stripTags_noTag _ _ (Nat.le_refl _)

theorem Sanitize_ampFree {s : Str} (h : ampFree s) : ampFree (SanitizeWordPressContent s) :=
  Sanitize_chars _ (by decide) (by decide) (by decide) s h

theorem ConvertToPlainText_noTag (s : Str) (h : ampFree s) :
    hasTag (ConvertToPlainText s) = false := by
  cases hn : hasNestedList s with
  | true =>
    have : ConvertToPlainText s = NestedListsToPlainText s := by
      unfold ConvertToPlainText
      rw [hn]; rfl
    rw [this]
    exact NestedListsToPlainText_noTag s
  | false =>
    rw [ConvertToPlainText_legacy s hn]
    have h1 : ampFree (ReplaceAllString rePClose
        (ReplaceAllString reBrWs (convertUnorderedListsToPlainText
          (convertOrderedListsToPlainText (SanitizeWordPressContent s))) [T "\n"])
        [T "\n\n"]) :=
      ReplaceAllString_chars _ _ _ _ (ReplaceAllString_chars _ _ _ _
        (convertUnorderedListsToPlainText_ampFree (convertOrderedListsToPlainText_ampFree
          (Sanitize_ampFree h))) (tplOk_T _ _ (by decide) (tplOk_nil _)))
        (tplOk_T _ _ (by decide) (tplOk_nil _))
    rw [hasTag_cleanWhitespace, UnescapeString_id _ (ampFree_not_mem _ (stripTags_ampFree h1))]
    exact stripTags_noTag _ _ (Nat.le_refl _)

theorem markdownRules_ampFree {s : Str} (h : ampFree s) : ampFree (markdownRules s) := by
  unfold markdownRules
  simp only []
  have img1 : tplOk (fun c => c ≠ '&') [T "![", .ref 2, T "](", .ref 1, T ")"] :=
    tplOk_T _ _ (by decide) (tplOk_cons_ref (tplOk_T _ _ (by decide) (tplOk_cons_ref
      (tplOk_T _ _ (by decide) (tplOk_nil _)))))
  have img2 : tplOk (fun c => c ≠ '&') [T "![", .ref 1, T "](", .ref 2, T ")"] :=
    tplOk_T _ _ (by decide) (tplOk_cons_ref (tplOk_T _ _ (by decide) (tplOk_cons_ref
      (tplOk_T _ _ (by decide) (tplOk_nil _)))))
  have img3 : tplOk (fun c => c ≠ '&') [T "![](", .ref 1, T ")"] :=
    tplOk_T _ _ (by decide) (tplOk_cons_ref (tplOk_T _ _ (by decide) (tplOk_nil _)))
  have code1 : tplOk (fun c => c ≠ '&') [T "\n```", .ref 1, T "\n", .ref 2, T "\n```\n\n"] :=
    tplOk_T _ _ (by decide) (tplOk_cons_ref (tplOk_T _ _ (by decide) (tplOk_cons_ref
      (tplOk_T _ _ (by decide) (tplOk_nil _)))))
  have code2 : tplOk (fun c => c ≠ '&') [T "\n```\n", .ref 1, T "\n```\n\n"] :=
    tplOk_T _ _ (by decide) (tplOk_cons_ref (tplOk_T _ _ (by decide) (tplOk_nil _)))
  have link : tplOk (fun c => c ≠ '&') [T "[", .ref 2, T "](", .ref 1, T ")"] :=
    tplOk_T _ _ (by decide) (tplOk_cons_ref (tplOk_T _ _ (by decide) (tplOk_cons_ref
      (tplOk_T _ _ (by decide) (tplOk_nil _)))))
  have one (w : String) (hw : '&' ∉ w.data) : tplOk (fun c => c ≠ '&') [T w] :=
    tplOk_T _ _ hw (tplOk_nil _)
  have a1 := ReplaceAllString_chars _ reImgSrcAlt _ _ h img1
  have a2 := ReplaceAllString_chars _ reImgAltSrc _ _ a1 img2
  have a3 := ReplaceAllString_chars _ reImgSrc _ _ a2 img3
  have a4 := convertHeading_ampFree 6 (convertHeading_ampFree 5 (convertHeading_ampFree 4
    (convertHeading_ampFree 3 (convertHeading_ampFree 2 (convertHeading_ampFree 1 a3)))))
  have a5 := ReplaceAllStringFunc_chars _ (reElemS "blockquote") _ convertBlockquote a4
    (fun _ hw => convertBlockquote_ampFree hw)
  have a6 := ReplaceAllString_chars _ reCodeLang _ _ a5 code1
  have a7 := ReplaceAllString_chars _ reCodeBlock _ _ a6 code2
  have a8 := wrapElem_ampFree "code" "`" "`" (by decide) (by decide)
    (wrapElem_ampFree "pre" "\n```\n" "\n```\n\n" (by decide) (by decide) a7)
  have a9 := wrapElem_ampFree "i" "*" "*" (by decide) (by decide)
    (wrapElem_ampFree "em" "*" "*" (by decide) (by decide)
    (wrapElem_ampFree "b" "**" "**" (by decide) (by decide)
    (wrapElem_ampFree "strong" "**" "**" (by decide) (by decide) a8)))
  have a10 := wrapElem_ampFree "s" "~~" "~~" (by decide) (by decide)
    (wrapElem_ampFree "del" "~~" "~~" (by decide) (by decide)
    (wrapElem_ampFree "u" "<u>" "</u>" (by decide) (by decide) a9))
  have a11 := convertTables_ampFree (ReplaceAllString_chars _ reLinkS _ _ a10 link)
  have a12 := ReplaceAllString_chars _ reBr _ _
    (ReplaceAllString_chars _ reHr _ _ a11 (one "\n---\n\n" (by decide)))
    (one "  \n" (by decide))
  have a13 := wrapElem_ampFree "div" "" "\n\n" (by decide) (by decide)
    (wrapElem_ampFree "p" "" "\n\n" (by decide) (by decide) a12)
  exact stripTags_ampFree a13

theorem markdownRules_noTag (s : Str) : hasTag (markdownRules s) = false := by
  unfold markdownRules
  simp only []
  exact stripTags_noTag _ _ (Nat.le_refl _)

theorem ConvertToMarkdown_noTag (s : Str) (h : ampFree s) :
    hasTag (ConvertToMarkdown s) = false := by
  cases hn : hasNestedList s with
  | true =>
    have : ConvertToMarkdown s = NestedListsToMarkdown s := by
      unfold ConvertToMarkdown
      rw [hn]; rfl
    rw [this]
    exact NestedListsToMarkdown_noTag s
  | false =>
    rw [ConvertToMarkdown_legacy s hn]
    have h1 := markdownRules_ampFree (convertUnorderedLists_ampFree
      (convertOrderedLists_ampFree (Sanitize_ampFree h)))
    unfold markdownFinish
    simp only []
    rw [hasTag_TrimSpace, hasTag_blankLines, hasTag_newlines3, hasTag_cleanWhitespace,
      UnescapeString_id _ (ampFree_not_mem _ h1)]
    exact markdownRules_noTag _

/-! ## Counting tags in front of appended closing tags -/

/-- A text without `<` that is a prefix of an input is not longer than the part of the
input in front of its first `<`. -/
theorem length_le_of_isPrefixOf_lt : ∀ (w u t : Str), '<' ∉ w →
    w.isPrefixOf (u ++ '<' :: t) = true → w.length ≤ u.length := by
  intro w
  induction w with
  | nil => intro u t _ _; exact Nat.zero_le _
  | cons c w ih =>
    intro u t hw h
    cases u with
    | nil =>
      simp only [List.nil_append, List.isPrefixOf, Bool.and_eq_true, beq_iff_eq] at h
      exact absurd (by rw [h.1]; exact List.mem_cons_self _ _) hw
    | cons a u =>
      simp only [List.cons_append, List.isPrefixOf, Bool.and_eq_true] at h
      have := ih u t (fun hm => hw (List.mem_cons_of_mem _ hm)) h.2
      simp only [List.length_cons]
      omega

theorem isPrefixOf_short (sub u : Str) (h : u.length < sub.length) :
    sub.isPrefixOf u = false := by
  cases hp : sub.isPrefixOf u with
  | false => rfl
  | true =>
    have := (List.isPrefixOf_iff_prefix.mp hp).length_le
    omega

/-- An occurrence of `sub` at the head of `u ++ t` that fits into `u` is an occurrence
at the head of `u`, and conversely. -/
theorem isPrefixOf_append_of_le (sub u t : Str) (h : sub.length ≤ u.length) :
    sub.isPrefixOf (u ++ t) = sub.isPrefixOf u := by
  induction sub generalizing u with
  | nil => simp [List.isPrefixOf]
  | cons c sub ih =>
    cases u with
    | nil => simp at h
    | cons a u =>
      show ((c == a) && sub.isPrefixOf (u ++ t)) = ((c == a) && sub.isPrefixOf u)
      rw [ih u (by simp only [List.length_cons] at h; omega)]

/-- The scan of `strings.Count` finds nothing in a text without occurrences. -/
theorem countScan_zero (sub : Str) : ∀ (t : Str) (k : Nat),
    (∀ a b, t = a ++ b → sub.isPrefixOf b = false) → countScan sub k t = 0 := by
  intro t
  induction t with
  | nil => intro k _; cases k <;> rfl
  | cons x t ih =>
    intro k h
    have ht : ∀ a b, t = a ++ b → sub.isPrefixOf b = false :=
      fun a b he => h (x :: a) b (by rw [he]; rfl)
    cases k with
    | zero =>
      simp only [countScan, h [] (x :: t) rfl]
      exact ih 0 ht
    | succ k =>
      simp only [countScan]
      exact ih k ht

/-- Appending a text that starts with `<` and holds no occurrence of `sub` does not
change the count of a `sub` whose only `<` is its first character. -/
theorem countScan_append (w t : Str) (hw : '<' ∉ w)
    (hhead : ∀ c, t.head? = some c → c = '<')
    (hin : ∀ a b, t = a ++ b → ('<' :: w).isPrefixOf b = false) :
    ∀ (s : Str) (k : Nat), countScan ('<' :: w) k (s ++ t) = countScan ('<' :: w) k s := by
  intro s
  induction s with
  | nil =>
    intro k
    rw [List.nil_append, countScan_zero _ t k hin]
    cases k <;> rfl
  | cons x s ih =>
    intro k
    cases k with
    | succ k =>
      show countScan ('<' :: w) k (s ++ t) = countScan ('<' :: w) k s
      exact ih k
    | zero =>
      have hp : ('<' :: w).isPrefixOf (x :: (s ++ t)) = ('<' :: w).isPrefixOf (x :: s) := by
        by_cases hl : ('<' :: w).length ≤ (x :: s).length
        · exact isPrefixOf_append_of_le _ (x :: s) t hl
        · rw [isPrefixOf_short _ (x :: s) (by omega)]
          cases t with
          | nil =>
            rw [List.append_nil]
            exact isPrefixOf_short _ (x :: s) (by omega)
          | cons c t =>
            have hc := hhead c rfl
            subst hc
            cases hq : ('<' :: w).isPrefixOf (x :: (s ++ '<' :: t)) with
            | false => rfl
            | true =>
              simp only [List.isPrefixOf, Bool.and_eq_true] at hq
              have := length_le_of_isPrefixOf_lt w s t hw hq.2
              simp only [List.length_cons] at hl
              omega
      show (if ('<' :: w).isPrefixOf (x :: (s ++ t)) = true
          then 1 + countScan ('<' :: w) (('<' :: w).length - 1) (s ++ t)
          else countScan ('<' :: w) 0 (s ++ t)) =
        (if ('<' :: w).isPrefixOf (x :: s) = true
          then 1 + countScan ('<' :: w) (('<' :: w).length - 1) s
          else countScan ('<' :: w) 0 s)
      rw [hp, ih, ih]

theorem Count_append (w t s : Str) (hw : '<' ∉ w)
    (hhead : ∀ c, t.head? = some c → c = '<')
    (hin : ∀ a b, t = a ++ b → ('<' :: w).isPrefixOf b = false) :
    Count (s ++ t) ('<' :: w) = Count s ('<' :: w) := by
  simp only [Count, List.isEmpty_cons, Bool.false_eq_true, if_false]
  exact countScan_append w t hw hhead hin s 0

theorem join_replicate_head (x : Str) (hx : ∃ r, x = '<' :: r) : ∀ (n : Nat) (c : Char),
    ((List.replicate n x).join).head? = some c → c = '<' := by
  obtain ⟨r, rfl⟩ := hx
  intro n c h
  cases n with
  | zero => simp at h
  | succ n =>
    simp [List.replicate_succ] at h
    exact h.symm

theorem closersOf_cons (s x : Str) (tags : List Str) :
    closersOf s (x :: tags) = missingClosers s x ++ closersOf s tags := rfl

/-- The appended closing tags start with `<`. -/
theorem closersOf_head (s : Str) : ∀ (tags : List Str) (c : Char),
    (closersOf s tags).head? = some c → c = '<' := by
  intro tags
  induction tags with
  | nil => intro c h; simp [closersOf] at h
  | cons x tags ih =>
    intro c h
    rw [closersOf_cons] at h
    cases hm : missingClosers s x with
    | nil =>
      rw [hm, List.nil_append] at h
      exact ih c h
    | cons a m =>
      have h1 : (missingClosers s x).head? = some c := by
        rw [hm] at h ⊢
        simpa using h
      exact join_replicate_head _ ⟨"/".data ++ x ++ ">".data, rfl⟩ _ c h1

theorem replicate_covers (x : Str) : ∀ (n : Nat) (v : Str),
    CoversIn (litWins anyWin x) ((List.replicate n x).join) v := by
  intro n
  induction n with
  | zero => intro v; exact CoversIn.nil _ _
  | succ n ih =>
    intro v
    show CoversIn _ (x ++ (List.replicate n x).join) v
    exact CoversIn.append (CoversIn.lit anyWin x _ (Describes_any _)) (ih v)

/-- The appended closing tags are covered by the windows of the closing tags. -/
theorem closersOf_covers (s : Str) : ∀ (tags : List Str) (v : Str),
    CoversIn (closerWins tags) (closersOf s tags) v := by
  intro tags
  induction tags with
  | nil => intro v; exact CoversIn.nil _ _
  | cons x tags ih =>
    intro v
    rw [closersOf_cons]
    refine CoversIn.append ?_ ?_
    · exact (replicate_covers _ _ _).mono (fun W hW => by
        simp only [closerWins, List.flatMap_cons]
        exact List.mem_append_left _ hW)
    · exact (ih v).mono (fun W hW => by
        simp only [closerWins, List.flatMap_cons]
        exact List.mem_append_right _ hW)

/-- A text that the windows of the closing tags miss occurs nowhere in the appended
closing tags. -/
theorem closersOf_noOcc (s : Str) (tags : List Str) (sub : Str) (hne : sub ≠ [])
    (hm : (Re.lit sub).missesAll (closerWins tags) = true) :
    ∀ a b, closersOf s tags = a ++ b → sub.isPrefixOf b = false := by
  intro a b he
  cases b with
  | nil =>
    cases sub with
    | nil => exact absurd rfl hne
    | cons c sub => rfl
  | cons x b =>
    have h := NoStart_of_covers (.lit sub) _ _ [] (closersOf_covers s tags []) hm a (x :: b) []
      he (by simp)
    rw [List.append_nil, ms_lit] at h
    cases hp : sub.isPrefixOf (x :: b) with
    | false => rfl
    | true => simp [hp] at h

/-- One round of `fixUnclosedTags`: the closing tags appended in the rounds before do
not change the counts of the round. -/
theorem fixOneTag_step (s : Str) (done : List Str) (y : Str) (hy : '<' ∉ y)
    (h1 : (Re.lit ('<' :: y)).missesAll (closerWins done) = true)
    (h2 : (Re.lit ('<' :: '/' :: y)).missesAll (closerWins done) = true) :
    fixOneTag (s ++ closersOf s done) y = s ++ closersOf s (done ++ [y]) := by
  have c1 := Count_append y (closersOf s done) s hy (closersOf_head s done)
    (closersOf_noOcc s done _ (by simp) h1)
  have hy2 : '<' ∉ '/' :: y := by
    intro h
    rcases List.mem_cons.mp h with h | h
    · exact absurd h (by decide)
    · exact hy h
  have c2 := Count_append ('/' :: y) (closersOf s done) s hy2 (closersOf_head s done)
    (closersOf_noOcc s done _ (by simp) h2)
  unfold fixOneTag
  simp only [c1, c2]
  simp [closersOf, missingClosers, List.flatMap_append]

/-- The result of `fixUnclosedTags`: the input, then for each tag name of the list, in
order, the closing tags that the input lacks. -/
theorem fixUnclosedTags_eq (s : Str) :
    fixUnclosedTags s = s ++ closersOf s unclosedTags := by
  have e0 : fixOneTag s "p".data = s ++ closersOf s ["p".data] := by
    have h := fixOneTag_step s [] "p".data (by decide) (by decide) (by decide)
    rw [show closersOf s [] = [] from rfl, List.append_nil] at h
    exact h
  have e1 : fixOneTag (s ++ closersOf s ["p".data]) "div".data =
      s ++ closersOf s ["p".data, "div".data] :=
    fixOneTag_step s _ _ (by decide) (by decide) (by decide)
  have e2 : fixOneTag (s ++ closersOf s ["p".data, "div".data]) "span".data =
      s ++ closersOf s ["p".data, "div".data, "span".data] :=
    fixOneTag_step s _ _ (by decide) (by decide) (by decide)
  have e3 : fixOneTag (s ++ closersOf s ["p".data, "div".data, "span".data]) "li".data =
      s ++ closersOf s ["p".data, "div".data, "span".data, "li".data] :=
    fixOneTag_step s _ _ (by decide) (by decide) (by decide)
  have e4 : fixOneTag (s ++ closersOf s ["p".data, "div".data, "span".data, "li".data])
      "ol".data = s ++ closersOf s ["p".data, "div".data, "span".data, "li".data, "ol".data] :=
    fixOneTag_step s _ _ (by decide) (by decide) (by decide)
  have e5 : fixOneTag
      (s ++ closersOf s ["p".data, "div".data, "span".data, "li".data, "ol".data]) "ul".data =
      s ++ closersOf s ["p".data, "div".data, "span".data, "li".data, "ol".data, "ul".data] :=
    fixOneTag_step s _ _ (by decide) (by decide) (by decide)
  have e6 : fixOneTag
      (s ++ closersOf s ["p".data, "div".data, "span".data, "li".data, "ol".data, "ul".data])
      "strong".data =
      s ++ closersOf s ["p".data, "div".data, "span".data, "li".data, "ol".data, "ul".data,
        "strong".data] :=
    fixOneTag_step s _ _ (by decide) (by decide) (by decide)
  have e7 : fixOneTag
      (s ++ closersOf s ["p".data, "div".data, "span".data, "li".data, "ol".data, "ul".data,
        "strong".data]) "em".data =
      s ++ closersOf s ["p".data, "div".data, "span".data, "li".data, "ol".data, "ul".data,
        "strong".data, "em".data] :=
    fixOneTag_step s _ _ (by decide) (by decide) (by decide)
  have e8 : fixOneTag
      (s ++ closersOf s ["p".data, "div".data, "span".data, "li".data, "ol".data, "ul".data,
        "strong".data, "em".data]) "a".data = s ++ closersOf s unclosedTags :=
    fixOneTag_step s _ _ (by decide) (by decide) (by decide)
  unfold fixUnclosedTags
  show fixOneTag (fixOneTag (fixOneTag (fixOneTag (fixOneTag (fixOneTag (fixOneTag (fixOneTag
    (fixOneTag s "p".data) "div".data) "span".data) "li".data) "ol".data) "ul".data)
    "strong".data) "em".data) "a".data = _
  rw [e0, e1, e2, e3, e4, e5, e6, e7, e8]

/-! ## The language of an expression

The texts an expression matches, given by rules, and the matcher measured against them:
every result of the matcher reads a text of the language, and every text of the language
at the head of the input is read by some result. -/

theorem starLoop_step (f : Str → Caps → Res) (g : Bool) (n : Nat) (s : Str) (c : Caps)
    (r : Str × Caps) :
    r ∈ starLoop f g (n + 1) s c ↔
      r = (s, c) ∨ ∃ r1, r1 ∈ f s c ∧ r1.1.length < s.length ∧ r ∈ starLoop f g n r1.1 r1.2 := by
  cases g <;> simp [starLoop, List.mem_flatMap, List.mem_filter]
  · constructor
    · rintro (h | ⟨a, b, ⟨h1, h2⟩, h3⟩)
      · exact Or.inl h
      · exact Or.inr ⟨a, b, h1, h2, h3⟩
    · rintro (h | ⟨a, b, h1, h2, h3⟩)
      · exact Or.inl h
      · exact Or.inr ⟨a, b, ⟨h1, h2⟩, h3⟩
  · constructor
    · rintro (⟨a, b, ⟨h1, h2⟩, h3⟩ | h)
      · exact Or.inr ⟨a, b, h1, h2, h3⟩
      · exact Or.inl h
    · rintro (h | ⟨a, b, h1, h2, h3⟩)
      · exact Or.inr h
      · exact Or.inl ⟨a, b, ⟨h1, h2⟩, h3⟩

theorem starLoop_self (f : Str → Caps → Res) (g : Bool) (n : Nat) (s : Str) (c : Caps) :
    (s, c) ∈ starLoop f g n s c := by
  cases n with
  | zero => simp [starLoop]
  | succ n => exact (starLoop_step f g n s c _).mpr (Or.inl rfl)

theorem starLoop_succ (f : Str → Caps → Res) (g : Bool) : ∀ (n : Nat) (s : Str) (c : Caps)
    (r : Str × Caps), r ∈ starLoop f g n s c → r ∈ starLoop f g (n + 1) s c := by
  intro n
  induction n with
  | zero =>
    intro s c r h
    simp [starLoop] at h
    subst h
    exact starLoop_self f g 1 s c
  | succ n ih =>
    intro s c r h
    rcases (starLoop_step f g n s c r).mp h with h1 | ⟨r1, h1, h2, h3⟩
    · subst h1; exact starLoop_self f g _ s c
    · exact (starLoop_step f g (n + 1) s c r).mpr (Or.inr ⟨r1, h1, h2, ih _ _ _ h3⟩)

theorem starLoop_mono (f : Str → Caps → Res) (g : Bool) (n m : Nat) (h : n ≤ m) (s : Str)
    (c : Caps) (r : Str × Caps) (hr : r ∈ starLoop f g n s c) : r ∈ starLoop f g m s c := by
  induction m with
  | zero =>
    have : n = 0 := by omega
    subst this; exact hr
  | succ m ih =>
    by_cases hn : n ≤ m
    · exact starLoop_succ f g m s c r (ih hn)
    · have : n = m + 1 := by omega
      subst this; exact hr

theorem starLoop_sound (f : Str → Caps → Res) (a : Re) (g : Bool)
    (hf : ∀ s c r, r ∈ f s c → ∃ w, s = w ++ r.1 ∧ Re.Matches a w) :
    ∀ n s c r, r ∈ starLoop f g n s c → ∃ w, s = w ++ r.1 ∧ Re.Matches (.star g a) w := by
  intro n
  induction n with
  | zero =>
    intro s c r hr
    simp [starLoop] at hr
    subst hr
    exact ⟨[], rfl, .starNil g a⟩
  | succ n ih =>
    intro s c r hr
    rcases (starLoop_step f g n s c r).mp hr with h | ⟨r1, h1, h2, h3⟩
    · subst h; exact ⟨[], rfl, .starNil g a⟩
    · obtain ⟨u, hu, hmu⟩ := hf _ _ _ h1
      obtain ⟨v, hv, hmv⟩ := ih _ _ _ h3
      have hne : u ≠ [] := by
        intro e
        rw [e, List.nil_append] at hu
        rw [hu] at h2
        exact Nat.lt_irrefl _ h2
      exact ⟨u ++ v, by rw [List.append_assoc, ← hv, ← hu], .starCons g a u v hmu hne hmv⟩

/-- Every result of the matcher has read a text of the language. -/
theorem ms_sound : ∀ (r : Re) (s : Str) (c : Caps) (x : Str × Caps),
    x ∈ ms r s c → ∃ w, s = w ++ x.1 ∧ Re.Matches r w := by
  intro r
  induction r with
  | lit w =>
    intro s c x hx
    simp only [ms] at hx
    split at hx
    · rename_i hp
      simp at hx; subst hx
      obtain ⟨t, ht⟩ := List.isPrefixOf_iff_prefix.mp hp
      exact ⟨w, by rw [← ht, List.drop_left], .lit w⟩
    · simp at hx
  | cls A =>
    intro s c x hx
    cases s with
    | nil => simp [ms] at hx
    | cons y s1 =>
      simp only [ms] at hx
      split at hx
      · rename_i hy
        simp at hx; subst hx
        exact ⟨[y], rfl, .cls A y hy⟩
      · simp at hx
  | seq a b iha ihb =>
    intro s c x hx
    simp only [ms, List.mem_flatMap] at hx
    obtain ⟨y, hy, hx⟩ := hx
    obtain ⟨u, hu, hmu⟩ := iha _ _ _ hy
    obtain ⟨v, hv, hmv⟩ := ihb _ _ _ hx
    exact ⟨u ++ v, by rw [List.append_assoc, ← hv, ← hu], .seq a b u v hmu hmv⟩
  | alt a b iha ihb =>
    intro s c x hx
    simp only [ms, List.mem_append] at hx
    rcases hx with h | h
    · obtain ⟨u, hu, hmu⟩ := iha _ _ _ h
      exact ⟨u, hu, .altL a b u hmu⟩
    · obtain ⟨u, hu, hmu⟩ := ihb _ _ _ h
      exact ⟨u, hu, .altR a b u hmu⟩
  | star g a ih =>
    intro s c x hx
    simp only [ms] at hx
    exact starLoop_sound _ a g (fun s c r hr => ih s c r hr) _ _ _ _ hx
  | grp i a ih =>
    intro s c x hx
    simp only [ms, List.mem_map] at hx
    obtain ⟨y, hy, rfl⟩ := hx
    obtain ⟨u, hu, hmu⟩ := ih _ _ y hy
    exact ⟨u, hu, .grp i a u hmu⟩

/-- Every text of the language at the head of the input is read by some result of the
matcher. -/
theorem ms_complete : ∀ (r : Re) (w : Str), Re.Matches r w →
    ∀ (v : Str) (c : Caps), ∃ c', (v, c') ∈ ms r (w ++ v) c := by
  intro r w h
  induction h with
  | lit w =>
    intro v c
    exact ⟨c, by rw [ms_lit_append]; exact List.mem_singleton.mpr rfl⟩
  | cls A x hx =>
    intro v c
    exact ⟨c, by
      show (v, c) ∈ ms (.cls A) (x :: v) c
      rw [ms_cls_cons, hx]; exact List.mem_singleton.mpr rfl⟩
  | seq a b u v0 _ _ iha ihb =>
    intro v c
    obtain ⟨c1, h1⟩ := iha (v0 ++ v) c
    obtain ⟨c2, h2⟩ := ihb v c1
    refine ⟨c2, ?_⟩
    rw [List.append_assoc, ms_seq]
    exact List.mem_flatMap.mpr ⟨_, h1, h2⟩
  | altL a b u _ iha =>
    intro v c
    obtain ⟨c1, h1⟩ := iha v c
    exact ⟨c1, by rw [ms_alt]; exact List.mem_append_left _ h1⟩
  | altR a b u _ ihb =>
    intro v c
    obtain ⟨c1, h1⟩ := ihb v c
    exact ⟨c1, by rw [ms_alt]; exact List.mem_append_right _ h1⟩
  | starNil g a =>
    intro v c
    exact ⟨c, by rw [ms_star]; exact starLoop_self _ g _ _ c⟩
  | starCons g a u v0 _ hne _ iha ihs =>
    intro v c
    obtain ⟨c1, h1⟩ := iha (v0 ++ v) c
    obtain ⟨c2, h2⟩ := ihs v c1
    refine ⟨c2, ?_⟩
    rw [ms_star] at h2 ⊢
    have hlen : ((u ++ v0) ++ v).length = (u.length - 1 + (v0 ++ v).length) + 1 := by
      have : 0 < u.length := List.length_pos.mpr hne
      simp only [List.length_append]
      omega
    rw [hlen]
    refine (starLoop_step _ g _ _ c _).mpr (Or.inr ⟨(v0 ++ v, c1), ?_, ?_, ?_⟩)
    · rw [List.append_assoc]; exact h1
    · have : 0 < u.length := List.length_pos.mpr hne
      simp only [List.length_append]
      omega
    · exact starLoop_mono _ g _ _ (by omega) _ _ _ h2
  | grp i a u _ iha =>
    intro v c
    obtain ⟨c1, h1⟩ := iha v c
    exact ⟨_, by rw [ms_grp]; exact List.mem_map.mpr ⟨(v, c1), h1, rfl⟩⟩

/-- The matcher has a result exactly when the input starts with a text of the
language. -/
theorem ms_ne_nil_iff (r : Re) (s : Str) (c : Caps) :
    ms r s c ≠ [] ↔ ∃ w v, s = w ++ v ∧ Re.Matches r w := by
  constructor
  · intro h
    obtain ⟨x, hx⟩ := List.exists_mem_of_ne_nil _ h
    obtain ⟨w, hw, hm⟩ := ms_sound r s c x hx
    exact ⟨w, x.1, hw, hm⟩
  · rintro ⟨w, v, rfl, hm⟩
    obtain ⟨c', hc⟩ := ms_complete r w hm v c
    exact List.ne_nil_of_mem hc

/-- `MatchString` holds exactly when the input contains a text of the language. -/
theorem MatchString_iff (r : Re) : ∀ (s : Str),
    MatchString r s = true ↔ ∃ a w v, s = a ++ (w ++ v) ∧ Re.Matches r w := by
  intro s
  induction s with
  | nil =>
    simp only [MatchString, findFirst]
    constructor
    · intro h
      have hne : ms r [] [] ≠ [] := by
        intro e
        rw [(matchAt_none r []).mpr e] at h
        exact Bool.noConfusion h
      obtain ⟨w, v, hs, hm⟩ := (ms_ne_nil_iff r [] []).mp hne
      exact ⟨[], w, v, hs, hm⟩
    · rintro ⟨a, w, v, hs, hm⟩
      have ha : a = [] := (List.append_eq_nil.mp hs.symm).1
      subst ha
      have hne := (ms_ne_nil_iff r [] []).mpr ⟨w, v, hs, hm⟩
      cases hq : matchAt r [] with
      | some m => rfl
      | none => exact absurd ((matchAt_none r []).mp hq) hne
  | cons x s ih =>
    simp only [MatchString] at ih
    simp only [MatchString, findFirst]
    constructor
    · intro h
      cases hq : matchAt r (x :: s) with
      | some m =>
        have hne : ms r (x :: s) [] ≠ [] := by
          intro e
          rw [(matchAt_none r _).mpr e] at hq
          exact Option.noConfusion hq
        obtain ⟨w, v, hs, hm⟩ := (ms_ne_nil_iff r _ []).mp hne
        exact ⟨[], w, v, hs, hm⟩
      | none =>
        rw [hq] at h
        simp only [Option.isSome_map'] at h
        obtain ⟨a, w, v, hs, hm⟩ := ih.mp h
        exact ⟨x :: a, w, v, by rw [hs]; rfl, hm⟩
    · rintro ⟨a, w, v, hs, hm⟩
      cases hq : matchAt r (x :: s) with
      | some m => rfl
      | none =>
        simp only [Option.isSome_map']
        cases a with
        | nil =>
          have hne := (ms_ne_nil_iff r (x :: s) []).mpr ⟨w, v, hs, hm⟩
          exact absurd ((matchAt_none r _).mp hq) hne
        | cons y a =>
          simp only [List.cons_append, List.cons.injEq] at hs
          exact ih.mpr ⟨a, w, v, hs.2, hm⟩

theorem Matches_lit_iff (w u : Str) : Re.Matches (.lit w) u ↔ u = w := by
  constructor
  · intro h; cases h; rfl
  · intro h; subst h; exact .lit _

theorem Matches_cls_iff (A : CharSet) (u : Str) :
    Re.Matches (.cls A) u ↔ ∃ c, u = [c] ∧ A.mem c = true := by
  constructor
  · intro h
    cases h with
    | cls _ c hc => exact ⟨c, rfl, hc⟩
  · rintro ⟨c, rfl, hc⟩; exact .cls A c hc

theorem Matches_seq_iff (a b : Re) (w : Str) :
    Re.Matches (.seq a b) w ↔ ∃ u v, w = u ++ v ∧ Re.Matches a u ∧ Re.Matches b v := by
  constructor
  · intro h
    cases h with
    | seq _ _ u v ha hb => exact ⟨u, v, rfl, ha, hb⟩
  · rintro ⟨u, v, rfl, ha, hb⟩; exact .seq a b u v ha hb

theorem Matches_alt_iff (a b : Re) (w : Str) :
    Re.Matches (.alt a b) w ↔ Re.Matches a w ∨ Re.Matches b w := by
  constructor
  · intro h
    cases h with
    | altL _ _ _ ha => exact Or.inl ha
    | altR _ _ _ hb => exact Or.inr hb
  · rintro (h | h)
    · exact .altL a b w h
    · exact .altR a b w h

theorem Matches_grp_iff (i : Nat) (a : Re) (w : Str) :
    Re.Matches (.grp i a) w ↔ Re.Matches a w := by
  constructor
  · intro h
    cases h with
    | grp _ _ _ ha => exact ha
  · intro h; exact .grp i a w h

/-- A star over a character class matches the texts made of characters of the class. -/
theorem Matches_star_cls_iff (g : Bool) (A : CharSet) (w : Str) :
    Re.Matches (.star g (.cls A)) w ↔ ∀ c ∈ w, A.mem c = true := by
  constructor
  · intro h
    generalize hr : Re.star g (.cls A) = r at h
    induction h with
    | starNil g1 a1 => intro c hc; cases hc
    | starCons g1 a1 u v ha hne hs _ ih2 =>
      cases hr
      intro c hc
      rcases List.mem_append.mp hc with h1 | h1
      · obtain ⟨d, hd, hA⟩ := (Matches_cls_iff A u).mp ha
        subst hd
        rw [List.mem_singleton.mp h1]; exact hA
      · exact ih2 rfl c h1
    | lit w => cases hr
    | cls A1 c hc => cases hr
    | seq a b u v _ _ _ _ => cases hr
    | altL a b u _ _ => cases hr
    | altR a b u _ _ => cases hr
    | grp i a u _ _ => cases hr
  · intro h
    induction w with
    | nil => exact .starNil g _
    | cons c w ih =>
      exact .starCons g (.cls A) [c] w (.cls A c (h c (List.mem_cons_self _ _))) (by simp)
        (ih (fun d hd => h d (List.mem_cons_of_mem _ hd)))

/-- When the language holds one text only at the head of the input, the preferred match
reads that text. -/
theorem ms_head_of_unique (r : Re) (w v : Str) (hm : Re.Matches r w)
    (hu : ∀ w1 v1, w ++ v = w1 ++ v1 → Re.Matches r w1 → v1 = v) :
    ∃ c, (ms r (w ++ v) []).head? = some (v, c) := by
  obtain ⟨c1, h1⟩ := ms_complete r w hm v []
  cases hq : ms r (w ++ v) [] with
  | nil => rw [hq] at h1; cases h1
  | cons x xs =>
    have hx : x ∈ ms r (w ++ v) [] := by rw [hq]; exact List.mem_cons_self _ _
    obtain ⟨w1, hw1, hm1⟩ := ms_sound r _ _ x hx
    have := hu w1 x.1 hw1 hm1
    exact ⟨x.2, by simp only [List.head?_cons]; rw [← this]⟩

/-! ## The choice between the nested-aware and the legacy converters -/

theorem notGt_mem_iff (c : Char) : notGt.mem c = true ↔ c ≠ '>' :=
  CharSet.mem_compl_one '>' c

theorem dot_mem_iff (c : Char) : dot.mem c = true ↔ c ≠ '\n' :=
  CharSet.mem_compl_one '\n' c

theorem all_ne_iff (x : Char) (w : Str) : (∀ c ∈ w, c ≠ x) ↔ x ∉ w := by
  constructor
  · intro h hx; exact h x hx rfl
  · intro h c hc hcx; exact h (hcx ▸ hc)

theorem Matches_reNestedTest (w : Str) :
    Re.Matches reNestedTest w ↔ ∃ b c d : Str,
      w = "<li".data ++ b ++ ">".data ++ c ++ "<ul".data ++ d ++ ">".data ∧
      '>' ∉ b ∧ '\n' ∉ c ∧ '>' ∉ d := by
  simp only [reNestedTest, seqs, L, attrs, lazyDot, many, lazy, Matches_seq_iff,
    Matches_lit_iff, Matches_star_cls_iff, notGt_mem_iff, dot_mem_iff, all_ne_iff]
  constructor
  · rintro ⟨u1, v1, rfl, rfl, u2, v2, rfl, hb, u3, v3, rfl, rfl, u4, v4, rfl, hc, u5, v5, rfl,
      rfl, u6, v6, rfl, hd, rfl⟩
    exact ⟨u2, u4, u6, by simp, hb, hc, hd⟩
  · rintro ⟨b, c, d, rfl, hb, hc, hd⟩
    exact ⟨_, _, by simp, rfl, b, _, rfl, hb, _, _, rfl, rfl, c, _, rfl, hc, _, _, rfl,
      rfl, d, _, rfl, hd, rfl⟩

theorem hasNestedList_iff (s : Str) : hasNestedList s = true ↔ ListTagAfterItem s := by
  unfold hasNestedList ListTagAfterItem
  rw [Bool.and_eq_true, Bool.and_eq_true, MatchString_iff]
  constructor
  · rintro ⟨-, a, w, v, rfl, hm⟩
    obtain ⟨b, c, d, rfl, hb, hc, hd⟩ := (Matches_reNestedTest w).mp hm
    exact ⟨a, b, c, d, v, by simp, hb, hc, hd⟩
  · rintro ⟨a, b, c, d, e, rfl, hb, hc, hd⟩
    refine ⟨⟨?_, ?_⟩, a, "<li".data ++ b ++ ">".data ++ c ++ "<ul".data ++ d ++ ">".data, e,
      by simp, (Matches_reNestedTest _).mpr ⟨b, c, d, rfl, hb, hc, hd⟩⟩
    · have := Contains_infix "<ul".data (d ++ ">".data ++ e) (a ++ "<li".data ++ b ++ ">".data ++ c)
      simpa using this
    · have := Contains_infix "<li".data (b ++ ">".data ++ c ++ "<ul".data ++ d ++ ">".data ++ e) a
      simpa using this

/-! ## Deprecated elements -/

/-- The pattern of `updateDeprecatedTags` as nested concatenations. -/
theorem reElemAttrs_eq (name : String) :
    reElemAttrs name = .seq (.lit "<".data) (.seq (.lit name.data)
      (.seq (.grp 1 (.star true (.cls notGt))) (.seq (.lit ">".data)
        (.seq (.grp 2 (.star false (.cls dot))) (closeTag name.data))))) := rfl

/-- A grouped greedy run of `[^>]` in front of `>`: the group holds the whole run. -/
theorem ms_grp_attrs (i : Nat) (q : Re) (a rest : Str) (c : Caps)
    (ha : ∀ x ∈ a, notGt.mem x = true) :
    ms (.seq (.grp i (.star true (.cls notGt))) (.seq (.lit ">".data) q)) (a ++ '>' :: rest) c =
      ms q rest ((i, a) :: c) := by
  rw [ms_seq, ms_grp, ms_star_greedy_cls, List.flatMap_map]
  have h := greedyCuts_until notGt '>' (by decide) [] rest c
    (fun r => ms (.seq (.lit ">".data) q) r.1
      ((i, (a ++ '>' :: rest).take ((a ++ '>' :: rest).length - r.1.length)) :: r.2))
    (fun _ hx => absurd hx (List.not_mem_nil _))
    (fun s hs => by
      simp only [List.nil_append] at hs
      simp only [ms_seq, ms_lit]
      rw [if_neg (by rw [hs]; exact Bool.false_ne_true)]
      rfl) a ha
  simp only [List.nil_append] at h
  rw [h]
  have e : (a ++ '>' :: rest).take ((a ++ '>' :: rest).length - ('>' :: rest).length) = a := by
    simp
  simp only [e]
  exact ms_seq_lit ">".data q rest _

/-- An element with attributes whose text holds no closing tag of its own and no newline
is matched as a whole: the attributes are submatch 1, the text is submatch 2. -/
theorem ms_elemAttrs_head (name : String) (a u rest : Str) (ha : ∀ x ∈ a, notGt.mem x = true)
    (hA : ∀ x ∈ u, dot.mem x = true)
    (hns : NoStart (closeTag name.data) u ("</".data ++ (name.data ++ (">".data ++ rest)))) :
    (ms (reElemAttrs name)
      ("<".data ++ (name.data ++ (a ++ (">".data ++ (u ++ ("</".data ++ (name.data ++
        (">".data ++ rest)))))))) []).head? = some (rest, [(2, u), (1, a)]) := by
  rw [reElemAttrs_eq, ms_seq_lit, ms_seq_lit]
  have e : a ++ (">".data ++ (u ++ ("</".data ++ (name.data ++ (">".data ++ rest))))) =
      a ++ '>' :: (u ++ ("</".data ++ (name.data ++ (">".data ++ rest)))) := rfl
  rw [e, ms_grp_attrs 1 _ a _ [] ha]
  rw [ms_lazy_find dot 2 (closeTag name.data) _ u _ hA hns (by rw [ms_closeTag]; simp)]
  rw [ms_closeTag]
  rfl

theorem taggedText_covers (opening mid closing : Str) (a : Option Str) (x : Str)
    (ha : ∀ w ∈ a, isWord w = true) (hx : isPlainText x = true) :
    CoversIn (tagWins opening mid closing) (taggedText opening a mid x closing) [] := by
  have hxw : Describes (startsIn alnum).cs (startsIn alnum).closed (x ++ closing ++ []) := by
    rw [List.append_assoc]
    exact Describes_alnum_plain x (closing ++ []) hx
  have hclose : CoversIn (tagWins opening mid closing) closing [] :=
    (CoversIn.lit endWin _ _ (by simp [endWin, Describes])).mono (fun W hW => by
      simp only [tagWins, List.mem_append]; exact Or.inr (Or.inr (Or.inr (Or.inr hW))))
  have hxc : CoversIn (tagWins opening mid closing) x (closing ++ []) :=
    ((isPlainText_facts x hx).2.2.2.2 _).mono (fun W hW => by
      simp only [tagWins, List.mem_append]; exact Or.inr (Or.inr (Or.inr (Or.inl hW))))
  cases a with
  | none =>
    have e : taggedText opening none mid x closing = (opening ++ mid) ++ (x ++ closing) := by
      simp [taggedText, colorAttr]
    rw [e]
    refine CoversIn.append ?_ (CoversIn.append hxc hclose)
    exact (CoversIn.lit (startsIn alnum) _ _ hxw).mono (fun W hW => by
      simp only [tagWins, List.mem_append]; exact Or.inl hW)
  | some w =>
    have hw := isPlainText_of_isWord w (ha w rfl)
    have e : taggedText opening (some w) mid x closing =
        (opening ++ " color=\"".data) ++ (w ++ (("\"".data ++ mid) ++ (x ++ closing))) := by
      simp [taggedText, colorAttr]
    rw [e]
    refine CoversIn.append ?_ (CoversIn.append ?_ (CoversIn.append ?_ (CoversIn.append hxc hclose)))
    · exact (CoversIn.lit (startsIn alnum) _ _ (by
        simpa using Describes_alnum_plain w _ hw)).mono (fun W hW => by
          simp only [tagWins, List.mem_append]; exact Or.inr (Or.inl hW))
    · exact ((isPlainText_facts w hw).2.2.2.2 _).mono (fun W hW => by
        simp only [tagWins, List.mem_append]; exact Or.inr (Or.inr (Or.inr (Or.inl hW))))
    · exact (CoversIn.lit (startsIn alnum) _ _ hxw).mono (fun W hW => by
        simp only [tagWins, List.mem_append]; exact Or.inr (Or.inr (Or.inl hW)))

/-- A text that starts with `<` and ends with `>` has no white space to trim. -/
theorem TrimSpace_tag (u : Str) : TrimSpace ('<' :: (u ++ ">".data)) = '<' :: (u ++ ">".data) := by
  obtain ⟨h1, h2⟩ := head_getLast_of_wrap '<' u '>'
  apply TrimSpace_id
  · intro x hx
    rw [show ">".data = ['>'] from rfl, h1] at hx
    simp at hx; subst hx; decide
  · intro x hx
    rw [show ">".data = ['>'] from rfl, h2] at hx
    simp at hx; subst hx; decide

/-- No occurrence, count zero. -/
theorem Count_absent (sub : Str) (Ws : List Win) (s : Str) (hc : CoversIn Ws s [])
    (ha : (Re.lit sub).absent Ws = true) : Count s sub = 0 := by
  have hne : sub ≠ [] := by
    intro h; subst h
    simp [Re.absent, Re.tails, Re.nonNull] at ha
  have hns := NoStart_of_absent _ Ws s hc ha
  obtain ⟨x, sub1, rfl⟩ := List.exists_cons_of_ne_nil hne
  simp only [Count, List.isEmpty_cons, Bool.false_eq_true, if_false]
  apply countScan_zero
  intro a b he
  cases b with
  | nil => rfl
  | cons y b =>
    have h := hns a (y :: b) [] he (by simp)
    rw [List.append_nil, ms_lit] at h
    cases hp : (x :: sub1).isPrefixOf (y :: b) with
    | false => rfl
    | true => rw [hp] at h; simp at h

/-- Without an opening tag of the listed names nothing is appended. -/
theorem fixUnclosedTags_absent (Ws : List Win) (s : Str) (hc : CoversIn Ws s [])
    (ha : unclosedTags.all (fun tag => (Re.lit ('<' :: tag)).absent Ws) = true) :
    fixUnclosedTags s = s := by
  rw [fixUnclosedTags_eq]
  have : closersOf s unclosedTags = [] := by
    simp only [closersOf, List.flatMap_eq_nil_iff]
    intro tag ht
    have h0 := Count_absent _ Ws s hc (List.all_eq_true.mp ha tag ht)
    simp [missingClosers, h0]
  rw [this, List.append_nil]

/-- An input without empty attribute values, without `class=` and without `data-` is left
as it is by `cleanAttributes`. -/
theorem cleanAttributes_id (Ws : List Win) (s : Str) (hc : CoversIn Ws s [])
    (ha : attrRes.all (fun r => r.absent Ws) = true)
    (h1 : Contains s "class=".data = false) (h2 : Contains s "data-".data = false) :
    cleanAttributes s = s := by
  simp only [attrRes, List.all_cons, List.all_nil, Bool.and_true, Bool.and_eq_true] at ha
  obtain ⟨a1, a2, a3, a4, a5, a6⟩ := ha
  have e1 : ReplaceAllStringFunc reWpClass s cleanClassAttr = s :=
    ReplaceAllStringFunc_none _ _ _
      (findFirst_none_of_not_contains reWpClass (by decide) "class=".data _
        (List.mem_cons_self _ _) s h1)
  have e2 : ReplaceAllString reDataWp s [] = s :=
    ReplaceAllString_none _ _ _
      (findFirst_none_of_not_contains reDataWp (by decide) "data-".data _
        (List.mem_cons_of_mem _ (List.mem_cons_self _ _)) s h2)
  have e3 : ReplaceAllString reDataAny s [] = s :=
    ReplaceAllString_none _ _ _
      (findFirst_none_of_not_contains reDataAny (by decide) "data-".data _
        (List.mem_cons_of_mem _ (List.mem_cons_self _ _)) s h2)
  simp only [cleanAttributes, cleanEmptyAttributes, List.foldl_cons, List.foldl_nil,
    ReplaceAllString_absent _ Ws s _ hc a1, e1, ReplaceAllString_absent _ Ws s _ hc a2, e2, e3,
    ReplaceAllString_absent _ Ws s _ hc a3, ReplaceAllString_absent _ Ws s _ hc a4,
    ReplaceAllString_absent _ Ws s _ hc a5, ReplaceAllString_absent _ Ws s _ hc a6]

/-- An occurrence splits the text. -/
theorem Contains_split (w : Str) : ∀ (s : Str), Contains s w = true →
    ∃ a b, s = a ++ (w ++ b) := by
  intro s
  induction s with
  | nil =>
    intro h
    simp only [Contains] at h
    obtain ⟨t, ht⟩ := List.isPrefixOf_iff_prefix.mp h
    exact ⟨[], t, by simpa using ht.symm⟩
  | cons x s ih =>
    intro h
    simp only [Contains, Bool.or_eq_true] at h
    rcases h with h | h
    · obtain ⟨t, ht⟩ := List.isPrefixOf_iff_prefix.mp h
      exact ⟨[], t, by simpa using ht.symm⟩
    · obtain ⟨a, b, hab⟩ := ih h
      exact ⟨x :: a, b, by rw [hab]; rfl⟩

/-- A character that occurs once splits the text in one way only. -/
theorem split_unique (z : Char) : ∀ (p1 r1 p2 r2 : Str), z ∉ p1 → z ∉ r1 →
    p1 ++ z :: r1 = p2 ++ z :: r2 → p2 = p1 := by
  intro p1
  induction p1 with
  | nil =>
    intro r1 p2 r2 _ h2 he
    cases p2 with
    | nil => rfl
    | cons y p2 =>
      simp only [List.nil_append, List.cons_append, List.cons.injEq] at he
      exact absurd (by rw [he.2]; simp) h2
  | cons x p1 ih =>
    intro r1 p2 r2 h1 h2 he
    cases p2 with
    | nil =>
      simp only [List.nil_append, List.cons_append, List.cons.injEq] at he
      exact absurd (by rw [he.1]; exact List.mem_cons_self _ _) h1
    | cons y p2 =>
      simp only [List.cons_append, List.cons.injEq] at he
      rw [he.1, ih r1 p2 r2 (fun h => h1 (List.mem_cons_of_mem _ h)) h2 he.2]

theorem not_mem_of_class (A : CharSet) (z : Char) (hz : A.mem z = false) (s : Str)
    (h : ∀ c ∈ s, A.mem c = true) : z ∉ s := by
  intro hm
  rw [h z hm] at hz
  exact Bool.noConfusion hz

/-- The characters of a tag with an optional colour attribute and a plain text. -/
theorem taggedText_chars (A : CharSet) (hA : ∀ iv ∈ alnum ++ CharSet.of [' '], ∃ jv ∈ A,
    jv.1 ≤ iv.1 ∧ iv.2 ≤ jv.2) (hq : ∀ c ∈ " color=\"".data, A.mem c = true)
    (opening mid closing : Str) (a : Option Str) (x : Str)
    (ha : ∀ w ∈ a, isWord w = true) (hx : isPlainText x = true)
    (ho : ∀ c ∈ opening ++ mid ++ closing, A.mem c = true) :
    ∀ c ∈ taggedText opening a mid x closing, A.mem c = true := by
  have hplain : ∀ t, isPlainText t = true → ∀ c ∈ t, A.mem c = true := fun t ht c hc =>
    CharSet.mem_mono _ A hA c ((isPlainText_facts t ht).2.2.2.1 c hc)
  intro c hc
  simp only [taggedText, List.mem_append] at hc
  simp only [List.mem_append] at ho
  rcases hc with h | h | h | h | h
  · exact ho c (Or.inl (Or.inl h))
  · cases a with
    | none => simp [colorAttr] at h
    | some w =>
      simp only [colorAttr, List.mem_append] at h
      rcases h with h | h | h
      · exact hq c h
      · exact hplain w (isPlainText_of_isWord w (ha w rfl)) c h
      · exact hq c (by
          have : c = '"' := by simpa using h
          subst this; decide)
  · exact ho c (Or.inl (Or.inr h))
  · exact hplain x hx c h
  · exact ho c (Or.inr h)

/-- No `class=` in a tag with an optional colour attribute. -/
theorem taggedText_no_class (opening mid closing : Str) (a : Option Str) (x : Str)
    (ha : ∀ w ∈ a, isWord w = true) (hx : isPlainText x = true)
    (ho : '=' ∉ opening ++ mid ++ closing) :
    Contains (taggedText opening a mid x closing) "class=".data = false := by
  have hplain : ∀ t, isPlainText t = true → '=' ∉ t := fun t ht =>
    not_mem_of_class (alnum ++ CharSet.of [' ']) '=' (by decide) t (isPlainText_facts t ht).2.2.2.1
  have hxe := hplain x hx
  simp only [List.mem_append, not_or] at ho
  cases hcon : Contains (taggedText opening a mid x closing) "class=".data with
  | false => rfl
  | true =>
    exfalso
    obtain ⟨p, q, hpq⟩ := Contains_split _ _ hcon
    cases a with
    | none =>
      have : '=' ∈ taggedText opening none mid x closing := by
        rw [hpq]; simp
      simp only [taggedText, colorAttr, List.mem_append, List.not_mem_nil, false_or] at this
      tauto
    | some w =>
      have hwe := hplain w (isPlainText_of_isWord w (ha w rfl))
      have e1 : taggedText opening (some w) mid x closing =
          (opening ++ " color".data) ++ '=' :: ('"' :: (w ++ ('"' :: (mid ++ (x ++ closing))))) := by
        simp [taggedText, colorAttr]
      have e2 : p ++ ("class=".data ++ q) = (p ++ "class".data) ++ '=' :: q := by simp
      rw [e1, e2] at hpq
      have h := split_unique '=' _ _ _ _ (by
        simp only [List.mem_append, not_or]; exact ⟨ho.1.1, by decide⟩) (by
        simp only [List.mem_cons, List.mem_append, not_or]
        exact ⟨by decide, hwe, by decide, ho.1.2, hxe, ho.2⟩) hpq
      have h2 := congrArg List.getLast? h
      simp at h2

/-- On an input that the sanitizer, the closing of tags and the attribute clean-up leave
alone, `CleanHTML` is the rewrite of deprecated tags and the repair of lists. -/
theorem CleanHTML_front (Ws : List Win) (s : Str) (hc : CoversIn Ws s [])
    (h1 : sanitizeRes.all (fun r => r.absent Ws) = true) (ht : TrimSpace s = s)
    (h2 : unclosedTags.all (fun tag => (Re.lit ('<' :: tag)).absent Ws) = true)
    (h3 : attrRes.all (fun r => r.absent Ws) = true)
    (h4 : Contains s "class=".data = false) (h5 : Contains s "data-".data = false) :
    CleanHTML s = fixListStructure (updateDeprecatedTags s) := by
  unfold CleanHTML
  simp only [Sanitize_id Ws s hc h1 ht, fixUnclosedTags_absent Ws s hc h2,
    cleanAttributes_id Ws s hc h3 h4 h5]

/-- The rule of a deprecated element on that element alone. -/
theorem updateTag_match (name : String) (tpl : List Tpl) (a : Option Str) (x : Str)
    (ha : ∀ w ∈ a, isWord w = true) (hx : isPlainText x = true)
    (hclose : (closeTag name.data).missesAll plainWins = true)
    (hnn : (reElemAttrs name).nonNull = true) :
    ReplaceAllString (reElemAttrs name) (attrElem name.data (colorAttr a) x) tpl =
      expand tpl [(2, x), (1, colorAttr a)] := by
  have hdot : ∀ c ∈ x, dot.mem c = true := fun c hc =>
    CharSet.mem_mono _ dot (by decide) c ((isPlainText_facts x hx).2.2.2.1 c hc)
  have hattr : ∀ c ∈ colorAttr a, notGt.mem c = true := by
    intro c hc
    cases a with
    | none => simp [colorAttr] at hc
    | some w =>
      simp only [colorAttr, List.mem_append] at hc
      rcases hc with h | h | h
      · exact (by decide : ∀ c ∈ " color=\"".data, notGt.mem c = true) c h
      · exact CharSet.mem_mono _ notGt (by decide) c
          ((isPlainText_facts w (isPlainText_of_isWord w (ha w rfl))).2.2.2.1 c h)
      · exact (by decide : ∀ c ∈ "\"".data, notGt.mem c = true) c h
  have hns : NoStart (closeTag name.data) x ("</".data ++ (name.data ++ (">".data ++ []))) :=
    NoStart_of_covers _ plainWins _ _ ((isPlainText_facts x hx).2.2.2.2 _) hclose
  have hm := ms_elemAttrs_head name (colorAttr a) x [] hattr hdot hns
  have hw : attrElem name.data (colorAttr a) x = attrElem name.data (colorAttr a) x ++ [] := by
    simp
  rw [hw, ReplaceAllString_here _ hnn _ _ [] [(2, x), (1, colorAttr a)]
    (by rw [List.append_nil]; exact hm), ReplaceAllString_nil _ hnn, List.append_nil]

theorem attrElem_eq (n : Str) (a : Option Str) (x : Str) :
    attrElem n (colorAttr a) x =
      taggedText ("<".data ++ n) a ">".data x ("</".data ++ n ++ ">".data) := by
  simp [attrElem, taggedText]

theorem TrimSpace_attrElem (n attr x : Str) :
    TrimSpace (attrElem n attr x) = attrElem n attr x := by
  have e : attrElem n attr x = '<' :: ((n ++ attr ++ ">".data ++ x ++ "</".data ++ n) ++ ">".data) := by
    simp [attrElem]
  rw [e]
  exact TrimSpace_tag _

/-- The first three stages of `CleanHTML` leave a deprecated element as it is. -/
theorem CleanHTML_attrElem (n : Str) (a : Option Str) (x : Str)
    (ha : ∀ w ∈ a, isWord w = true) (hx : isPlainText x = true)
    (h1 : sanitizeRes.all (fun r => r.absent
      (tagWins ("<".data ++ n) ">".data ("</".data ++ n ++ ">".data))) = true)
    (h2 : unclosedTags.all (fun tag => (Re.lit ('<' :: tag)).absent
      (tagWins ("<".data ++ n) ">".data ("</".data ++ n ++ ">".data))) = true)
    (h3 : attrRes.all (fun r => r.absent
      (tagWins ("<".data ++ n) ">".data ("</".data ++ n ++ ">".data))) = true)
    (h4 : ∀ c ∈ "<".data ++ n ++ ">".data ++ ("</".data ++ n ++ ">".data), tagChars.mem c = true)
    (h5 : '=' ∉ "<".data ++ n ++ ">".data ++ ("</".data ++ n ++ ">".data)) :
    CleanHTML (attrElem n (colorAttr a) x) =
      fixListStructure (updateDeprecatedTags (attrElem n (colorAttr a) x)) := by
  have hc := taggedText_covers ("<".data ++ n) ">".data ("</".data ++ n ++ ">".data) a x ha hx
  have hchars := taggedText_chars tagChars (by decide) (by decide)
    ("<".data ++ n) ">".data ("</".data ++ n ++ ">".data) a x ha hx h4
  have hcls := taggedText_no_class ("<".data ++ n) ">".data ("</".data ++ n ++ ">".data) a x
    ha hx h5
  rw [← attrElem_eq] at hc hchars hcls
  have hdash : Contains (attrElem n (colorAttr a) x) "data-".data = false := by
    cases hq : Contains (attrElem n (colorAttr a) x) "data-".data with
    | false => rfl
    | true =>
      have := hchars '-' (mem_of_contains _ _ hq '-' (by decide))
      exact absurd this (by decide)
  exact CleanHTML_front _ _ hc h1 (TrimSpace_attrElem _ _ _) h2 h3 hcls hdash

theorem newElem_eq (new : Str) (a : Option Str) (extra x : Str) :
    newElem new a extra x =
      "<".data ++ new ++ colorAttr a ++ extra ++ ">".data ++ x ++ "</".data ++ new ++ ">".data := by
  simp [newElem, taggedText]

theorem newElem_covers (new : Str) (a : Option Str) (extra x : Str)
    (ha : ∀ w ∈ a, isWord w = true) (hx : isPlainText x = true) :
    CoversIn (tagWins ("<".data ++ new) (extra ++ ">".data) ("</".data ++ new ++ ">".data))
      (newElem new a extra x) [] :=
  taggedText_covers _ _ _ a x ha hx

/-! ## Class attributes -/

theorem reWpClass_eq : reWpClass = .seq (.lit "class=".data) (.seq (.cls quoteSet)
    (.seq (.grp 1 (.star false (.cls notQuote))) (.seq (.grp 2 reGenerated)
      (.seq (.grp 3 (.star false (.cls notQuote))) (.cls quoteSet))))) := rfl

/-- The texts the pattern of generated class attributes matches. -/
theorem Matches_reWpClass (w : Str) :
    Re.Matches reWpClass w ↔ ∃ (q1 : Char) (u1 g u3 : Str) (q2 : Char),
      w = "class=".data ++ (q1 :: (u1 ++ (g ++ (u3 ++ [q2])))) ∧ quoteSet.mem q1 = true ∧
      (∀ c ∈ u1, notQuote.mem c = true) ∧ Re.Matches reGenerated g ∧
      (∀ c ∈ u3, notQuote.mem c = true) ∧ quoteSet.mem q2 = true := by
  rw [reWpClass_eq]
  simp only [Matches_seq_iff, Matches_lit_iff, Matches_cls_iff, Matches_grp_iff,
    Matches_star_cls_iff]
  constructor
  · rintro ⟨_, _, rfl, rfl, _, _, rfl, ⟨q1, rfl, h1⟩, u1, _, rfl, hu1, g, _, rfl, hg, u3, _, rfl,
      hu3, q2, rfl, h2⟩
    exact ⟨q1, u1, g, u3, q2, by simp, h1, hu1, hg, hu3, h2⟩
  · rintro ⟨q1, u1, g, u3, q2, rfl, h1, hu1, hg, hu3, h2⟩
    exact ⟨_, _, rfl, rfl, _, _, rfl, ⟨q1, rfl, h1⟩, u1, _, rfl, hu1, g, _, rfl, hg, u3, _, rfl,
      hu3, q2, rfl, h2⟩

/-- A generated class name is made of letters, digits, `_` and `-`. -/
theorem Matches_reGenerated_chars (g : Str) (h : Re.Matches reGenerated g) :
    ∀ c ∈ g, wordDash.mem c = true := by
  simp only [reGenerated, seqs, L, many1, Matches_alt_iff, Matches_seq_iff, Matches_lit_iff,
    Matches_cls_iff, Matches_star_cls_iff] at h
  have h1 : ∀ c ∈ "wp-".data ++ ("align".data ++ "block-".data), wordDash.mem c = true := by decide
  have m1 : ∀ c, CharSet.mem [(97, 122)] c = true → wordDash.mem c = true :=
    CharSet.mem_mono _ _ (by decide)
  have m2 : ∀ c, CharSet.mem [(97, 122), (48, 57), (45, 45)] c = true → wordDash.mem c = true :=
    CharSet.mem_mono _ _ (by decide)
  rcases h with ⟨_, _, rfl, rfl, _, _, rfl, ⟨d, rfl, hd⟩, he⟩ |
    ⟨_, _, rfl, rfl, _, _, rfl, ⟨d, rfl, hd⟩, he⟩ | ⟨_, _, rfl, rfl, _, _, rfl, ⟨d, rfl, hd⟩, he⟩
  all_goals
    intro c hc
    simp only [List.mem_append, List.mem_singleton] at hc
    rcases hc with hc | hc | hc
  · exact h1 c (List.mem_append_left _ hc)
  · subst hc; exact hd
  · exact he c hc
  · exact h1 c (List.mem_append_right _ (List.mem_append_left _ hc))
  · subst hc; exact m1 _ hd
  · exact m1 _ (he c hc)
  · exact h1 c (List.mem_append_right _ (List.mem_append_right _ hc))
  · subst hc; exact m2 _ hd
  · exact m2 _ (he c hc)

/-- The first character with a property splits the text in one way only. -/
theorem split_first (P : Char → Prop) : ∀ (p1 : Str) (z1 : Char) (r1 p2 : Str) (z2 : Char)
    (r2 : Str), (∀ c ∈ p1, ¬ P c) → P z1 → (∀ c ∈ p2, ¬ P c) → P z2 →
    p1 ++ z1 :: r1 = p2 ++ z2 :: r2 → p1 = p2 ∧ z1 = z2 ∧ r1 = r2 := by
  intro p1
  induction p1 with
  | nil =>
    intro z1 r1 p2 z2 r2 _ hz1 hp2 _ he
    cases p2 with
    | nil =>
      simp only [List.nil_append, List.cons.injEq] at he
      exact ⟨rfl, he.1, he.2⟩
    | cons y p2 =>
      simp only [List.nil_append, List.cons_append, List.cons.injEq] at he
      exact absurd (he.1 ▸ hz1) (hp2 y (List.mem_cons_self _ _))
  | cons x p1 ih =>
    intro z1 r1 p2 z2 r2 hp1 hz1 hp2 hz2 he
    cases p2 with
    | nil =>
      simp only [List.nil_append, List.cons_append, List.cons.injEq] at he
      exact absurd (he.1 ▸ hz2) (hp1 x (List.mem_cons_self _ _))
    | cons y p2 =>
      simp only [List.cons_append, List.cons.injEq] at he
      obtain ⟨h1, h2, h3⟩ := ih z1 r1 p2 z2 r2 (fun c hc => hp1 c (List.mem_cons_of_mem _ hc)) hz1
        (fun c hc => hp2 c (List.mem_cons_of_mem _ hc)) hz2 he.2
      exact ⟨by rw [he.1, h1], h2, h3⟩

theorem Join_space : ∀ (ts : List Str), Join ts " ".data = joinSpaces ts := by
  intro ts
  induction ts using joinSpaces.induct with
  | case1 => rfl
  | case2 l => simp [Join, joinSpaces, List.intercalate, List.intersperse]
  | case3 l m ls ih =>
    simp only [Join, List.intercalate, List.intersperse, List.join_cons] at ih ⊢
    rw [joinSpaces, ← ih]

theorem isToken_facts (t : Str) (h : isToken t = true) :
    t ≠ [] ∧ ∀ c ∈ t, wordDash.mem c = true := by
  simp only [isToken, Bool.and_eq_true, Bool.not_eq_true', List.isEmpty_eq_false,
    List.all_eq_true] at h
  exact ⟨by simpa using h.1, h.2⟩

/-- The characters of tokens separated by spaces. -/
theorem joinSpaces_chars : ∀ (ts : List Str), (∀ t ∈ ts, isToken t = true) →
    ∀ c ∈ joinSpaces ts, (wordDash ++ CharSet.of [' ']).mem c = true := by
  intro ts
  induction ts using joinSpaces.induct with
  | case1 => intro _ c hc; simp [joinSpaces] at hc
  | case2 t =>
    intro h c hc
    rw [CharSet.mem_append, (isToken_facts t (h t (by simp))).2 c hc]
    rfl
  | case3 t u ts ih =>
    intro h c hc
    simp only [joinSpaces, List.mem_append] at hc
    rcases hc with hc | hc | hc
    · rw [CharSet.mem_append, (isToken_facts t (h t (by simp))).2 c hc]
      rfl
    · exact (by decide : ∀ c ∈ " ".data, (wordDash ++ CharSet.of [' ']).mem c = true) c hc
    · exact ih (fun x hx => h x (List.mem_cons_of_mem _ hx)) c hc

theorem joinSpaces_ne_nil (ts : List Str) (hne : ts ≠ []) (h : ∀ t ∈ ts, isToken t = true) :
    ∃ c s, joinSpaces ts = c :: s ∧ wordDash.mem c = true := by
  cases ts with
  | nil => exact absurd rfl hne
  | cons t ts =>
    obtain ⟨h1, h2⟩ := isToken_facts t (h t (by simp))
    obtain ⟨c, s, rfl⟩ := List.exists_cons_of_ne_nil h1
    cases ts with
    | nil => exact ⟨c, s, rfl, h2 c (by simp)⟩
    | cons u ts => exact ⟨c, s ++ (" ".data ++ joinSpaces (u :: ts)), rfl, h2 c (by simp)⟩

/-- The positions of tokens separated by spaces. -/
theorem joinSpaces_covers : ∀ (ts : List Str) (v : Str), (∀ t ∈ ts, isToken t = true) →
    CoversIn tokenWins (joinSpaces ts) v := by
  intro ts
  induction ts using joinSpaces.induct with
  | case1 => intro v _; exact CoversIn.nil _ _
  | case2 t =>
    intro v h
    exact (CoversIn.ofClass wordDash t v (isToken_facts t (h t (by simp))).2).mono
      (fun W hW => by simp only [List.mem_singleton] at hW; subst hW; simp [tokenWins])
  | case3 t u ts ih =>
    intro v h
    have hts : ∀ x ∈ u :: ts, isToken x = true := fun x hx => h x (List.mem_cons_of_mem _ hx)
    obtain ⟨c, s, hs, hc⟩ := joinSpaces_ne_nil (u :: ts) (by simp) hts
    rw [joinSpaces]
    refine CoversIn.append ?_ (CoversIn.append ?_ (ih v hts))
    · exact (CoversIn.ofClass wordDash t _ (isToken_facts t (h t (by simp))).2).mono
        (fun W hW => by simp only [List.mem_singleton] at hW; subst hW; simp [tokenWins])
    · refine (CoversIn.lit (startsIn wordDash) " ".data _ ?_).mono
        (fun W hW => by
          simp only [litWins, List.mem_singleton] at hW
          subst hW; simp [tokenWins, startsIn])
      rw [hs]
      exact Describes_startsIn _ _ _ hc

theorem fieldsScan_token (t : Str) (ht : ∀ c ∈ t, wordDash.mem c = true) :
    ∀ (cur rest : Str), fieldsScan cur (t ++ rest) = fieldsScan (t.reverse ++ cur) rest := by
  induction t with
  | nil => intro cur rest; rfl
  | cons c t ih =>
    intro cur rest
    have hc : goSpace.mem c = false :=
      CharSet.not_mem_of_disjoint wordDash goSpace (by decide) c (ht c (List.mem_cons_self _ _))
    rw [List.cons_append, fieldsScan, hc]
    simp only [Bool.false_eq_true, if_false]
    rw [ih (fun x hx => ht x (List.mem_cons_of_mem _ hx))]
    simp

/-- `strings.Fields` gives back tokens that are separated by single spaces. -/
theorem Fields_joinSpaces : ∀ (ts : List Str), (∀ t ∈ ts, isToken t = true) →
    Fields (joinSpaces ts) = ts := by
  intro ts
  unfold Fields
  induction ts using joinSpaces.induct with
  | case1 => intro _; rfl
  | case2 t =>
    intro h
    obtain ⟨h1, h2⟩ := isToken_facts t (h t (by simp))
    have := fieldsScan_token t h2 [] []
    rw [List.append_nil] at this
    rw [joinSpaces, this]
    simp [fieldsScan, h1]
  | case3 t u ts ih =>
    intro h
    obtain ⟨h1, h2⟩ := isToken_facts t (h t (by simp))
    rw [joinSpaces, fieldsScan_token t h2]
    have e : " ".data ++ joinSpaces (u :: ts) = ' ' :: joinSpaces (u :: ts) := rfl
    rw [e, fieldsScan]
    have hs : goSpace.mem ' ' = true := by decide
    simp only [hs, if_true, List.append_nil, List.reverse_reverse]
    rw [ih (fun x hx => h x (List.mem_cons_of_mem _ hx))]
    have : t.reverse.isEmpty = false := by
      cases t with
      | nil => exact absurd rfl h1
      | cons c t => simp
    simp [this]

/-- The cuts of a greedy run of `A` in front of a character outside `A`: a continuation
that cannot start inside `A` succeeds behind the whole run only. -/
theorem greedyCuts_skip (A : CharSet) (c : Caps) (f : Str × Caps → Res) (v : Str)
    (hf : ∀ a s, A.mem a = true → f (a :: s, c) = [])
    (hv : ∀ x, v.head? = some x → A.mem x = false) :
    ∀ (u : Str), (∀ x ∈ u, A.mem x = true) →
      (greedyCuts A c (u ++ v)).flatMap f = f (v, c) := by
  intro u
  induction u with
  | nil =>
    intro _
    cases v with
    | nil => simp [greedyCuts]
    | cons x v => simp [greedyCuts, hv x rfl]
  | cons a u ih =>
    intro hu
    have ha := hu a (List.mem_cons_self _ _)
    have h1 := ih (fun x hx => hu x (List.mem_cons_of_mem _ hx))
    have e : (a :: u) ++ v = a :: (u ++ v) := rfl
    rw [e]
    simp only [greedyCuts, ha, if_true, List.flatMap_append, h1, List.flatMap_cons,
      List.flatMap_nil, List.append_nil, hf a (u ++ v) ha]

theorem reClassAttr_eq : reClassAttr = .seq (.lit "class=".data) (.seq (.cls quoteSet)
    (.seq (.grp 1 (.star true (.cls notQuote))) (.cls quoteSet))) := rfl

/-- The pattern `class=["']([^"']*)["']` on a class attribute: submatch 1 is the value. -/
theorem ms_reClassAttr (q1 q2 : Char) (h1 : quoteSet.mem q1 = true) (h2 : quoteSet.mem q2 = true)
    (val rest : Str) (hval : ∀ c ∈ val, notQuote.mem c = true) :
    ms reClassAttr ("class=".data ++ (q1 :: (val ++ q2 :: rest))) [] = [(rest, [(1, val)])] := by
  rw [reClassAttr_eq, ms_seq_lit, ms_seq, ms_cls_cons, h1]
  simp only [if_true, List.flatMap_cons, List.flatMap_nil, List.append_nil]
  rw [ms_seq, ms_grp, ms_star_greedy_cls, List.flatMap_map]
  have hq2 : notQuote.mem q2 = false := by
    cases h : notQuote.mem q2 with
    | false => rfl
    | true =>
      have := CharSet.not_mem_of_disjoint notQuote quoteSet (by decide) q2 h
      rw [h2] at this; exact Bool.noConfusion this
  have h := greedyCuts_skip notQuote []
    (fun r => ms (.cls quoteSet) r.1
      ((1, (val ++ q2 :: rest).take ((val ++ q2 :: rest).length - r.1.length)) :: r.2))
    (q2 :: rest)
    (fun a s ha => by
      simp only [ms_cls_cons]
      rw [CharSet.not_mem_of_disjoint notQuote quoteSet (by decide) a ha]
      rfl)
    (fun x hx => by simp at hx; subst hx; exact hq2) val hval
  rw [h]
  simp [ms_cls_cons, h2]

/-- The callback of `cleanAttributes` on a class attribute with its tokens. -/
theorem cleanClassAttr_tokens (q : Char) (hq : quoteSet.mem q = true) (toks : List Str)
    (ht : ∀ t ∈ toks, isToken t = true) :
    cleanClassAttr ("class=".data ++ (q :: (Join toks " ".data ++ [q]))) =
      if (toks.filter keepClass).isEmpty then []
      else "class=\"".data ++ Join (toks.filter keepClass) " ".data ++ "\"".data := by
  have hval : ∀ c ∈ Join toks " ".data, notQuote.mem c = true := by
    intro c hc
    rw [Join_space] at hc
    exact CharSet.mem_mono _ notQuote (by decide) c (joinSpaces_chars toks ht c hc)
  have hm := ms_reClassAttr q q hq hq (Join toks " ".data) [] hval
  have hf : findFirst reClassAttr ("class=".data ++ (q :: (Join toks " ".data ++ [q]))) =
      some ⟨[], "class=".data ++ (q :: (Join toks " ".data ++ [q])), [(1, Join toks " ".data)], []⟩ := by
    have := findFirst_here reClassAttr ("class=".data ++ (q :: (Join toks " ".data ++ [q]))) []
      [(1, Join toks " ".data)] (by rw [List.append_nil, hm]; rfl)
    rwa [List.append_nil] at this
  have hF : Fields (Join toks " ".data) = toks := by
    rw [Join_space]; exact Fields_joinSpaces toks ht
  have hcap : getCap (Match.subs ⟨[], "class=".data ++ (q :: (Join toks " ".data ++ [q])),
      [(1, Join toks " ".data)], []⟩) 1 = Join toks " ".data := rfl
  unfold cleanClassAttr FindStringSubmatch
  rw [hf]
  simp only [Option.map_some', hcap, hF]

theorem quote_of_notQuote (c : Char) (h : notQuote.mem c = true) : ¬ quoteSet.mem c = true := by
  rw [CharSet.not_mem_of_disjoint notQuote quoteSet (by decide) c h]
  exact Bool.false_ne_true

/-- A match of the class pattern that starts at a class attribute reads the attribute up
to its closing quote, and the value holds a generated class name. -/
theorem wpClass_at_attr (q : Char) (hq : quoteSet.mem q = true) (V R : Str)
    (hV : ∀ c ∈ V, notQuote.mem c = true) (w1 v1 : Str)
    (he : "class=".data ++ (q :: (V ++ q :: R)) = w1 ++ v1) (hm : Re.Matches reWpClass w1) :
    MatchString reGenerated V = true ∧ v1 = R := by
  obtain ⟨q1, u1, g, u3, q2, rfl, h1, hu1, hg, hu3, h2⟩ := (Matches_reWpClass w1).mp hm
  rw [List.append_assoc] at he
  have he := List.append_cancel_left he
  simp only [List.cons_append, List.cons.injEq, List.append_assoc, List.nil_append] at he
  obtain ⟨-, he⟩ := he
  have hgq : ∀ c ∈ g, notQuote.mem c = true := fun c hc =>
    CharSet.mem_mono _ notQuote (by decide) c (Matches_reGenerated_chars g hg c hc)
  have e : u1 ++ (g ++ (u3 ++ q2 :: v1)) = (u1 ++ (g ++ u3)) ++ q2 :: v1 := by simp
  rw [e] at he
  obtain ⟨hV2, -, hR⟩ := split_first (fun c => quoteSet.mem c = true) V q R (u1 ++ (g ++ u3)) q2 v1
    (fun c hc => quote_of_notQuote c (hV c hc)) hq
    (fun c hc => by
      simp only [List.mem_append] at hc
      rcases hc with hc | hc | hc
      · exact quote_of_notQuote c (hu1 c hc)
      · exact quote_of_notQuote c (hgq c hc)
      · exact quote_of_notQuote c (hu3 c hc)) h2 he
  exact ⟨(MatchString_iff reGenerated V).mpr ⟨u1, g, u3, hV2, hg⟩, hR.symm⟩

/-- A class attribute whose value holds a generated class name is matched as a whole. -/
theorem wpClass_head (q : Char) (hq : quoteSet.mem q = true) (V R : Str)
    (hV : ∀ c ∈ V, notQuote.mem c = true) (ht : MatchString reGenerated V = true) :
    ∃ c, (ms reWpClass (("class=".data ++ (q :: (V ++ [q]))) ++ R) []).head? = some (R, c) := by
  obtain ⟨a, g, b, hab, hg⟩ := (MatchString_iff reGenerated V).mp ht
  apply ms_head_of_unique
  · refine (Matches_reWpClass _).mpr ⟨q, a, g, b, q, ?_, hq, ?_, hg, ?_, hq⟩
    · rw [hab]; simp
    · intro c hc; exact hV c (by rw [hab]; simp [hc])
    · intro c hc; exact hV c (by rw [hab]; simp [hc])
  · intro w1 v1 he hm
    exact (wpClass_at_attr q hq V R hV w1 v1 (by rw [← he]; simp) hm).2

theorem classPara_split (q : Char) (toks : List Str) (x : Str) :
    classPara q toks x = "<p ".data ++ (("class=".data ++ (q :: (Join toks " ".data ++ [q]))) ++
      (">".data ++ (x ++ "</p>".data))) := by
  simp [classPara]

/-- The characters behind the opening tag. -/
theorem para_rest_chars (x : Str) (hx : isPlainText x = true) :
    ∀ c ∈ ">".data ++ (x ++ "</p>".data), tagChars.mem c = true := by
  intro c hc
  simp only [List.mem_append] at hc
  rcases hc with hc | hc | hc
  · exact (by decide : ∀ c ∈ ">".data, tagChars.mem c = true) c hc
  · exact CharSet.mem_mono _ tagChars (by decide) c ((isPlainText_facts x hx).2.2.2.1 c hc)
  · exact (by decide : ∀ c ∈ "</p>".data, tagChars.mem c = true) c hc

theorem para_rest_no_class (x : Str) (hx : isPlainText x = true) :
    Contains (">".data ++ (x ++ "</p>".data)) "class=".data = false := by
  cases hq : Contains (">".data ++ (x ++ "</p>".data)) "class=".data with
  | false => rfl
  | true =>
    have h1 := mem_of_contains _ _ hq '=' (by decide)
    simp only [List.mem_append] at h1
    have hx2 := not_mem_of_class (alnum ++ CharSet.of [' ']) '=' (by decide) x
      (isPlainText_facts x hx).2.2.2.1
    rcases h1 with h1 | h1 | h1
    · exact absurd h1 (by decide)
    · exact absurd h1 hx2
    · exact absurd h1 (by decide)

/-- The value of the class attribute holds neither quotes nor `=`. -/
theorem value_chars (toks : List Str) (ht : ∀ t ∈ toks, isToken t = true) :
    (∀ c ∈ Join toks " ".data, notQuote.mem c = true) ∧ '=' ∉ Join toks " ".data := by
  rw [Join_space]
  exact ⟨fun c hc => CharSet.mem_mono _ notQuote (by decide) c (joinSpaces_chars toks ht c hc),
    not_mem_of_class _ '=' (by decide) _ (joinSpaces_chars toks ht)⟩

/-- The selection of class attributes on the paragraph: the attribute is handed to the
callback when its value holds a generated class name, and left alone otherwise. -/
theorem wpClass_step (q : Char) (hq : quoteSet.mem q = true) (toks : List Str)
    (ht : ∀ t ∈ toks, isToken t = true) (x : Str) (hx : isPlainText x = true) :
    ReplaceAllStringFunc reWpClass (classPara q toks x) cleanClassAttr =
      if MatchString reGenerated (Join toks " ".data) = true then
        "<p ".data ++ (cleanClassAttr ("class=".data ++ (q :: (Join toks " ".data ++ [q]))) ++
          (">".data ++ (x ++ "</p>".data)))
      else classPara q toks x := by
  obtain ⟨hV, hVe⟩ := value_chars toks ht
  have hxe := not_mem_of_class (alnum ++ CharSet.of [' ']) '=' (by decide) x
    (isPlainText_facts x hx).2.2.2.1
  have hqe : q ≠ '=' := by rintro rfl; revert hq; decide
  split
  · rename_i htr
    obtain ⟨c, hc⟩ := wpClass_head q hq _ (">".data ++ (x ++ "</p>".data)) hV htr
    have hskip : NoStart reWpClass "<p ".data
        (("class=".data ++ (q :: (Join toks " ".data ++ [q]))) ++ (">".data ++ (x ++ "</p>".data))) :=
      NoStart_of_covers _ (litWins anyWin "<p ".data) _ _
        (CoversIn.lit anyWin _ _ (Describes_any _)) (by decide)
    rw [classPara_split, ReplaceAllStringFunc_skip _ (by decide) _ _ _ hskip,
      ReplaceAllStringFunc_here _ (by decide) _ _ _ c hc,
      ReplaceAllStringFunc_none _ _ _ (findFirst_none_of_not_contains reWpClass (by decide)
        "class=".data _ (List.mem_cons_self _ _) _ (para_rest_no_class x hx))]
  · rename_i htr
    apply ReplaceAllStringFunc_none
    cases hf : findFirst reWpClass (classPara q toks x) with
    | none => rfl
    | some m =>
      exfalso
      have hms : MatchString reWpClass (classPara q toks x) = true := by simp [MatchString, hf]
      obtain ⟨a, w, v, he, hm⟩ := (MatchString_iff _ _).mp hms
      obtain ⟨q1, u1, g, u3, q2, hw, -⟩ := (Matches_reWpClass w).mp hm
      have e1 : classPara q toks x = "<p class".data ++ '=' ::
          (q :: (Join toks " ".data ++ (q :: (">".data ++ (x ++ "</p>".data))))) := by
        simp [classPara]
      have e2 : a ++ (w ++ v) = (a ++ "class".data) ++ '=' ::
          ((q1 :: (u1 ++ (g ++ (u3 ++ [q2])))) ++ v) := by
        rw [hw]; simp
      have hsp := split_unique '=' "<p class".data
        (q :: (Join toks " ".data ++ (q :: (">".data ++ (x ++ "</p>".data)))))
        (a ++ "class".data) ((q1 :: (u1 ++ (g ++ (u3 ++ [q2])))) ++ v) (by decide) (by
        simp only [List.mem_cons, List.mem_append, not_or]
        exact ⟨fun h => hqe h.symm, hVe, fun h => hqe h.symm, by decide, hxe, by decide⟩)
        (by rw [← e1, ← e2]; exact he)
      have ha : a = "<p ".data :=
        List.append_cancel_right (hsp.trans (by rfl : "<p class".data = "<p ".data ++ "class".data))
      subst ha
      rw [classPara_split] at he
      have he2 := List.append_cancel_left he
      have := (wpClass_at_attr q hq _ (">".data ++ (x ++ "</p>".data)) hV w v
        (by rw [← he2]; simp) hm).1
      exact htr this

theorem classPara_covers (q : Char) (hq : quoteSet.mem q = true) (toks : List Str)
    (hne : toks ≠ []) (ht : ∀ t ∈ toks, isToken t = true) (x : Str) (hx : isPlainText x = true) :
    CoversIn classWins (classPara q toks x) [] := by
  obtain ⟨c, s, hs, hc⟩ := joinSpaces_ne_nil toks hne ht
  obtain ⟨hxne, hxh, -⟩ := isPlainText_facts x hx
  obtain ⟨y, x1, rfl⟩ := List.exists_cons_of_ne_nil hxne
  have hy := hxh y rfl
  unfold classPara
  rw [Join_space]
  have hopen : Describes [quoteSet, wordDash] false
      (q :: (joinSpaces toks ++ q :: (">".data ++ (y :: x1 ++ "</p>".data))) ++ []) := by
    rw [hs]
    exact ⟨q, _, rfl, hq, c, _, rfl, hc, by simp [Describes]⟩
  have h0a : ∃ W ∈ classWins, Describes W.cs W.closed
      (q :: ((joinSpaces toks ++ q :: (">".data ++ (y :: x1 ++ "</p>".data))) ++ [])) :=
    ⟨⟨[quoteSet, wordDash], false⟩, by simp [classWins], hopen⟩
  have h0b : ∃ W ∈ classWins, Describes W.cs W.closed
      (q :: ((">".data ++ (y :: x1 ++ "</p>".data)) ++ [])) :=
    ⟨⟨[quoteSet, CharSet.of ['>'], alnum], false⟩, by simp [classWins],
      ⟨q, _, rfl, hq, '>', _, rfl, by decide, y, _, rfl, hy, by simp [Describes]⟩⟩
  refine CoversIn.append ?_ (CoversIn.cons h0a (CoversIn.append ?_
    (CoversIn.cons h0b (CoversIn.append ?_ (CoversIn.append ?_ ?_)))))
  · exact (CoversIn.lit ⟨[quoteSet, wordDash], false⟩ _ _ hopen).mono
      (fun W hW => by simp only [classWins, List.mem_append]; exact Or.inl hW)
  · exact (joinSpaces_covers toks _ ht).mono (fun W hW => by
      simp only [classWins, List.mem_append, List.mem_cons]; exact Or.inr (Or.inr (Or.inl hW)))
  · exact (CoversIn.lit (startsIn alnum) _ _ (Describes_startsIn _ _ _ hy)).mono (fun W hW => by
      simp only [classWins, List.mem_append, List.mem_cons]
      exact Or.inr (Or.inr (Or.inr (Or.inr (Or.inl hW)))))
  · exact ((isPlainText_facts _ hx).2.2.2.2 _).mono (fun W hW => by
      simp only [classWins, List.mem_append, List.mem_cons]
      exact Or.inr (Or.inr (Or.inr (Or.inr (Or.inr (Or.inl hW))))))
  · exact (CoversIn.lit endWin _ _ (by simp [endWin, Describes])).mono (fun W hW => by
      simp only [classWins, List.mem_append, List.mem_cons]
      exact Or.inr (Or.inr (Or.inr (Or.inr (Or.inr (Or.inr hW))))))

/-- An expression whose every match holds a `-` in front of an `=` matches nowhere in a
text whose only `=` stands behind a text without `-`. -/
theorem findFirst_none_of_dash (r : Re)
    (hshape : ∀ w, Re.Matches r w → ∃ p t, w = p ++ '=' :: t ∧ '-' ∈ p)
    (p1 r1 : Str) (h1 : '=' ∉ p1) (h2 : '=' ∉ r1) (h3 : '-' ∉ p1) :
    findFirst r (p1 ++ '=' :: r1) = none := by
  cases hf : findFirst r (p1 ++ '=' :: r1) with
  | none => rfl
  | some m =>
    exfalso
    have hms : MatchString r (p1 ++ '=' :: r1) = true := by simp [MatchString, hf]
    obtain ⟨a, w, v, he, hm⟩ := (MatchString_iff _ _).mp hms
    obtain ⟨p, t, rfl, hp⟩ := hshape w hm
    have e2 : a ++ ((p ++ '=' :: t) ++ v) = (a ++ p) ++ '=' :: (t ++ v) := by simp
    rw [e2] at he
    have := split_unique '=' p1 r1 (a ++ p) (t ++ v) h1 h2 he
    exact h3 (by rw [← this]; simp [hp])

theorem reDataAny_shape (w : Str) (h : Re.Matches reDataAny w) :
    ∃ p t, w = p ++ '=' :: t ∧ '-' ∈ p := by
  simp only [reDataAny, seqs, ws1, many1, L, Matches_seq_iff, Matches_lit_iff] at h
  obtain ⟨u, _, rfl, -, _, _, rfl, rfl, v, _, rfl, -, _, t, rfl, rfl, -⟩ := h
  exact ⟨u ++ ("data-".data ++ v), t, by simp, by simp⟩

theorem reDataWp_shape (w : Str) (h : Re.Matches reDataWp w) :
    ∃ p t, w = p ++ '=' :: t ∧ '-' ∈ p := by
  simp only [reDataWp, seqs, ws1, many1, L, Matches_seq_iff, Matches_lit_iff, Matches_grp_iff,
    Matches_alt_iff] at h
  obtain ⟨u, _, rfl, -, _, _, rfl, rfl, h⟩ := h
  rcases h with ⟨_, _, rfl, rfl, v, _, rfl, -, _, t, rfl, rfl, -⟩ | ⟨_, t, rfl, rfl, -⟩ |
    ⟨_, t, rfl, rfl, -⟩
  · exact ⟨u ++ ("data-".data ++ ("wp-".data ++ v)), t, by simp, by simp⟩
  · exact ⟨u ++ ("data-".data ++ "align".data), t, by simp, by simp⟩
  · exact ⟨u ++ ("data-".data ++ "block".data), t, by simp, by simp⟩

/-- The stages of `cleanAttributes` other than the selection of class attributes leave
the paragraph with a class attribute as it is. -/
theorem classPara_fixed (q : Char) (hq : quoteSet.mem q = true) (toks : List Str)
    (hne : toks ≠ []) (ht : ∀ t ∈ toks, isToken t = true) (x : Str) (hx : isPlainText x = true) :
    (∀ r ∈ attrRes, ∀ t, ReplaceAllString r (classPara q toks x) t = classPara q toks x) ∧
    ReplaceAllString reDataWp (classPara q toks x) [] = classPara q toks x ∧
    ReplaceAllString reDataAny (classPara q toks x) [] = classPara q toks x := by
  have hc := classPara_covers q hq toks hne ht x hx
  obtain ⟨hV, hVe⟩ := value_chars toks ht
  have hxe := not_mem_of_class (alnum ++ CharSet.of [' ']) '=' (by decide) x
    (isPlainText_facts x hx).2.2.2.1
  have hqe : q ≠ '=' := by rintro rfl; revert hq; decide
  have e1 : classPara q toks x = "<p class".data ++ '=' ::
      (q :: (Join toks " ".data ++ (q :: (">".data ++ (x ++ "</p>".data))))) := by
    simp [classPara]
  have hr1 : '=' ∉ q :: (Join toks " ".data ++ (q :: (">".data ++ (x ++ "</p>".data)))) := by
    simp only [List.mem_cons, List.mem_append, not_or]
    exact ⟨fun h => hqe h.symm, hVe, fun h => hqe h.symm, by decide, hxe, by decide⟩
  refine ⟨fun r hr t => ReplaceAllString_absent r classWins _ t hc
    ((by decide : ∀ r ∈ attrRes, r.absent classWins = true) r hr), ?_, ?_⟩
  · apply ReplaceAllString_none
    rw [e1]
    exact findFirst_none_of_dash _ reDataWp_shape _ _ (by decide) hr1 (by decide)
  · apply ReplaceAllString_none
    rw [e1]
    exact findFirst_none_of_dash _ reDataAny_shape _ _ (by decide) hr1 (by decide)

/-- The stages of `cleanAttributes` around the selection of class attributes. -/
theorem cleanAttributes_stages (s s2 : Str)
    (a1 : ReplaceAllString (reEmptyAttr "class") s [] = s)
    (a2 : ReplaceAllStringFunc reWpClass s cleanClassAttr = s2)
    (b1 : ReplaceAllString (reEmptyAttr "class") s2 [] = s2)
    (b2 : ReplaceAllString (reEmptyAttr "style") s2 [] = s2)
    (b3 : ReplaceAllString (reEmptyAttr "id") s2 [] = s2)
    (b4 : ReplaceAllString (reEmptyAttr "title") s2 [] = s2)
    (b5 : ReplaceAllString reDataWp s2 [] = s2) (b6 : ReplaceAllString reDataAny s2 [] = s2)
    (b7 : ReplaceAllString reSpaces2 s2 [T " "] = s2) :
    cleanAttributes s = ReplaceAllString reSpaceGt s2 [T ">"] := by
  simp only [cleanAttributes, cleanEmptyAttributes, List.foldl_cons, List.foldl_nil, a1, a2, b1,
    b2, b3, b4, b5, b6, b7]

theorem cleanAttributes_classPara_fixed (s : Str) (q : Char) (hq : quoteSet.mem q = true)
    (toks : List Str) (hne : toks ≠ []) (ht : ∀ t ∈ toks, isToken t = true) (x : Str)
    (hx : isPlainText x = true)
    (a1 : ReplaceAllString (reEmptyAttr "class") s [] = s)
    (a2 : ReplaceAllStringFunc reWpClass s cleanClassAttr = classPara q toks x) :
    cleanAttributes s = classPara q toks x := by
  obtain ⟨h1, h2, h3⟩ := classPara_fixed q hq toks hne ht x hx
  rw [cleanAttributes_stages s _ a1 a2 (h1 _ (by simp [attrRes]) _) (h1 _ (by simp [attrRes]) _)
    (h1 _ (by simp [attrRes]) _) (h1 _ (by simp [attrRes]) _) h2 h3 (h1 _ (by simp [attrRes]) _)]
  exact h1 _ (by simp [attrRes]) _

theorem emptyAttr_covers (x : Str) (hx : isPlainText x = true) :
    CoversIn emptyAttrWins ("<p >".data ++ (x ++ "</p>".data)) [] := by
  refine CoversIn.append ?_ (CoversIn.append ?_ ?_)
  · exact (CoversIn.lit (startsIn alnum) _ _ (by
      simpa using Describes_alnum_plain x ("</p>".data ++ []) hx)).mono
      (fun W hW => by simp only [emptyAttrWins, List.mem_append]; exact Or.inl hW)
  · exact ((isPlainText_facts x hx).2.2.2.2 _).mono
      (fun W hW => by simp only [emptyAttrWins, List.mem_append]; exact Or.inr (Or.inl hW))
  · exact (CoversIn.lit endWin _ _ (by simp [endWin, Describes])).mono
      (fun W hW => by simp only [emptyAttrWins, List.mem_append]; exact Or.inr (Or.inr hW))

/-- The white space in front of `>` is removed from `<p >x</p>`. -/
theorem spaceGt_emptyAttr (x : Str) (hx : isPlainText x = true) :
    ReplaceAllString reSpaceGt ("<p >".data ++ (x ++ "</p>".data)) [T ">"] =
      "<p>".data ++ x ++ "</p>".data := by
  have hrest : CoversIn paraTailWins (x ++ "</p>".data) [] := by
    refine CoversIn.append ?_ ?_
    · exact ((isPlainText_facts x hx).2.2.2.2 _).mono
        (fun W hW => by simp only [paraTailWins, List.mem_append]; exact Or.inl hW)
    · exact (CoversIn.lit endWin _ _ (by simp [endWin, Describes])).mono
        (fun W hW => by simp only [paraTailWins, List.mem_append]; exact Or.inr hW)
  have hskip : NoStart reSpaceGt "<p".data (" >".data ++ (x ++ "</p>".data)) :=
    NoStart_of_covers _ (litWins anyWin "<p".data) _ _
      (CoversIn.lit anyWin _ _ (Describes_any _)) (by decide)
  have hhere : (ms reSpaceGt (" >".data ++ (x ++ "</p>".data)) []).head? =
      some (x ++ "</p>".data, []) := by
    have e : " >".data ++ (x ++ "</p>".data) = ' ' :: '>' :: (x ++ "</p>".data) := rfl
    have h1 : reSpace.mem ' ' = true := by decide
    have h2 : reSpace.mem '>' = false := by decide
    rw [e]
    simp [reSpaceGt, seqs, ws1, many1, L, ms_seq, ms_cls_cons, ms_star_greedy_cls, greedyCuts,
      ms_lit, h1, h2]
  have e0 : "<p >".data ++ (x ++ "</p>".data) = "<p".data ++ (" >".data ++ (x ++ "</p>".data)) := rfl
  rw [e0, ReplaceAllString_skip _ (by decide) _ _ _ hskip,
    ReplaceAllString_here _ (by decide) _ _ _ [] hhere,
    ReplaceAllString_absent _ paraTailWins _ _ hrest (by decide)]
  simp [expand, T]

/-- The code on the paragraph: when the value of the class attribute holds a
generated class name, the attribute is written again with the tokens the filter keeps,
or dropped when none is kept; otherwise the paragraph is left as it is. -/
theorem cleanAttributes_classPara (q : Char) (hq : quoteSet.mem q = true) (toks : List Str)
    (hne : toks ≠ []) (ht : ∀ t ∈ toks, isToken t = true) (x : Str) (hx : isPlainText x = true) :
    cleanAttributes (classPara q toks x) =
      if MatchString reGenerated (Join toks " ".data) = true then cleanedClassPara toks x
      else classPara q toks x := by
  obtain ⟨h1, -, -⟩ := classPara_fixed q hq toks hne ht x hx
  have a1 := h1 (reEmptyAttr "class") (by simp [attrRes]) []
  have hstep := wpClass_step q hq toks ht x hx
  split
  · rename_i htr
    rw [if_pos htr, cleanClassAttr_tokens q hq toks ht] at hstep
    unfold cleanedClassPara
    split
    · rename_i hk
      rw [if_pos hk] at hstep
      have hc := emptyAttr_covers x hx
      have hall : ∀ r ∈ emptyAttrRes, r.absent emptyAttrWins = true := by decide
      have hz := fun (r : Re) (hr : r ∈ emptyAttrRes) (t : List Tpl) =>
        ReplaceAllString_absent r emptyAttrWins _ t hc (hall r hr)
      have hd : Contains ("<p >".data ++ (x ++ "</p>".data)) "data-".data = false := by
        cases hq : Contains ("<p >".data ++ (x ++ "</p>".data)) "data-".data with
        | false => rfl
        | true =>
          have h1 := mem_of_contains _ _ hq '-' (by decide)
          simp only [List.mem_append] at h1
          have hx2 := not_mem_of_class (alnum ++ CharSet.of [' ']) '-' (by decide) x
            (isPlainText_facts x hx).2.2.2.1
          rcases h1 with h1 | h1 | h1
          · exact absurd h1 (by decide)
          · exact absurd h1 hx2
          · exact absurd h1 (by decide)
      have hwp : ReplaceAllString reDataWp ("<p >".data ++ (x ++ "</p>".data)) [] =
          "<p >".data ++ (x ++ "</p>".data) :=
        ReplaceAllString_none _ _ _
          (findFirst_none_of_not_contains reDataWp (by decide) "data-".data _
            (List.mem_cons_of_mem _ (List.mem_cons_self _ _)) _ hd)
      rw [cleanAttributes_stages _ ("<p >".data ++ (x ++ "</p>".data)) a1 (by rw [hstep]; rfl)
        (hz _ (by simp [emptyAttrRes]) _) (hz _ (by simp [emptyAttrRes]) _)
        (hz _ (by simp [emptyAttrRes]) _) (hz _ (by simp [emptyAttrRes]) _)
        hwp (hz _ (by simp [emptyAttrRes]) _) (hz _ (by simp [emptyAttrRes]) _)]
      exact spaceGt_emptyAttr x hx
    · rename_i hk
      rw [if_neg hk] at hstep
      have hne2 : toks.filter keepClass ≠ [] := by
        intro h; rw [h] at hk; exact hk rfl
      exact cleanAttributes_classPara_fixed _ '"' (by decide) _ hne2
        (fun t htk => ht t (List.mem_of_mem_filter htk)) x hx a1
        (by rw [hstep]; simp [classPara])
  · rename_i htr
    rw [if_neg htr] at hstep
    exact cleanAttributes_classPara_fixed _ q hq toks hne ht x hx a1 hstep

/-- The anchored test reads the whole input: the input is a text of the expression. -/
theorem MatchWhole_iff (r : Re) (s : Str) : MatchWhole r s = true ↔ Re.Matches r s := by
  simp only [MatchWhole, List.any_eq_true, List.isEmpty_iff]
  constructor
  · rintro ⟨x, hx, h0⟩
    obtain ⟨w, hw, hm⟩ := ms_sound r s [] x hx
    rw [h0, List.append_nil] at hw
    rw [hw]; exact hm
  · intro hm
    obtain ⟨c, hc⟩ := ms_complete r s hm [] []
    rw [List.append_nil] at hc
    exact ⟨_, hc, rfl⟩

theorem Matches_reAlign (t : Str) : Re.Matches reAlign t ↔ t ∈ alignNames := by
  simp only [reAlign, seqs, L, Matches_seq_iff, Matches_lit_iff, Matches_grp_iff,
    Matches_alt_iff, alignNames, List.mem_cons, List.not_mem_nil, or_false]
  constructor
  · rintro ⟨_, _, rfl, rfl, h⟩
    rcases h with rfl | rfl | rfl | rfl | rfl | rfl <;> simp
  · intro h
    rcases h with rfl | rfl | rfl | rfl | rfl | rfl
    · exact ⟨_, _, rfl, rfl, Or.inl rfl⟩
    · exact ⟨_, _, rfl, rfl, Or.inr (Or.inl rfl)⟩
    · exact ⟨_, _, rfl, rfl, Or.inr (Or.inr (Or.inl rfl))⟩
    · exact ⟨_, _, rfl, rfl, Or.inr (Or.inr (Or.inr (Or.inl rfl)))⟩
    · exact ⟨_, _, rfl, rfl, Or.inr (Or.inr (Or.inr (Or.inr (Or.inl rfl))))⟩
    · exact ⟨_, _, rfl, rfl, Or.inr (Or.inr (Or.inr (Or.inr (Or.inr rfl))))⟩

/-- The filter of the code keeps the tokens that the specification does not remove. -/
theorem keepClass_eq (t : Str) : keepClass t = !specRemoves t := by
  have h : MatchWhole reAlign t = alignNames.contains t := by
    rw [Bool.eq_iff_iff, MatchWhole_iff, Matches_reAlign]
    simp
  simp only [keepClass, specRemoves, HasPrefix, h]
  cases "wp-".data.isPrefixOf t <;> cases "block-".data.isPrefixOf t <;>
    cases alignNames.contains t <;> rfl

theorem cleanedClassPara_eq (toks : List Str) (x : Str) :
    cleanedClassPara toks x = specClassPara '"' toks x := by
  have : keepClass = fun t => !specRemoves t := funext keepClass_eq
  simp only [cleanedClassPara, specClassPara, this]

/-! ## Tables -/

theorem reCell_eq : reCell = .seq (.lit "<t".data) (.seq (.cls (CharSet.of ['h', 'd']))
    (.seq (.star true (.cls notGt)) (.seq (.lit ">".data)
      (.seq (.grp 1 (.star false (.cls dot))) cellClose)))) := rfl

theorem cellsHtml_cons (tag : String) (t : Str) (ts : List Str) :
    cellsHtml tag (t :: ts) = cellHtml tag t ++ cellsHtml tag ts := rfl

theorem rowsHtml_cons (r : String × List Str) (rs : List (String × List Str)) :
    rowsHtml (r :: rs) = rowHtml r ++ rowsHtml rs := rfl

/-- The cell pattern on a cell: submatch 1 is the text. -/
theorem ms_reCell_head (tag : String) (htag : tag = "th" ∨ tag = "td") (t rest : Str)
    (ht : isPlainText t = true) :
    (ms reCell (cellHtml tag t ++ rest) []).head? = some (rest, [(1, t)]) := by
  have hns : NoStart cellClose t ("</".data ++ (tag.data ++ (">".data ++ rest))) :=
    NoStart_of_covers _ plainWins _ _ ((isPlainText_facts t ht).2.2.2.2 _) (by decide)
  have hgt : notGt.mem '>' = false := by decide
  rcases htag with rfl | rfl
  · have e : cellHtml "th" t ++ rest = "<t".data ++ ('h' :: '>' ::
        (t ++ ("</".data ++ ("th".data ++ (">".data ++ rest))))) := by
      simp [cellHtml]
    rw [e, reCell_eq, ms_seq_lit, ms_seq, ms_cls_cons]
    simp only [show (CharSet.of ['h', 'd']).mem 'h' = true from by decide, if_true,
      List.flatMap_cons, List.flatMap_nil, List.append_nil]
    rw [ms_seq_greedy_stop notGt _ '>' _ [] hgt]
    have e2 : '>' :: (t ++ ("</".data ++ ("th".data ++ (">".data ++ rest)))) =
        ">".data ++ (t ++ ("</".data ++ ("th".data ++ (">".data ++ rest)))) := rfl
    rw [e2, ms_seq_lit]
    have hq : ms cellClose ("</".data ++ ("th".data ++ (">".data ++ rest))) [(1, t)] =
        [(rest, [(1, t)])] := by
      have e3 : "</".data ++ ("th".data ++ (">".data ++ rest)) =
          "</t".data ++ ('h' :: (">".data ++ rest)) := rfl
      rw [e3, cellClose, ms_seq_lit, ms_seq, ms_cls_cons]
      simp only [show (CharSet.of ['h', 'd']).mem 'h' = true from by decide, if_true,
        List.flatMap_cons, List.flatMap_nil, List.append_nil]
      exact ms_lit_append _ _ _
    rw [ms_lazy_find dot 1 cellClose [] t _ (plain_dot t ht) hns (by rw [hq]; simp), hq]
    rfl
  · have e : cellHtml "td" t ++ rest = "<t".data ++ ('d' :: '>' ::
        (t ++ ("</".data ++ ("td".data ++ (">".data ++ rest))))) := by
      simp [cellHtml]
    rw [e, reCell_eq, ms_seq_lit, ms_seq, ms_cls_cons]
    simp only [show (CharSet.of ['h', 'd']).mem 'd' = true from by decide, if_true,
      List.flatMap_cons, List.flatMap_nil, List.append_nil]
    rw [ms_seq_greedy_stop notGt _ '>' _ [] hgt]
    have e2 : '>' :: (t ++ ("</".data ++ ("td".data ++ (">".data ++ rest)))) =
        ">".data ++ (t ++ ("</".data ++ ("td".data ++ (">".data ++ rest)))) := rfl
    rw [e2, ms_seq_lit]
    have hq : ms cellClose ("</".data ++ ("td".data ++ (">".data ++ rest))) [(1, t)] =
        [(rest, [(1, t)])] := by
      have e3 : "</".data ++ ("td".data ++ (">".data ++ rest)) =
          "</t".data ++ ('d' :: (">".data ++ rest)) := rfl
      rw [e3, cellClose, ms_seq_lit, ms_seq, ms_cls_cons]
      simp only [show (CharSet.of ['h', 'd']).mem 'd' = true from by decide, if_true,
        List.flatMap_cons, List.flatMap_nil, List.append_nil]
      exact ms_lit_append _ _ _
    rw [ms_lazy_find dot 1 cellClose [] t _ (plain_dot t ht) hns (by rw [hq]; simp), hq]
    rfl

/-- The cells of a row as the cell pattern finds them. -/
theorem FindAll_cells (tag : String) (htag : tag = "th" ∨ tag = "td") :
    ∀ (ts : List Str), (∀ t ∈ ts, isPlainText t = true) →
      FindAllStringSubmatch reCell (cellsHtml tag ts) = ts.map (cellSubs tag) := by
  intro ts
  induction ts with
  | nil =>
    intro _
    exact FindAll_none _ _ (show findFirst reCell [] = none from by decide)
  | cons t ts ih =>
    intro hts
    rw [cellsHtml_cons, FindAll_here _ (by decide) _ _ [(1, t)]
      (ms_reCell_head tag htag t _ (hts t (List.mem_cons_self _ _))),
      ih (fun x hx => hts x (List.mem_cons_of_mem _ hx))]
    rfl

theorem escapePipes_id (t : Str) (h : '|' ∉ t) : escapePipes t = t := by
  induction t with
  | nil => rfl
  | cons c t ih =>
    have hc : c ≠ '|' := fun e => h (e ▸ List.mem_cons_self _ _)
    have := ih (fun hm => h (List.mem_cons_of_mem _ hm))
    simp only [escapePipes, List.flatMap_cons, hc, if_false] at this ⊢
    rw [this]; rfl

theorem tableCells_cells (tag : String) : ∀ (ts : List Str), (∀ t ∈ ts, isPlainText t = true) →
    tableCells (ts.map (cellSubs tag)) = ts.flatMap (fun t => " ".data ++ (t ++ " |".data)) := by
  intro ts
  induction ts with
  | nil => intro _; rfl
  | cons t ts ih =>
    intro hts
    have ht := hts t (List.mem_cons_self _ _)
    have hbar : '|' ∉ t :=
      not_mem_of_class (alnum ++ CharSet.of [' ']) '|' (by decide) t (isPlainText_facts t ht).2.2.2.1
    have hcap : getCap (cellSubs tag t) 1 = t := rfl
    rw [List.map_cons, tableCells, hcap, cleanTextTrimFirst_plain t ht, escapePipes_id t hbar,
      ih (fun x hx => hts x (List.mem_cons_of_mem _ hx))]
    simp

theorem separatorCells_cells (tag : String) : ∀ (ts : List Str),
    separatorCells (ts.map (cellSubs tag)) = (List.replicate ts.length " --- |".data).join := by
  intro ts
  induction ts with
  | nil => rfl
  | cons t ts ih =>
    rw [List.map_cons, separatorCells, ih]
    simp [List.replicate_succ]

/-- The characters of cells, rows and tables. -/
theorem cellsHtml_chars (tag : String) (htag : tag = "th" ∨ tag = "td") : ∀ (ts : List Str),
    (∀ t ∈ ts, isPlainText t = true) → ∀ c ∈ cellsHtml tag ts, tagChars.mem c = true := by
  have h0 : ∀ c ∈ "<".data ++ (tag.data ++ (">".data ++ "</".data)), tagChars.mem c = true := by
    rcases htag with rfl | rfl <;> decide
  intro ts hts c hc
  simp only [cellsHtml, List.mem_flatMap] at hc
  obtain ⟨t, ht, hc⟩ := hc
  simp only [cellHtml, List.mem_append] at hc
  simp only [List.mem_append] at h0
  rcases hc with hc | hc | hc | hc | hc | hc | hc
  · exact h0 c (Or.inl hc)
  · exact h0 c (Or.inr (Or.inl hc))
  · exact h0 c (Or.inr (Or.inr (Or.inl hc)))
  · exact CharSet.mem_mono _ tagChars (by decide) c ((isPlainText_facts t (hts t ht)).2.2.2.1 c hc)
  · exact h0 c (Or.inr (Or.inr (Or.inr hc)))
  · exact h0 c (Or.inr (Or.inl hc))
  · exact h0 c (Or.inr (Or.inr (Or.inl hc)))

theorem Describes_lt_cells (tag : String) (ts : List Str) (v : Str)
    (hv : Describes ltWin.cs ltWin.closed v) :
    Describes ltWin.cs ltWin.closed (cellsHtml tag ts ++ v) := by
  cases ts with
  | nil => simpa [cellsHtml] using hv
  | cons t ts =>
    rw [cellsHtml_cons, cellHtml]
    exact Describes_ltWin_cons _

theorem cellsHtml_covers (tag : String) (htag : tag = "th" ∨ tag = "td") :
    ∀ (ts : List Str) (v : Str), (∀ t ∈ ts, isPlainText t = true) →
      Describes ltWin.cs ltWin.closed v → CoversIn cellWins (cellsHtml tag ts) v := by
  intro ts
  induction ts with
  | nil => intro v _ _; exact CoversIn.nil _ _
  | cons t ts ih =>
    intro v hts hv
    have ht := hts t (List.mem_cons_self _ _)
    have hts' : ∀ t ∈ ts, isPlainText t = true := fun t h => hts t (List.mem_cons_of_mem _ h)
    have e : cellsHtml tag (t :: ts) = ("<".data ++ tag.data ++ ">".data) ++
        (t ++ (("</".data ++ tag.data ++ ">".data) ++ cellsHtml tag ts)) := by
      simp [cellsHtml_cons, cellHtml]
    rw [e]
    refine CoversIn.append ?_ (CoversIn.append ?_ (CoversIn.append ?_ (ih v hts' hv)))
    · have h1 := CoversIn.lit (startsIn alnum) ("<".data ++ tag.data ++ ">".data) _
        (Describes_alnum_plain t (("</".data ++ tag.data ++ ">".data) ++ cellsHtml tag ts ++ v) ht)
      simp only [List.append_assoc] at h1 ⊢
      refine h1.mono ?_
      rcases htag with rfl | rfl
      · intro W hW; simp only [cellWins, List.mem_append]; exact Or.inl hW
      · intro W hW; simp only [cellWins, List.mem_append]; exact Or.inr (Or.inl hW)
    · exact ((isPlainText_facts t ht).2.2.2.2 _).mono (by
        intro W hW; simp only [cellWins, List.mem_append]; exact Or.inr (Or.inr (Or.inl hW)))
    · refine (CoversIn.lit ltWin _ _ (Describes_lt_cells tag ts v hv)).mono ?_
      rcases htag with rfl | rfl
      · intro W hW; simp only [cellWins, List.mem_append]
        exact Or.inr (Or.inr (Or.inr (Or.inl hW)))
      · intro W hW; simp only [cellWins, List.mem_append]
        exact Or.inr (Or.inr (Or.inr (Or.inr hW)))

theorem rowsOk_tail {r : String × List Str} {rs : List (String × List Str)}
    (h : rowsOk (r :: rs)) : rowsOk rs := fun x hx => h x (List.mem_cons_of_mem _ hx)

theorem Describes_lt_rows (rs : List (String × List Str)) (v : Str)
    (hv : Describes ltWin.cs ltWin.closed v) :
    Describes ltWin.cs ltWin.closed (rowsHtml rs ++ v) := by
  cases rs with
  | nil => simpa [rowsHtml] using hv
  | cons r rs =>
    rw [rowsHtml_cons, rowHtml]
    exact Describes_ltWin_cons _

theorem rowsHtml_covers : ∀ (rs : List (String × List Str)) (v : Str), rowsOk rs →
    Describes ltWin.cs ltWin.closed v → CoversIn rowWins (rowsHtml rs) v := by
  intro rs
  induction rs with
  | nil => intro v _ _; exact CoversIn.nil _ _
  | cons r rs ih =>
    intro v hrs hv
    obtain ⟨htag, hne, hts⟩ := hrs r (List.mem_cons_self _ _)
    have e : rowsHtml (r :: rs) =
        "<tr>".data ++ (cellsHtml r.1 r.2 ++ ("</tr>".data ++ rowsHtml rs)) := by
      simp [rowsHtml_cons, rowHtml]
    rw [e]
    refine CoversIn.append ?_ (CoversIn.append ?_ (CoversIn.append ?_ (ih v (rowsOk_tail hrs) hv)))
    · exact (CoversIn.lit ltWin _ _ (by
        rw [List.append_assoc]
        exact Describes_lt_cells r.1 r.2 _ (Describes_ltWin_cons _))).mono (by
        intro W hW; simp only [rowWins, List.mem_append]; exact Or.inl hW)
    · exact (cellsHtml_covers r.1 htag r.2 _ hts (Describes_ltWin_cons _)).mono (by
        intro W hW; simp only [rowWins, List.mem_append]; exact Or.inr (Or.inl hW))
    · exact (CoversIn.lit ltWin _ _ (Describes_lt_rows rs v hv)).mono (by
        intro W hW; simp only [rowWins, List.mem_append]; exact Or.inr (Or.inr hW))

theorem rowsHtml_chars : ∀ (rs : List (String × List Str)), rowsOk rs →
    ∀ c ∈ rowsHtml rs, tagChars.mem c = true := by
  intro rs hrs c hc
  simp only [rowsHtml, List.mem_flatMap] at hc
  obtain ⟨r, hr, hc⟩ := hc
  obtain ⟨htag, -, hts⟩ := hrs r hr
  simp only [rowHtml, List.mem_append] at hc
  rcases hc with hc | hc | hc
  · exact (by decide : ∀ c ∈ "<tr>".data, tagChars.mem c = true) c hc
  · exact cellsHtml_chars r.1 htag r.2 hts c hc
  · exact (by decide : ∀ c ∈ "</tr>".data, tagChars.mem c = true) c hc

/-- The rows of a table as the row pattern finds them. -/
theorem FindAll_rows : ∀ (rs : List (String × List Str)), rowsOk rs →
    FindAllStringSubmatch (reElem "tr") (rowsHtml rs) = rs.map rowSubs := by
  intro rs
  induction rs with
  | nil =>
    intro _
    exact FindAll_none _ _ (show findFirst (reElem "tr") [] = none from by decide)
  | cons r rs ih =>
    intro hrs
    obtain ⟨htag, hne, hts⟩ := hrs r (List.mem_cons_self _ _)
    have hA : ∀ x ∈ cellsHtml r.1 r.2, dot.mem x = true := fun x hx =>
      CharSet.mem_mono _ dot (by decide) x (cellsHtml_chars r.1 htag r.2 hts x hx)
    have hns : NoStart (closeTag "tr".data) (cellsHtml r.1 r.2)
        ("</".data ++ ("tr".data ++ (">".data ++ rowsHtml rs))) :=
      NoStart_of_covers _ cellWins _ _
        (cellsHtml_covers r.1 htag r.2 _ hts (Describes_ltWin_cons _)) (by decide)
    have hm := ms_elem_head dot "tr".data (cellsHtml r.1 r.2) (rowsHtml rs) hA hns
    have e : rowsHtml (r :: rs) = rowHtml r ++ rowsHtml rs := rfl
    have e2 : rowHtml r ++ rowsHtml rs = "<".data ++ ("tr".data ++ (">".data ++
        (cellsHtml r.1 r.2 ++ ("</".data ++ ("tr".data ++ (">".data ++ rowsHtml rs)))))) := by
      simp [rowHtml]
    rw [e, reElem_eq, FindAll_here _ (by decide) _ _ [(1, cellsHtml r.1 r.2)]
      (by rw [e2]; exact hm), ← reElem_eq, ih (rowsOk_tail hrs)]
    rfl

theorem tableRows_cons (b : Bool) (r : String × List Str) (rest : List Caps)
    (hr : (r.1 = "th" ∨ r.1 = "td") ∧ r.2 ≠ [] ∧ ∀ t ∈ r.2, isPlainText t = true) :
    tableRows b (rowSubs r :: rest) =
      pipeRow r.2 ++ "\n".data ++
        (if b then separatorRow r.2.length ++ "\n".data else []) ++ tableRows false rest := by
  obtain ⟨htag, hne, hts⟩ := hr
  have hcap : getCap (rowSubs r) 1 = cellsHtml r.1 r.2 := rfl
  have hcells := FindAll_cells r.1 htag r.2 hts
  have hemp : (r.2.map (cellSubs r.1)).isEmpty = false := by
    cases h : r.2 with
    | nil => exact absurd h hne
    | cons a l => rfl
  rw [tableRows]
  simp only [hcap, hcells, hemp, Bool.false_eq_true, if_false, tableCells_cells r.1 r.2 hts,
    separatorCells_cells, pipeRow, separatorRow]

/-- The rows behind the first one. -/
theorem tableRows_rest : ∀ (rs : List (String × List Str)), rowsOk rs →
    tableRows false (rs.map rowSubs) = rs.flatMap (fun r => pipeRow r.2 ++ "\n".data) := by
  intro rs
  induction rs with
  | nil => intro _; rfl
  | cons r rs ih =>
    intro hrs
    rw [List.map_cons, tableRows_cons false r _ (hrs r (List.mem_cons_self _ _)),
      ih (rowsOk_tail hrs)]
    simp

/-- The table rule on a table of rows with plain cells. -/
theorem convertTables_rows (r : String × List Str) (rs : List (String × List Str))
    (hrs : rowsOk (r :: rs)) :
    convertTables ("<table>".data ++ (rowsHtml (r :: rs) ++ "</table>".data)) =
      "\n".data ++ (pipeRow r.2 ++ "\n".data ++ (separatorRow r.2.length ++ "\n".data) ++
        rs.flatMap (fun x => pipeRow x.2 ++ "\n".data)) ++ "\n".data := by
  have hA : ∀ x ∈ rowsHtml (r :: rs), dot.mem x = true := fun x hx =>
    CharSet.mem_mono _ dot (by decide) x (rowsHtml_chars _ hrs x hx)
  have hns : NoStart (closeTag "table".data) (rowsHtml (r :: rs))
      ("</".data ++ ("table".data ++ (">".data ++ []))) :=
    NoStart_of_covers _ rowWins _ _
      (rowsHtml_covers _ _ hrs (Describes_ltWin_cons _)) (by decide)
  have hm := ms_elem_head dot "table".data (rowsHtml (r :: rs)) [] hA hns
  have e : "<table>".data ++ (rowsHtml (r :: rs) ++ "</table>".data) =
      "<".data ++ ("table".data ++ (">".data ++ (rowsHtml (r :: rs) ++
        ("</".data ++ ("table".data ++ (">".data ++ [])))))) := by
    simp
  have hf := findFirst_here (elemRe dot "table".data) _ [] [(1, rowsHtml (r :: rs))]
    (by rw [List.append_nil]; exact hm)
  rw [List.append_nil] at hf
  have hcb : convertTable ("<".data ++ ("table".data ++ (">".data ++ (rowsHtml (r :: rs) ++
      ("</".data ++ ("table".data ++ (">".data ++ []))))))) =
      "\n".data ++ tableRows true ((r :: rs).map rowSubs) ++ "\n".data := by
    unfold convertTable FindStringSubmatch
    rw [reElem_eq, hf]
    have hcap : getCap (Match.subs ⟨[], "<".data ++ ("table".data ++ (">".data ++
        (rowsHtml (r :: rs) ++ ("</".data ++ ("table".data ++ (">".data ++ [])))))),
        [(1, rowsHtml (r :: rs))], []⟩) 1 = rowsHtml (r :: rs) := rfl
    simp only [Option.map_some', hcap]
    rw [FindAll_rows _ hrs]
  have hnil : ReplaceAllStringFunc (elemRe dot "table".data) [] convertTable = [] :=
    ReplaceAllStringFunc_none _ _ _ (by decide)
  have hw : ∀ w : Str, w = w ++ [] := fun w => (List.append_nil w).symm
  unfold convertTables
  rw [e, reElem_eq, hw ("<".data ++ ("table".data ++ (">".data ++ (rowsHtml (r :: rs) ++
      ("</".data ++ ("table".data ++ (">".data ++ []))))))),
    ReplaceAllStringFunc_here _ (by decide) _ _ [] [(1, rowsHtml (r :: rs))]
      (by rw [List.append_nil]; exact hm), hnil, List.append_nil, hcb, List.map_cons,
    tableRows_cons true r _ (hrs r (List.mem_cons_self _ _)), tableRows_rest rs (rowsOk_tail hrs)]
  simp

theorem pipeCells_covers : ∀ (ts : List Str) (v : Str), (∀ t ∈ ts, isPlainText t = true) →
    CoversIn pipeWins (ts.flatMap (fun t => " ".data ++ (t ++ " |".data))) v := by
  intro ts
  induction ts with
  | nil => intro v _; exact CoversIn.nil _ _
  | cons t ts ih =>
    intro v hts
    have ht := hts t (List.mem_cons_self _ _)
    rw [List.flatMap_cons]
    simp only [List.append_assoc]
    refine CoversIn.append ?_ (CoversIn.append ?_ (CoversIn.append ?_
      (ih v (fun x hx => hts x (List.mem_cons_of_mem _ hx)))))
    · exact (CoversIn.lit (startsIn alnum) _ _ (by
        rw [List.append_assoc]; exact Describes_alnum_plain t _ ht)).mono (by
        intro W hW
        have e : litWins (startsIn alnum) " ".data = [⟨[CharSet.of [' '], alnum], false⟩] := rfl
        rw [e, List.mem_singleton] at hW
        subst hW
        exact (by decide : (⟨[CharSet.of [' '], alnum], false⟩ : Win) ∈ pipeWins))
    · exact ((isPlainText_facts t ht).2.2.2.2 _).mono (by
        intro W hW; simp only [pipeWins, List.mem_append]; exact Or.inr (Or.inl hW))
    · exact (CoversIn.lit anyWin _ _ (Describes_any _)).mono (by
        intro W hW; simp only [pipeWins, List.mem_append]; exact Or.inr (Or.inr (Or.inl hW)))

theorem getLast?_snoc_bar (u : Str) : (u ++ " |".data).getLast? = some '|' := by
  have : u ++ " |".data = (u ++ " ".data) ++ ['|'] := by simp
  rw [this, List.getLast?_append]
  rfl

theorem pipeRow_line (ts : List Str) (hts : ∀ t ∈ ts, isPlainText t = true) :
    TableLine (pipeRow ts) := by
  refine ⟨fun v => ?_, rfl, ?_, ?_⟩
  · unfold pipeRow
    refine CoversIn.append ?_ (pipeCells_covers ts v hts)
    exact (CoversIn.lit anyWin _ _ (Describes_any _)).mono (by
      intro W hW; simp only [pipeWins, List.mem_append]; exact Or.inl hW)
  · unfold pipeRow
    induction ts using List.reverseRecOn with
    | nil => rfl
    | append_singleton ts t _ =>
      rw [List.flatMap_append, List.flatMap_singleton, ← List.append_assoc, ← List.append_assoc,
        ← List.append_assoc]
      exact getLast?_snoc_bar _
  · intro c hc
    simp only [pipeRow, List.mem_append, List.mem_flatMap] at hc
    rcases hc with hc | ⟨t, ht, hc | hc | hc⟩
    · exact (by decide : ∀ c ∈ "|".data, pipeChars.mem c = true) c hc
    · exact (by decide : ∀ c ∈ " ".data, pipeChars.mem c = true) c hc
    · exact CharSet.mem_mono _ pipeChars (by decide) c
        ((isPlainText_facts t (hts t ht)).2.2.2.1 c hc)
    · exact (by decide : ∀ c ∈ " |".data, pipeChars.mem c = true) c hc

theorem separatorRow_line (n : Nat) : TableLine (separatorRow n) := by
  refine ⟨fun v => ?_, rfl, ?_, ?_⟩
  · unfold separatorRow
    refine CoversIn.append ?_ ?_
    · exact (CoversIn.lit anyWin _ _ (Describes_any _)).mono (by
        intro W hW; simp only [pipeWins, List.mem_append]; exact Or.inl hW)
    · induction n with
      | zero => exact CoversIn.nil _ _
      | succ n ih =>
        show CoversIn _ (" --- |".data ++ (List.replicate n " --- |".data).join) v
        refine CoversIn.append ?_ ih
        exact (CoversIn.lit anyWin _ _ (Describes_any _)).mono (by
          intro W hW; simp only [pipeWins, List.mem_append]
          exact Or.inr (Or.inr (Or.inr (Or.inl hW))))
  · unfold separatorRow
    induction n with
    | zero => rfl
    | succ n ih =>
      have e : (List.replicate (n + 1) " --- |".data).join =
          (List.replicate n " --- |".data).join ++ " --- |".data := by
        rw [List.replicate_succ']
        simp
      rw [e, ← List.append_assoc]
      have : ("|".data ++ (List.replicate n " --- |".data).join) ++ " --- |".data =
          (("|".data ++ (List.replicate n " --- |".data).join) ++ " ---".data) ++ " |".data := by
        simp
      rw [this]
      exact getLast?_snoc_bar _
  · intro c hc
    simp only [separatorRow, List.mem_append, List.mem_join, List.mem_replicate] at hc
    rcases hc with hc | ⟨l, ⟨-, rfl⟩, hc⟩
    · exact (by decide : ∀ c ∈ "|".data, pipeChars.mem c = true) c hc
    · exact (by decide : ∀ c ∈ " --- |".data, pipeChars.mem c = true) c hc

/-- Lines of a table joined by newlines. -/
theorem joinLines_table : ∀ (ls : List Str), ls ≠ [] → (∀ l ∈ ls, TableLine l) →
    TableLine (joinLines ls) := by
  intro ls
  induction ls using joinLines.induct with
  | case1 => intro h; exact absurd rfl h
  | case2 l => intro _ h; exact h l (List.mem_cons_self _ _)
  | case3 l m ls ih =>
    intro _ h
    obtain ⟨h1, h2, h3, h4⟩ := h l (List.mem_cons_self _ _)
    obtain ⟨g1, g2, g3, g4⟩ := ih (by simp) (fun x hx => h x (List.mem_cons_of_mem _ hx))
    have hne : l ≠ [] := by rintro rfl; simp at h2
    have hne2 : joinLines (m :: ls) ≠ [] := by intro e; rw [e] at g2; simp at g2
    rw [joinLines]
    refine ⟨fun v => ?_, ?_, ?_, ?_⟩
    · refine CoversIn.append (h1 _) (CoversIn.append ?_ (g1 v))
      refine (CoversIn.lit (startsIn (CharSet.of ['|'])) _ _ ?_).mono (by
        intro W hW; simp only [pipeWins, List.mem_append]
        exact Or.inr (Or.inr (Or.inr (Or.inr (Or.inl hW)))))
      obtain ⟨x, s, hs⟩ := List.exists_cons_of_ne_nil hne2
      rw [hs] at g2 ⊢
      simp only [List.head?_cons, Option.some.injEq] at g2
      subst g2
      exact Describes_startsIn _ _ _ (by decide)
    · obtain ⟨x, s, rfl⟩ := List.exists_cons_of_ne_nil hne
      exact h2
    · rw [getLast?_append_ne _ _ (by simp), getLast?_append_ne _ _ hne2]
      exact g3
    · intro c hc
      simp only [List.mem_append] at hc
      rcases hc with hc | hc | hc
      · exact h4 c hc
      · exact (by decide : ∀ c ∈ "\n".data, pipeChars.mem c = true) c hc
      · exact g4 c hc

theorem tableHtml_covers (rs : List (String × List Str)) (hrs : rowsOk rs) :
    CoversIn tableWins ("<table>".data ++ (rowsHtml rs ++ "</table>".data)) [] := by
  refine CoversIn.append ?_ (CoversIn.append ?_ ?_)
  · exact (CoversIn.lit ltWin _ _ (by
      rw [List.append_assoc]
      exact Describes_lt_rows rs _ (Describes_ltWin_cons _))).mono (by
      intro W hW; simp only [tableWins, List.mem_append]; exact Or.inl hW)
  · exact (rowsHtml_covers rs _ hrs (Describes_ltWin_cons _)).mono (by
      intro W hW; simp only [tableWins, List.mem_append]; exact Or.inr (Or.inl hW))
  · exact (CoversIn.lit endWin _ _ (by simp [endWin, Describes])).mono (by
      intro W hW; simp only [tableWins, List.mem_append]; exact Or.inr (Or.inr hW))

/-! ## The getters of the export data -/

/-- A loop that appends the items that pass a test builds the filtered list. -/
theorem foldl_append_filter {α : Type} (p : α → Prop) [DecidablePred p] :
    ∀ (l acc : List α),
      l.foldl (fun posts item => if p item then posts ++ [item] else posts) acc =
        acc ++ l.filter (fun item => decide (p item)) := by
  intro l
  induction l with
  | nil => intro acc; simp
  | cons x l ih =>
    intro acc
    rw [List.foldl_cons, ih]
    by_cases h : p x
    · simp [h, List.filter_cons]
    · simp [h, List.filter_cons]

theorem findPostByID_none (id : Int) : ∀ (items : List Item),
    findPostByID id items = none ↔ ∀ item ∈ items, item.PostID ≠ id := by
  intro items
  induction items with
  | nil => simp [findPostByID]
  | cons x l ih =>
    rw [findPostByID]
    by_cases h : x.PostID = id
    · simp [h]
    · simp [h, ih]

theorem findPostByID_some (id : Int) : ∀ (items : List Item) (item : Item),
    findPostByID id items = some item ↔
      ∃ pre post, items = pre ++ item :: post ∧ item.PostID = id ∧
        ∀ x ∈ pre, x.PostID ≠ id := by
  intro items
  induction items with
  | nil => intro item; simp [findPostByID]
  | cons x l ih =>
    intro item
    rw [findPostByID]
    by_cases h : x.PostID = id
    · simp only [h, if_true, Option.some.injEq]
      constructor
      · rintro rfl
        exact ⟨[], l, rfl, h, by simp⟩
      · rintro ⟨pre, post, he, hid, hpre⟩
        cases pre with
        | nil =>
          simp only [List.nil_append, List.cons.injEq] at he
          exact he.1
        | cons y pre =>
          simp only [List.cons_append, List.cons.injEq] at he
          exact absurd (he.1 ▸ h) (hpre y (List.mem_cons_self _ _))
    · simp only [h, if_false, ih]
      constructor
      · rintro ⟨pre, post, rfl, hid, hpre⟩
        refine ⟨x :: pre, post, rfl, hid, ?_⟩
        intro y hy
        rcases List.mem_cons.mp hy with rfl | hy
        · exact h
        · exact hpre y hy
      · rintro ⟨pre, post, he, hid, hpre⟩
        cases pre with
        | nil =>
          simp only [List.nil_append, List.cons.injEq] at he
          exact absurd (he.1 ▸ hid) h
        | cons y pre =>
          simp only [List.cons_append, List.cons.injEq] at he
          exact ⟨pre, post, he.2, hid, fun z hz => hpre z (List.mem_cons_of_mem _ hz)⟩

/-! ## Occurrences in a concatenation, and the general replace loop -/

theorem Contains_false_iff (w s : Str) : Contains s w = false ↔ NoOcc w s := by
  constructor
  · intro h a b he
    rw [he, Contains_infix] at h
    cases h
  · intro h
    cases hc : Contains s w with
    | false => rfl
    | true =>
      obtain ⟨a, b, he⟩ := Contains_split w s hc
      exact absurd he (h a b)

theorem MatchString_false_iff (r : Re) (s : Str) : MatchString r s = false ↔ NoMatch r s := by
  constructor
  · intro h a w b he hm
    have := (MatchString_iff r s).mpr ⟨a, w, b, he, hm⟩
    rw [h] at this
    cases this
  · intro h
    cases hc : MatchString r s with
    | false => rfl
    | true =>
      obtain ⟨a, w, b, he, hm⟩ := (MatchString_iff r s).mp hc
      exact absurd hm (h a w b he)

/-- How an occurrence of `w` lies in `u ++ v`: inside `u`, inside `v`, or across the
joint. -/
theorem occ_append (u v a w b : Str) (h : u ++ v = a ++ (w ++ b)) :
    (∃ b1, u = a ++ (w ++ b1) ∧ b = b1 ++ v) ∨ (∃ a1, v = a1 ++ (w ++ b) ∧ a = u ++ a1) ∨
    (∃ w1 w2, w1 ≠ [] ∧ w2 ≠ [] ∧ w = w1 ++ w2 ∧ u = a ++ w1 ∧ v = w2 ++ b) := by
  rcases List.append_eq_append_iff.mp h with ⟨a1, h1, h2⟩ | ⟨c1, h1, h2⟩
  · exact Or.inr (Or.inl ⟨a1, h2, h1⟩)
  · rcases List.append_eq_append_iff.mp h2 with ⟨x, h3, h4⟩ | ⟨y, h3, h4⟩
    · exact Or.inl ⟨x, by rw [h1, h3], h4⟩
    · by_cases hc : c1 = []
      · subst hc
        simp at h1 h3
        subst h3
        exact Or.inr (Or.inl ⟨[], by simpa using h4, by simp [h1]⟩)
      · by_cases hy : y = []
        · subst hy
          simp at h3 h4
          subst h3
          exact Or.inl ⟨[], by simp [h1], by simp [h4]⟩
        · exact Or.inr (Or.inr ⟨c1, y, hc, hy, h3, h1, h4⟩)

theorem NoOcc_part {w s : Str} (h : NoOcc w s) (a t b : Str) (he : s = a ++ (t ++ b)) :
    NoOcc w t := by
  intro a1 b1 h1
  apply h (a ++ a1) (b1 ++ b)
  rw [he, h1]
  simp

theorem NoMatch_part {r : Re} {s : Str} (h : NoMatch r s) (a t b : Str)
    (he : s = a ++ (t ++ b)) : NoMatch r t := by
  intro a1 w b1 h1
  apply h (a ++ a1) w (b1 ++ b)
  rw [he, h1]
  simp

theorem TrimSpace_infix (s : Str) : ∃ a b, s = a ++ (TrimSpace s ++ b) := by
  unfold TrimSpace
  have h1 := List.takeWhile_append_dropWhile goSpace.mem s
  have h2 := List.takeWhile_append_dropWhile goSpace.mem (s.dropWhile goSpace.mem).reverse
  refine ⟨s.takeWhile goSpace.mem,
    ((s.dropWhile goSpace.mem).reverse.takeWhile goSpace.mem).reverse, ?_⟩
  rw [← List.reverse_append, h2, List.reverse_reverse, h1]

theorem dropWhile_head_not (p : Char → Bool) : ∀ (s : Str) (x : Char),
    (s.dropWhile p).head? = some x → p x = false := by
  intro s
  induction s with
  | nil => intro x h; simp at h
  | cons y s ih =>
    intro x h
    by_cases hy : p y = true
    · rw [List.dropWhile_cons_of_pos hy] at h
      exact ih x h
    · rw [List.dropWhile_cons_of_neg hy] at h
      simp at h
      subst h
      simpa using hy

theorem TrimSpace_last (s : Str) (x : Char) (h : (TrimSpace s).getLast? = some x) :
    goSpace.mem x = false := by
  unfold TrimSpace at h
  rw [List.getLast?_reverse] at h
  exact dropWhile_head_not _ _ _ h

theorem TrimSpace_head (s : Str) (x : Char) (h : (TrimSpace s).head? = some x) :
    goSpace.mem x = false := by
  unfold TrimSpace at h
  rw [List.head?_reverse] at h
  have h2 := List.takeWhile_append_dropWhile goSpace.mem (s.dropWhile goSpace.mem).reverse
  have hne : (s.dropWhile goSpace.mem).reverse.dropWhile goSpace.mem ≠ [] := by
    intro e; rw [e] at h; simp at h
  have h3 : (s.dropWhile goSpace.mem).reverse.getLast? = some x := by
    rw [← h2, List.getLast?_append_of_ne_nil _ hne]
    exact h
  rw [List.getLast?_reverse] at h3
  exact dropWhile_head_not _ _ _ h3

/-- Induction over the matches that a replacement visits. -/
theorem ReplaceAllString_induct (r : Re) (hn : r.nonNull = true) (t : List Tpl)
    (P : Str → Str → Prop) (h0 : ∀ s, findFirst r s = none → P s s)
    (h1 : ∀ s m, findFirst r s = some m → P m.rest (ReplaceAllString r m.rest t) →
      P s (m.pre ++ expand t m.caps ++ ReplaceAllString r m.rest t)) :
    ∀ s, P s (ReplaceAllString r s t) := by
  have key : ∀ (n : Nat) (s : Str), s.length = n → P s (ReplaceAllString r s t) := by
    intro n
    induction n using Nat.strong_induction_on with
    | _ n ih =>
      intro s hl
      cases hf : findFirst r s with
      | none =>
        rw [ReplaceAllString_none r t s hf]
        exact h0 s hf
      | some m =>
        rw [ReplaceAllString_some r hn t s m hf]
        have hlt := findFirst_rest_lt r hn s m hf
        exact h1 s m hf (ih m.rest.length (by omega) m.rest rfl)
  intro s
  exact key _ s rfl

theorem findFirst_split (r : Re) (s : Str) (m : Match) (h : findFirst r s = some m) :
    s = m.pre ++ (m.text ++ m.rest) := by
  rw [← List.append_assoc]
  exact (findFirst_some r s m h).1

theorem findFirst_text_matches (r : Re) (s : Str) (m : Match) (h : findFirst r s = some m) :
    Re.Matches r m.text := by
  obtain ⟨_, h2⟩ := findFirst_some r s m h
  obtain ⟨w, hw, hm⟩ := ms_sound r _ _ _ (List.mem_of_mem_head? h2)
  have : w = m.text := (List.append_cancel_right hw).symm
  rw [← this]
  exact hm

/-- No match starts inside the part in front of the first match. -/
theorem findFirst_leftmost (r : Re) (s : Str) (m : Match) (h : findFirst r s = some m)
    (a b w v : Str) (hp : m.pre = a ++ b) (hb : b ≠ [])
    (he : b ++ (m.text ++ m.rest) = w ++ v) : ¬ Re.Matches r w := by
  intro hm
  have h0 := findFirst_pre r s m h a b hp hb
  exact (ms_ne_nil_iff r _ []).mpr ⟨w, v, he, hm⟩ h0

theorem findFirst_none_noMatch (r : Re) (s : Str) (h : findFirst r s = none) : NoMatch r s := by
  intro a w b he hm
  have h0 := findFirst_none_all r s h a (w ++ b) he
  exact (ms_ne_nil_iff r _ []).mpr ⟨w, b, rfl, hm⟩ h0

theorem findFirst_none_of_noMatch (r : Re) (s : Str) (h : NoMatch r s) :
    findFirst r s = none := by
  cases hf : findFirst r s with
  | none => rfl
  | some m =>
    exact absurd (findFirst_text_matches r s m hf) (h _ _ _ (findFirst_split r s m hf))

theorem ReplaceAllString_noMatch (r : Re) (t : List Tpl) (s : Str) (h : NoMatch r s) :
    ReplaceAllString r s t = s :=
  ReplaceAllString_none r t s (findFirst_none_of_noMatch r s h)

theorem Matches_ne_nil (r : Re) (hn : r.nonNull = true) (w : Str) (hm : Re.Matches r w) :
    w ≠ [] := by
  intro e
  subst e
  obtain ⟨c1, hc⟩ := ms_complete r [] hm [] []
  have := ms_length_lt r hn _ _ _ hc
  simp at this

/-- The part in front of the first match holds no match. -/
theorem findFirst_pre_noMatch (r : Re) (hn : r.nonNull = true) (s : Str) (m : Match)
    (h : findFirst r s = some m) : NoMatch r m.pre := by
  intro a w b he hm
  have hw := Matches_ne_nil r hn w hm
  exact findFirst_leftmost r s m h a (w ++ b) w (b ++ (m.text ++ m.rest)) he
    (by simp [hw]) (by simp) hm

/-- The output of a replacement starts like its input when no match starts with the
first character of the input. -/
theorem ReplaceAllString_head_ne (r : Re) (hn : r.nonNull = true) (t : List Tpl) (z : Char)
    (hz : ∀ w, Re.Matches r w → w.head? = some z) (s : Str) (hs : s.head? ≠ some z) :
    (ReplaceAllString r s t).head? ≠ some z := by
  cases hf : findFirst r s with
  | none => rw [ReplaceAllString_none r t s hf]; exact hs
  | some m =>
    rw [ReplaceAllString_some r hn t s m hf]
    have he := findFirst_split r s m hf
    have hm := findFirst_text_matches r s m hf
    have hne := Matches_ne_nil r hn _ hm
    cases hp : m.pre with
    | nil =>
      rw [hp] at he
      obtain ⟨x, t1, ht⟩ := List.exists_cons_of_ne_nil hne
      have := hz _ hm
      rw [ht] at this he
      simp at this
      rw [he, this] at hs
      simp at hs
    | cons y p =>
      rw [hp] at he
      rw [he] at hs
      simpa using hs

/-! ## Runs of newlines -/

theorem Matches_star_char_iff (g : Bool) (z : Char) (w : Str) :
    Re.Matches (.star g (.lit [z])) w ↔ ∀ c ∈ w, c = z := by
  constructor
  · intro h
    generalize hr : Re.star g (.lit [z]) = r at h
    induction h with
    | starNil g1 a1 => intro c hc; cases hc
    | starCons g1 a1 u v ha hne hs _ ih2 =>
      cases hr
      intro c hc
      rcases List.mem_append.mp hc with h1 | h1
      · have hu := (Matches_lit_iff [z] u).mp ha
        subst hu
        exact List.mem_singleton.mp h1
      · exact ih2 rfl c h1
    | lit w => cases hr
    | cls A1 c hc => cases hr
    | seq a b u v _ _ _ _ => cases hr
    | altL a b u _ _ => cases hr
    | altR a b u _ _ => cases hr
    | grp i a u _ _ => cases hr
  · intro h
    induction w with
    | nil => exact .starNil g _
    | cons c w ih =>
      have hc : c = z := h c (List.mem_cons_self _ _)
      subst hc
      exact .starCons g (.lit [c]) [c] w (.lit [c]) (by simp)
        (ih (fun d hd => h d (List.mem_cons_of_mem _ hd)))

theorem ms_lit_char (z : Char) (s : Str) (c : Caps) :
    ms (.lit [z]) s c = ms (.cls (CharSet.of [z])) s c := by
  cases s with
  | nil => rfl
  | cons x s =>
    rw [ms_lit, ms_cls_cons]
    by_cases hx : x = z
    · subst hx
      have : (CharSet.of [x]).mem x = true := (CharSet.mem_of x x).mpr rfl
      simp [this]
    · have : ¬ (CharSet.of [z]).mem x = true := fun h => hx ((CharSet.mem_of z x).mp h)
      have hz : ¬ z = x := fun h => hx h.symm
      simp [this, hz]

theorem ms_star_char (z : Char) (s : Str) (c : Caps) :
    ms (.star true (.lit [z])) s c = greedyCuts (CharSet.of [z]) c s := by
  rw [← ms_star_greedy_cls, ms_star, ms_star]
  congr 1
  funext s1 c1
  exact ms_lit_char z s1 c1

/-- The preferred cut of a greedy star stands in front of a character outside the
class. -/
theorem greedyCuts_head_rest (A : CharSet) (c : Caps) : ∀ (s : Str) (x : Str × Caps),
    (greedyCuts A c s).head? = some x → ∀ y, x.1.head? = some y → A.mem y = false := by
  intro s
  induction s with
  | nil =>
    intro x h y hy
    simp [greedyCuts] at h
    subst h
    simp at hy
  | cons a s ih =>
    intro x h y hy
    by_cases ha : A.mem a = true
    · have hne : greedyCuts A c s ≠ [] := by cases s <;> simp [greedyCuts]
      simp only [greedyCuts, ha, if_true] at h
      rw [List.head?_append_of_ne_nil _ hne] at h
      exact ih x h y hy
    · simp only [greedyCuts, ha] at h
      simp at h
      subst h
      simp at hy
      subst hy
      simpa using ha

/-- Behind a greedy star and a character of its class, the preferred result does not
start with that character. -/
theorem greedyCuts_then_char (A : CharSet) (z : Char) (hz : A.mem z = true) (c : Caps) :
    ∀ (s : Str) (x : Str × Caps),
      ((greedyCuts A c s).flatMap (fun r => ms (.lit [z]) r.1 r.2)).head? = some x →
      x.1.head? ≠ some z := by
  intro s
  induction s with
  | nil =>
    intro x h
    simp [greedyCuts, ms_lit] at h
  | cons a s ih =>
    intro x h
    by_cases ha : A.mem a = true
    · simp only [greedyCuts, ha, if_true, List.flatMap_append, List.flatMap_cons,
        List.flatMap_nil, List.append_nil] at h
      by_cases hne : (greedyCuts A c s).flatMap (fun r => ms (.lit [z]) r.1 r.2) = []
      · rw [hne, List.nil_append] at h
        by_cases haz : a = z
        · subst haz
          have hl : ms (.lit [a]) (a :: s) c = [(s, c)] := ms_lit_append [a] s c
          rw [hl] at h
          simp at h
          subst h
          intro hs
          -- the cut in front of `s` would have succeeded
          have hmem : (s, c) ∈ greedyCuts A c s := by
            cases s <;> simp [greedyCuts]
          obtain ⟨y, s1, hs1⟩ : ∃ y s1, s = y :: s1 := by
            cases s with
            | nil => simp at hs
            | cons y s1 => exact ⟨y, s1, rfl⟩
          have hy : y = a := by rw [hs1] at hs; simpa using hs
          have : (s1, c) ∈ (greedyCuts A c s).flatMap (fun r => ms (.lit [a]) r.1 r.2) := by
            refine List.mem_flatMap.mpr ⟨(s, c), hmem, ?_⟩
            show (s1, c) ∈ ms (.lit [a]) s c
            rw [hs1, hy]
            have hl2 : ms (.lit [a]) (a :: s1) c = [(s1, c)] := ms_lit_append [a] s1 c
            rw [hl2]
            exact List.mem_singleton.mpr rfl
          rw [hne] at this
          cases this
        · have hl : ms (.lit [z]) (a :: s) c = [] := by
            have : ¬ z = a := fun h => haz h.symm
            simp [ms_lit, this]
          rw [hl] at h
          simp at h
      · rw [List.head?_append_of_ne_nil _ hne] at h
        exact ih x h
    · have haz : ¬ z = a := by
        intro h; subst h; exact ha hz
      simp [greedyCuts, ha, ms_lit, haz] at h

/-- A literal in front of an expression, on any input. -/
theorem ms_seq_lit_if (w : Str) (q : Re) (s : Str) (c : Caps) :
    ms (.seq (.lit w) q) s c = if w.isPrefixOf s then ms q (s.drop w.length) c else [] := by
  rw [ms_seq, ms_lit]
  split <;> simp

theorem reNewlines3_eq : reNewlines3 = .seq (.lit ['\n']) (.seq (.lit ['\n'])
    (.seq (.lit ['\n']) (.star true (.lit ['\n'])))) := rfl

theorem reBlankLines_eq : reBlankLines = .seq (.lit ['\n'])
    (.seq (.seq (.cls reSpace) (.star true (.cls reSpace))) (.lit ['\n'])) := rfl

theorem Matches_reNewlines3 (w : Str) : Re.Matches reNewlines3 w ↔
    ∃ v, w = '\n' :: '\n' :: '\n' :: v ∧ ∀ c ∈ v, c = '\n' := by
  rw [reNewlines3_eq]
  simp only [Matches_seq_iff, Matches_lit_iff, Matches_star_char_iff]
  constructor
  · rintro ⟨u1, v1, rfl, rfl, u2, v2, rfl, rfl, u3, v3, rfl, rfl, h⟩
    exact ⟨v3, rfl, h⟩
  · rintro ⟨v, rfl, h⟩
    exact ⟨_, _, rfl, rfl, _, _, rfl, rfl, _, _, rfl, rfl, h⟩

theorem Matches_reBlankLines (w : Str) : Re.Matches reBlankLines w ↔
    ∃ x v, w = '\n' :: x :: v ++ ['\n'] ∧ reSpace.mem x = true ∧
      ∀ c ∈ v, reSpace.mem c = true := by
  rw [reBlankLines_eq]
  simp only [Matches_seq_iff, Matches_lit_iff, Matches_star_cls_iff, Matches_cls_iff]
  constructor
  · rintro ⟨u1, v1, rfl, rfl, u2, v2, rfl, ⟨u3, v3, rfl, ⟨x, rfl, hx⟩, hv⟩, rfl⟩
    exact ⟨x, v3, by simp, hx, hv⟩
  · rintro ⟨x, v, rfl, hx, hv⟩
    exact ⟨['\n'], x :: v ++ ['\n'], rfl, rfl, x :: v, ['\n'], rfl,
      ⟨[x], v, rfl, ⟨x, rfl, hx⟩, hv⟩, rfl⟩

theorem reNewlines3_rest (S : Str) (x : Str × Caps)
    (h : (ms reNewlines3 S []).head? = some x) : x.1.head? ≠ some '\n' := by
  rw [reNewlines3_eq] at h
  simp only [ms_seq_lit_if, ms_star_char] at h
  split at h
  · split at h
    · split at h
      · intro hy
        have := greedyCuts_head_rest _ _ _ x h '\n' hy
        simp [CharSet.of, CharSet.mem] at this
      · simp at h
    · simp at h
  · simp at h

theorem reBlankLines_rest (S : Str) (x : Str × Caps)
    (h : (ms reBlankLines S []).head? = some x) : x.1.head? ≠ some '\n' := by
  rw [reBlankLines_eq] at h
  rw [ms_seq_lit_if] at h
  split at h
  · rw [ms_seq, ms_seq] at h
    cases hS : List.drop ['\n'].length S with
    | nil => rw [hS] at h; simp [ms_cls_nil] at h
    | cons y S2 =>
      rw [hS, ms_cls_cons] at h
      by_cases hy : reSpace.mem y = true
      · simp only [hy, if_true, List.flatMap_cons, List.flatMap_nil, List.append_nil,
          ms_star_greedy_cls] at h
        exact greedyCuts_then_char reSpace '\n' (by decide) [] S2 x h
      · simp [hy] at h
  · simp at h

theorem getLast?_of_all (z : Char) : ∀ (w : Str), w ≠ [] → (∀ c ∈ w, c = z) →
    w.getLast? = some z := by
  intro w hne h
  rw [List.getLast?_eq_getLast _ hne]
  exact congrArg some (h _ (List.getLast_mem hne))

theorem head?_of_all (z : Char) : ∀ (w : Str), w ≠ [] → (∀ c ∈ w, c = z) →
    w.head? = some z := by
  intro w hne h
  cases w with
  | nil => exact absurd rfl hne
  | cons x w => simp [h x (List.mem_cons_self _ _)]

/-- Two strings free of a triple newline stay so when joined, unless the first ends and
the second starts with a newline. -/
theorem noTriple_join (u v : Str) (hu : NoOcc "\n\n\n".data u) (hv : NoOcc "\n\n\n".data v)
    (hj : u.getLast? ≠ some '\n' ∨ v.head? ≠ some '\n') : NoOcc "\n\n\n".data (u ++ v) := by
  intro a b he
  rcases occ_append u v a _ b he with ⟨b1, h1, _⟩ | ⟨a1, h1, _⟩ | ⟨w1, w2, h1, h2, h3, h4, h5⟩
  · exact hu a b1 h1
  · exact hv a1 b h1
  · have hall : ∀ c ∈ w1 ++ w2, c = '\n' := by
      rw [← h3]; decide
    have hl : u.getLast? = some '\n' := by
      rw [h4, List.getLast?_append_of_ne_nil _ h1]
      exact getLast?_of_all _ w1 h1 (fun c hc => hall c (List.mem_append_left _ hc))
    have hh : v.head? = some '\n' := by
      rw [h5, List.head?_append_of_ne_nil _ h2]
      exact head?_of_all _ w2 h2 (fun c hc => hall c (List.mem_append_right _ hc))
    rcases hj with hj | hj
    · exact hj hl
    · exact hj hh

theorem expand_txt (w : String) (c : Caps) : expand [T w] c = w.data := by
  simp [expand, T]

/-- A rule that replaces newline-delimited matches by two newlines leaves no triple
newline, when its input has none or when it matches every triple newline. -/
theorem collapse_noTriple (r : Re) (hn : r.nonNull = true)
    (hhead : ∀ w, Re.Matches r w → w.head? = some '\n')
    (hpre : ∀ w, Re.Matches r w → Re.Matches r ('\n' :: w))
    (hrest : ∀ S x, (ms r S []).head? = some x → x.1.head? ≠ some '\n') :
    ∀ s, (NoOcc "\n\n\n".data s ∨ Re.Matches r "\n\n\n".data) →
      NoOcc "\n\n\n".data (ReplaceAllString r s [T "\n\n"]) := by
  apply ReplaceAllString_induct r hn [T "\n\n"]
    (fun s out => (NoOcc "\n\n\n".data s ∨ Re.Matches r "\n\n\n".data) →
      NoOcc "\n\n\n".data out)
  · intro s hf hin
    rcases hin with h | h
    · exact h
    · intro a b he
      exact findFirst_none_noMatch r s hf a _ b he h
  · intro s m hf ih hin
    have he := findFirst_split r s m hf
    have hm := findFirst_text_matches r s m hf
    rw [expand_txt]
    have hp : NoOcc "\n\n\n".data m.pre := by
      rcases hin with h | h
      · exact NoOcc_part h [] m.pre (m.text ++ m.rest) (by simpa using he)
      · intro a b he1
        exact findFirst_pre_noMatch r hn s m hf a _ b he1 h
    have hr : NoOcc "\n\n\n".data m.rest ∨ Re.Matches r "\n\n\n".data := by
      rcases hin with h | h
      · exact Or.inl (NoOcc_part h (m.pre ++ m.text) m.rest [] (by simpa using he))
      · exact Or.inr h
    have hpl : m.pre.getLast? ≠ some '\n' := by
      intro hl
      obtain ⟨p0, hp0⟩ := List.getLast?_eq_some_iff.mp hl
      exact findFirst_leftmost r s m hf p0 ['\n'] ('\n' :: m.text) m.rest hp0 (by simp)
        (by simp) (hpre _ hm)
    have hrh : (ReplaceAllString r m.rest [T "\n\n"]).head? ≠ some '\n' :=
      ReplaceAllString_head_ne r hn _ '\n' hhead m.rest
        (hrest _ _ (findFirst_some r s m hf).2)
    exact noTriple_join _ _
      (noTriple_join _ _ hp ((Contains_false_iff _ _).mp (by decide)) (Or.inl hpl))
      (ih hr) (Or.inr hrh)

theorem reNewlines3_noTriple (s : Str) :
    NoOcc "\n\n\n".data (ReplaceAllString reNewlines3 s [T "\n\n"]) := by
  refine collapse_noTriple reNewlines3 (by decide) ?_ ?_ reNewlines3_rest s (Or.inr ?_)
  · intro w hw
    obtain ⟨v, rfl, _⟩ := (Matches_reNewlines3 w).mp hw
    rfl
  · intro w hw
    obtain ⟨v, rfl, hv⟩ := (Matches_reNewlines3 w).mp hw
    refine (Matches_reNewlines3 _).mpr ⟨'\n' :: v, rfl, ?_⟩
    intro c hc
    rcases List.mem_cons.mp hc with h | h
    · exact h
    · exact hv c h
  · exact (Matches_reNewlines3 _).mpr ⟨[], rfl, by simp⟩

theorem reBlankLines_noTriple (s : Str) (h : NoOcc "\n\n\n".data s) :
    NoOcc "\n\n\n".data (ReplaceAllString reBlankLines s [T "\n\n"]) := by
  refine collapse_noTriple reBlankLines (by decide) ?_ ?_ reBlankLines_rest s (Or.inl h)
  · intro w hw
    obtain ⟨x, v, rfl, _, _⟩ := (Matches_reBlankLines w).mp hw
    rfl
  · intro w hw
    obtain ⟨x, v, rfl, hx, hv⟩ := (Matches_reBlankLines w).mp hw
    refine (Matches_reBlankLines _).mpr ⟨'\n', x :: v, by simp, by decide, ?_⟩
    intro c hc
    rcases List.mem_cons.mp hc with h | h
    · rw [h]; exact hx
    · exact hv c h

theorem Tidy_TrimSpace (s : Str) (h : NoOcc "\n\n\n".data s) : Tidy (TrimSpace s) := by
  obtain ⟨a, b, he⟩ := TrimSpace_infix s
  exact ⟨(Contains_false_iff _ _).mpr (NoOcc_part h a _ b he), TrimSpace_head s, TrimSpace_last s⟩

theorem markdownFinish_tidy (s : Str) : Tidy (markdownFinish s) :=
  Tidy_TrimSpace _ (reBlankLines_noTriple _ (reNewlines3_noTriple _))

theorem NestedListsToMarkdown_tidy (s : Str) : Tidy (NestedListsToMarkdown s) :=
  Tidy_TrimSpace _ (reNewlines3_noTriple _)

/-! ## The invariants of `cleanWhitespace` -/

theorem chain_of_pairs (R : Char → Char → Prop) : ∀ (s : Str),
    (∀ a x y b, s = a ++ x :: y :: b → R x y) → List.Chain' R s := by
  intro s
  induction s with
  | nil => intro _; exact List.chain'_nil
  | cons x s ih =>
    intro h
    cases s with
    | nil => exact List.chain'_singleton x
    | cons y s =>
      refine List.chain'_cons.mpr ⟨h [] x y s rfl, ih ?_⟩
      intro a x1 y1 b he
      exact h (x :: a) x1 y1 b (by rw [he]; rfl)

theorem chain_pair (R : Char → Char → Prop) (s a b : Str) (x y : Char) (h : List.Chain' R s)
    (he : s = a ++ x :: y :: b) : R x y := by
  have hi : [x, y] <:+: s := ⟨a, b, by rw [he]; simp⟩
  exact List.chain'_pair.mp ( h.infix hi)

theorem chain_infix (R : Char → Char → Prop) (s a t b : Str) (h : List.Chain' R s)
    (he : s = a ++ (t ++ b)) : List.Chain' R t :=
  h.infix ⟨a, b, by rw [he]; simp⟩

theorem NoBlankNl_iff (s : Str) :
    NoBlankNl s ↔ Contains s " \n".data = false ∧ Contains s "\t\n".data = false := by
  constructor
  · intro h
    refine ⟨(Contains_false_iff _ _).mpr ?_, (Contains_false_iff _ _).mpr ?_⟩
    · intro a b he
      exact chain_pair _ s a b ' ' '\n' h he ⟨Or.inl rfl, rfl⟩
    · intro a b he
      exact chain_pair _ s a b '\t' '\n' h he ⟨Or.inr rfl, rfl⟩
  · rintro ⟨h1, h2⟩
    apply chain_of_pairs
    rintro a x y b he ⟨hx | hx, hy⟩
    · subst hx; subst hy
      exact (Contains_false_iff _ _).mp h1 a b he
    · subst hx; subst hy
      exact (Contains_false_iff _ _).mp h2 a b he

theorem blank_iff (c : Char) : (CharSet.of [' ', '\t']).mem c = true ↔ c = ' ' ∨ c = '\t' := by
  simp only [CharSet.of, CharSet.mem, List.map_cons, List.map_nil, List.any_cons, List.any_nil,
    Bool.or_false, Bool.and_eq_true, Nat.ble_eq, Bool.or_eq_true]
  constructor
  · rintro (⟨h1, h2⟩ | ⟨h1, h2⟩)
    · left
      have : c.toNat = (' ' : Char).toNat := by omega
      exact Char.ext (UInt32.ext (by simpa [Char.toNat] using this))
    · right
      have : c.toNat = ('\t' : Char).toNat := by omega
      exact Char.ext (UInt32.ext (by simpa [Char.toNat] using this))
  · rintro (rfl | rfl)
    · exact Or.inl ⟨le_refl _, le_refl _⟩
    · exact Or.inr ⟨le_refl _, le_refl _⟩

theorem reTrailingBlanks_eq : reTrailingBlanks = .seq (.seq (.cls (CharSet.of [' ', '\t']))
    (.star true (.cls (CharSet.of [' ', '\t'])))) (.lit ['\n']) := rfl

theorem reBetweenTags_eq : reBetweenTags = .seq (.lit ['>'])
    (.seq (.seq (.cls reSpace) (.star true (.cls reSpace))) (.lit ['<'])) := rfl

theorem Matches_reTrailingBlanks (w : Str) : Re.Matches reTrailingBlanks w ↔
    ∃ x v, w = x :: v ++ ['\n'] ∧ (x = ' ' ∨ x = '\t') ∧ ∀ c ∈ v, c = ' ' ∨ c = '\t' := by
  rw [reTrailingBlanks_eq]
  simp only [Matches_seq_iff, Matches_lit_iff, Matches_star_cls_iff, Matches_cls_iff, blank_iff]
  constructor
  · rintro ⟨u2, v2, rfl, ⟨u3, v3, rfl, ⟨x, rfl, hx⟩, hv⟩, rfl⟩
    exact ⟨x, v3, by simp, hx, hv⟩
  · rintro ⟨x, v, rfl, hx, hv⟩
    exact ⟨x :: v, ['\n'], rfl, ⟨[x], v, rfl, ⟨x, rfl, hx⟩, hv⟩, rfl⟩

theorem Matches_reBetweenTags (w : Str) : Re.Matches reBetweenTags w ↔
    ∃ x v, w = '>' :: x :: v ++ ['<'] ∧ reSpace.mem x = true ∧
      ∀ c ∈ v, reSpace.mem c = true := by
  rw [reBetweenTags_eq]
  simp only [Matches_seq_iff, Matches_lit_iff, Matches_star_cls_iff, Matches_cls_iff]
  constructor
  · rintro ⟨u1, v1, rfl, rfl, u2, v2, rfl, ⟨u3, v3, rfl, ⟨x, rfl, hx⟩, hv⟩, rfl⟩
    exact ⟨x, v3, by simp, hx, hv⟩
  · rintro ⟨x, v, rfl, hx, hv⟩
    exact ⟨['>'], x :: v ++ ['<'], rfl, rfl, x :: v, ['<'], rfl,
      ⟨[x], v, rfl, ⟨x, rfl, hx⟩, hv⟩, rfl⟩

theorem noBlankNl_of_noMatch (s : Str) (h : NoMatch reTrailingBlanks s) : NoBlankNl s := by
  apply chain_of_pairs
  rintro a x y b he ⟨hx, hy⟩
  subst hy
  exact h a [x, '\n'] b (by rw [he]; rfl)
    ((Matches_reTrailingBlanks _).mpr ⟨x, [], rfl, hx, by simp⟩)

theorem noMatch_of_noBlankNl (s : Str) (h : NoBlankNl s) : NoMatch reTrailingBlanks s := by
  intro a w b he hm
  obtain ⟨x, v, rfl, hx, hv⟩ := (Matches_reTrailingBlanks w).mp hm
  rcases List.eq_nil_or_concat (x :: v) with h0 | ⟨p, y, hp⟩
  · cases h0
  · have hy : y = ' ' ∨ y = '\t' := by
      have hmem : y ∈ x :: v := by rw [hp]; simp
      rcases List.mem_cons.mp hmem with h1 | h1
      · rw [h1]; exact hx
      · exact hv y h1
    have he2 : s = (a ++ p) ++ y :: '\n' :: b := by
      rw [he, hp]; simp
    exact chain_pair _ s _ _ y '\n' h he2 ⟨hy, rfl⟩

/-- A rule with a fixed replacement keeps a property of neighbouring characters when
the replacement starts like every match and its last character fits in front of every
character. -/
theorem ReplaceAllString_chain (R : Char → Char → Prop) (r : Re) (hn : r.nonNull = true)
    (w0 : Str) (z : Char) (w1 : Str) (hw0 : w0 = z :: w1) (hw : List.Chain' R w0)
    (hhead : ∀ w, Re.Matches r w → w.head? = some z)
    (hr : ∀ x ∈ w0.getLast?, ∀ y, R x y) :
    ∀ s, List.Chain' R s → List.Chain' R (ReplaceAllString r s [.txt w0]) := by
  apply ReplaceAllString_induct r hn [.txt w0]
    (fun s out => List.Chain' R s → List.Chain' R out)
  · intro s _ h; exact h
  · intro s m hf ih hs
    have he := findFirst_split r s m hf
    have hm := findFirst_text_matches r s m hf
    have hex : expand [.txt w0] m.caps = w0 := by simp [expand]
    rw [hex]
    have hpre : List.Chain' R m.pre := chain_infix R s [] m.pre _ hs (by simpa using he)
    have hrest : List.Chain' R m.rest :=
      chain_infix R s (m.pre ++ m.text) m.rest [] hs (by simpa using he)
    have hne : w0 ≠ [] := by rw [hw0]; simp
    refine List.chain'_append.mpr ⟨List.chain'_append.mpr ⟨hpre, hw, ?_⟩, ih hrest, ?_⟩
    · intro x hx y hy
      rw [hw0] at hy
      simp at hy
      subst hy
      obtain ⟨p0, hp0⟩ := List.getLast?_eq_some_iff.mp hx
      have hh := hhead _ hm
      obtain ⟨t1, ht1⟩ : ∃ t1, m.text = z :: t1 := by
        cases hmt : m.text with
        | nil => rw [hmt] at hh; simp at hh
        | cons y t1 => rw [hmt] at hh; simp at hh; exact ⟨t1, by rw [hh]⟩
      exact chain_pair R s p0 (t1 ++ m.rest) x z hs (by rw [he, hp0, ht1]; simp)
    · intro x hx y _
      rw [List.getLast?_append_of_ne_nil _ hne] at hx
      exact hr x hx y

theorem reTrailingBlanks_noBlankNl (s : Str) :
    NoBlankNl (ReplaceAllString reTrailingBlanks s [T "\n"]) := by
  apply ReplaceAllString_induct reTrailingBlanks (by decide) [T "\n"] (fun _ out => NoBlankNl out)
  · intro s hf
    exact noBlankNl_of_noMatch s (findFirst_none_noMatch _ s hf)
  · intro s m hf ih
    have hm := findFirst_text_matches _ s m hf
    rw [expand_txt, List.append_assoc]
    refine List.chain'_append.mpr
      ⟨noBlankNl_of_noMatch _ (findFirst_pre_noMatch _ (by decide) s m hf), ?_, ?_⟩
    · refine List.chain'_cons'.mpr ⟨?_, ih⟩
      rintro y _ ⟨hx | hx, _⟩ <;> cases hx
    · intro x hx y hy
      simp at hy
      subst hy
      rintro ⟨hb, _⟩
      obtain ⟨p0, hp0⟩ := List.getLast?_eq_some_iff.mp hx
      obtain ⟨x1, v, hw, hx1, hv⟩ := (Matches_reTrailingBlanks _).mp hm
      refine findFirst_leftmost _ s m hf p0 [x] (x :: m.text) m.rest hp0 (by simp) (by simp)
        ((Matches_reTrailingBlanks _).mpr ⟨x, x1 :: v, by rw [hw]; rfl, hb, ?_⟩)
      intro c hc
      rcases List.mem_cons.mp hc with h | h
      · rw [h]; exact hx1
      · exact hv c h

theorem reBetweenTags_noMatch (s : Str) :
    NoMatch reBetweenTags (ReplaceAllString reBetweenTags s [T "><"]) := by
  apply ReplaceAllString_induct reBetweenTags (by decide) [T "><"]
    (fun _ out => NoMatch reBetweenTags out)
  · intro s hf
    exact findFirst_none_noMatch _ s hf
  · intro s m hf ih a w b he hm
    rw [expand_txt, List.append_assoc] at he
    obtain ⟨x, v, hw, hx, hv⟩ := (Matches_reBetweenTags w).mp hm
    have hin : ∀ c ∈ x :: v ++ ['<'], c ≠ '>' := by
      intro c hc
      simp only [List.cons_append, List.mem_cons, List.mem_append, List.mem_singleton,
        List.not_mem_nil, or_false] at hc
      rcases hc with h | h | h
      · subst h; intro e; rw [e] at hx; revert hx; decide
      · intro e; subst e; have := hv _ h; revert this; decide
      · subst h; decide
    rcases occ_append _ _ a w b he with ⟨b1, h1, _⟩ | ⟨a1, h1, _⟩ | ⟨w1, w2, h1, h2, h3, h4, h5⟩
    · exact findFirst_pre_noMatch _ (by decide) s m hf a w b1 h1 hm
    · cases a1 with
      | nil =>
        rw [hw] at h1
        have h2 := List.cons_eq_cons.mp (by simpa using h1 : '>' :: '<' :: _ = '>' :: x :: _)
        have : x = '<' := by
          have h3 := h2.2
          simp at h3
          exact h3.1.symm
        rw [this] at hx
        revert hx; decide
      | cons c a1 =>
        cases a1 with
        | nil =>
          rw [hw] at h1
          simp at h1
        | cons d a2 =>
          have h2 : ReplaceAllString reBetweenTags m.rest [T "><"] = a2 ++ (w ++ b) := by
            have h3 : "><".data = ['>', '<'] := rfl
            rw [h3] at h1
            simp at h1
            exact h1.2.2
          exact ih a2 w b h2 hm
    · have h6 : w2.head? = some '>' := by
        have h7 : "><".data = ['>', '<'] := rfl
        rw [h7] at h5
        cases w2 with
        | nil => exact absurd rfl h2
        | cons y w2 =>
          simp at h5
          simp [← h5.1]
      cases w1 with
      | nil => exact absurd rfl h1
      | cons y w1 =>
        rw [hw] at h3
        have h8 : x :: v ++ ['<'] = w1 ++ w2 := by
          simp at h3
          simpa using h3.2
        cases w2 with
        | nil => exact absurd rfl h2
        | cons y2 w2 =>
          simp at h6
          subst h6
          exact hin '>' (by rw [h8]; simp) rfl

theorem reBetweenTags_noTriple (s : Str) (h : NoOcc "\n\n\n".data s) :
    NoOcc "\n\n\n".data (ReplaceAllString reBetweenTags s [T "><"]) := by
  revert h
  apply ReplaceAllString_induct reBetweenTags (by decide) [T "><"]
    (fun s out => NoOcc "\n\n\n".data s → NoOcc "\n\n\n".data out)
  · intro s _ h; exact h
  · intro s m hf ih h
    have he := findFirst_split _ s m hf
    rw [expand_txt]
    refine noTriple_join _ _ (noTriple_join _ _
      (NoOcc_part h [] m.pre (m.text ++ m.rest) (by simpa using he))
      ((Contains_false_iff _ _).mp (by decide)) (Or.inr (by decide)))
      (ih (NoOcc_part h (m.pre ++ m.text) m.rest [] (by simpa using he))) (Or.inl ?_)
    rw [List.getLast?_append_of_ne_nil _ (by decide)]
    decide

theorem NoBlankNl_chain_nl (y : Char) : ¬ blankNl '\n' y := by
  rintro ⟨h | h, _⟩ <;> cases h

/-- The invariants of a cleaned text: no blank in front of a newline, no white space
between two tags, trimmed ends. -/
theorem cleanWhitespace_facts (s : Str) :
    NoBlankNl (cleanWhitespace s) ∧ NoMatch reBetweenTags (cleanWhitespace s) ∧
    (NoBlankNl s → NoOcc "\n\n\n".data (cleanWhitespace s)) := by
  obtain ⟨a, b, he⟩ := TrimSpace_infix (ReplaceAllString reBetweenTags
    (ReplaceAllString reTrailingBlanks (ReplaceAllString reNewlines3 s [T "\n\n"]) [T "\n"])
    [T "><"])
  have hb3 : ∀ t, NoBlankNl t → NoBlankNl (ReplaceAllString reBetweenTags t [T "><"]) := by
    intro t ht
    refine ReplaceAllString_chain _ reBetweenTags (by decide) "><".data '>' ['<'] rfl ?_ ?_ ?_ t ht
    · refine List.chain'_pair.mpr ?_
      rintro ⟨_, h⟩; cases h
    · intro w hw
      obtain ⟨x, v, rfl, _, _⟩ := (Matches_reBetweenTags w).mp hw
      rfl
    · intro x hx y
      have : x = '<' := by simpa using hx.symm
      subst this
      rintro ⟨h | h, _⟩ <;> cases h
  refine ⟨?_, ?_, ?_⟩
  · exact chain_infix _ _ a _ b (hb3 _ (reTrailingBlanks_noBlankNl _)) he
  · exact NoMatch_part (reBetweenTags_noMatch _) a _ b he
  · intro hs
    have h1 : NoBlankNl (ReplaceAllString reNewlines3 s [T "\n\n"]) := by
      refine ReplaceAllString_chain _ reNewlines3 (by decide) "\n\n".data '\n' ['\n'] rfl
        ?_ ?_ ?_ s hs
      · exact List.chain'_pair.mpr (NoBlankNl_chain_nl _)
      · intro w hw
        obtain ⟨v, rfl, _⟩ := (Matches_reNewlines3 w).mp hw
        rfl
      · intro x hx y
        have : x = '\n' := by simpa using hx.symm
        subst this
        exact NoBlankNl_chain_nl y
    have h2 : ReplaceAllString reTrailingBlanks (ReplaceAllString reNewlines3 s [T "\n\n"])
        [T "\n"] = ReplaceAllString reNewlines3 s [T "\n\n"] :=
      ReplaceAllString_noMatch _ _ _ (noMatch_of_noBlankNl _ h1)
    have h3 := reBetweenTags_noTriple _ (reNewlines3_noTriple s)
    rw [← h2] at h3
    exact NoOcc_part h3 a _ b he

/-! ## Empty paragraphs -/

theorem CharSet.mem_of_list (w : Str) (c : Char) (h : c ∈ w) : (CharSet.of w).mem c = true := by
  simp only [CharSet.of, CharSet.mem, List.any_eq_true, List.mem_map]
  exact ⟨(c.toNat, c.toNat), ⟨c, h, rfl⟩, by simp⟩

theorem Matches_reads (r : Re) (w : Str) (h : Re.Matches r w) :
    ∀ c ∈ w, r.reads.mem c = true := by
  induction h with
  | lit w => intro c hc; exact CharSet.mem_of_list w c hc
  | cls A x hx => intro c hc; rw [List.mem_singleton.mp hc]; exact hx
  | seq a b u v _ _ iha ihb =>
    intro c hc
    simp only [Re.reads, CharSet.mem_append, Bool.or_eq_true]
    rcases List.mem_append.mp hc with h | h
    · exact Or.inl (iha c h)
    · exact Or.inr (ihb c h)
  | altL a b u _ ih =>
    intro c hc
    simp only [Re.reads, CharSet.mem_append, Bool.or_eq_true]
    exact Or.inl (ih c hc)
  | altR a b u _ ih =>
    intro c hc
    simp only [Re.reads, CharSet.mem_append, Bool.or_eq_true]
    exact Or.inr (ih c hc)
  | starNil g a => intro c hc; cases hc
  | starCons g a u v _ _ _ iha ihs =>
    intro c hc
    rcases List.mem_append.mp hc with h | h
    · exact iha c h
    · exact ihs c h
  | grp i a u _ ih => intro c hc; exact ih c hc

/-- A match that is the only one at the head of the input is replaced. -/
theorem ReplaceAllString_unique (r : Re) (hn : r.nonNull = true) (t : List Tpl) (w v : Str)
    (hm : Re.Matches r w)
    (hu : ∀ w1 v1, w ++ v = w1 ++ v1 → Re.Matches r w1 → v1 = v) :
    ∃ c, ReplaceAllString r (w ++ v) t = expand t c ++ ReplaceAllString r v t := by
  obtain ⟨c, hc⟩ := ms_head_of_unique r w v hm hu
  exact ⟨c, ReplaceAllString_here r hn t w v c hc⟩

theorem paras_cons (p : Para) (ps : List Para) : paras (p :: ps) = p.render ++ paras ps := by
  simp [paras]

theorem paras_nil : paras [] = [] := rfl

theorem render_head (p : Para) : ∃ u, p.render = '<' :: u := by
  cases p <;> exact ⟨_, rfl⟩

theorem render_last (p : Para) : ∃ u, p.render = u ++ ['>'] := by
  cases p with
  | text t => exact ⟨"<p>".data ++ t ++ "</p".data, by simp [Para.render]⟩
  | empty => exact ⟨"<p></p".data, rfl⟩
  | blank => exact ⟨"<p> </p".data, rfl⟩
  | br => exact ⟨"<p><br /></p".data, rfl⟩

theorem paras_look (ps : List Para) :
    paras ps = [] ∨ Describes ltWin.cs ltWin.closed (paras ps) := by
  cases ps with
  | nil => exact Or.inl rfl
  | cons p ps =>
    right
    obtain ⟨u, hu⟩ := render_head p
    rw [paras_cons, hu]
    exact Describes_startsIn _ _ _ (by decide)

theorem lit_covers2 (u v : Str) (h : v = [] ∨ Describes ltWin.cs ltWin.closed v) :
    CoversIn (litWins ltWin u ++ litWins endWin u) u v := by
  rcases h with h | h
  · subst h
    exact (CoversIn.lit endWin u [] (by simp [endWin, Describes])).mono
      (fun W hW => List.mem_append_right _ hW)
  · exact (CoversIn.lit ltWin u v h).mono (fun W hW => List.mem_append_left _ hW)

theorem text_covers (look : Win) (t v : Str) (ht : isPlainText t = true)
    (hv : Describes look.cs look.closed v) :
    CoversIn (textWins look) ("<p>".data ++ t ++ "</p>".data) v := by
  rw [List.append_assoc]
  refine CoversIn.append ?_ (CoversIn.append ?_ ?_)
  · refine (CoversIn.lit (startsIn alnum) _ _ ?_).mono
      (fun W hW => List.mem_append_left _ (List.mem_append_left _ hW))
    simpa [List.append_assoc] using Describes_alnum_plain t _ ht
  · exact ((isPlainText_facts t ht).2.2.2.2 _).mono
      (fun W hW => List.mem_append_left _ (List.mem_append_right _ hW))
  · exact (CoversIn.lit look _ _ hv).mono (fun W hW => List.mem_append_right _ hW)

theorem render_covers (p : Para) (hp : p.wellFormed = true) (v : Str)
    (h : v = [] ∨ Describes ltWin.cs ltWin.closed v) : CoversIn p.wins p.render v := by
  cases p with
  | text t =>
    rcases h with h | h
    · subst h
      exact (text_covers endWin t [] hp (by simp [endWin, Describes])).mono
        (fun W hW => List.mem_append_right _ hW)
    · exact (text_covers ltWin t v hp h).mono (fun W hW => List.mem_append_left _ hW)
  | empty => exact lit_covers2 _ v h
  | blank => exact lit_covers2 _ v h
  | br => exact lit_covers2 _ v h

/-- A rule that misses the windows of a paragraph passes over it. -/
theorem paras_skip (r : Re) (hn : r.nonNull = true) (t : List Tpl) (p : Para)
    (hp : p.wellFormed = true) (hm : r.missesAll p.wins = true) (ps : List Para) :
    ReplaceAllString r (paras (p :: ps)) t = p.render ++ ReplaceAllString r (paras ps) t := by
  rw [paras_cons]
  exact ReplaceAllString_skip r hn t _ _
    (NoStart_of_covers r _ _ _ (render_covers p hp _ (paras_look ps)) hm)

theorem paras_chars : ∀ (ps : List Para), (∀ p ∈ ps, p.wellFormed = true) →
    ∀ c ∈ paras ps, paraChars.mem c = true := by
  intro ps
  induction ps with
  | nil => intro _ c hc; cases hc
  | cons p ps ih =>
    intro h c hc
    rw [paras_cons] at hc
    rcases List.mem_append.mp hc with h1 | h1
    · cases p with
      | text t =>
        have ht := h _ (List.mem_cons_self _ _)
        simp only [Para.render, List.mem_append] at h1
        rcases h1 with (h1 | h1) | h1
        · exact (by decide : ∀ c ∈ "<p>".data, paraChars.mem c = true) c h1
        · exact CharSet.mem_mono _ _ (by decide) c ((isPlainText_facts t ht).2.2.2.1 c h1)
        · exact (by decide : ∀ c ∈ "</p>".data, paraChars.mem c = true) c h1
      | empty => exact (by decide : ∀ c ∈ "<p></p>".data, paraChars.mem c = true) c h1
      | blank => exact (by decide : ∀ c ∈ "<p> </p>".data, paraChars.mem c = true) c h1
      | br => exact (by decide : ∀ c ∈ "<p><br /></p>".data, paraChars.mem c = true) c h1
    · exact ih (fun p hp => h p (List.mem_cons_of_mem _ hp)) c h1

theorem paras_ends (ps : List Para) :
    (∀ x, (paras ps).head? = some x → goSpace.mem x = false) ∧
    (∀ x, (paras ps).getLast? = some x → goSpace.mem x = false) := by
  constructor
  · intro x hx
    cases ps with
    | nil => simp [paras] at hx
    | cons p ps =>
      obtain ⟨u, hu⟩ := render_head p
      rw [paras_cons, hu] at hx
      simp at hx
      subst hx
      decide
  · intro x hx
    have key : ∀ (qs : List Para), qs ≠ [] → (paras qs).getLast? = some '>' := by
      intro qs
      induction qs with
      | nil => intro h; exact absurd rfl h
      | cons q qs ih =>
        intro _
        rw [paras_cons]
        by_cases hq : qs = []
        · subst hq
          rw [paras_nil, List.append_nil]
          obtain ⟨u, hu⟩ := render_last q
          rw [hu]
          simp
        · have hne : paras qs ≠ [] := by
            intro e
            have := ih hq
            rw [e] at this
            simp at this
          rw [List.getLast?_append_of_ne_nil _ hne]
          exact ih hq
    cases ps with
    | nil => simp [paras] at hx
    | cons p ps =>
      rw [key _ (by simp)] at hx
      simp at hx
      subst hx
      decide

theorem between_here (v : Str) :
    (ms reBetweenTags ("> <".data ++ v) []).head? = some (v, []) := by
  rw [reBetweenTags_eq]
  simp [ms_seq, ms_lit, ms_cls_cons, ms_star_greedy_cls, greedyCuts,
    (by decide : reSpace.mem ' ' = true), (by decide : reSpace.mem '<' = false)]

theorem reEmptyP_eq : reEmptyP = .seq (.lit "<p>".data)
    (.seq (.star true (.cls reSpace)) (.lit "</p>".data)) := rfl

theorem emptyP_here (v : Str) :
    (ms reEmptyP ("<p></p>".data ++ v) []).head? = some (v, []) := by
  rw [reEmptyP_eq]
  have e : "<p></p>".data ++ v = "<p>".data ++ ('<' :: ("/p>".data ++ v)) := rfl
  rw [e, ms_seq_lit, ms_seq_greedy_stop _ _ _ _ _ (by decide)]
  have e2 : '<' :: ("/p>".data ++ v) = "</p>".data ++ v := rfl
  rw [e2, ms_lit_append]
  rfl

/-- The white space between the tags of a blank paragraph is removed. -/
theorem between_paras : ∀ (ps : List Para), (∀ p ∈ ps, p.wellFormed = true) →
    ReplaceAllString reBetweenTags (paras ps) [T "><"] = paras (ps.map Para.unblank) := by
  intro ps
  induction ps with
  | nil => intro _; exact ReplaceAllString_nil _ (by decide) _
  | cons p ps ih =>
    intro h
    have ih1 := ih (fun q hq => h q (List.mem_cons_of_mem _ hq))
    have hp := h p (List.mem_cons_self _ _)
    rw [List.map_cons]
    cases p with
    | text t =>
      rw [paras_skip reBetweenTags (by decide) _ _ hp
        (by decide : reBetweenTags.missesAll (textWins ltWin ++ textWins endWin) = true), ih1]
      rfl
    | empty => rw [paras_skip reBetweenTags (by decide) _ _ hp (by decide), ih1]; rfl
    | br => rw [paras_skip reBetweenTags (by decide) _ _ hp (by decide), ih1]; rfl
    | blank =>
      rw [paras_cons, paras_cons]
      have e : Para.blank.render ++ paras ps =
          "<p".data ++ ("> <".data ++ ("/p>".data ++ paras ps)) := rfl
      have hl : Describes (litWin "> <".data).cs (litWin "> <".data).closed
          ("> <".data ++ ("/p>".data ++ paras ps)) := by
        have := Describes_lit "> <".data [] false ("/p>".data ++ paras ps) (Describes_any _)
        simpa [litWin] using this
      rw [e, ReplaceAllString_skip _ (by decide) _ _ _
        (NoStart_of_covers _ _ _ _ (CoversIn.lit (litWin "> <".data) "<p".data _ hl) (by decide)),
        ReplaceAllString_here _ (by decide) _ _ _ _ (between_here _), expand_txt,
        ReplaceAllString_skip _ (by decide) _ _ _
          (NoStart_of_covers _ _ _ _ (lit_covers2 "/p>".data _ (paras_look ps)) (by decide)),
        ih1]
      rfl

theorem cleanWhitespace_paras (ps : List Para) (h : ∀ p ∈ ps, p.wellFormed = true) :
    cleanWhitespace (paras ps) = paras (ps.map Para.unblank) := by
  have hc : CoversIn [startsIn paraChars] (paras ps) [] :=
    CoversIn.ofClass _ _ _ (paras_chars ps h)
  simp only [cleanWhitespace]
  rw [ReplaceAllString_absent _ _ _ _ hc (by decide),
    ReplaceAllString_absent _ _ _ _ hc (by decide), between_paras ps h]
  exact TrimSpace_id _ (paras_ends _).1 (paras_ends _).2

theorem emptyP_paras : ∀ (ps : List Para), (∀ p ∈ ps, p.wellFormed = true) →
    ReplaceAllString reEmptyP (paras (ps.map Para.unblank)) [] =
      paras (ps.filter Para.hasContent) := by
  intro ps
  induction ps with
  | nil => intro _; exact ReplaceAllString_nil _ (by decide) _
  | cons p ps ih =>
    intro h
    have ih1 := ih (fun q hq => h q (List.mem_cons_of_mem _ hq))
    have hp := h p (List.mem_cons_self _ _)
    have hemp : ReplaceAllString reEmptyP (paras (Para.empty :: ps.map Para.unblank)) [] =
        paras (ps.filter Para.hasContent) := by
      rw [paras_cons]
      have e : Para.empty.render = "<p></p>".data := rfl
      rw [e, ReplaceAllString_here _ (by decide) _ _ _ _ (emptyP_here _), ih1]
      rfl
    rw [List.map_cons]
    cases p with
    | text t =>
      rw [show (Para.text t).unblank = Para.text t from rfl,
        paras_skip reEmptyP (by decide) _ _ hp
          (by decide : reEmptyP.missesAll (textWins ltWin ++ textWins endWin) = true), ih1]
      simp [Para.hasContent, paras_cons]
    | br =>
      rw [show Para.br.unblank = Para.br from rfl,
        paras_skip reEmptyP (by decide) _ _ hp (by decide), ih1]
      simp [Para.hasContent, paras_cons]
    | empty =>
      rw [show Para.empty.unblank = Para.empty from rfl, hemp]
      simp [Para.hasContent]
    | blank =>
      rw [show Para.blank.unblank = Para.empty from rfl, hemp]
      simp [Para.hasContent]

theorem reBrOnlyP_eq : reBrOnlyP = .seq (.lit "<p>".data)
    (.seq (.star true (.cls reSpace)) (.seq (.star true (.grp 1 reBrWs)) (.lit "</p>".data))) :=
  rfl

/-- The shape of an empty paragraph: `<p>`, a middle part without `p`, `</p>`. -/
theorem Matches_reBrOnlyP (w : Str) (h : Re.Matches reBrOnlyP w) :
    ∃ mid, w = "<p>".data ++ (mid ++ "</p>".data) ∧ 'p' ∉ mid := by
  rw [reBrOnlyP_eq] at h
  obtain ⟨u1, v1, rfl, h1, h2⟩ := (Matches_seq_iff _ _ _).mp h
  obtain ⟨u2, v2, rfl, h3, h4⟩ := (Matches_seq_iff _ _ _).mp h2
  obtain ⟨u3, v3, rfl, h5, h6⟩ := (Matches_seq_iff _ _ _).mp h4
  rw [(Matches_lit_iff _ _).mp h1, (Matches_lit_iff _ _).mp h6]
  refine ⟨u2 ++ u3, by simp, ?_⟩
  intro hp
  rcases List.mem_append.mp hp with h | h
  · have := Matches_reads _ _ h3 _ h
    revert this; decide
  · have := Matches_reads _ _ h5 _ h
    revert this; decide

theorem brOnlyP_here (v : Str) :
    ∃ c, ReplaceAllString reBrOnlyP ("<p><br /></p>".data ++ v) [] =
      expand [] c ++ ReplaceAllString reBrOnlyP v [] := by
  apply ReplaceAllString_unique _ (by decide)
  · obtain ⟨w, hw, hm⟩ := ms_sound reBrOnlyP "<p><br /></p>".data [] ([], [(1, "<br />".data)])
      (by decide)
    simp only [List.append_nil] at hw
    rw [← hw] at hm
    exact hm
  · intro w1 v1 he hm
    obtain ⟨mid, rfl, hmid⟩ := Matches_reBrOnlyP w1 hm
    have e1 : "<p><br /></p>".data ++ v = "<p>".data ++ (("<br /></".data) ++ 'p' :: ('>' :: v)) :=
      rfl
    have e2 : "<p>".data ++ (mid ++ "</p>".data) ++ v1 =
        "<p>".data ++ ((mid ++ "</".data) ++ 'p' :: ('>' :: v1)) := by
      simp
    rw [e1, e2] at he
    have he2 := List.append_cancel_left he
    have := split_first (fun c => c = 'p') _ 'p' _ _ 'p' _ (by decide) rfl
      (by
        intro c hc
        rcases List.mem_append.mp hc with h | h
        · intro e; subst e; exact hmid h
        · exact (by decide : ∀ c ∈ "</".data, ¬ c = 'p') c h) rfl he2
    have h3 := this.2.2
    simp at h3
    exact h3.symm

theorem brOnlyP_paras : ∀ (ps : List Para), (∀ p ∈ ps, p.wellFormed = true) →
    ReplaceAllString reBrOnlyP (paras (ps.filter Para.hasContent)) [] =
      paras (ps.filter Para.isText) := by
  intro ps
  induction ps with
  | nil => intro _; exact ReplaceAllString_nil _ (by decide) _
  | cons p ps ih =>
    intro h
    have ih1 := ih (fun q hq => h q (List.mem_cons_of_mem _ hq))
    have hp := h p (List.mem_cons_self _ _)
    cases p with
    | text t =>
      rw [List.filter_cons_of_pos (by rfl), List.filter_cons_of_pos (by rfl),
        paras_skip reBrOnlyP (by decide) _ _ hp
          (by decide : reBrOnlyP.missesAll (textWins ltWin ++ textWins endWin) = true), ih1,
        paras_cons]
    | br =>
      rw [List.filter_cons_of_pos (by rfl), List.filter_cons_of_neg (by simp [Para.isText]),
        paras_cons]
      obtain ⟨c, hc⟩ := brOnlyP_here (paras (ps.filter Para.hasContent))
      have e : Para.br.render = "<p><br /></p>".data := rfl
      rw [e, hc, ih1]
      rfl
    | empty =>
      rw [List.filter_cons_of_neg (by simp [Para.hasContent]),
        List.filter_cons_of_neg (by simp [Para.isText])]
      exact ih1
    | blank =>
      rw [List.filter_cons_of_neg (by simp [Para.hasContent]),
        List.filter_cons_of_neg (by simp [Para.isText])]
      exact ih1

theorem Sanitize_paras (ps : List Para) (h : ∀ p ∈ ps, p.wellFormed = true) :
    SanitizeWordPressContent (paras ps) = paras (ps.filter Para.isText) := by
  have hc : CoversIn [startsIn paraChars] (paras ps) [] :=
    CoversIn.ofClass _ _ _ (paras_chars ps h)
  simp only [SanitizeWordPressContent, removeGutenbergComments, removeEmptyParagraphs]
  rw [ReplaceAllString_absent _ _ _ _ hc (by decide),
    ReplaceAllString_absent _ _ _ _ hc (by decide), cleanWhitespace_paras ps h,
    emptyP_paras ps h, brOnlyP_paras ps h]

theorem texts_covers : ∀ (ps : List Para), (∀ p ∈ ps, p.wellFormed = true) →
    CoversIn (textWins ltWin ++ textWins endWin) (paras (ps.filter Para.isText)) [] := by
  intro ps
  induction ps with
  | nil => intro _; exact CoversIn.nil _ _
  | cons p ps ih =>
    intro h
    have ih1 := ih (fun q hq => h q (List.mem_cons_of_mem _ hq))
    have hp := h p (List.mem_cons_self _ _)
    cases p with
    | text t =>
      rw [List.filter_cons_of_pos (by rfl), paras_cons]
      refine CoversIn.append ?_ ih1
      simp only [List.append_nil]
      exact render_covers (.text t) hp _ (paras_look _)
    | br => rw [List.filter_cons_of_neg (by simp [Para.isText])]; exact ih1
    | empty => rw [List.filter_cons_of_neg (by simp [Para.isText])]; exact ih1
    | blank => rw [List.filter_cons_of_neg (by simp [Para.isText])]; exact ih1

/-! ## Blockquotes -/

theorem gaps_covers : ∀ (rest : List (Nat × Str)) (v : Str),
    (∀ p ∈ rest, isPlainText p.2 = true) → CoversIn bodyWins (rest.flatMap quoteGap) v := by
  intro rest
  induction rest with
  | nil => intro v _; exact CoversIn.nil _ _
  | cons p rest ih =>
    intro v h
    rw [List.flatMap_cons]
    refine CoversIn.append (CoversIn.append ?_ ?_) (ih v (fun q hq => h q (List.mem_cons_of_mem _ hq)))
    · refine (CoversIn.ofClass newlineSet _ _ ?_).mono (fun W hW => List.mem_append_right _ hW)
      intro c hc
      rw [List.eq_of_mem_replicate hc]
      decide
    · exact ((isPlainText_facts p.2 (h p (List.mem_cons_self _ _))).2.2.2.2 _).mono
        (fun W hW => List.mem_append_left _ hW)

theorem body_covers (l : Str) (rest : List (Nat × Str)) (v : Str) (hl : isPlainText l = true)
    (h : ∀ p ∈ rest, isPlainText p.2 = true) : CoversIn bodyWins (quoteBody l rest) v :=
  CoversIn.append (((isPlainText_facts l hl).2.2.2.2 _).mono
    (fun W hW => List.mem_append_left _ hW)) (gaps_covers rest v h)

theorem quoteHtml_covers (l : Str) (rest : List (Nat × Str)) (hl : isPlainText l = true)
    (h : ∀ p ∈ rest, isPlainText p.2 = true) : CoversIn quoteInWins (quoteHtml l rest) [] := by
  unfold quoteHtml
  rw [List.append_assoc]
  refine CoversIn.append ?_ (CoversIn.append ?_ ?_)
  · refine (CoversIn.lit (startsIn alnum) _ _ ?_).mono
      (fun W hW => List.mem_append_left _ (List.mem_append_left _ hW))
    simp only [quoteBody, List.append_assoc]
    exact Describes_alnum_plain l _ hl
  · exact (body_covers l rest _ hl h).mono
      (fun W hW => List.mem_append_left _ (List.mem_append_right _ hW))
  · exact (CoversIn.lit endWin _ _ (by simp [endWin, Describes])).mono
      (fun W hW => List.mem_append_right _ hW)

theorem capGap_plain (rest : List (Nat × Str)) (h : ∀ p ∈ rest, isPlainText p.2 = true) :
    ∀ p ∈ rest.map capGap, isPlainText p.2 = true := by
  intro p hp
  obtain ⟨q, hq, rfl⟩ := List.mem_map.mp hp
  exact h q hq

/-- A run of three or more newlines in front of another character is matched whole. -/
theorem newlines3_here (k : Nat) (x : Char) (v : Str) (hx : x ≠ '\n') :
    (ms reNewlines3 (List.replicate (k + 3) '\n' ++ x :: v) []).head? = some (x :: v, []) := by
  have e : List.replicate (k + 3) '\n' ++ x :: v =
      ['\n'] ++ (['\n'] ++ (['\n'] ++ (List.replicate k '\n' ++ x :: v))) := by
    simp [List.replicate_succ]
  rw [reNewlines3_eq, e, ms_seq_lit, ms_seq_lit, ms_seq_lit, ms_star_char]
  apply greedyCuts_head
  · intro y hy
    simp at hy
    subst hy
    cases h : (CharSet.of ['\n']).mem x with
    | false => rfl
    | true => exact absurd ((CharSet.mem_of _ _).mp h) hx
  · intro y hy
    rw [List.eq_of_mem_replicate hy]
    decide

theorem gaps_collapse : ∀ (rest : List (Nat × Str)) (v : Str),
    (∀ p ∈ rest, isPlainText p.2 = true) →
    ReplaceAllString reNewlines3 (rest.flatMap quoteGap ++ v) [T "\n\n"] =
      (rest.map capGap).flatMap quoteGap ++ ReplaceAllString reNewlines3 v [T "\n\n"] := by
  intro rest
  induction rest with
  | nil => intro v _; rfl
  | cons p rest ih =>
    intro v h
    obtain ⟨k, t⟩ := p
    have ht : isPlainText t = true := h (k, t) (List.mem_cons_self _ _)
    have ih1 := ih v (fun q hq => h q (List.mem_cons_of_mem _ hq))
    obtain ⟨hne, hh, _, _, hcov⟩ := isPlainText_facts t ht
    obtain ⟨x, t1, rfl⟩ := List.exists_cons_of_ne_nil hne
    have hxa : alnum.mem x = true := hh x rfl
    have hx : x ≠ '\n' := by
      intro e; subst e; revert hxa; decide
    have htail : ReplaceAllString reNewlines3 ((x :: t1) ++ (rest.flatMap quoteGap ++ v))
        [T "\n\n"] = (x :: t1) ++
          ((rest.map capGap).flatMap quoteGap ++ ReplaceAllString reNewlines3 v [T "\n\n"]) := by
      rw [ReplaceAllString_skip _ (by decide) _ _ _
        (NoStart_of_covers _ _ _ _ (hcov _) (by decide)), ih1]
    have hd : Describes (startsIn alnum).cs (startsIn alnum).closed
        ((x :: t1) ++ (rest.flatMap quoteGap ++ v)) := Describes_startsIn _ _ _ hxa
    simp only [List.flatMap_cons, List.map_cons, quoteGap, capGap, List.append_assoc]
    rcases Nat.lt_or_ge k 2 with hk | hk
    · have hk2 : k = 0 ∨ k = 1 := by omega
      rcases hk2 with rfl | rfl
      · rw [ReplaceAllString_skip _ (by decide) _ _ _
          (NoStart_of_covers _ _ _ _ (CoversIn.lit (startsIn alnum) (List.replicate 1 '\n') _ hd)
            (by decide)), htail]
        simp [quoteGap, capGap]
      · rw [ReplaceAllString_skip _ (by decide) _ _ _
          (NoStart_of_covers _ _ _ _ (CoversIn.lit (startsIn alnum) (List.replicate 2 '\n') _ hd)
            (by decide)), htail]
        simp [quoteGap, capGap]
    · obtain ⟨j, rfl⟩ : ∃ j, k = j + 2 := ⟨k - 2, by omega⟩
      have e : (x :: t1) ++ (rest.flatMap quoteGap ++ v) =
          x :: (t1 ++ (rest.flatMap quoteGap ++ v)) := rfl
      rw [e, ReplaceAllString_here _ (by decide) _ _ _ _ (newlines3_here j x _ hx), ← e, htail,
        expand_txt]
      have hm : min (j + 2) 1 = 1 := by omega
      simp [quoteGap, capGap, hm, List.replicate_succ]

theorem newlines3_quote (l : Str) (rest : List (Nat × Str)) (hl : isPlainText l = true)
    (h : ∀ p ∈ rest, isPlainText p.2 = true) :
    ReplaceAllString reNewlines3 (quoteHtml l rest) [T "\n\n"] =
      quoteHtml l (rest.map capGap) := by
  have hcov := (isPlainText_facts l hl).2.2.2.2
  have e : quoteHtml l rest =
      "<blockquote>".data ++ (l ++ (rest.flatMap quoteGap ++ "</blockquote>".data)) := by
    simp [quoteHtml, quoteBody]
  have hd : Describes (startsIn alnum).cs (startsIn alnum).closed
      (l ++ (rest.flatMap quoteGap ++ "</blockquote>".data)) := Describes_alnum_plain l _ hl
  rw [e, ReplaceAllString_skip _ (by decide) _ _ _
    (NoStart_of_covers _ _ _ _ (CoversIn.lit (startsIn alnum) _ _ hd) (by decide)),
    ReplaceAllString_skip _ (by decide) _ _ _
      (NoStart_of_covers _ _ _ _ (hcov _) (by decide)),
    gaps_collapse rest _ h, ReplaceAllString_none _ _ _ (by decide)]
  simp [quoteHtml, quoteBody]

theorem Sanitize_quote (l : Str) (rest : List (Nat × Str)) (hl : isPlainText l = true)
    (h : ∀ p ∈ rest, isPlainText p.2 = true) :
    SanitizeWordPressContent (quoteHtml l rest) = quoteHtml l (rest.map capGap) := by
  have hc := quoteHtml_covers l rest hl h
  have hc2 := quoteHtml_covers l (rest.map capGap) hl (capGap_plain rest h)
  have ha : sanitizeRes2.all (fun r => r.absent quoteInWins) = true := by decide
  simp only [sanitizeRes2, List.all_cons, List.all_nil, Bool.and_true, Bool.and_eq_true] at ha
  obtain ⟨h1, h2, h4, h5, h6, h7⟩ := ha
  have htrim : TrimSpace (quoteHtml l (rest.map capGap)) = quoteHtml l (rest.map capGap) := by
    have e : quoteHtml l (rest.map capGap) =
        '<' :: (("blockquote>".data ++ quoteBody l (rest.map capGap) ++ "</blockquote".data) ++
          ">".data) := by
      simp [quoteHtml]
    rw [e]
    exact TrimSpace_tag _
  simp only [SanitizeWordPressContent, removeGutenbergComments, cleanWhitespace,
    removeEmptyParagraphs, ReplaceAllString_absent _ _ _ _ hc h1,
    ReplaceAllString_absent _ _ _ _ hc h2, newlines3_quote l rest hl h,
    ReplaceAllString_absent _ _ _ _ hc2 h4, ReplaceAllString_absent _ _ _ _ hc2 h5, htrim,
    ReplaceAllString_absent _ _ _ _ hc2 h6, ReplaceAllString_absent _ _ _ _ hc2 h7]

theorem splitLines_plain : ∀ (t : Str), '\n' ∉ t → splitLines t = [t] := by
  intro t
  induction t with
  | nil => intro _; rfl
  | cons c t ih =>
    intro h
    have hc : c ≠ '\n' := fun e => h (by rw [e]; exact List.mem_cons_self _ _)
    have ht : '\n' ∉ t := fun e => h (List.mem_cons_of_mem _ e)
    simp [splitLines, hc, ih ht]

theorem splitLines_line : ∀ (t s : Str), '\n' ∉ t →
    splitLines (t ++ '\n' :: s) = t :: splitLines s := by
  intro t
  induction t with
  | nil => intro s _; simp [splitLines]
  | cons c t ih =>
    intro s h
    have hc : c ≠ '\n' := fun e => h (by rw [e]; exact List.mem_cons_self _ _)
    have ht : '\n' ∉ t := fun e => h (List.mem_cons_of_mem _ e)
    simp [splitLines, hc, ih s ht]

theorem plain_no_newline (t : Str) (ht : isPlainText t = true) : '\n' ∉ t := by
  intro h
  have := (isPlainText_facts t ht).2.2.2.1 _ h
  revert this; decide

theorem quoteLines_blank : ∀ (k : Nat) (s : Str),
    quoteLines (splitLines (List.replicate k '\n' ++ s)) = quoteLines (splitLines s) := by
  intro k
  induction k with
  | zero => intro s; rfl
  | succ k ih =>
    intro s
    have e : List.replicate (k + 1) '\n' ++ s = '\n' :: (List.replicate k '\n' ++ s) := rfl
    rw [e]
    have e2 : splitLines ('\n' :: (List.replicate k '\n' ++ s)) =
        [] :: splitLines (List.replicate k '\n' ++ s) := by simp [splitLines]
    rw [e2]
    have e3 : ∀ r, quoteLines ([] :: r) = quoteLines r := by
      intro r
      have : TrimSpace [] = [] := by decide
      simp [quoteLines, this]
    rw [e3, ih]

theorem quoteLines_body : ∀ (rest : List (Nat × Str)) (l : Str), isPlainText l = true →
    (∀ p ∈ rest, isPlainText p.2 = true) →
    quoteLines (splitLines (quoteBody l rest)) =
      (quotedLines (l :: rest.map Prod.snd)).flatMap (fun t => t ++ "\n".data) := by
  intro rest
  induction rest with
  | nil =>
    intro l hl _
    have hne := (isPlainText_facts l hl).1
    have hemp : l.isEmpty = false := by cases l <;> simp at hne ⊢
    simp [quoteBody, splitLines_plain l (plain_no_newline l hl), quoteLines,
      (plain_clean l hl).2.2, hemp, quotedLines]
  | cons p rest ih =>
    intro l hl h
    obtain ⟨k, t⟩ := p
    have ht : isPlainText t = true := h (k, t) (List.mem_cons_self _ _)
    have ih1 := ih t ht (fun q hq => h q (List.mem_cons_of_mem _ hq))
    have hne := (isPlainText_facts l hl).1
    have hemp : l.isEmpty = false := by cases l <;> simp at hne ⊢
    have e : quoteBody l ((k, t) :: rest) =
        l ++ '\n' :: (List.replicate k '\n' ++ quoteBody t rest) := by
      simp [quoteBody, quoteGap, List.replicate_succ]
    rw [e, splitLines_line l _ (plain_no_newline l hl)]
    have e2 : ∀ r, quoteLines (l :: r) = "> ".data ++ l ++ "\n".data ++ quoteLines r := by
      intro r
      simp [quoteLines, (plain_clean l hl).2.2, hemp]
    rw [e2, quoteLines_blank, ih1]
    simp [quotedLines]

theorem anyChar_all (c : Char) : anyChar.mem c = true := by
  have := Char.toNat_le_max c
  simp [anyChar, CharSet.mem]
  omega

/-- The blockquote rule on a blockquote of plain lines. -/
theorem blockquote_rule (l : Str) (rest : List (Nat × Str)) (hl : isPlainText l = true)
    (h : ∀ p ∈ rest, isPlainText p.2 = true) :
    ReplaceAllStringFunc (reElemS "blockquote") (quoteHtml l rest) convertBlockquote =
      "\n".data ++ (quotedLines (l :: rest.map Prod.snd)).flatMap (fun t => t ++ "\n".data) ++
        "\n".data := by
  have hb := body_covers l rest ("</".data ++ ("blockquote".data ++ (">".data ++ []))) hl h
  have hns : NoStart (closeTag "blockquote".data) (quoteBody l rest)
      ("</".data ++ ("blockquote".data ++ (">".data ++ []))) :=
    NoStart_of_covers _ _ _ _ hb (by decide)
  have hm := ms_elem_head anyChar "blockquote".data (quoteBody l rest) []
    (fun x _ => anyChar_all x) hns
  have e : quoteHtml l rest = "<".data ++ ("blockquote".data ++ (">".data ++
      (quoteBody l rest ++ ("</".data ++ ("blockquote".data ++ (">".data ++ [])))))) := by
    simp [quoteHtml]
  have hfind : findFirst (reElemS "blockquote") (quoteHtml l rest) =
      some ⟨[], quoteHtml l rest, [(1, quoteBody l rest)], []⟩ := by
    have := findFirst_here (reElemS "blockquote") (quoteHtml l rest) [] [(1, quoteBody l rest)]
      (by rw [List.append_nil, e, reElemS_eq]; exact hm)
    rwa [List.append_nil] at this
  have hamp : '&' ∉ quoteBody l rest := by
    intro hx
    have hch : ∀ c ∈ quoteBody l rest, (alnum ++ CharSet.of [' ', '\n']).mem c = true := by
      intro c hc
      simp only [quoteBody, List.mem_append, List.mem_flatMap, quoteGap] at hc
      rcases hc with hc | ⟨p, hp, hc | hc⟩
      · exact CharSet.mem_mono _ _ (by decide) c ((isPlainText_facts l hl).2.2.2.1 c hc)
      · rw [List.eq_of_mem_replicate hc]; decide
      · exact CharSet.mem_mono _ _ (by decide) c ((isPlainText_facts p.2 (h p hp)).2.2.2.1 c hc)
    have := hch _ hx
    revert this; decide
  have hends : (∀ x, (quoteBody l rest).head? = some x → alnum.mem x = true) ∧
      (∀ x, (quoteBody l rest).getLast? = some x → alnum.mem x = true) := by
    obtain ⟨hne, hh, hlast, _⟩ := isPlainText_facts l hl
    constructor
    · intro x hx
      simp only [quoteBody] at hx
      rw [List.head?_append_of_ne_nil _ hne] at hx
      exact hh x hx
    · intro x hx
      rcases List.eq_nil_or_concat rest with h0 | ⟨r0, p, hp⟩
      · subst h0
        simp only [quoteBody, List.flatMap_nil, List.append_nil] at hx
        exact hlast x hx
      · have hpp := h p (by rw [hp]; simp)
        obtain ⟨hne2, _, hlast2, _⟩ := isPlainText_facts p.2 hpp
        have e3 : quoteBody l rest =
            (l ++ r0.flatMap quoteGap ++ List.replicate (p.1 + 1) '\n') ++ p.2 := by
          rw [hp]; simp [quoteBody, quoteGap]
        rw [e3, getLast?_append_ne _ _ hne2] at hx
        exact hlast2 x hx
  have hconv : convertBlockquote (quoteHtml l rest) =
      "\n".data ++ (quotedLines (l :: rest.map Prod.snd)).flatMap (fun t => t ++ "\n".data) ++
        "\n".data := by
    have hstrip : stripTags (quoteBody l rest) = quoteBody l rest :=
      stripTags_absent bodyWins _ (body_covers l rest [] hl h) (by decide)
    have htrim : TrimSpace (quoteBody l rest) = quoteBody l rest :=
      TrimSpace_id _
        (fun x hx => CharSet.not_mem_of_disjoint alnum goSpace (by decide) x (hends.1 x hx))
        (fun x hx => CharSet.not_mem_of_disjoint alnum goSpace (by decide) x (hends.2 x hx))
    simp only [convertBlockquote, FindStringSubmatch, hfind, Option.map_some', Match.subs,
      getCap, List.lookup, hstrip, htrim, UnescapeString_id _ hamp,
      quoteLines_body rest l hl h]
    simp [getCap, List.lookup]
    rw [hstrip, htrim, UnescapeString_id _ hamp, quoteLines_body rest l hl h]
  have hw : quoteHtml l rest = quoteHtml l rest ++ [] := by simp
  rw [hw, ReplaceAllStringFunc_here _ (by decide) _ (quoteHtml l rest) [] [(1, quoteBody l rest)]
    (by rw [List.append_nil, e, reElemS_eq]; exact hm), hconv,
    ReplaceAllStringFunc_none _ _ [] (by decide)]
  simp

theorem quoted_covers : ∀ (ls : List Str) (v : Str), (∀ t ∈ ls, isPlainText t = true) →
    CoversIn quoteWins (joinLines (quotedLines ls)) v := by
  intro ls
  induction ls with
  | nil => intro v _; exact CoversIn.nil _ _
  | cons t ts ih =>
    intro v hts
    have ht := hts t (List.mem_cons_self _ _)
    have hts' : ∀ t ∈ ts, isPlainText t = true := fun t h => hts t (List.mem_cons_of_mem _ h)
    have hline : ∀ w, CoversIn quoteWins ("> ".data ++ t) w := by
      intro w
      refine CoversIn.append ?_ ?_
      · exact (CoversIn.lit (startsIn alnum) _ _ (Describes_alnum_plain t w ht)).mono
          (fun W hW => List.mem_append_left _ (List.mem_append_left _
            (List.mem_append_left _ hW)))
      · exact ((isPlainText_facts t ht).2.2.2.2 w).mono
          (fun W hW => List.mem_append_left _ (List.mem_append_left _
            (List.mem_append_right _ hW)))
    cases ts with
    | nil => simpa [quotedLines, joinLines] using hline v
    | cons t2 ts =>
      simp only [quotedLines, List.map_cons, joinLines]
      refine CoversIn.append (hline _) (CoversIn.append ?_ ?_)
      · refine (CoversIn.lit (startsIn (CharSet.of ['>'])) _ _ ?_).mono
          (fun W hW => List.mem_append_left _ (List.mem_append_right _ hW))
        cases ts with
        | nil =>
          simp only [List.map_nil, joinLines, List.append_assoc]
          exact Describes_startsIn _ _ _ (by decide)
        | cons t3 ts =>
          simp only [List.map_cons, joinLines, List.append_assoc]
          exact Describes_startsIn _ _ _ (by decide)
      · have := ih v hts'
        simpa [quotedLines] using this

theorem quoted_facts : ∀ (ls : List Str), ls ≠ [] → (∀ t ∈ ls, isPlainText t = true) →
    joinLines (quotedLines ls) ≠ [] ∧
    (joinLines (quotedLines ls)).head? = some '>' ∧
    (∀ x, (joinLines (quotedLines ls)).getLast? = some x → alnum.mem x = true) ∧
    (∀ c ∈ joinLines (quotedLines ls), quoteChars.mem c = true) := by
  intro ts
  induction ts with
  | nil => intro h; exact absurd rfl h
  | cons t ts ih =>
    intro _ hts
    have ht := hts t (List.mem_cons_self _ _)
    obtain ⟨hne, _, hl, hch, _⟩ := isPlainText_facts t ht
    have hline : ∀ c ∈ "> ".data ++ t, quoteChars.mem c = true := by
      intro c hc
      rcases List.mem_append.mp hc with h | h
      · exact (by decide : ∀ c ∈ "> ".data, quoteChars.mem c = true) c h
      · exact CharSet.mem_mono _ quoteChars (by decide) c (hch c h)
    cases ts with
    | nil =>
      simp only [quotedLines, List.map_cons, List.map_nil, joinLines]
      refine ⟨by simp, rfl, ?_, hline⟩
      rw [getLast?_append_ne _ t hne]
      exact hl
    | cons t2 ts =>
      obtain ⟨h1, _, h3, h4⟩ := ih (by simp) (fun t h => hts t (List.mem_cons_of_mem _ h))
      simp only [quotedLines, List.map_cons, joinLines] at h1 h3 h4 ⊢
      refine ⟨by simp, rfl, ?_, ?_⟩
      · rw [getLast?_append_ne _ _ (by simp), getLast?_append_ne _ _ h1]
        exact h3
      · intro c hc
        rcases List.mem_append.mp hc with h | h
        · exact hline c h
        · rcases List.mem_append.mp h with h | h
          · exact (by decide : ∀ c ∈ "\n".data, quoteChars.mem c = true) c h
          · exact h4 c h

/-- The rules of `markdownRules` but the blockquote rule change nothing in a blockquote of
plain lines, and nothing in the quoted lines. -/
theorem markdownRules_quote (l : Str) (rest : List (Nat × Str)) (hl : isPlainText l = true)
    (h : ∀ p ∈ rest, isPlainText p.2 = true) :
    markdownRules (convertUnorderedLists (convertOrderedLists (quoteHtml l rest))) =
      "\n".data ++ joinLines (quotedLines (l :: rest.map Prod.snd)) ++ "\n\n".data := by
  have hc := quoteHtml_covers l rest hl h
  have hls : ∀ t ∈ l :: rest.map Prod.snd, isPlainText t = true := by
    intro t ht
    rcases List.mem_cons.mp ht with h1 | h1
    · rw [h1]; exact hl
    · obtain ⟨p, hp, rfl⟩ := List.mem_map.mp h1
      exact h p hp
  obtain ⟨hJne, hJhead, hJlast, hJchars⟩ := quoted_facts (l :: rest.map Prod.snd) (by simp) hls
  have hrule := blockquote_rule l rest hl h
  rw [flatMap_lines _ (by simp [quotedLines])] at hrule
  have hs1 : "\n".data ++ (joinLines (quotedLines (l :: rest.map Prod.snd)) ++ "\n".data) ++
      "\n".data = "\n".data ++ joinLines (quotedLines (l :: rest.map Prod.snd)) ++ "\n\n".data := by
    simp
  rw [hs1] at hrule
  have hlt : '<' ∉ "\n".data ++ joinLines (quotedLines (l :: rest.map Prod.snd)) ++
      "\n\n".data := by
    intro hx
    simp only [List.mem_append] at hx
    rcases hx with (hx | hx) | hx
    · revert hx; decide
    · have := hJchars _ hx; revert this; decide
    · revert hx; decide
  have hc2 := notLt_covers _ hlt
  simp only [convertOrderedLists, convertUnorderedLists, markdownRules]
  simp (disch := first | assumption | decide) only [ReplaceAllString_absent,
    ReplaceAllStringFunc_absent, convertHeading_absent, wrapElem_absent, convertTables_absent,
    stripTags_absent, hrule]

/-- A tag at the head of the input is matched up to its first `>`. -/
theorem reTag_here (y rest : Str) (hy : '>' ∉ y) :
    (ms reTag ('<' :: (y ++ '>' :: rest)) []).head? = some (rest, []) := by
  have hA : ∀ x ∈ y, notGt.mem x = true := by
    intro x hx
    exact (CharSet.mem_compl_one '>' x).mpr (fun e => hy (e ▸ hx))
  have : ms reTag ('<' :: (y ++ '>' :: rest)) [] = [(rest, [])] := by
    show ms (.seq (.lit "<".data) (.seq (.star true (.cls notGt)) (.lit ([] ++ ['>']))))
      ("<".data ++ (y ++ '>' :: rest)) [] = _
    rw [ms_seq_lit]
    exact ms_greedy_until_lit notGt '>' (by decide) [] y rest [] hA (by simp)
  rw [this]
  rfl

theorem stripTags_tag (y rest : Str) (hy : '>' ∉ y) :
    stripTags ('<' :: (y ++ '>' :: rest)) = stripTags rest := by
  unfold stripTags
  have e : '<' :: (y ++ '>' :: rest) = ('<' :: (y ++ ['>'])) ++ rest := by simp
  rw [e, ReplaceAllString_here _ (by decide) _ _ _ _ (by rw [← e]; exact reTag_here y rest hy)]
  rfl

theorem stripTags_para (t : Str) (ht : isPlainText t = true) :
    stripTags ("<p>".data ++ t ++ "</p>".data) = t := by
  have e : "<p>".data ++ t ++ "</p>".data = '<' :: ("p".data ++ '>' :: (t ++ "</p>".data)) := by
    simp
  rw [e, stripTags_tag _ _ (by decide)]
  unfold stripTags
  rw [ReplaceAllString_skip _ (by decide) _ _ _
    (NoStart_of_covers _ _ _ _ ((isPlainText_facts t ht).2.2.2.2 _) (by decide))]
  have e2 : "</p>".data = '<' :: ("/p".data ++ '>' :: []) := rfl
  have := stripTags_tag "/p".data [] (by decide)
  unfold stripTags at this
  rw [e2, this, ReplaceAllString_nil _ (by decide)]
  simp

theorem quotePara_covers (t : Str) (ht : isPlainText t = true) :
    CoversIn quoteParaWins (quoteParaHtml t) [] := by
  unfold quoteParaHtml
  rw [List.append_assoc]
  refine CoversIn.append ?_ (CoversIn.append ?_ ?_)
  · exact (CoversIn.lit (startsIn alnum) _ _ (by
      simpa [List.append_assoc] using Describes_alnum_plain t _ ht)).mono
      (fun W hW => List.mem_append_left _ (List.mem_append_left _ hW))
  · exact ((isPlainText_facts t ht).2.2.2.2 _).mono
      (fun W hW => List.mem_append_left _ (List.mem_append_right _ hW))
  · exact (CoversIn.lit endWin _ _ (by simp [endWin, Describes])).mono
      (fun W hW => List.mem_append_right _ hW)

/-- The blockquote rule on a blockquote around one paragraph: the tags of the paragraph
are removed before the line is quoted. -/
theorem blockquote_rule_para (t : Str) (ht : isPlainText t = true) :
    ReplaceAllStringFunc (reElemS "blockquote") (quoteParaHtml t) convertBlockquote =
      "\n".data ++ (quotedLines [t]).flatMap (fun t => t ++ "\n".data) ++ "\n".data := by
  have hb : CoversIn innerParaWins ("<p>".data ++ t ++ "</p>".data)
      ("</".data ++ ("blockquote".data ++ (">".data ++ []))) := by
    rw [List.append_assoc]
    refine CoversIn.append ?_ (CoversIn.append ?_ ?_)
    · exact (CoversIn.lit (startsIn alnum) _ _ (by
        simpa [List.append_assoc] using Describes_alnum_plain t _ ht)).mono
        (fun W hW => List.mem_append_left _ (List.mem_append_left _ hW))
    · exact ((isPlainText_facts t ht).2.2.2.2 _).mono
        (fun W hW => List.mem_append_left _ (List.mem_append_right _ hW))
    · exact (CoversIn.lit anyWin _ _ (Describes_any _)).mono
        (fun W hW => List.mem_append_right _ hW)
  have hns : NoStart (closeTag "blockquote".data) ("<p>".data ++ t ++ "</p>".data)
      ("</".data ++ ("blockquote".data ++ (">".data ++ []))) :=
    NoStart_of_covers _ _ _ _ hb (by decide)
  have hm := ms_elem_head anyChar "blockquote".data ("<p>".data ++ t ++ "</p>".data) []
    (fun x _ => anyChar_all x) hns
  have e : quoteParaHtml t = "<".data ++ ("blockquote".data ++ (">".data ++
      (("<p>".data ++ t ++ "</p>".data) ++
        ("</".data ++ ("blockquote".data ++ (">".data ++ [])))))) := by
    simp [quoteParaHtml]
  have hfind : findFirst (reElemS "blockquote") (quoteParaHtml t) =
      some ⟨[], quoteParaHtml t, [(1, "<p>".data ++ t ++ "</p>".data)], []⟩ := by
    have := findFirst_here (reElemS "blockquote") (quoteParaHtml t) []
      [(1, "<p>".data ++ t ++ "</p>".data)]
      (by rw [List.append_nil, e, reElemS_eq]; exact hm)
    rwa [List.append_nil] at this
  obtain ⟨_, h2, h3⟩ := plain_clean t ht
  have hne := (isPlainText_facts t ht).1
  have hemp : t.isEmpty = false := by cases t <;> simp at hne ⊢
  have hconv : convertBlockquote (quoteParaHtml t) =
      "\n".data ++ (quotedLines [t]).flatMap (fun t => t ++ "\n".data) ++ "\n".data := by
    have hg : getCap ((0, quoteParaHtml t) :: [(1, "<p>".data ++ t ++ "</p>".data)]) 1 =
        "<p>".data ++ t ++ "</p>".data := rfl
    simp only [convertBlockquote, FindStringSubmatch, hfind, Option.map_some', Match.subs]
    rw [hg, stripTags_para t ht, h3, h2, splitLines_plain t (plain_no_newline t ht)]
    simp [quoteLines, h3, hemp, quotedLines]
  have hw : quoteParaHtml t = quoteParaHtml t ++ [] := by simp
  rw [hw, ReplaceAllStringFunc_here _ (by decide) _ (quoteParaHtml t) []
    [(1, "<p>".data ++ t ++ "</p>".data)]
    (by rw [List.append_nil, e, reElemS_eq]; exact hm), hconv,
    ReplaceAllStringFunc_none _ _ [] (by decide)]
  simp

/-- The end of `ConvertToMarkdown` on quoted lines between newlines. -/
theorem quote_finish (ls : List Str) (hne : ls ≠ []) (hls : ∀ t ∈ ls, isPlainText t = true) :
    '<' ∉ "\n".data ++ joinLines (quotedLines ls) ++ "\n\n".data ∧
    markdownFinish ("\n".data ++ joinLines (quotedLines ls) ++ "\n\n".data) =
      Join (quotedLines ls) "\n".data := by
  obtain ⟨hJne, hJhead, hJlast, hJchars⟩ := quoted_facts ls hne hls
  have hch : ∀ c ∈ "\n".data ++ joinLines (quotedLines ls) ++ "\n\n".data,
      quoteChars.mem c = true := by
    intro c hx
    simp only [List.mem_append] at hx
    rcases hx with (hx | hx) | hx
    · exact (by decide : ∀ c ∈ "\n".data, quoteChars.mem c = true) c hx
    · exact hJchars _ hx
    · exact (by decide : ∀ c ∈ "\n\n".data, quoteChars.mem c = true) c hx
  have hamp : '&' ∉ "\n".data ++ joinLines (quotedLines ls) ++ "\n\n".data := by
    intro hx; have := hch _ hx; revert this; decide
  have hc1 : CoversIn quoteWins ("\n".data ++ joinLines (quotedLines ls) ++ "\n\n".data) [] := by
    rw [List.append_assoc]
    refine CoversIn.append ?_ (CoversIn.append (quoted_covers _ _ hls) ?_)
    · refine (CoversIn.lit (startsIn (CharSet.of ['>'])) _ _ ?_).mono
        (fun W hW => List.mem_append_left _ (List.mem_append_right _ hW))
      obtain ⟨x, s, hs⟩ := List.exists_cons_of_ne_nil hJne
      rw [hs] at hJhead ⊢
      simp at hJhead
      subst hJhead
      exact Describes_startsIn _ _ _ (by decide)
    · exact (CoversIn.lit endWin _ _ (by simp [endWin, Describes])).mono
        (fun W hW => List.mem_append_right _ hW)
  refine ⟨fun hx => by have := hch _ hx; revert this; decide, ?_⟩
  rw [markdownFinish_strip quoteWins _ _ _ hamp hc1 (quoted_covers _ [] hls) (by decide)
      (by decide) (by decide)
      (fun x hx => by rw [hJhead] at hx; simp at hx; subst hx; decide)
      (fun x hx => CharSet.not_mem_of_disjoint alnum goSpace (by decide) x (hJlast x hx)) hJne,
    Join_newline]

theorem markdownRules_quotePara (t : Str) (ht : isPlainText t = true) :
    markdownRules (convertUnorderedLists (convertOrderedLists (quoteParaHtml t))) =
      "\n".data ++ joinLines (quotedLines [t]) ++ "\n\n".data := by
  have hc := quotePara_covers t ht
  have hrule := blockquote_rule_para t ht
  rw [flatMap_lines _ (by simp [quotedLines])] at hrule
  have hs1 : "\n".data ++ (joinLines (quotedLines [t]) ++ "\n".data) ++ "\n".data =
      "\n".data ++ joinLines (quotedLines [t]) ++ "\n\n".data := by
    simp
  rw [hs1] at hrule
  have hc2 := notLt_covers _ (quote_finish [t] (by simp) (by simpa using ht)).1
  simp only [convertOrderedLists, convertUnorderedLists, markdownRules]
  simp (disch := first | assumption | decide) only [ReplaceAllString_absent,
    ReplaceAllStringFunc_absent, convertHeading_absent, wrapElem_absent, convertTables_absent,
    stripTags_absent, hrule]

theorem quotePara_markdown (t : Str) (ht : isPlainText t = true) :
    ConvertToMarkdown (quoteParaHtml t) = "> ".data ++ t := by
  have hc := quotePara_covers t ht
  have htrim : TrimSpace (quoteParaHtml t) = quoteParaHtml t := by
    have e : quoteParaHtml t =
        '<' :: (("blockquote><p>".data ++ t ++ "</p></blockquote".data) ++ ">".data) := by
      simp [quoteParaHtml]
    rw [e]
    exact TrimSpace_tag _
  rw [ConvertToMarkdown_legacy _ (hasNestedList_absent _ _ hc (by decide)),
    Sanitize_id _ _ hc (by decide) htrim, markdownRules_quotePara t ht,
    (quote_finish [t] (by simp) (by simpa using ht)).2, Join_newline]
  rfl

/-! ## Attributes with quoted values -/

theorem reImgSrcAlt_eq : reImgSrcAlt = imgTwo "src=".data "alt=".data := rfl

theorem reImgAltSrc_eq : reImgAltSrc = imgTwo "alt=".data "src=".data := rfl

theorem reImgSrc_eq : reImgSrc =
    .seq (.lit "<img".data) (.seq (.star true (.cls notGt)) (imgKey 1 "src=".data)) := rfl

theorem reLinkS_eq : reLinkS =
    .seq (.lit "<a".data) (.seq (.star true (.cls notGt)) linkKey) := rfl

theorem quoted_eq (i : Nat) : quoted i = .seq (.cls quoteSet)
    (.seq (.grp i (.star true (.cls notQuote))) (.cls quoteSet)) := rfl

/-- A continuation that fails at every cut of a greedy run fails behind the run. -/
theorem cuts_fail (A : CharSet) (q : Re) (c : Caps) (v : Str)
    (hv : ms q v c = []) (hvA : ∀ a, v.head? = some a → A.mem a = false) :
    ∀ (u : Str), (∀ a ∈ u, A.mem a = true) → NoStart q u v →
      (greedyCuts A c (u ++ v)).flatMap (fun r => ms q r.1 r.2) = [] := by
  intro u
  induction u with
  | nil =>
    intro _ _
    cases v with
    | nil => simpa [greedyCuts] using hv
    | cons x v => simpa [greedyCuts, hvA x rfl] using hv
  | cons a u ih =>
    intro hu hns
    have ha := hu a (List.mem_cons_self _ _)
    have e : (a :: u) ++ v = a :: (u ++ v) := rfl
    have h0 := hns [] (a :: u) c rfl (by simp)
    rw [e] at h0 ⊢
    simp only [greedyCuts, ha, if_true, List.flatMap_append, List.flatMap_cons, List.flatMap_nil,
      List.append_nil, ih (fun x hx => hu x (List.mem_cons_of_mem _ hx)) hns.tail, h0]

theorem ms_star_fail (A : CharSet) (q : Re) (c : Caps) (u v : Str)
    (hu : ∀ a ∈ u, A.mem a = true) (hns : NoStart q u v) (hv : ms q v c = [])
    (hvA : ∀ a, v.head? = some a → A.mem a = false) :
    ms (.seq (.star true (.cls A)) q) (u ++ v) c = [] := by
  rw [ms_seq, ms_star_greedy_cls]
  exact cuts_fail A q c v hv hvA u hu hns

/-- The preferred result of a continuation behind a greedy run: the one at the last cut
of the run where the continuation succeeds. -/
theorem ms_greedy_find (A : CharSet) (q : Re) (c : Caps) (x : Char) (u v : Str)
    (hx : A.mem x = true) (hu : ∀ a ∈ u, A.mem a = true) (hns : NoStart q u v)
    (hv : ms q v c = []) (hvA : ∀ a, v.head? = some a → A.mem a = false)
    (hne : ms q (x :: (u ++ v)) c ≠ []) :
    ∀ (y : Str), (∀ a ∈ y, A.mem a = true) →
      (ms (.seq (.star true (.cls A)) q) (y ++ x :: (u ++ v)) c).head? =
        (ms q (x :: (u ++ v)) c).head? := by
  intro y
  simp only [ms_seq, ms_star_greedy_cls]
  induction y with
  | nil =>
    intro _
    simp only [List.nil_append, greedyCuts, hx, if_true, List.flatMap_append, List.flatMap_cons,
      List.flatMap_nil, List.append_nil, cuts_fail A q c v hv hvA u hu hns, List.nil_append]
  | cons a y ih =>
    intro hy
    have ha := hy a (List.mem_cons_self _ _)
    have h1 := ih (fun b hb => hy b (List.mem_cons_of_mem _ hb))
    have e : (a :: y) ++ x :: (u ++ v) = a :: (y ++ x :: (u ++ v)) := rfl
    rw [e]
    simp only [greedyCuts, ha, if_true, List.flatMap_append]
    have hne2 : (greedyCuts A c (y ++ x :: (u ++ v))).flatMap (fun r => ms q r.1 r.2) ≠ [] := by
      intro e0
      rw [e0] at h1
      cases hq : ms q (x :: (u ++ v)) c with
      | nil => exact hne hq
      | cons r rs => rw [hq] at h1; simp at h1
    rw [List.head?_append_of_ne_nil _ hne2]
    exact h1

/-- A quoted value is read up to its closing quote. -/
theorem ms_quoted (i : Nat) (q1 q2 : Char) (h1 : quoteSet.mem q1 = true)
    (h2 : quoteSet.mem q2 = true) (val rest : Str) (c : Caps)
    (hval : ∀ x ∈ val, notQuote.mem x = true) :
    ms (quoted i) (q1 :: (val ++ q2 :: rest)) c = [(rest, (i, val) :: c)] := by
  rw [quoted_eq, ms_seq, ms_cls_cons, h1]
  simp only [if_true, List.flatMap_cons, List.flatMap_nil, List.append_nil]
  rw [ms_seq, ms_grp, ms_star_greedy_cls, List.flatMap_map]
  have hq2 : notQuote.mem q2 = false := by
    cases h : notQuote.mem q2 with
    | false => rfl
    | true =>
      have := CharSet.not_mem_of_disjoint notQuote quoteSet (by decide) q2 h
      rw [h2] at this; exact Bool.noConfusion this
  have h := greedyCuts_skip notQuote c
    (fun r => ms (.cls quoteSet) r.1
      ((i, (val ++ q2 :: rest).take ((val ++ q2 :: rest).length - r.1.length)) :: r.2))
    (q2 :: rest)
    (fun a s ha => by
      simp only [ms_cls_cons]
      rw [CharSet.not_mem_of_disjoint notQuote quoteSet (by decide) a ha]
      rfl)
    (fun x hx => by simp at hx; subst hx; exact hq2) val hval
  rw [h]
  simp [ms_cls_cons, h2]

theorem ms_quoted_not (i : Nat) (x : Char) (s : Str) (c : Caps) (hx : quoteSet.mem x = false) :
    ms (quoted i) (x :: s) c = [] := by
  rw [quoted_eq, ms_seq, ms_cls_cons, hx]
  rfl

/-- A quoted value without its closing quote is not read. -/
theorem ms_quoted_open (i : Nat) (q1 : Char) (val : Str) (c : Caps)
    (hval : ∀ x ∈ val, notQuote.mem x = true) : ms (quoted i) (q1 :: val) c = [] := by
  rw [quoted_eq, ms_seq, ms_cls_cons]
  by_cases h1 : quoteSet.mem q1 = true
  · simp only [h1, if_true, List.flatMap_cons, List.flatMap_nil, List.append_nil]
    rw [ms_seq, ms_grp, ms_star_greedy_cls, List.flatMap_map]
    have h := greedyCuts_skip notQuote c
      (fun r => ms (.cls quoteSet) r.1
        ((i, val.take (val.length - r.1.length)) :: r.2))
      []
      (fun a s ha => by
        simp only [ms_cls_cons]
        rw [CharSet.not_mem_of_disjoint notQuote quoteSet (by decide) a ha]
        rfl)
      (fun x hx => by simp at hx) val hval
    rw [List.append_nil] at h
    rw [h]
    rfl
  · simp [h1]

/-- A literal that is a prefix of a text in front of a character it does not hold lies
inside the text. -/
theorem prefix_stop (d : Char) (v : Str) : ∀ (k h2 : Str), d ∉ k →
    k.isPrefixOf (h2 ++ d :: v) = true → ∃ h3, h2 = k ++ h3 := by
  intro k
  induction k with
  | nil => intro h2 _ _; exact ⟨h2, rfl⟩
  | cons x k ih =>
    intro h2 hd hp
    cases h2 with
    | nil =>
      simp only [List.nil_append, List.isPrefixOf, Bool.and_eq_true, beq_iff_eq] at hp
      exact absurd (by rw [hp.1]; exact List.mem_cons_self _ _) hd
    | cons y h2 =>
      simp only [List.cons_append, List.isPrefixOf, Bool.and_eq_true, beq_iff_eq] at hp
      obtain ⟨h3, rfl⟩ := ih h2 (fun h => hd (List.mem_cons_of_mem _ h)) hp.2
      exact ⟨h3, by rw [hp.1]; rfl⟩

/-- A key with a quoted value cannot be read inside a value without quotes, when what
follows the closing quote of that value gives no second value. -/
theorem key_fail (k : Str) (i : Nat) (K : Re) (d : Char) (v : Str) (hk : d ∉ k)
    (hK : ∀ c, ms (.seq (quoted i) K) (d :: v) c = []) (h2 : Str) (c : Caps)
    (hh : ∀ x ∈ h2, notQuote.mem x = true) :
    ms (.seq (.lit k) (.seq (quoted i) K)) (h2 ++ d :: v) c = [] := by
  rw [ms_seq_lit_if]
  split
  · rename_i hp
    obtain ⟨h3, rfl⟩ := prefix_stop d v k h2 hk hp
    rw [List.append_assoc, List.drop_left]
    cases h3 with
    | nil => exact hK c
    | cons x h3 =>
      have hx : quoteSet.mem x = false :=
        CharSet.not_mem_of_disjoint notQuote quoteSet (by decide) x
          (hh x (List.mem_append_right _ (List.mem_cons_self _ _)))
      rw [ms_seq, List.cons_append, ms_quoted_not i x _ c hx]
      rfl
  · rfl

theorem NoStart_key (k : Str) (i : Nat) (K : Re) (d : Char) (v : Str) (hk : d ∉ k)
    (hK : ∀ c, ms (.seq (quoted i) K) (d :: v) c = []) (s : Str)
    (hs : ∀ x ∈ s, notQuote.mem x = true) :
    NoStart (.seq (.lit k) (.seq (quoted i) K)) s (d :: v) := by
  intro u1 u2 c he _
  exact key_fail k i K d v hk hK u2 c
    (fun x hx => hs x (by rw [he]; exact List.mem_append_right _ hx))

theorem ms_key_first (x0 : Char) (k : Str) (K : Re) (y : Char) (s : Str) (c : Caps)
    (h : y ≠ x0) : ms (.seq (.lit (x0 :: k)) K) (y :: s) c = [] := by
  rw [ms_seq_lit_if]
  have : ¬ x0 = y := fun e => h e.symm
  simp [List.isPrefixOf, this]

/-- A pattern that starts with a literal starts nowhere in a piece without the first
character of that literal. -/
theorem NoStart_first (x0 : Char) (k : Str) (K : Re) (piece v : Str)
    (h : ∀ c ∈ piece, c ≠ x0) : NoStart (.seq (.lit (x0 :: k)) K) piece v := by
  intro u1 u2 c he hne
  cases u2 with
  | nil => exact absurd rfl hne
  | cons y u2 =>
    exact ms_key_first x0 k K y _ c (h y (by rw [he]; simp))

theorem ms_imgEnd (rest : Str) (c : Caps) : ms imgEnd ('>' :: rest) c = [(rest, c)] := by
  unfold imgEnd
  rw [ms_seq_greedy_stop _ _ _ _ _ (by decide)]
  simp [ms_seq, ms_alt, ms_lit, opt, L, List.isPrefixOf]

theorem NoStart_cons {r : Re} {x : Char} {u v : Str} (h0 : ∀ c, ms r (x :: (u ++ v)) c = [])
    (h : NoStart r u v) : NoStart r (x :: u) v := by
  intro u1 u2 c he hne
  cases u1 with
  | nil =>
    simp only [List.nil_append] at he
    subst he
    exact h0 c
  | cons y u1 =>
    simp only [List.cons_append, List.cons.injEq] at he
    exact h u1 u2 c he.2 hne

/-! ## Links -/

theorem urlChar_mem (c : Char) (h : urlChar c = true) : urlChars.mem c = true := by
  have hc := Char.toNat_le_max c
  simp only [urlChar, Bool.and_eq_true, Bool.not_eq_true', bne_iff_ne, ne_eq] at h
  obtain ⟨⟨⟨⟨⟨h1, h2⟩, h3⟩, h4⟩, h5⟩, h6⟩ := h
  have e2 : c.toNat ≠ 34 := fun e => h2 (Char.eq_of_toNat_eq c '"' e)
  have e3 : c.toNat ≠ 39 := fun e => h3 (Char.eq_of_toNat_eq c '\'' e)
  have e4 : c.toNat ≠ 38 := fun e => h4 (Char.eq_of_toNat_eq c '&' e)
  have e5 : c.toNat ≠ 60 := fun e => h5 (Char.eq_of_toNat_eq c '<' e)
  have e6 : c.toNat ≠ 62 := fun e => h6 (Char.eq_of_toNat_eq c '>' e)
  have h1' : ¬ (goSpace.mem c = true) := by rw [h1]; exact Bool.false_ne_true
  simp only [goSpace, CharSet.mem, List.any_cons, List.any_nil, Bool.or_false, Bool.or_eq_true,
    Bool.and_eq_true, Nat.ble_eq] at h1'
  simp only [urlChars, CharSet.compl, CharSet.gaps, CharSet.mem]
  simp [Nat.blt_eq, Nat.ble_eq]
  omega

theorem url_chars (s : Str) (h : isUrlText s = true) : ∀ c ∈ s, urlChars.mem c = true := by
  intro c hc
  simp only [isUrlText, List.all_eq_true] at h
  exact urlChar_mem c (h c hc)

theorem url_sub (B : CharSet) (hB : ∀ iv ∈ urlChars, ∃ jv ∈ B, jv.1 ≤ iv.1 ∧ iv.2 ≤ jv.2)
    (s : Str) (h : isUrlText s = true) : ∀ c ∈ s, B.mem c = true :=
  fun c hc => CharSet.mem_mono urlChars B hB c (url_chars s h c hc)

theorem plain_sub (B : CharSet)
    (hB : ∀ iv ∈ alnum ++ CharSet.of [' '], ∃ jv ∈ B, jv.1 ≤ iv.1 ∧ iv.2 ≤ jv.2)
    (t : Str) (h : isPlainText t = true) : ∀ c ∈ t, B.mem c = true :=
  fun c hc => CharSet.mem_mono _ B hB c ((isPlainText_facts t h).2.2.2.1 c hc)

theorem url_not_mem (z : Char) (hz : urlChars.mem z = false) (s : Str)
    (h : isUrlText s = true) : z ∉ s :=
  not_mem_of_class urlChars z hz s (url_chars s h)

theorem Describes_urlLook (d : Char) (s v : Str) (h : isUrlText s = true) :
    Describes (startsIn (urlChars ++ CharSet.of [d])).cs (startsIn (urlChars ++ CharSet.of [d])).closed
      (s ++ d :: v) := by
  cases s with
  | nil =>
    refine Describes_startsIn _ _ _ ?_
    rw [CharSet.mem_append, (CharSet.mem_of d d).mpr rfl]
    simp
  | cons x s =>
    refine Describes_startsIn _ _ _ ?_
    rw [CharSet.mem_append, url_chars _ h x (List.mem_cons_self _ _)]
    rfl

theorem linkHtml_covers (h t : Str) (hh : isUrlText h = true) (ht : isPlainText t = true) :
    CoversIn linkInWins (linkHtml h t) [] := by
  unfold linkHtml
  simp only [List.append_assoc]
  refine CoversIn.append ?_ (CoversIn.append ?_ (CoversIn.append ?_ (CoversIn.append ?_ ?_)))
  · refine (CoversIn.lit (startsIn (urlChars ++ CharSet.of ['"'])) _ _ ?_).mono
      (fun W hW => by
        simp only [linkInWins, List.mem_append]; exact Or.inl (Or.inl (Or.inl (Or.inl hW))))
    simpa [List.append_assoc] using Describes_urlLook '"' h ('>' :: (t ++ "</a>".data)) hh
  · exact (CoversIn.ofClass urlChars _ _ (url_chars h hh)).mono
      (fun W hW => by simp only [linkInWins, List.mem_append]; exact Or.inl (Or.inl (Or.inl (Or.inr hW))))
  · refine (CoversIn.lit (startsIn alnum) _ _ ?_).mono
      (fun W hW => by simp only [linkInWins, List.mem_append]; exact Or.inl (Or.inl (Or.inr hW)))
    simpa [List.append_assoc] using Describes_alnum_plain t "</a>".data ht
  · exact ((isPlainText_facts t ht).2.2.2.2 _).mono
      (fun W hW => by simp only [linkInWins, List.mem_append]; exact Or.inl (Or.inr hW))
  · exact (CoversIn.lit endWin _ _ (by simp [endWin, Describes])).mono
      (fun W hW => by simp only [linkInWins, List.mem_append]; exact Or.inr hW)

theorem linkMd_covers (h t : Str) (hh : isUrlText h = true) (ht : isPlainText t = true) :
    CoversIn linkOutWins (linkMd h t) [] := by
  unfold linkMd
  simp only [List.append_assoc]
  refine CoversIn.append ?_ (CoversIn.append ?_ (CoversIn.append ?_ (CoversIn.append ?_ ?_)))
  · refine (CoversIn.lit (startsIn alnum) _ _ ?_).mono
      (fun W hW => by simp only [linkOutWins, List.mem_append]; exact Or.inl (Or.inl (Or.inl (Or.inl hW))))
    simpa [List.append_assoc] using Describes_alnum_plain t ("](".data ++ (h ++ ")".data)) ht
  · exact ((isPlainText_facts t ht).2.2.2.2 _).mono
      (fun W hW => by simp only [linkOutWins, List.mem_append]; exact Or.inl (Or.inl (Or.inl (Or.inr hW))))
  · refine (CoversIn.lit (startsIn (urlChars ++ CharSet.of [')'])) _ _ ?_).mono
      (fun W hW => by simp only [linkOutWins, List.mem_append]; exact Or.inl (Or.inl (Or.inr hW)))
    simpa [List.append_assoc] using Describes_urlLook ')' h [] hh
  · exact (CoversIn.ofClass urlChars _ _ (url_chars h hh)).mono
      (fun W hW => by simp only [linkOutWins, List.mem_append]; exact Or.inl (Or.inr hW))
  · exact (CoversIn.lit endWin _ _ (by simp [endWin, Describes])).mono
      (fun W hW => by simp only [linkOutWins, List.mem_append]; exact Or.inr hW)

/-- The link pattern on a link: submatch 1 is the address, submatch 2 the text. -/
theorem link_head (h t : Str) (hh : isUrlText h = true) (ht : isPlainText t = true) :
    (ms reLinkS (linkHtml h t ++ []) []).head? = some ([], [(2, t), (1, h)]) := by
  have hq : ∀ c ∈ h, notQuote.mem c = true := url_sub notQuote (by decide) h hh
  have hg : ∀ c ∈ h, notGt.mem c = true := url_sub notGt (by decide) h hh
  have htq : ∀ c ∈ t, notQuote.mem c = true := plain_sub notQuote (by decide) t ht
  have hta : ∀ c ∈ t, anyChar.mem c = true := fun c _ => anyChar_all c
  have e : linkHtml h t ++ [] = "<a".data ++ ([' '] ++ 'h' ::
      (("ref=\"".data ++ (h ++ ['"'])) ++ '>' :: (t ++ "</a>".data))) := by
    simp [linkHtml]
  have hvq : ∀ x ∈ '>' :: (t ++ "</a>".data), notQuote.mem x = true := by
    intro x hx
    rcases List.mem_cons.mp hx with h1 | h1
    · rw [h1]; decide
    · rcases List.mem_append.mp h1 with h2 | h2
      · exact htq x h2
      · exact (by decide : ∀ x ∈ "</a>".data, notQuote.mem x = true) x h2
  have hK : ∀ c, ms (.seq (quoted 1) linkEnd) ('"' :: ('>' :: (t ++ "</a>".data))) c = [] := by
    intro c
    rw [ms_seq, ms_quoted_open 1 '"' _ c hvq]
    rfl
  have hns : NoStart linkKey ("ref=\"".data ++ (h ++ ['"'])) ('>' :: (t ++ "</a>".data)) := by
    refine NoStart_append (NoStart_first 'h' "ref=".data _ _ _ (by decide)) (NoStart_append ?_ ?_)
    · exact NoStart_key "href=".data 1 linkEnd '"' _ (by decide) hK h hq
    · exact NoStart_first 'h' "ref=".data _ _ _ (by decide)
  have hend : (ms linkEnd ('>' :: (t ++ "</a>".data)) [(1, h)]).head? =
      some ([], [(2, t), (1, h)]) := by
    unfold linkEnd
    rw [ms_seq_greedy_stop _ _ _ _ _ (by decide)]
    have e2 : '>' :: (t ++ "</a>".data) = ">".data ++ (t ++ "</a>".data) := rfl
    rw [e2, ms_seq_lit, ms_lazy_find anyChar 2 (.lit "</a>".data) _ t "</a>".data hta
      (NoStart_of_covers _ _ _ _ ((isPlainText_facts t ht).2.2.2.2 _) (by decide))
      (by
        have := ms_lit_append "</a>".data [] [(2, t), (1, h)]
        rw [List.append_nil] at this
        rw [this]; simp)]
    have := ms_lit_append "</a>".data [] [(2, t), (1, h)]
    rw [List.append_nil] at this
    rw [this]
    rfl
  have hkey : ms linkKey ('h' :: (("ref=\"".data ++ (h ++ ['"'])) ++ '>' :: (t ++ "</a>".data))) [] =
      ms linkEnd ('>' :: (t ++ "</a>".data)) [(1, h)] := by
    have e3 : 'h' :: (("ref=\"".data ++ (h ++ ['"'])) ++ '>' :: (t ++ "</a>".data)) =
        "href=".data ++ ('"' :: (h ++ '"' :: ('>' :: (t ++ "</a>".data)))) := by simp
    unfold linkKey
    rw [e3, ms_seq_lit, ms_seq, ms_quoted 1 '"' '"' (by decide) (by decide) h _ [] hq]
    simp
  rw [e, reLinkS_eq, ms_seq_lit,
    ms_greedy_find notGt linkKey [] 'h' _ _ (by decide)
      (by
        intro a ha
        rcases List.mem_append.mp ha with h1 | h1
        · exact (by decide : ∀ x ∈ "ref=\"".data, notGt.mem x = true) a h1
        · rcases List.mem_append.mp h1 with h2 | h2
          · exact hg a h2
          · exact (by decide : ∀ x ∈ ['"'], notGt.mem x = true) a h2)
      hns (ms_key_first 'h' "ref=".data _ '>' _ [] (by decide))
      (fun a ha => by simp at ha; subst ha; decide)
      (by rw [hkey]; intro e0; rw [e0] at hend; simp at hend)
      [' '] (by decide),
    hkey, hend]

theorem link_rule (h t : Str) (hh : isUrlText h = true) (ht : isPlainText t = true) :
    ReplaceAllString reLinkS (linkHtml h t) [T "[", .ref 2, T "](", .ref 1, T ")"] =
      linkMd h t := by
  have hw : linkHtml h t = linkHtml h t ++ [] := by simp
  rw [hw, ReplaceAllString_here _ (by decide) _ _ _ _ (link_head h t hh ht),
    ReplaceAllString_nil _ (by decide)]
  simp [expand, T, getCap, List.lookup, linkMd]

theorem link_markdown (h t : Str) (hh : isUrlText h = true) (ht : isPlainText t = true) :
    ConvertToMarkdown (linkHtml h t) = linkMd h t := by
  have hc := linkHtml_covers h t hh ht
  have hco := linkMd_covers h t hh ht
  have hrule := link_rule h t hh ht
  have htrim : TrimSpace (linkHtml h t) = linkHtml h t := by
    have e : linkHtml h t = '<' :: (("a href=\"".data ++ h ++ "\">".data ++ t ++ "</a".data) ++
        ">".data) := by
      simp [linkHtml]
    rw [e]
    exact TrimSpace_tag _
  have hch : ∀ c ∈ linkMd h t, (urlChars ++ CharSet.of [' ', '[', ']', '(', ')']).mem c = true := by
    intro c hc
    simp only [linkMd, List.mem_append] at hc
    rcases hc with (((hc | hc) | hc) | hc) | hc
    · exact (by decide : ∀ c ∈ "[".data,
        (urlChars ++ CharSet.of [' ', '[', ']', '(', ')']).mem c = true) c hc
    · exact plain_sub _ (by decide) t ht c hc
    · exact (by decide : ∀ c ∈ "](".data,
        (urlChars ++ CharSet.of [' ', '[', ']', '(', ')']).mem c = true) c hc
    · exact url_sub _ (by decide) h hh c hc
    · exact (by decide : ∀ c ∈ ")".data,
        (urlChars ++ CharSet.of [' ', '[', ']', '(', ')']).mem c = true) c hc
  have hlt : '<' ∉ linkMd h t := by
    intro hx; have := hch _ hx; revert this; decide
  have hamp : '&' ∉ [] ++ linkMd h t ++ [] := by
    intro hx
    simp only [List.nil_append, List.append_nil] at hx
    have := hch _ hx; revert this; decide
  have hc2 := notLt_covers _ hlt
  have hne : linkMd h t ≠ [] := by simp [linkMd]
  have hfin := markdownFinish_strip linkOutWins [] (linkMd h t) [] hamp
    (by simpa using hco) hco (by decide) (by simp) (by simp)
    (fun x hx => by
      simp [linkMd] at hx; subst hx; decide)
    (fun x hx => by
      have e : linkMd h t = ("[".data ++ t ++ "](".data ++ h) ++ [')'] := by simp [linkMd]
      rw [e, List.getLast?_append_of_ne_nil _ (by simp)] at hx
      simp at hx; subst hx; decide) hne
  simp only [List.nil_append, List.append_nil] at hfin
  rw [ConvertToMarkdown_legacy _ (hasNestedList_absent _ _ hc (by decide)),
    Sanitize_id _ _ hc (by decide) htrim]
  simp only [convertOrderedLists, convertUnorderedLists, markdownRules]
  simp (disch := first | assumption | decide) only [ReplaceAllString_absent,
    ReplaceAllStringFunc_absent, convertHeading_absent, wrapElem_absent, convertTables_absent,
    stripTags_absent, hrule]
  exact hfin

/-! ## Images -/

theorem imgKey_here (i : Nat) (k x : Str) (c : Caps) (hx : ∀ y ∈ x, notQuote.mem y = true) :
    ms (imgKey i k) (k ++ ('"' :: (x ++ '"' :: ['>']))) c = [([], (i, x) :: c)] := by
  unfold imgKey
  rw [ms_seq_lit, ms_seq, ms_quoted i '"' '"' (by decide) (by decide) x _ c hx]
  simp [ms_imgEnd]

theorem imgKey_fail (i : Nat) (a2 : Char) (k2t : Str) (hq : '"' ∉ a2 :: k2t) (x2 : Str)
    (hx : ∀ x ∈ x2, notQuote.mem x = true) (h2 : '"' ≠ a2) :
    NoStart (imgKey i (a2 :: k2t)) (x2 ++ ['"']) ['>'] := by
  have hK2 : ∀ c, ms (.seq (quoted i) imgEnd) ('"' :: ['>']) c = [] := by
    intro c
    rw [ms_seq, ms_quoted_open i '"' _ c (by decide)]
    rfl
  exact NoStart_append (NoStart_key (a2 :: k2t) i imgEnd '"' ['>'] hq hK2 x2 hx)
    (NoStart_first a2 k2t _ ['"'] ['>'] (by intro c hc; simp at hc; subst hc; exact h2))

/-- The last attribute behind a space, found by the greedy `[^>]*`. -/
theorem imgMid_head (i : Nat) (a2 : Char) (k2t : Str) (x2 : Str) (c : Caps)
    (hk : ∀ x ∈ a2 :: k2t, notGt.mem x = true) (hq : '"' ∉ a2 :: k2t)
    (hf : ∀ x ∈ k2t ++ ['"'], x ≠ a2) (hgt : '>' ≠ a2)
    (hxq : ∀ x ∈ x2, notQuote.mem x = true) (hxg : ∀ x ∈ x2, notGt.mem x = true) :
    (ms (.seq (.star true (.cls notGt)) (imgKey i (a2 :: k2t)))
      ([' '] ++ a2 :: (imgTail1 k2t x2 ++ ['>'])) c).head? = some ([], (i, x2) :: c) := by
  have hns : NoStart (imgKey i (a2 :: k2t)) (imgTail1 k2t x2) ['>'] :=
    NoStart_append (NoStart_first a2 k2t _ _ _ hf)
      (imgKey_fail i a2 k2t hq x2 hxq (hf '"' (by simp)))
  have hkey : ms (imgKey i (a2 :: k2t)) (a2 :: (imgTail1 k2t x2 ++ ['>'])) c =
      [([], (i, x2) :: c)] := by
    have e : a2 :: (imgTail1 k2t x2 ++ ['>']) = (a2 :: k2t) ++ ('"' :: (x2 ++ '"' :: ['>'])) := by
      simp [imgTail1]
    rw [e]
    exact imgKey_here i _ x2 c hxq
  rw [ms_greedy_find notGt _ c a2 _ _ (hk a2 (List.mem_cons_self _ _))
    (by
      intro a ha
      have hone : ∀ x ∈ ['"'], notGt.mem x = true := by decide
      unfold imgTail1 at ha
      rcases List.mem_append.mp ha with h | h
      · rcases List.mem_append.mp h with h | h
        · exact hk a (List.mem_cons_of_mem _ h)
        · exact hone a h
      · rcases List.mem_append.mp h with h | h
        · exact hxg a h
        · exact hone a h)
    hns (ms_key_first a2 k2t _ '>' _ c hgt)
    (fun a ha => by simp at ha; subst ha; decide)
    (by rw [hkey]; simp) [' '] (by decide), hkey]
  rfl

/-- The image pattern with two attributes on an image with these attributes, in this
order: submatch 1 is the first value, submatch 2 the second. -/
theorem imgTwo_head (a1 : Char) (k1t : Str) (a2 : Char) (k2t : Str) (x1 x2 : Str)
    (hk1 : ∀ x ∈ a1 :: k1t, notGt.mem x = true) (hk2 : ∀ x ∈ a2 :: k2t, notGt.mem x = true)
    (hq1 : '"' ∉ a1 :: k1t) (hq2 : '"' ∉ a2 :: k2t)
    (hkq : ∀ x ∈ ' ' :: (a2 :: k2t), notQuote.mem x = true)
    (hf1 : ∀ x ∈ (k1t ++ ['"']) ++ ('"' :: ' ' :: ((a2 :: k2t) ++ ['"'])), x ≠ a1)
    (hf2 : ∀ x ∈ k2t ++ ['"'], x ≠ a2) (hg1 : '>' ≠ a1) (hg2 : '>' ≠ a2)
    (hx1q : ∀ x ∈ x1, notQuote.mem x = true) (hx1g : ∀ x ∈ x1, notGt.mem x = true)
    (hx2q : ∀ x ∈ x2, notQuote.mem x = true) (hx2g : ∀ x ∈ x2, notGt.mem x = true) :
    (ms (imgTwo (a1 :: k1t) (a2 :: k2t))
      ("<img".data ++ ([' '] ++ a1 :: (imgTail k1t x1 (a2 :: k2t) x2 ++ ['>']))) []).head? =
      some ([], [(2, x2), (1, x1)]) := by
  have hq0 : '"' ≠ a1 := hf1 '"' (by simp)
  have hK1b : ∀ c, ms (.seq (quoted 1) (.seq (.star true (.cls notGt)) (imgKey 2 (a2 :: k2t))))
      ('"' :: ['>']) c = [] := by
    intro c
    rw [ms_seq, ms_quoted_open 1 '"' _ c (by decide)]
    rfl
  have hK1a : ∀ c, ms (.seq (quoted 1) (.seq (.star true (.cls notGt)) (imgKey 2 (a2 :: k2t))))
      ('"' :: (((' ' :: ((a2 :: k2t) ++ ['"'])) ++ (x2 ++ ['"'])) ++ ['>'])) c = [] := by
    intro c
    have e : ((' ' :: ((a2 :: k2t) ++ ['"'])) ++ (x2 ++ ['"'])) ++ ['>'] =
        (' ' :: (a2 :: k2t)) ++ '"' :: ((x2 ++ ['"']) ++ ['>']) := by simp
    rw [e, ms_seq, ms_quoted 1 '"' '"' (by decide) (by decide) _ _ c hkq]
    simp only [List.flatMap_cons, List.flatMap_nil, List.append_nil]
    exact ms_star_fail notGt _ _ (x2 ++ ['"']) ['>']
      (by
        intro a ha
        rcases List.mem_append.mp ha with h1 | h1
        · exact hx2g a h1
        · simp at h1; rw [h1]; decide)
      (imgKey_fail 2 a2 k2t hq2 x2 hx2q (hf2 '"' (by simp)))
      (ms_key_first a2 k2t _ '>' _ _ hg2)
      (fun a ha => by simp at ha; subst ha; decide)
  have hns : NoStart (imgKey1 (a1 :: k1t) (a2 :: k2t)) (imgTail k1t x1 (a2 :: k2t) x2) ['>'] := by
    unfold imgTail imgKey1
    refine NoStart_append (NoStart_first a1 k1t _ _ _
      (fun x hx => hf1 x (List.mem_append_left _ hx))) (NoStart_append ?_ (NoStart_append
      (NoStart_first a1 k1t _ _ _ (fun x hx => hf1 x (List.mem_append_right _ hx)))
      (NoStart_append ?_ (NoStart_first a1 k1t _ _ _
        (by intro x hx; simp at hx; subst hx; exact hq0)))))
    · exact NoStart_key (a1 :: k1t) 1 _ '"' _ hq1 hK1a x1 hx1q
    · exact NoStart_key (a1 :: k1t) 1 _ '"' _ hq1 hK1b x2 hx2q
  have hmid := imgMid_head 2 a2 k2t x2 [(1, x1)] hk2 hq2 hf2 hg2 hx2q hx2g
  have hkey : ms (imgKey1 (a1 :: k1t) (a2 :: k2t))
      (a1 :: (imgTail k1t x1 (a2 :: k2t) x2 ++ ['>'])) [] =
      ms (.seq (.star true (.cls notGt)) (imgKey 2 (a2 :: k2t)))
        ([' '] ++ a2 :: (imgTail1 k2t x2 ++ ['>'])) [(1, x1)] := by
    have e : a1 :: (imgTail k1t x1 (a2 :: k2t) x2 ++ ['>']) =
        (a1 :: k1t) ++ ('"' :: (x1 ++ '"' :: ([' '] ++ a2 :: (imgTail1 k2t x2 ++ ['>'])))) := by
      simp [imgTail, imgTail1]
    unfold imgKey1
    rw [e, ms_seq_lit, ms_seq, ms_quoted 1 '"' '"' (by decide) (by decide) x1 _ [] hx1q]
    simp
  unfold imgTwo
  rw [ms_seq_lit, ms_greedy_find notGt _ [] a1 _ _ (hk1 a1 (List.mem_cons_self _ _))
    (by
      intro a ha
      have hone : ∀ x ∈ ['"'], notGt.mem x = true := by decide
      unfold imgTail at ha
      rcases List.mem_append.mp ha with h | h
      · rcases List.mem_append.mp h with h | h
        · exact hk1 a (List.mem_cons_of_mem _ h)
        · exact hone a h
      · rcases List.mem_append.mp h with h | h
        · exact hx1g a h
        · rcases List.mem_append.mp h with h | h
          · rcases List.mem_cons.mp h with h | h
            · rw [h]; decide
            · rcases List.mem_cons.mp h with h | h
              · rw [h]; decide
              · rcases List.mem_append.mp h with h | h
                · exact hk2 a h
                · exact hone a h
          · rcases List.mem_append.mp h with h | h
            · exact hx2g a h
            · exact hone a h)
    hns (ms_key_first a1 k1t _ '>' _ [] hg1)
    (fun a ha => by simp at ha; subst ha; decide)
    (by rw [hkey]; intro e0; rw [e0] at hmid; simp at hmid) [' '] (by decide), hkey, hmid]

theorem imgOne_head (s : Str) (hq : ∀ x ∈ s, notQuote.mem x = true)
    (hg : ∀ x ∈ s, notGt.mem x = true) :
    (ms reImgSrc ("<img".data ++ ([' '] ++ 's' :: (imgTail1 "rc=".data s ++ ['>']))) []).head? =
      some ([], [(1, s)]) := by
  rw [reImgSrc_eq, ms_seq_lit]
  exact imgMid_head 1 's' "rc=".data s [] (by decide) (by decide) (by decide) (by decide) hq hg

/-- The first key of a pattern with two attributes, read at the last attribute of an
image: the second key is missing. -/
theorem key1_last (a1 : Char) (k1t : Str) (a2 : Char) (k2t : Str) (x : Str) (hg2 : '>' ≠ a2)
    (hxq : ∀ y ∈ x, notQuote.mem y = true) (c : Caps) :
    ms (imgKey1 (a1 :: k1t) (a2 :: k2t)) ((a1 :: k1t) ++ '"' :: (x ++ '"' :: ['>'])) c = [] := by
  unfold imgKey1
  rw [ms_seq_lit, ms_seq, ms_quoted 1 '"' '"' (by decide) (by decide) x _ c hxq]
  simp only [List.flatMap_cons, List.flatMap_nil, List.append_nil]
  exact ms_star_fail notGt _ _ [] ['>'] (by simp) (NoStart_nil _ _)
    (ms_key_first a2 k2t _ '>' _ _ hg2) (fun a ha => by simp at ha; subst ha; decide)

theorem key1_open (a1 : Char) (k1t : Str) (a2 : Char) (k2t : Str) (hq1 : '"' ∉ a1 :: k1t)
    (x : Str) (hxq : ∀ y ∈ x, notQuote.mem y = true) :
    NoStart (imgKey1 (a1 :: k1t) (a2 :: k2t)) x ('"' :: ['>']) := by
  have hK1b : ∀ c, ms (.seq (quoted 1) (.seq (.star true (.cls notGt)) (imgKey 2 (a2 :: k2t))))
      ('"' :: ['>']) c = [] := by
    intro c
    rw [ms_seq, ms_quoted_open 1 '"' _ c (by decide)]
    rfl
  exact NoStart_key (a1 :: k1t) 1 _ '"' _ hq1 hK1b x hxq

/-- The first key of a pattern with two attributes cannot be read inside the first value
of an image with two attributes. -/
theorem key1_inner (a1 : Char) (k1t : Str) (a2 : Char) (k2t : Str) (hq1 : '"' ∉ a1 :: k1t)
    (hq2 : '"' ∉ a2 :: k2t) (hg2 : '>' ≠ a2) (h2 : '"' ≠ a2) (kk : Str)
    (hkk : ∀ x ∈ ' ' :: kk, notQuote.mem x = true) (x1 x2 : Str)
    (hx1q : ∀ y ∈ x1, notQuote.mem y = true) (hx2q : ∀ y ∈ x2, notQuote.mem y = true)
    (hx2g : ∀ y ∈ x2, notGt.mem y = true) :
    NoStart (imgKey1 (a1 :: k1t) (a2 :: k2t)) x1
      ('"' :: (((' ' :: (kk ++ ['"'])) ++ (x2 ++ ['"'])) ++ ['>'])) := by
  have hK1a : ∀ c, ms (.seq (quoted 1) (.seq (.star true (.cls notGt)) (imgKey 2 (a2 :: k2t))))
      ('"' :: (((' ' :: (kk ++ ['"'])) ++ (x2 ++ ['"'])) ++ ['>'])) c = [] := by
    intro c
    have e : ((' ' :: (kk ++ ['"'])) ++ (x2 ++ ['"'])) ++ ['>'] =
        (' ' :: kk) ++ '"' :: ((x2 ++ ['"']) ++ ['>']) := by simp
    rw [e, ms_seq, ms_quoted 1 '"' '"' (by decide) (by decide) _ _ c hkk]
    simp only [List.flatMap_cons, List.flatMap_nil, List.append_nil]
    exact ms_star_fail notGt _ _ (x2 ++ ['"']) ['>']
      (by
        intro a ha
        rcases List.mem_append.mp ha with h1 | h1
        · exact hx2g a h1
        · simp at h1; rw [h1]; decide)
      (imgKey_fail 2 a2 k2t hq2 x2 hx2q h2)
      (ms_key_first a2 k2t _ '>' _ _ hg2)
      (fun a ha => by simp at ha; subst ha; decide)
  exact NoStart_key (a1 :: k1t) 1 _ '"' _ hq1 hK1a x1 hx1q

/-- A pattern with two attributes does not match an image with one attribute. -/
theorem imgTwo_fail_one (a1 : Char) (k1t : Str) (a2 : Char) (k2t : Str) (b : Char) (kt x : Str)
    (hq1 : '"' ∉ a1 :: k1t) (hsp : ' ' ≠ a1) (hqa : '"' ≠ a1) (hga : '>' ≠ a1)
    (hf : ∀ y ∈ kt ++ ['"'], y ≠ a1) (hkg : ∀ y ∈ b :: kt, notGt.mem y = true)
    (hxq : ∀ y ∈ x, notQuote.mem y = true) (hxg : ∀ y ∈ x, notGt.mem y = true)
    (h0 : ∀ c, ms (imgKey1 (a1 :: k1t) (a2 :: k2t)) (b :: (imgTail1 kt x ++ ['>'])) c = [])
    (c : Caps) :
    ms (imgTwo (a1 :: k1t) (a2 :: k2t))
      ("<img".data ++ ([' '] ++ b :: (imgTail1 kt x ++ ['>']))) c = [] := by
  have hns : NoStart (imgKey1 (a1 :: k1t) (a2 :: k2t)) ([' '] ++ b :: imgTail1 kt x) ['>'] := by
    refine NoStart_append (NoStart_first a1 k1t _ _ _
      (by intro y hy; simp at hy; subst hy; exact hsp)) (NoStart_cons h0 ?_)
    unfold imgTail1
    exact NoStart_append (NoStart_first a1 k1t _ _ _ hf)
      (NoStart_append (key1_open a1 k1t a2 k2t hq1 x hxq)
        (NoStart_first a1 k1t _ _ _ (by intro y hy; simp at hy; subst hy; exact hqa)))
  unfold imgTwo
  have e : [' '] ++ b :: (imgTail1 kt x ++ ['>']) = ([' '] ++ b :: imgTail1 kt x) ++ ['>'] := by
    simp
  rw [ms_seq_lit, e]
  exact ms_star_fail notGt _ c _ ['>']
    (by
      intro a ha
      have hone : ∀ x ∈ ['"'], notGt.mem x = true := by decide
      rcases List.mem_append.mp ha with h | h
      · simp at h; rw [h]; decide
      · rcases List.mem_cons.mp h with h | h
        · rw [h]; exact hkg b (List.mem_cons_self _ _)
        · unfold imgTail1 at h
          rcases List.mem_append.mp h with h | h
          · rcases List.mem_append.mp h with h | h
            · exact hkg a (List.mem_cons_of_mem _ h)
            · exact hone a h
          · rcases List.mem_append.mp h with h | h
            · exact hxg a h
            · exact hone a h)
    hns (ms_key_first a1 k1t _ '>' _ c hga) (fun a ha => by simp at ha; subst ha; decide)

/-- The pattern with the attributes in the order `K1`, `K2` does not match an image
with two attributes whose first key does not start like `K1` and whose second key is
`K1`. -/
theorem imgTwo_fail_swapped (a1 : Char) (k1t : Str) (a2 : Char) (k2t : Str) (b1 : Char)
    (kk1t : Str) (y1 y2 : Str)
    (hq1 : '"' ∉ a1 :: k1t) (hq2 : '"' ∉ a2 :: k2t) (hg2 : '>' ≠ a2) (h2 : '"' ≠ a2)
    (hsp : ' ' ≠ a1) (hqa : '"' ≠ a1) (hga : '>' ≠ a1) (hb1 : b1 ≠ a1)
    (hf1 : ∀ y ∈ kk1t ++ ['"'], y ≠ a1) (hf2 : ∀ y ∈ k1t ++ ['"'], y ≠ a1)
    (hkq : ∀ x ∈ ' ' :: (a1 :: k1t), notQuote.mem x = true)
    (hkg1 : ∀ y ∈ b1 :: kk1t, notGt.mem y = true) (hkg2 : ∀ y ∈ a1 :: k1t, notGt.mem y = true)
    (hy1q : ∀ y ∈ y1, notQuote.mem y = true) (hy1g : ∀ y ∈ y1, notGt.mem y = true)
    (hy2q : ∀ y ∈ y2, notQuote.mem y = true) (hy2g : ∀ y ∈ y2, notGt.mem y = true)
    (c : Caps) :
    ms (imgTwo (a1 :: k1t) (a2 :: k2t))
      ("<img".data ++ ([' '] ++ b1 :: (imgTail kk1t y1 (a1 :: k1t) y2 ++ ['>']))) c = [] := by
  have hlast : ∀ c, ms (imgKey1 (a1 :: k1t) (a2 :: k2t))
      (a1 :: ((k1t ++ ['"']) ++ ((y2 ++ ['"']) ++ ['>']))) c = [] := by
    intro c
    have e : a1 :: ((k1t ++ ['"']) ++ ((y2 ++ ['"']) ++ ['>'])) =
        (a1 :: k1t) ++ '"' :: (y2 ++ '"' :: ['>']) := by simp
    rw [e]
    exact key1_last a1 k1t a2 k2t y2 hg2 hy2q c
  have hns : NoStart (imgKey1 (a1 :: k1t) (a2 :: k2t))
      ([' '] ++ b1 :: imgTail kk1t y1 (a1 :: k1t) y2) ['>'] := by
    refine NoStart_append (NoStart_first a1 k1t _ _ _
      (by intro y hy; simp at hy; subst hy; exact hsp))
      (NoStart_cons (fun c => ms_key_first a1 k1t _ b1 _ c hb1) ?_)
    unfold imgTail
    refine NoStart_append (NoStart_first a1 k1t _ _ _ hf1) (NoStart_append
      (key1_inner a1 k1t a2 k2t hq1 hq2 hg2 h2 (a1 :: k1t) hkq y1 y2 hy1q hy2q hy2g)
      (NoStart_append ?_ (NoStart_append (key1_open a1 k1t a2 k2t hq1 y2 hy2q)
        (NoStart_first a1 k1t _ _ _ (by intro y hy; simp at hy; subst hy; exact hqa)))))
    exact NoStart_cons (fun c => ms_key_first a1 k1t _ '"' _ c hqa)
      (NoStart_cons (fun c => ms_key_first a1 k1t _ ' ' _ c hsp)
        (NoStart_cons hlast (NoStart_first a1 k1t _ _ _ hf2)))
  unfold imgTwo
  have e : [' '] ++ b1 :: (imgTail kk1t y1 (a1 :: k1t) y2 ++ ['>']) =
      ([' '] ++ b1 :: imgTail kk1t y1 (a1 :: k1t) y2) ++ ['>'] := by
    simp
  rw [ms_seq_lit, e]
  exact ms_star_fail notGt _ c _ ['>']
    (by
      intro a ha
      have hone : ∀ x ∈ ['"'], notGt.mem x = true := by decide
      rcases List.mem_append.mp ha with h | h
      · simp at h; rw [h]; decide
      · rcases List.mem_cons.mp h with h | h
        · rw [h]; exact hkg1 b1 (List.mem_cons_self _ _)
        · unfold imgTail at h
          rcases List.mem_append.mp h with h | h
          · rcases List.mem_append.mp h with h | h
            · exact hkg1 a (List.mem_cons_of_mem _ h)
            · exact hone a h
          · rcases List.mem_append.mp h with h | h
            · exact hy1g a h
            · rcases List.mem_append.mp h with h | h
              · rcases List.mem_cons.mp h with h | h
                · rw [h]; decide
                · rcases List.mem_cons.mp h with h | h
                  · rw [h]; decide
                  · rcases List.mem_append.mp h with h | h
                    · exact hkg2 a h
                    · exact hone a h
              · rcases List.mem_append.mp h with h | h
                · exact hy2g a h
                · exact hone a h)
    hns (ms_key_first a1 k1t _ '>' _ c hga) (fun a ha => by simp at ha; subst ha; decide)

/-- A pattern for images that fails at the head of an image matches nowhere in it. -/
theorem imgTwo_none (k1 k2 : Str) (body : Str) (hlt : '<' ∉ body) (t : List Tpl)
    (h0 : ∀ c, ms (imgTwo k1 k2) ("<img".data ++ body) c = []) :
    ReplaceAllString (imgTwo k1 k2) ("<img".data ++ body) t = "<img".data ++ body := by
  apply ReplaceAllString_none
  apply findFirst_none_of_noStart _ (by simp [imgTwo, Re.nonNull])
  have e : "<img".data ++ body = '<' :: ("img".data ++ body) := rfl
  rw [e]
  refine NoStart_cons (fun c => by simpa using h0 c) ?_
  unfold imgTwo
  exact NoStart_first '<' "img".data _ _ _ (by
    intro y hy
    rcases List.mem_append.mp hy with h | h
    · exact (by decide : ∀ y ∈ "img".data, y ≠ '<') y h
    · intro e0; subst e0; exact hlt h)

theorem imgSrcAlt_form (s a : Str) : imgSrcAlt s a =
    "<img".data ++ ([' '] ++ 's' :: (imgTail "rc=".data s "alt=".data a ++ ['>'])) := by
  simp [imgSrcAlt, imgTail]

theorem imgAltSrc_form (s a : Str) : imgAltSrc s a =
    "<img".data ++ ([' '] ++ 'a' :: (imgTail "lt=".data a "src=".data s ++ ['>'])) := by
  simp [imgAltSrc, imgTail]

theorem imgSrcOnly_form (s : Str) : imgSrcOnly s =
    "<img".data ++ ([' '] ++ 's' :: (imgTail1 "rc=".data s ++ ['>'])) := by
  simp [imgSrcOnly, imgTail1]

theorem imgMd_chars (s a : Str) (hs : isUrlText s = true) (ha : a = [] ∨ isPlainText a = true) :
    ∀ c ∈ imgMd s a, (urlChars ++ CharSet.of [' ', '!', '[', ']', '(', ')']).mem c = true := by
  intro c hc
  simp only [imgMd, List.mem_append] at hc
  rcases hc with (((hc | hc) | hc) | hc) | hc
  · exact (by decide : ∀ c ∈ "![".data,
      (urlChars ++ CharSet.of [' ', '!', '[', ']', '(', ')']).mem c = true) c hc
  · rcases ha with ha | ha
    · rw [ha] at hc; cases hc
    · exact plain_sub _ (by decide) a ha c hc
  · exact (by decide : ∀ c ∈ "](".data,
      (urlChars ++ CharSet.of [' ', '!', '[', ']', '(', ')']).mem c = true) c hc
  · exact url_sub _ (by decide) s hs c hc
  · exact (by decide : ∀ c ∈ ")".data,
      (urlChars ++ CharSet.of [' ', '!', '[', ']', '(', ')']).mem c = true) c hc

theorem imgMd_covers (s a : Str) (hs : isUrlText s = true) (ha : a = [] ∨ isPlainText a = true) :
    CoversIn imgOutWins (imgMd s a) [] := by
  have htail : CoversIn imgOutWins (s ++ ")".data) [] := by
    refine CoversIn.append ?_ ?_
    · exact (CoversIn.ofClass urlChars _ _ (url_chars s hs)).mono
        (fun W hW => by
          simp only [imgOutWins, List.mem_append]; exact Or.inl (Or.inl (Or.inr hW)))
    · exact (CoversIn.lit endWin _ _ (by simp [endWin, Describes])).mono
        (fun W hW => by simp only [imgOutWins, List.mem_append]; exact Or.inl (Or.inr hW))
  rcases ha with ha | ha
  · subst ha
    have e : imgMd s [] = "![](".data ++ (s ++ ")".data) := by simp [imgMd]
    rw [e]
    refine CoversIn.append ?_ htail
    refine (CoversIn.lit (startsIn (urlChars ++ CharSet.of [')'])) _ _ ?_).mono
      (fun W hW => by simp only [imgOutWins, List.mem_append]; exact Or.inr hW)
    simpa [List.append_assoc] using Describes_urlLook ')' s [] hs
  · have e : imgMd s a = "![".data ++ (a ++ ("](".data ++ (s ++ ")".data))) := by simp [imgMd]
    rw [e]
    refine CoversIn.append ?_ (CoversIn.append ?_ (CoversIn.append ?_ htail))
    · refine (CoversIn.lit (startsIn alnum) _ _ ?_).mono
        (fun W hW => by
          simp only [imgOutWins, List.mem_append]
          exact Or.inl (Or.inl (Or.inl (Or.inl (Or.inl hW)))))
      simpa [List.append_assoc] using Describes_alnum_plain a ("](".data ++ (s ++ ")".data)) ha
    · exact ((isPlainText_facts a ha).2.2.2.2 _).mono
        (fun W hW => by
          simp only [imgOutWins, List.mem_append]
          exact Or.inl (Or.inl (Or.inl (Or.inl (Or.inr hW)))))
    · refine (CoversIn.lit (startsIn (urlChars ++ CharSet.of [')'])) _ _ ?_).mono
        (fun W hW => by
          simp only [imgOutWins, List.mem_append]; exact Or.inl (Or.inl (Or.inl (Or.inr hW))))
      simpa [List.append_assoc] using Describes_urlLook ')' s [] hs

/-- The pipeline of `ConvertToMarkdown` on an image that its three image rules turn into
a Markdown image. -/
theorem img_markdown (X s a : Str) (hs : isUrlText s = true)
    (ha : a = [] ∨ isPlainText a = true) (hc : CoversIn imgInWins X [])
    (htrim : TrimSpace X = X)
    (hrules : ReplaceAllString reImgSrc (ReplaceAllString reImgAltSrc
      (ReplaceAllString reImgSrcAlt X [T "![", .ref 2, T "](", .ref 1, T ")"])
      [T "![", .ref 1, T "](", .ref 2, T ")"]) [T "![](", .ref 1, T ")"] = imgMd s a) :
    ConvertToMarkdown X = imgMd s a := by
  have hco := imgMd_covers s a hs ha
  have hch := imgMd_chars s a hs ha
  have hlt : '<' ∉ imgMd s a := by
    intro hx; have := hch _ hx; revert this; decide
  have hamp : '&' ∉ [] ++ imgMd s a ++ [] := by
    intro hx
    simp only [List.nil_append, List.append_nil] at hx
    have := hch _ hx; revert this; decide
  have hc2 := notLt_covers _ hlt
  have hne : imgMd s a ≠ [] := by simp [imgMd]
  have hfin := markdownFinish_strip imgOutWins [] (imgMd s a) [] hamp
    (by simpa using hco) hco (by decide) (by simp) (by simp)
    (fun x hx => by
      simp [imgMd] at hx; subst hx; decide)
    (fun x hx => by
      have e : imgMd s a = ("![".data ++ a ++ "](".data ++ s) ++ [')'] := by simp [imgMd]
      rw [e, List.getLast?_append_of_ne_nil _ (by simp)] at hx
      simp at hx; subst hx; decide) hne
  simp only [List.nil_append, List.append_nil] at hfin
  rw [ConvertToMarkdown_legacy _ (hasNestedList_absent _ _ hc (by decide)),
    Sanitize_id _ _ hc (by decide) htrim]
  simp only [convertOrderedLists, convertUnorderedLists, markdownRules]
  simp (disch := first | assumption | decide) only [ReplaceAllString_absent,
    ReplaceAllStringFunc_absent, convertHeading_absent, wrapElem_absent, convertTables_absent,
    stripTags_absent, hrules]
  exact hfin

theorem imgSrcAlt_markdown (s a : Str) (hs : isUrlText s = true) (ha : isPlainText a = true) :
    ConvertToMarkdown (imgSrcAlt s a) = imgMd s a := by
  have hsq := url_sub notQuote (by decide) s hs
  have hsg := url_sub notGt (by decide) s hs
  have haq := plain_sub notQuote (by decide) a ha
  have hag := plain_sub notGt (by decide) a ha
  have hco := imgMd_covers s a hs (Or.inr ha)
  have hlt : '<' ∉ imgMd s a := by
    intro hx; have := imgMd_chars s a hs (Or.inr ha) _ hx; revert this; decide
  have hc2 := notLt_covers _ hlt
  apply img_markdown _ s a hs (Or.inr ha)
  · unfold imgSrcAlt
    simp only [List.append_assoc]
    refine CoversIn.append ?_ (CoversIn.append ?_ (CoversIn.append ?_ (CoversIn.append ?_ ?_)))
    · refine (CoversIn.lit (startsIn (urlChars ++ CharSet.of ['"'])) _ _ ?_).mono
        (fun W hW => by simp only [imgInWins, List.mem_append]; tauto)
      simpa [List.append_assoc] using Describes_urlLook '"' s (" alt=\"".data ++ (a ++ "\">".data)) hs
    · exact (CoversIn.ofClass urlChars _ _ (url_chars s hs)).mono
        (fun W hW => by simp only [imgInWins, List.mem_append]; tauto)
    · refine (CoversIn.lit (startsIn alnum) _ _ ?_).mono
        (fun W hW => by simp only [imgInWins, List.mem_append]; tauto)
      simpa [List.append_assoc] using Describes_alnum_plain a "\">".data ha
    · exact ((isPlainText_facts a ha).2.2.2.2 _).mono
        (fun W hW => by simp only [imgInWins, List.mem_append]; tauto)
    · exact (CoversIn.lit endWin _ _ (by simp [endWin, Describes])).mono
        (fun W hW => by simp only [imgInWins, List.mem_append]; tauto)
  · have e : imgSrcAlt s a = '<' :: (("img src=\"".data ++ s ++ "\" alt=\"".data ++ a ++
        "\"".data) ++ ">".data) := by
      simp [imgSrcAlt]
    rw [e]
    exact TrimSpace_tag _
  · have hhead := imgTwo_head 's' "rc=".data 'a' "lt=".data s a (by decide) (by decide)
      (by decide) (by decide) (by decide) (by decide) (by decide) (by decide) (by decide)
      hsq hsg haq hag
    have hw : imgSrcAlt s a = imgSrcAlt s a ++ [] := by simp
    have h1 : ReplaceAllString reImgSrcAlt (imgSrcAlt s a)
        [T "![", .ref 2, T "](", .ref 1, T ")"] = imgMd s a := by
      rw [hw, ReplaceAllString_here _ (by decide) _ _ _ [(2, a), (1, s)]
        (by rw [List.append_nil, imgSrcAlt_form, reImgSrcAlt_eq]; exact hhead),
        ReplaceAllString_nil _ (by decide)]
      simp [expand, T, getCap, List.lookup, imgMd]
    rw [h1, ReplaceAllString_absent _ _ _ _ hc2 (by decide),
      ReplaceAllString_absent _ _ _ _ hc2 (by decide)]

theorem imgAltSrc_markdown (s a : Str) (hs : isUrlText s = true) (ha : isPlainText a = true) :
    ConvertToMarkdown (imgAltSrc s a) = imgMd s a := by
  have hsq := url_sub notQuote (by decide) s hs
  have hsg := url_sub notGt (by decide) s hs
  have haq := plain_sub notQuote (by decide) a ha
  have hag := plain_sub notGt (by decide) a ha
  have hlt : '<' ∉ imgMd s a := by
    intro hx; have := imgMd_chars s a hs (Or.inr ha) _ hx; revert this; decide
  have hc2 := notLt_covers _ hlt
  apply img_markdown _ s a hs (Or.inr ha)
  · unfold imgAltSrc
    simp only [List.append_assoc]
    refine CoversIn.append ?_ (CoversIn.append ?_ (CoversIn.append ?_ (CoversIn.append ?_ ?_)))
    · refine (CoversIn.lit (startsIn alnum) _ _ ?_).mono
        (fun W hW => by simp only [imgInWins, List.mem_append]; tauto)
      simpa [List.append_assoc] using
        Describes_alnum_plain a ("\" src=\"".data ++ (s ++ "\">".data)) ha
    · exact ((isPlainText_facts a ha).2.2.2.2 _).mono
        (fun W hW => by simp only [imgInWins, List.mem_append]; tauto)
    · refine (CoversIn.lit (startsIn (urlChars ++ CharSet.of ['"'])) _ _ ?_).mono
        (fun W hW => by simp only [imgInWins, List.mem_append]; tauto)
      simpa [List.append_assoc] using Describes_urlLook '"' s ">".data hs
    · exact (CoversIn.ofClass urlChars _ _ (url_chars s hs)).mono
        (fun W hW => by simp only [imgInWins, List.mem_append]; tauto)
    · exact (CoversIn.lit endWin _ _ (by simp [endWin, Describes])).mono
        (fun W hW => by simp only [imgInWins, List.mem_append]; tauto)
  · have e : imgAltSrc s a = '<' :: (("img alt=\"".data ++ a ++ "\" src=\"".data ++ s ++
        "\"".data) ++ ">".data) := by
      simp [imgAltSrc]
    rw [e]
    exact TrimSpace_tag _
  · have hbody : '<' ∉ [' '] ++ 'a' :: (imgTail "lt=".data a "src=".data s ++ ['>']) := by
      intro hx
      have hp := plain_sub notLt (by decide) a ha '<'
      have hu := url_sub notLt (by decide) s hs '<'
      simp [imgTail] at hx
      rcases hx with h | h
      · exact absurd (hp h) (by decide)
      · exact absurd (hu h) (by decide)
    have h1 : ReplaceAllString reImgSrcAlt (imgAltSrc s a)
        [T "![", .ref 2, T "](", .ref 1, T ")"] = imgAltSrc s a := by
      rw [imgAltSrc_form, reImgSrcAlt_eq]
      exact imgTwo_none _ _ _ hbody _ (fun c =>
        imgTwo_fail_swapped 's' "rc=".data 'a' "lt=".data 'a' "lt=".data a s (by decide)
          (by decide) (by decide) (by decide) (by decide) (by decide) (by decide) (by decide)
          (by decide) (by decide) (by decide) (by decide) (by decide) haq hag hsq hsg c)
    have hhead := imgTwo_head 'a' "lt=".data 's' "rc=".data a s (by decide) (by decide)
      (by decide) (by decide) (by decide) (by decide) (by decide) (by decide) (by decide)
      haq hag hsq hsg
    have hw : imgAltSrc s a = imgAltSrc s a ++ [] := by simp
    have h2 : ReplaceAllString reImgAltSrc (imgAltSrc s a)
        [T "![", .ref 1, T "](", .ref 2, T ")"] = imgMd s a := by
      rw [hw, ReplaceAllString_here _ (by decide) _ _ _ [(2, s), (1, a)]
        (by rw [List.append_nil, imgAltSrc_form, reImgAltSrc_eq]; exact hhead),
        ReplaceAllString_nil _ (by decide)]
      simp [expand, T, getCap, List.lookup, imgMd]
    rw [h1, h2, ReplaceAllString_absent _ _ _ _ hc2 (by decide)]

theorem imgSrcOnly_markdown (s : Str) (hs : isUrlText s = true) :
    ConvertToMarkdown (imgSrcOnly s) = imgMd s [] := by
  have hsq := url_sub notQuote (by decide) s hs
  have hsg := url_sub notGt (by decide) s hs
  have hlt : '<' ∉ imgMd s [] := by
    intro hx; have := imgMd_chars s [] hs (Or.inl rfl) _ hx; revert this; decide
  have hc2 := notLt_covers _ hlt
  apply img_markdown _ s [] hs (Or.inl rfl)
  · unfold imgSrcOnly
    simp only [List.append_assoc]
    refine CoversIn.append ?_ (CoversIn.append ?_ ?_)
    · refine (CoversIn.lit (startsIn (urlChars ++ CharSet.of ['"'])) _ _ ?_).mono
        (fun W hW => by simp only [imgInWins, List.mem_append]; tauto)
      simpa [List.append_assoc] using Describes_urlLook '"' s ">".data hs
    · exact (CoversIn.ofClass urlChars _ _ (url_chars s hs)).mono
        (fun W hW => by simp only [imgInWins, List.mem_append]; tauto)
    · exact (CoversIn.lit endWin _ _ (by simp [endWin, Describes])).mono
        (fun W hW => by simp only [imgInWins, List.mem_append]; tauto)
  · have e : imgSrcOnly s = '<' :: (("img src=\"".data ++ s ++ "\"".data) ++ ">".data) := by
      simp [imgSrcOnly]
    rw [e]
    exact TrimSpace_tag _
  · have hbody : '<' ∉ [' '] ++ 's' :: (imgTail1 "rc=".data s ++ ['>']) := by
      intro hx
      have hu := url_sub notLt (by decide) s hs '<'
      simp [imgTail1] at hx
      exact absurd (hu hx) (by decide)
    have h1 : ReplaceAllString reImgSrcAlt (imgSrcOnly s)
        [T "![", .ref 2, T "](", .ref 1, T ")"] = imgSrcOnly s := by
      rw [imgSrcOnly_form, reImgSrcAlt_eq]
      exact imgTwo_none _ _ _ hbody _ (fun c =>
        imgTwo_fail_one 's' "rc=".data 'a' "lt=".data 's' "rc=".data s (by decide) (by decide)
          (by decide) (by decide) (by decide) (by decide) hsq hsg
          (fun c => by
            have := key1_last 's' "rc=".data 'a' "lt=".data s (by decide) hsq c
            simpa [imgTail1] using this) c)
    have h2 : ReplaceAllString reImgAltSrc (imgSrcOnly s)
        [T "![", .ref 1, T "](", .ref 2, T ")"] = imgSrcOnly s := by
      rw [imgSrcOnly_form, reImgAltSrc_eq]
      exact imgTwo_none _ _ _ hbody _ (fun c =>
        imgTwo_fail_one 'a' "lt=".data 's' "rc=".data 's' "rc=".data s (by decide) (by decide)
          (by decide) (by decide) (by decide) (by decide) hsq hsg
          (fun c => ms_key_first 'a' "lt=".data _ 's' _ c (by decide)) c)
    have hhead := imgOne_head s hsq hsg
    have hw : imgSrcOnly s = imgSrcOnly s ++ [] := by simp
    have h3 : ReplaceAllString reImgSrc (imgSrcOnly s) [T "![](", .ref 1, T ")"] =
        imgMd s [] := by
      rw [hw, ReplaceAllString_here _ (by decide) _ _ _ [(1, s)]
        (by rw [List.append_nil, imgSrcOnly_form]; exact hhead),
        ReplaceAllString_nil _ (by decide)]
      simp [expand, T, getCap, List.lookup, imgMd]
    rw [h1, h2, h3]

theorem CoversIn_left {Ws : List Win} {a b v : Str} (h : CoversIn Ws (a ++ b) v) :
    CoversIn Ws a (b ++ v) := by
  intro u1 u2 he hne
  obtain ⟨W, hW, hd⟩ := h u1 (u2 ++ b) (by rw [he, List.append_assoc]) (by simp [hne])
  exact ⟨W, hW, by simpa [List.append_assoc] using hd⟩

theorem CoversIn_right {Ws : List Win} {a b v : Str} (h : CoversIn Ws (a ++ b) v) :
    CoversIn Ws b v := by
  intro u1 u2 he hne
  exact h (a ++ u1) u2 (by rw [he, List.append_assoc]) hne

theorem Describes_cmtLook (c v : Str) (hc : isPlainText c = true) :
    Describes cmtLook.cs cmtLook.closed (c ++ (' ' :: '-' :: v)) := by
  obtain ⟨hne, hhead, _, hch, _⟩ := isPlainText_facts c hc
  have h1 : (alnum ++ CharSet.of [' ']).mem ' ' = true := by decide
  have h2 : (alnum ++ CharSet.of [' ', '-']).mem ' ' = true := by decide
  have h3 : (alnum ++ CharSet.of [' ', '-']).mem '-' = true := by decide
  have hm : ∀ x, (alnum ++ CharSet.of [' ']).mem x = true →
      (alnum ++ CharSet.of [' ', '-']).mem x = true :=
    CharSet.mem_mono _ _ (by decide)
  cases c with
  | nil => exact absurd rfl hne
  | cons x c =>
    have hx := hhead x rfl
    cases c with
    | nil =>
      exact ⟨x, _, rfl, hx, ' ', _, rfl, h1, '-', _, rfl, h3, Describes_any _⟩
    | cons y c =>
      have hy := hch y (by simp)
      cases c with
      | nil => exact ⟨x, _, rfl, hx, y, _, rfl, hy, ' ', _, rfl, h2, Describes_any _⟩
      | cons z c =>
        exact ⟨x, _, rfl, hx, y, _, rfl, hy, z, _, rfl, hm z (hch z (by simp)), Describes_any _⟩

theorem commentHtml_form (sep a c b : Str) : commentHtml sep a c b =
    "<p>".data ++ (a ++ (("</p>".data ++ sep) ++ ("<!-- ".data ++ (c ++ ((" -->".data ++ sep) ++
      ("<p>".data ++ (b ++ "</p>".data))))))) := by
  simp [commentHtml]

theorem comment_covers (sep a c b : Str) (ha : isPlainText a = true)
    (hc : isPlainText c = true) (hb : isPlainText b = true) :
    CoversIn (commentWins sep) (commentHtml sep a c b) [] := by
  rw [commentHtml_form]
  refine CoversIn.append ?_ (CoversIn.append ?_ (CoversIn.append ?_ (CoversIn.append ?_
    (CoversIn.append ?_ (CoversIn.append ?_ (CoversIn.append ?_ (CoversIn.append ?_ ?_)))))))
  · exact (CoversIn.lit (startsIn alnum) _ _ (by
      simpa [List.append_assoc] using Describes_alnum_plain a _ ha)).mono
      (fun W hW => by simp only [commentWins, List.mem_append]; tauto)
  · exact ((isPlainText_facts a ha).2.2.2.2 _).mono
      (fun W hW => by simp only [commentWins, List.mem_append]; tauto)
  · exact (CoversIn.lit ltWin _ _ (Describes_startsIn _ '<' _ (by decide))).mono
      (fun W hW => by simp only [commentWins, List.mem_append]; tauto)
  · exact (CoversIn.lit cmtLook _ _ (by
      simpa [List.append_assoc] using Describes_cmtLook c _ hc)).mono
      (fun W hW => by simp only [commentWins, List.mem_append]; tauto)
  · exact ((isPlainText_facts c hc).2.2.2.2 _).mono
      (fun W hW => by simp only [commentWins, List.mem_append]; tauto)
  · exact (CoversIn.lit ltWin _ _ (Describes_startsIn _ '<' _ (by decide))).mono
      (fun W hW => by simp only [commentWins, List.mem_append]; tauto)
  · exact (CoversIn.lit (startsIn alnum) _ _ (by
      simpa [List.append_assoc] using Describes_alnum_plain b _ hb)).mono
      (fun W hW => by simp only [commentWins, List.mem_append]; tauto)
  · exact ((isPlainText_facts b hb).2.2.2.2 _).mono
      (fun W hW => by simp only [commentWins, List.mem_append]; tauto)
  · exact (CoversIn.lit endWin _ _ (by simp [endWin, Describes])).mono
      (fun W hW => by simp only [commentWins, List.mem_append]; tauto)

theorem piece_covers (left right : Str) (look : Win) (t v : Str) (ht : isPlainText t = true)
    (hv : Describes look.cs look.closed v) :
    CoversIn (pieceWins left right look) (left ++ (t ++ right)) v := by
  refine CoversIn.append ?_ (CoversIn.append ?_ ?_)
  · exact (CoversIn.lit (startsIn alnum) _ _ (by
      simpa [List.append_assoc] using Describes_alnum_plain t _ ht)).mono
      (fun W hW => by simp only [pieceWins, List.mem_append]; tauto)
  · exact ((isPlainText_facts t ht).2.2.2.2 _).mono
      (fun W hW => by simp only [pieceWins, List.mem_append]; tauto)
  · exact (CoversIn.lit look _ _ hv).mono
      (fun W hW => by simp only [pieceWins, List.mem_append]; tauto)

theorem cmt_covers (c v : Str) (hc : isPlainText c = true) :
    CoversIn cmtWins ("<!-- ".data ++ (c ++ " -->".data)) ('<' :: v) := by
  refine CoversIn.append ?_ (CoversIn.append ?_ ?_)
  · exact (CoversIn.lit cmtLook _ _ (by
      simpa [List.append_assoc] using Describes_cmtLook c _ hc)).mono
      (fun W hW => by simp only [cmtWins, List.mem_append]; tauto)
  · exact ((isPlainText_facts c hc).2.2.2.2 _).mono
      (fun W hW => by simp only [cmtWins, List.mem_append]; tauto)
  · exact (CoversIn.lit ltWin _ _ (Describes_startsIn _ '<' _ (by decide))).mono
      (fun W hW => by simp only [cmtWins, List.mem_append]; tauto)

theorem between_nl_here (v : Str) :
    (ms reBetweenTags (">\n<".data ++ v) []).head? = some (v, []) := by
  rw [reBetweenTags_eq]
  simp [ms_seq, ms_lit, ms_cls_cons, ms_star_greedy_cls, greedyCuts,
    (by decide : reSpace.mem '\n' = true), (by decide : reSpace.mem '<' = false)]

/-- The newlines around the comment are removed by the rule for white space between
tags. -/
theorem between_comment (a c b : Str) (ha : isPlainText a = true) (hc : isPlainText c = true)
    (hb : isPlainText b = true) :
    ReplaceAllString reBetweenTags (commentHtml "\n".data a c b) [T "><"] =
      commentHtml [] a c b := by
  have e : commentHtml "\n".data a c b =
      ("<p>".data ++ (a ++ "</p".data)) ++ ((">\n<".data) ++ (("!-- ".data ++ (c ++ " --".data)) ++
        ((">\n<".data) ++ (("p>".data ++ (b ++ "</p>".data)) ++ [])))) := by
    simp [commentHtml]
  have h1 : NoStart reBetweenTags ("<p>".data ++ (a ++ "</p".data)) ((">\n<".data) ++
      (("!-- ".data ++ (c ++ " --".data)) ++
        ((">\n<".data) ++ (("p>".data ++ (b ++ "</p>".data)) ++ [])))) :=
    NoStart_of_covers _ _ _ _
      (piece_covers "<p>".data "</p".data (startsIn (CharSet.of ['>'])) a _ ha
        (Describes_startsIn _ '>' _ (by decide))) (by decide)
  have h2 : NoStart reBetweenTags ("!-- ".data ++ (c ++ " --".data))
      ((">\n<".data) ++ (("p>".data ++ (b ++ "</p>".data)) ++ [])) :=
    NoStart_of_covers _ _ _ _
      (piece_covers "!-- ".data " --".data (startsIn (CharSet.of ['>'])) c _ hc
        (Describes_startsIn _ '>' _ (by decide))) (by decide)
  have h3 : NoStart reBetweenTags ("p>".data ++ (b ++ "</p>".data)) [] :=
    NoStart_of_covers _ _ _ _
      (piece_covers "p>".data "</p>".data endWin b _ hb (by simp [endWin, Describes]))
      (by decide)
  rw [e, ReplaceAllString_skip _ (by decide) _ _ _ h1,
    ReplaceAllString_here _ (by decide) _ _ _ [] (between_nl_here _),
    ReplaceAllString_skip _ (by decide) _ _ _ h2,
    ReplaceAllString_here _ (by decide) _ _ _ [] (between_nl_here _),
    ReplaceAllString_skip _ (by decide) _ _ _ h3, ReplaceAllString_nil _ (by decide)]
  simp [commentHtml, expand, T]

theorem TrimSpace_comment (a c b : Str) :
    TrimSpace (commentHtml [] a c b) = commentHtml [] a c b := by
  have e : commentHtml [] a c b = '<' :: (("p>".data ++ a ++ "</p>".data ++ "<!-- ".data ++ c ++
      " -->".data ++ "<p>".data ++ b ++ "</p".data) ++ ">".data) := by
    simp [commentHtml]
  rw [e]
  exact TrimSpace_tag _

/-- Sanitising leaves the document with the comment directly between the paragraphs. -/
theorem Sanitize_comment (sep a c b : Str) (hsep : sep = [] ∨ sep = "\n".data)
    (ha : isPlainText a = true) (hc : isPlainText c = true) (hb : isPlainText b = true) :
    SanitizeWordPressContent (commentHtml sep a c b) = commentHtml [] a c b := by
  have hcov := comment_covers [] a c b ha hc hb
  rcases hsep with rfl | rfl
  · exact Sanitize_id (commentWins []) _ hcov (by decide) (TrimSpace_comment a c b)
  · have hcov2 := comment_covers "\n".data a c b ha hc hb
    unfold SanitizeWordPressContent removeGutenbergComments cleanWhitespace
      removeEmptyParagraphs
    simp only []
    rw [ReplaceAllString_absent _ _ _ _ hcov2 (by decide),
      ReplaceAllString_absent _ _ _ _ hcov2 (by decide),
      ReplaceAllString_absent _ _ _ _ hcov2 (by decide),
      ReplaceAllString_absent _ _ _ _ hcov2 (by decide),
      between_comment a c b ha hc hb, TrimSpace_comment,
      ReplaceAllString_absent _ _ _ _ hcov (by decide),
      ReplaceAllString_absent _ _ _ _ hcov (by decide)]

theorem stripTags_skip (u v : Str) (h : '<' ∉ u) : stripTags (u ++ v) = u ++ stripTags v := by
  unfold stripTags
  exact ReplaceAllString_skip _ (by decide) _ _ _
    (NoStart_of_covers _ _ _ _ (notLt_coversIn u v h) (by decide))

theorem plain_noLt (t : Str) (ht : isPlainText t = true) : '<' ∉ t := by
  intro h
  have := (isPlainText_facts t ht).2.2.2.1 _ h
  revert this; decide

theorem plain_noGt (t : Str) (ht : isPlainText t = true) : '>' ∉ t := by
  intro h
  have := (isPlainText_facts t ht).2.2.2.1 _ h
  revert this; decide

theorem stripTags_text (b : Str) (hb : isPlainText b = true) :
    stripTags (b ++ "\n\n".data) = b ++ "\n\n".data := by
  have hlt2 : '<' ∉ b ++ "\n\n".data := by
    intro h
    rcases List.mem_append.mp h with h | h
    · exact plain_noLt b hb h
    · revert h; decide
  exact stripTags_absent _ _ (notLt_covers _ hlt2) (by decide)

/-- The removal of the tags leaves the two texts, with a blank line between them and
behind them; `q` is what stands between the comment and the second text. -/
theorem stripTags_comment (q a c b : Str) (ha : isPlainText a = true)
    (hc : isPlainText c = true)
    (hq : stripTags (q ++ (b ++ "\n\n".data)) = b ++ "\n\n".data) :
    stripTags (a ++ ("\n\n".data ++ ("<!-- ".data ++ (c ++ (" -->".data ++
      (q ++ (b ++ "\n\n".data))))))) = a ++ "\n\n".data ++ b ++ "\n\n".data := by
  have e : a ++ ("\n\n".data ++ ("<!-- ".data ++ (c ++ (" -->".data ++
      (q ++ (b ++ "\n\n".data)))))) =
      (a ++ "\n\n".data) ++ ('<' :: (("!-- ".data ++ c ++ " --".data) ++
        '>' :: (q ++ (b ++ "\n\n".data)))) := by
    simp
  have hlt1 : '<' ∉ a ++ "\n\n".data := by
    intro h
    rcases List.mem_append.mp h with h | h
    · exact plain_noLt a ha h
    · revert h; decide
  have hgt : '>' ∉ "!-- ".data ++ c ++ " --".data := by
    intro h
    rcases List.mem_append.mp h with h | h
    · rcases List.mem_append.mp h with h | h
      · revert h; decide
      · exact plain_noGt c hc h
    · revert h; decide
  rw [e, stripTags_skip _ _ hlt1, stripTags_tag _ _ hgt, hq]
  simp

theorem twoPara_covers (a b : Str) (ha : isPlainText a = true) (hb : isPlainText b = true) :
    CoversIn twoParaWins (a ++ "\n\n".data ++ b) [] ∧
    CoversIn twoParaWins ([] ++ (a ++ "\n\n".data ++ b) ++ "\n\n".data) [] := by
  have h1 : ∀ v, CoversIn twoParaWins (a ++ "\n\n".data ++ b) v := by
    intro v
    rw [List.append_assoc]
    refine CoversIn.append ?_ (CoversIn.append ?_ ?_)
    · exact ((isPlainText_facts a ha).2.2.2.2 _).mono
        (fun W hW => by simp only [twoParaWins, List.mem_append]; tauto)
    · exact (CoversIn.lit (startsIn alnum) _ _ (Describes_alnum_plain b _ hb)).mono
        (fun W hW => by simp only [twoParaWins, List.mem_append]; tauto)
    · exact ((isPlainText_facts b hb).2.2.2.2 _).mono
        (fun W hW => by simp only [twoParaWins, List.mem_append]; tauto)
  refine ⟨h1 [], ?_⟩
  rw [List.nil_append]
  refine CoversIn.append (h1 _) ?_
  exact (CoversIn.lit endWin _ _ (by simp [endWin, Describes])).mono
    (fun W hW => by simp only [twoParaWins, List.mem_append]; tauto)

theorem twoPara_facts (a b : Str) (ha : isPlainText a = true) (hb : isPlainText b = true) :
    a ++ "\n\n".data ++ b ≠ [] ∧
    (∀ x, (a ++ "\n\n".data ++ b).head? = some x → goSpace.mem x = false) ∧
    (∀ x, (a ++ "\n\n".data ++ b).getLast? = some x → goSpace.mem x = false) ∧
    '&' ∉ [] ++ (a ++ "\n\n".data ++ b) ++ "\n\n".data := by
  obtain ⟨hane, hahead, _, hach, _⟩ := isPlainText_facts a ha
  obtain ⟨hbne, _, hblast, hbch, _⟩ := isPlainText_facts b hb
  refine ⟨by simp [hane], ?_, ?_, ?_⟩
  · intro x hx
    cases a with
    | nil => exact absurd rfl hane
    | cons y a =>
      simp at hx
      subst hx
      exact CharSet.not_mem_of_disjoint alnum goSpace (by decide) _ (hahead _ rfl)
  · intro x hx
    rw [List.getLast?_append_of_ne_nil _ hbne] at hx
    exact CharSet.not_mem_of_disjoint alnum goSpace (by decide) _ (hblast x hx)
  · intro h
    simp only [List.nil_append, List.mem_append] at h
    rcases h with ((h | h) | h) | h
    · have := hach _ h; revert this; decide
    · revert h; decide
    · have := hbch _ h; revert this; decide
    · revert h; decide

theorem mdCmt_covers (a c b : Str) (ha : isPlainText a = true) (hc : isPlainText c = true)
    (hb : isPlainText b = true) :
    CoversIn mdCmtWins (a ++ ("\n\n".data ++ ("<!-- ".data ++ (c ++ (" -->".data ++
      (b ++ "\n\n".data)))))) [] := by
  refine CoversIn.append ?_ (CoversIn.append ?_ (CoversIn.append ?_ (CoversIn.append ?_
    (CoversIn.append ?_ (CoversIn.append ?_ ?_)))))
  · exact ((isPlainText_facts a ha).2.2.2.2 _).mono
      (fun W hW => by simp only [mdCmtWins, List.mem_append]; tauto)
  · exact (CoversIn.lit ltWin _ _ (Describes_startsIn _ '<' _ (by decide))).mono
      (fun W hW => by simp only [mdCmtWins, List.mem_append]; tauto)
  · exact (CoversIn.lit cmtLook _ _ (by
      simpa [List.append_assoc] using Describes_cmtLook c _ hc)).mono
      (fun W hW => by simp only [mdCmtWins, List.mem_append]; tauto)
  · exact ((isPlainText_facts c hc).2.2.2.2 _).mono
      (fun W hW => by simp only [mdCmtWins, List.mem_append]; tauto)
  · exact (CoversIn.lit (startsIn alnum) _ _ (by
      simpa [List.append_assoc] using Describes_alnum_plain b _ hb)).mono
      (fun W hW => by simp only [mdCmtWins, List.mem_append]; tauto)
  · exact ((isPlainText_facts b hb).2.2.2.2 _).mono
      (fun W hW => by simp only [mdCmtWins, List.mem_append]; tauto)
  · exact (CoversIn.lit endWin _ _ (by simp [endWin, Describes])).mono
      (fun W hW => by simp only [mdCmtWins, List.mem_append]; tauto)

/-- The paragraph rule of `ConvertToMarkdown` on the two paragraphs around the comment. -/
theorem wrapElem_comment (a c b : Str) (ha : isPlainText a = true) (hc : isPlainText c = true)
    (hb : isPlainText b = true) :
    wrapElem "p" "" "\n\n" (commentHtml [] a c b) =
      a ++ ("\n\n".data ++ ("<!-- ".data ++ (c ++ (" -->".data ++ (b ++ "\n\n".data))))) := by
  have hnn : (elemRe anyChar "p".data).nonNull = true := by decide
  have hany : ∀ (t : Str), isPlainText t = true → ∀ x ∈ t, anyChar.mem x = true := by
    intro t ht x hx
    exact CharSet.mem_mono _ anyChar (by decide) x ((isPlainText_facts t ht).2.2.2.1 x hx)
  have hns : ∀ (t rest : Str), isPlainText t = true →
      NoStart (closeTag "p".data) t ("</".data ++ ("p".data ++ (">".data ++ rest))) := by
    intro t rest ht
    exact NoStart_of_covers _ _ _ _ ((isPlainText_facts t ht).2.2.2.2 _) (by decide)
  have e : commentHtml [] a c b =
      ("<p>".data ++ a ++ "</p>".data) ++ (("<!-- ".data ++ (c ++ " -->".data)) ++
        (("<p>".data ++ b ++ "</p>".data) ++ [])) := by
    simp [commentHtml]
  have h1 : (ms (elemRe anyChar "p".data) (("<p>".data ++ a ++ "</p>".data) ++
      (("<!-- ".data ++ (c ++ " -->".data)) ++ (("<p>".data ++ b ++ "</p>".data) ++ []))) []).head? =
      some ((("<!-- ".data ++ (c ++ " -->".data)) ++ (("<p>".data ++ b ++ "</p>".data) ++ [])),
        [(1, a)]) := by
    have := ms_elem_head anyChar "p".data a
      (("<!-- ".data ++ (c ++ " -->".data)) ++ (("<p>".data ++ b ++ "</p>".data) ++ []))
      (hany a ha) (hns a _ ha)
    simpa [List.append_assoc] using this
  have h2 : NoStart (elemRe anyChar "p".data) ("<!-- ".data ++ (c ++ " -->".data))
      (("<p>".data ++ b ++ "</p>".data) ++ []) := by
    have := cmt_covers c ("p>".data ++ b ++ "</p>".data ++ []) hc
    exact NoStart_of_covers _ _ _ _ (by simpa [List.append_assoc] using this) (by decide)
  have h3 : (ms (elemRe anyChar "p".data) (("<p>".data ++ b ++ "</p>".data) ++ []) []).head? =
      some ([], [(1, b)]) := by
    have := ms_elem_head anyChar "p".data b [] (hany b hb) (hns b _ hb)
    simpa [List.append_assoc] using this
  unfold wrapElem
  rw [reElemS_eq, e, ReplaceAllString_here _ hnn _ _ _ _ h1,
    ReplaceAllString_skip _ hnn _ _ _ h2, ReplaceAllString_here _ hnn _ _ _ _ h3,
    ReplaceAllString_nil _ hnn]
  simp [expand, getCap, T, List.lookup]

theorem rePClose_here (v : Str) (hv : ∀ x, v.head? = some x → reSpace.mem x = false) :
    (ms rePClose ("</p>".data ++ v) []).head? = some (v, []) := by
  show (ms (.seq (.lit "</p>".data) (.star true (.cls reSpace))) ("</p>".data ++ v) []).head? = _
  rw [ms_seq_lit, ms_star_greedy_cls]
  exact greedyCuts_head reSpace [] v hv [] (by simp)

/-- The rule for closing paragraph tags of `ConvertToPlainText` on the two paragraphs
around the comment. -/
theorem pClose_comment (a c b : Str) (ha : isPlainText a = true) (hc : isPlainText c = true)
    (hb : isPlainText b = true) :
    ReplaceAllString rePClose (commentHtml [] a c b) [T "\n\n"] =
      "<p>".data ++ (a ++ ("\n\n".data ++ ("<!-- ".data ++ (c ++ (" -->".data ++
        ("<p>".data ++ (b ++ "\n\n".data))))))) := by
  have e : commentHtml [] a c b =
      ("<p>".data ++ (a ++ [])) ++ ("</p>".data ++ ((("<!-- ".data ++ (c ++ " -->".data)) ++
        ("<p>".data ++ (b ++ []))) ++ ("</p>".data ++ []))) := by
    simp [commentHtml]
  have h1 : NoStart rePClose ("<p>".data ++ (a ++ [])) ("</p>".data ++
      ((("<!-- ".data ++ (c ++ " -->".data)) ++ ("<p>".data ++ (b ++ []))) ++
        ("</p>".data ++ []))) :=
    NoStart_of_covers _ _ _ _ (piece_covers "<p>".data [] anyWin a _ ha (Describes_any _))
      (by decide)
  have h2 : NoStart rePClose (("<!-- ".data ++ (c ++ " -->".data)) ++ ("<p>".data ++ (b ++ [])))
      ("</p>".data ++ []) := by
    refine NoStart_append ?_ ?_
    · have := cmt_covers c ("p>".data ++ (b ++ []) ++ ("</p>".data ++ [])) hc
      exact NoStart_of_covers _ _ _ _ (by simpa [List.append_assoc] using this) (by decide)
    · exact NoStart_of_covers _ _ _ _ (piece_covers "<p>".data [] anyWin b _ hb (Describes_any _))
        (by decide)
  rw [e, ReplaceAllString_skip _ (by decide) _ _ _ h1,
    ReplaceAllString_here _ (by decide) _ _ _ [] (rePClose_here _ (by
      intro x hx; simp at hx; subst hx; decide)),
    ReplaceAllString_skip _ (by decide) _ _ _ h2,
    ReplaceAllString_here _ (by decide) _ _ _ [] (rePClose_here _ (by simp)),
    ReplaceAllString_nil _ (by decide)]
  simp [expand, T]

theorem comment_markdown (sep a c b : Str) (hsep : sep = [] ∨ sep = "\n".data)
    (ha : isPlainText a = true) (hc : isPlainText c = true) (hb : isPlainText b = true) :
    ConvertToMarkdown (commentHtml sep a c b) = a ++ "\n\n".data ++ b := by
  have hcs : CoversIn (commentWins sep) (commentHtml sep a c b) [] :=
    comment_covers sep a c b ha hc hb
  have hnest : hasNestedList (commentHtml sep a c b) = false := by
    rcases hsep with rfl | rfl
    · exact hasNestedList_absent _ _ hcs (by decide)
    · exact hasNestedList_absent _ _ hcs (by decide)
  have hcov := comment_covers [] a c b ha hc hb
  have hmd := mdCmt_covers a c b ha hc hb
  obtain ⟨hne, hhead, hlast, hamp⟩ := twoPara_facts a b ha hb
  obtain ⟨hz1, hz2⟩ := twoPara_covers a b ha hb
  have hfin := markdownFinish_strip twoParaWins [] (a ++ "\n\n".data ++ b) "\n\n".data hamp
    hz2 hz1 (by decide) (by simp) (by decide) hhead hlast hne
  have hstrip := stripTags_comment [] a c b ha hc (stripTags_text b hb)
  rw [ConvertToMarkdown_legacy _ hnest, Sanitize_comment sep a c b hsep ha hc hb]
  simp only [convertOrderedLists, convertUnorderedLists, markdownRules]
  simp (disch := first | assumption | decide) only [ReplaceAllString_absent,
    ReplaceAllStringFunc_absent, convertHeading_absent, wrapElem_absent, convertTables_absent,
    stripTags_absent]
  rw [wrapElem_comment a c b ha hc hb, wrapElem_absent "div" "" "\n\n" _ _ hmd (by decide)]
  rw [List.nil_append] at hstrip hfin
  rw [hstrip]
  exact hfin

theorem comment_plain (sep a c b : Str) (hsep : sep = [] ∨ sep = "\n".data)
    (ha : isPlainText a = true) (hc : isPlainText c = true) (hb : isPlainText b = true) :
    ConvertToPlainText (commentHtml sep a c b) = a ++ "\n\n".data ++ b := by
  have hcs : CoversIn (commentWins sep) (commentHtml sep a c b) [] :=
    comment_covers sep a c b ha hc hb
  have hnest : hasNestedList (commentHtml sep a c b) = false := by
    rcases hsep with rfl | rfl
    · exact hasNestedList_absent _ _ hcs (by decide)
    · exact hasNestedList_absent _ _ hcs (by decide)
  have hcov := comment_covers [] a c b ha hc hb
  obtain ⟨hne, hhead, hlast, hamp⟩ := twoPara_facts a b ha hb
  obtain ⟨hz1, hz2⟩ := twoPara_covers a b ha hb
  have hcl := cleanWhitespace_strip twoParaWins [] (a ++ "\n\n".data ++ b) "\n\n".data
    hz2 (by decide) (by simp) (by decide) hhead hlast hne
  have hq : stripTags ("<p>".data ++ (b ++ "\n\n".data)) = b ++ "\n\n".data := by
    have e : "<p>".data ++ (b ++ "\n\n".data) = '<' :: ("p".data ++ '>' :: (b ++ "\n\n".data)) :=
      rfl
    rw [e, stripTags_tag _ _ (by decide), stripTags_text b hb]
  have hstrip := stripTags_comment "<p>".data a c b ha hc hq
  have hol : convertOrderedListsToPlainText (commentHtml [] a c b) = commentHtml [] a c b := by
    unfold convertOrderedListsToPlainText
    rw [ReplaceAllString_absent _ _ _ _ hcov (by decide),
      ReplaceAllStringFunc_absent _ _ _ _ hcov (by decide)]
  have hul : convertUnorderedListsToPlainText (commentHtml [] a c b) = commentHtml [] a c b := by
    unfold convertUnorderedListsToPlainText
    rw [ReplaceAllString_absent _ _ _ _ hcov (by decide),
      ReplaceAllStringFunc_absent _ _ _ _ hcov (by decide)]
  have e : "<p>".data ++ (a ++ ("\n\n".data ++ ("<!-- ".data ++ (c ++ (" -->".data ++
      ("<p>".data ++ (b ++ "\n\n".data))))))) =
      '<' :: ("p".data ++ '>' :: (a ++ ("\n\n".data ++ ("<!-- ".data ++ (c ++ (" -->".data ++
        ("<p>".data ++ (b ++ "\n\n".data)))))))) := rfl
  rw [List.nil_append] at hamp hcl
  rw [ConvertToPlainText_legacy _ hnest, Sanitize_comment sep a c b hsep ha hc hb, hol, hul,
    ReplaceAllString_absent _ _ _ _ hcov (by decide), pClose_comment a c b ha hc hb, e,
    stripTags_tag _ _ (by decide), hstrip, UnescapeString_id _ hamp, hcl]

/-- An occurrence of a text whose only `<` is its first character, at the head of an
input followed by a text that starts with `<`, lies inside the input. -/
theorem isPrefixOf_append_lt (w t : Str) (hw : '<' ∉ w)
    (hhead : ∀ c, t.head? = some c → c = '<') (x : Char) (s : Str) :
    ('<' :: w).isPrefixOf (x :: (s ++ t)) = ('<' :: w).isPrefixOf (x :: s) := by
  by_cases hl : ('<' :: w).length ≤ (x :: s).length
  · exact isPrefixOf_append_of_le _ (x :: s) t hl
  · rw [isPrefixOf_short _ (x :: s) (by omega)]
    cases t with
    | nil =>
      rw [List.append_nil]
      exact isPrefixOf_short _ (x :: s) (by omega)
    | cons c t =>
      have hc := hhead c rfl
      subst hc
      cases hq : ('<' :: w).isPrefixOf (x :: (s ++ '<' :: t)) with
      | false => rfl
      | true =>
        simp only [List.isPrefixOf, Bool.and_eq_true] at hq
        have := length_le_of_isPrefixOf_lt w s t hw hq.2
        simp only [List.length_cons] at hl
        omega

/-- The scan of `strings.Count` over an input followed by a text that starts with `<`: the
occurrences in the input and those in the text add up. -/
theorem countScan_add (w t : Str) (hw : '<' ∉ w) (hhead : ∀ c, t.head? = some c → c = '<') :
    ∀ (s : Str) (k : Nat), k ≤ s.length →
      countScan ('<' :: w) k (s ++ t) = countScan ('<' :: w) k s + countScan ('<' :: w) 0 t := by
  intro s
  induction s with
  | nil =>
    intro k hk
    have hk0 : k = 0 := by simpa using hk
    subst hk0
    simp [countScan]
  | cons x s ih =>
    intro k hk
    cases k with
    | succ k =>
      show countScan ('<' :: w) k (s ++ t) = countScan ('<' :: w) k s + _
      exact ih k (by simp only [List.length_cons] at hk; omega)
    | zero =>
      show (if ('<' :: w).isPrefixOf (x :: (s ++ t)) = true
          then 1 + countScan ('<' :: w) (('<' :: w).length - 1) (s ++ t)
          else countScan ('<' :: w) 0 (s ++ t)) =
        (if ('<' :: w).isPrefixOf (x :: s) = true
          then 1 + countScan ('<' :: w) (('<' :: w).length - 1) s
          else countScan ('<' :: w) 0 s) + countScan ('<' :: w) 0 t
      rw [isPrefixOf_append_lt w t hw hhead x s]
      cases hq : ('<' :: w).isPrefixOf (x :: s) with
      | true =>
        have hl := (List.isPrefixOf_iff_prefix.mp hq).length_le
        simp only [List.length_cons] at hl
        simp only [if_true]
        rw [ih _ (by simp only [List.length_cons]; omega)]
        omega
      | false =>
        simp only [Bool.false_eq_true, if_false]
        exact ih 0 (Nat.zero_le _)

/-- The counts of `strings.Count` add up over an input followed by a text that starts
with `<`, for a text counted whose only `<` is its first character. -/
theorem Count_add (w t s : Str) (hw : '<' ∉ w) (hhead : ∀ c, t.head? = some c → c = '<') :
    Count (s ++ t) ('<' :: w) = Count s ('<' :: w) + Count t ('<' :: w) := by
  simp only [Count, List.isEmpty_cons, Bool.false_eq_true, if_false]
  exact countScan_add w t hw hhead s 0 (Nat.zero_le _)

/-- The number of occurrences of `</tag` in `n` closing tags `</tag>`. -/
theorem Count_closers (tag : Str) (hw : '<' ∉ tag)
    (h1 : Count ("</".data ++ tag ++ ">".data) ('<' :: '/' :: tag) = 1) : ∀ (n : Nat),
    Count ((List.replicate n ("</".data ++ tag ++ ">".data)).join) ('<' :: '/' :: tag) = n := by
  intro n
  induction n with
  | zero => simp [Count, countScan]
  | succ n ih =>
    have hw2 : '<' ∉ '/' :: tag := by
      intro h
      rcases List.mem_cons.mp h with h | h
      · exact absurd h (by decide)
      · exact hw h
    show Count (("</".data ++ tag ++ ">".data) ++
      (List.replicate n ("</".data ++ tag ++ ">".data)).join) ('<' :: '/' :: tag) = n + 1
    rw [Count_add _ _ _ hw2 (join_replicate_head ("</".data ++ tag ++ ">".data)
      ⟨"/".data ++ tag ++ ">".data, rfl⟩ n), h1, ih]
    omega

/-- The closing tags appended for a list of tag names hold at least the occurrences of
`sub` of the closing tags of each one of them. -/
theorem Count_closersOf_ge (s w : Str) (hw : '<' ∉ w) : ∀ (tags : List Str) (tag : Str),
    tag ∈ tags → Count (missingClosers s tag) ('<' :: w) ≤ Count (closersOf s tags) ('<' :: w) := by
  intro tags
  induction tags with
  | nil => intro tag h; exact absurd h (List.not_mem_nil _)
  | cons x tags ih =>
    intro tag h
    rw [closersOf_cons, Count_add _ _ _ hw (closersOf_head s tags)]
    rcases List.mem_cons.mp h with h | h
    · subst h
      omega
    · have := ih tag h
      omega

/-- Without more opening than closing tags of the listed names nothing is appended. -/
theorem fixUnclosedTags_balanced (s : Str)
    (h : ∀ tag ∈ unclosedTags, Count s ('<' :: tag) ≤ Count s ('<' :: '/' :: tag)) :
    fixUnclosedTags s = s := by
  rw [fixUnclosedTags_eq s]
  have : closersOf s unclosedTags = [] := by
    simp only [closersOf, List.flatMap_eq_nil_iff]
    intro tag ht
    simp only [missingClosers, Nat.sub_eq_zero_of_le (h tag ht), List.replicate_zero,
      List.join_nil]
  rw [this, List.append_nil]

/-- After `fixUnclosedTags` every listed tag name has at most as many opening as closing
tags. -/
theorem fixUnclosedTags_counts (s : Str) : ∀ tag ∈ unclosedTags,
    Count (fixUnclosedTags s) ('<' :: tag) ≤ Count (fixUnclosedTags s) ('<' :: '/' :: tag) := by
  intro tag ht
  have hw : '<' ∉ tag := (by decide : ∀ tag ∈ unclosedTags, '<' ∉ tag) tag ht
  have hw2 : '<' ∉ '/' :: tag := by
    intro h
    rcases List.mem_cons.mp h with h | h
    · exact absurd h (by decide)
    · exact hw h
  have h1 := (by decide : ∀ tag ∈ unclosedTags,
    Count ("</".data ++ tag ++ ">".data) ('<' :: '/' :: tag) = 1) tag ht
  have hm := (by decide : ∀ tag ∈ unclosedTags,
    (Re.lit ('<' :: tag)).missesAll (closerWins unclosedTags) = true) tag ht
  have hopen : Count (s ++ closersOf s unclosedTags) ('<' :: tag) = Count s ('<' :: tag) :=
    Count_append tag _ s hw (closersOf_head s unclosedTags)
      (closersOf_noOcc s unclosedTags _ (by simp) hm)
  have hclose := Count_add ('/' :: tag) (closersOf s unclosedTags) s hw2
    (closersOf_head s unclosedTags)
  have hge := Count_closersOf_ge s ('/' :: tag) hw2 unclosedTags tag ht
  have hn : Count (missingClosers s tag) ('<' :: '/' :: tag) =
      Count s ('<' :: tag) - Count s ('<' :: '/' :: tag) :=
    Count_closers tag hw h1 _
  rw [fixUnclosedTags_eq, hopen, hclose]
  omega

/-- The four converters on a plain text. -/
theorem plain_fixed (s : Str) (hs : isPlainText s = true) :
    SanitizeWordPressContent s = s ∧ CleanHTML s = s ∧ ConvertToPlainText s = s ∧
    ConvertToMarkdown s = s := by
  obtain ⟨hne, hhead, hlast, hch, hcov⟩ := isPlainText_facts s hs
  have hc := hcov []
  obtain ⟨hstrip, hun, htrim⟩ := plain_clean s hs
  have hlt : '<' ∉ s := by
    intro h; have := hch _ h; revert this; decide
  have hamp : '&' ∉ s := by
    intro h; have := hch _ h; revert this; decide
  have heq : '=' ∉ s := by
    intro h; have := hch _ h; revert this; decide
  have hdash : '-' ∉ s := by
    intro h; have := hch _ h; revert this; decide
  have hc2 := notLt_covers s hlt
  have hsan : SanitizeWordPressContent s = s := Sanitize_id plainWins s hc (by decide) htrim
  have hnest : hasNestedList s = false := hasNestedList_absent _ _ hc (by decide)
  have hh : ∀ x, s.head? = some x → goSpace.mem x = false :=
    fun x hx => CharSet.not_mem_of_disjoint alnum goSpace (by decide) x (hhead x hx)
  have hl : ∀ x, s.getLast? = some x → goSpace.mem x = false :=
    fun x hx => CharSet.not_mem_of_disjoint alnum goSpace (by decide) x (hlast x hx)
  have hcl : cleanWhitespace s = s := by
    have := cleanWhitespace_strip plainWins [] s [] (by simpa using hc) (by decide) (by simp)
      (by simp) hh hl hne
    simpa using this
  have hfin : markdownFinish s = s := by
    have := markdownFinish_strip plainWins [] s [] (by simpa using hamp) (by simpa using hc) hc
      (by decide) (by simp) (by simp) hh hl hne
    simpa using this
  refine ⟨hsan, ?_, ?_, ?_⟩
  · rw [CleanHTML_front plainWins s hc (by decide) htrim (by decide) (by decide)
      (not_contains_of_char _ _ '=' (by decide) heq)
      (not_contains_of_char _ _ '-' (by decide) hdash)]
    unfold fixListStructure updateDeprecatedTags
    simp (disch := first | assumption | decide) only [ReplaceAllString_absent,
      ReplaceAllStringFunc_absent]
  · rw [ConvertToPlainText_legacy _ hnest, hsan]
    unfold convertOrderedListsToPlainText convertUnorderedListsToPlainText
    simp (disch := first | assumption | decide) only [ReplaceAllString_absent,
      ReplaceAllStringFunc_absent]
    rw [hstrip, hun, hcl]
  · rw [ConvertToMarkdown_legacy _ hnest, hsan]
    unfold convertOrderedLists
    simp (disch := first | assumption | decide) only [ReplaceAllString_absent,
      ReplaceAllStringFunc_absent]
    rw [convertUnorderedLists_id s hc2, markdownRules_id s hc2, hfin]

/-- The marker patterns on an input of well-formed tokens leave no `!`. -/
theorem removeGutenbergComments_toks (ps : List Tok) (hok : ∀ t ∈ ps, t.ok = true) :
    charsOk (fun c => c ≠ '!') (removeGutenbergComments (renderToks ps)) := by
  obtain ⟨qs, h1, h2, h3⟩ := open_pass ps.length ps (Nat.le_refl _) hok
  have h4 := close_pass qs.length qs (Nat.le_refl _) h1 h2
  unfold removeGutenbergComments
  rw [h3]
  exact h4

/-- A text without the start of a block marker is left as it is. -/
theorem removeGutenbergComments_fixed (t : Str)
    (hopen : Contains t "<!-- wp:".data = false) (hclose : Contains t "<!-- /wp:".data = false) :
    removeGutenbergComments t = t := by
  have h1 : ReplaceAllString reBlockOpen t [] = t :=
    ReplaceAllString_none _ _ _
      (findFirst_none_of_not_contains reBlockOpen (by decide) "<!-- wp:".data
        (seqs [attrs, L "-->", ws0]) (List.mem_cons_self _ _) t hopen)
  have h2 : ReplaceAllString reBlockClose t [] = t :=
    ReplaceAllString_none _ _ _
      (findFirst_none_of_not_contains reBlockClose (by decide) "<!-- /wp:".data
        (seqs [attrs, L "-->"]) (List.mem_cons_of_mem _ (List.mem_cons_self _ _)) t hclose)
  simp only [removeGutenbergComments, h1, h2]

/-- In the input of three style blocks the loop of `extractInlineStyles` stays at position 31:
each iteration collects the rest of the second block again and computes 31 again. -/
theorem scan_stuck (acc : Str) : scanStep threeStyles ⟨acc, 31⟩ =
    .next ⟨acc ++ "bbbbbbbb</style>\n".data, 31⟩ := by
  rfl

theorem loop_stuck : ∀ (fuel : Nat) (acc : Str),
    scanLoop threeStyles fuel ⟨acc, 31⟩ = none := by
  intro fuel
  induction fuel with
  | zero => intro acc; rfl
  | succ n ih =>
    intro acc
    simp only [scanLoop, scan_stuck]
    exact ih _

/-- The routing of `ConvertToMarkdown` and `ConvertToPlainText` as the code performs it:
the nested-aware converters are taken exactly when the content has an `<li` tag followed
on the same line by a `<ul` tag with its closing `>`; every other content gets the result
of the legacy flat pipeline. Two sibling flat lists on one line pass the test. -/
theorem route_by_list_tag (s : Str) :
    (ListTagAfterItem s →
      ConvertToMarkdown s = NestedListsToMarkdown s ∧
      ConvertToPlainText s = NestedListsToPlainText s) ∧
    (¬ ListTagAfterItem s →
      ConvertToMarkdown s = legacyMarkdown s ∧ ConvertToPlainText s = legacyPlainText s) ∧
    ListTagAfterItem siblingLists := by
  refine ⟨?_, ?_, (hasNestedList_iff siblingLists).mp (by decide)⟩
  · intro h
    have hn := (hasNestedList_iff s).mpr h
    unfold ConvertToMarkdown ConvertToPlainText
    rw [hn]
    exact ⟨rfl, rfl⟩
  · intro h
    have hn : hasNestedList s = false := by
      cases hq : hasNestedList s with
      | false => rfl
      | true => exact absurd ((hasNestedList_iff s).mp hq) h
    exact ⟨ConvertToMarkdown_legacy s hn, ConvertToPlainText_legacy s hn⟩

/-- A text without three newlines in a row has no match of `\n{3,}`. -/
theorem noMatch_newlines3 (s : Str) (h : NoOcc "\n\n\n".data s) : NoMatch reNewlines3 s := by
  intro a w b he hm
  obtain ⟨v, hw, _⟩ := (Matches_reNewlines3 w).mp hm
  subst hw
  exact h a (v ++ b) (by rw [he]; simp)

/-- On a text without a space or tab directly in front of a newline, a second
`cleanWhitespace` changes nothing. -/
theorem cleanWhitespace_twice (t : Str) (h : NoBlankNl t) :
    cleanWhitespace (cleanWhitespace t) = cleanWhitespace t := by
  obtain ⟨h1, h2, h3⟩ := cleanWhitespace_facts t
  have e1 : ReplaceAllString reNewlines3 (cleanWhitespace t) [T "\n\n"] = cleanWhitespace t :=
    ReplaceAllString_noMatch _ _ _ (noMatch_newlines3 _ (h3 h))
  have e2 : ReplaceAllString reTrailingBlanks (cleanWhitespace t) [T "\n"] = cleanWhitespace t :=
    ReplaceAllString_noMatch _ _ _ (noMatch_of_noBlankNl _ h1)
  have e3 : ReplaceAllString reBetweenTags (cleanWhitespace t) [T "><"] = cleanWhitespace t :=
    ReplaceAllString_noMatch _ _ _ h2
  have e4 : TrimSpace (cleanWhitespace t) = cleanWhitespace t :=
    TrimSpace_id _ (TrimSpace_head _) (TrimSpace_last _)
  show TrimSpace (ReplaceAllString reBetweenTags (ReplaceAllString reTrailingBlanks
    (ReplaceAllString reNewlines3 (cleanWhitespace t) [T "\n\n"]) [T "\n"]) [T "><"]) = _
  rw [e1, e2, e3, e4]

/-- A first pass that removes no paragraph, on a text that has no space or tab directly in
front of a newline once its block markers are removed: the result is the cleaned text, and
a second pass returns it when it holds no block marker. -/
theorem Sanitize_twice (s : Str)
    (hb1 : Contains (removeGutenbergComments s) " \n".data = false)
    (hb2 : Contains (removeGutenbergComments s) "\t\n".data = false)
    (hp1 : MatchString reEmptyP (cleanWhitespace (removeGutenbergComments s)) = false)
    (hp2 : MatchString reBrOnlyP (cleanWhitespace (removeGutenbergComments s)) = false) :
    SanitizeWordPressContent s = cleanWhitespace (removeGutenbergComments s) ∧
    (Contains (SanitizeWordPressContent s) "<!-- wp:".data = false →
      Contains (SanitizeWordPressContent s) "<!-- /wp:".data = false →
      SanitizeWordPressContent (SanitizeWordPressContent s) = SanitizeWordPressContent s) := by
  have hrem : removeEmptyParagraphs (cleanWhitespace (removeGutenbergComments s)) =
      cleanWhitespace (removeGutenbergComments s) := by
    unfold removeEmptyParagraphs
    simp only [ReplaceAllString_of_no_match _ _ _ hp1, ReplaceAllString_of_no_match _ _ _ hp2]
  have hS : SanitizeWordPressContent s = cleanWhitespace (removeGutenbergComments s) := hrem
  refine ⟨hS, fun hopen hclose => ?_⟩
  have hfix := removeGutenbergComments_fixed _ hopen hclose
  have htw := cleanWhitespace_twice _ ((NoBlankNl_iff _).mpr ⟨hb1, hb2⟩)
  show removeEmptyParagraphs (cleanWhitespace (removeGutenbergComments
    (SanitizeWordPressContent s))) = SanitizeWordPressContent s
  rw [hfix, hS, htw, hrem]

/-- On a document of paragraphs a second pass changes nothing. -/
theorem Sanitize_paras_twice (ps : List Para) (h : ∀ p ∈ ps, p.wellFormed = true) :
    SanitizeWordPressContent (SanitizeWordPressContent (paras ps)) =
      SanitizeWordPressContent (paras ps) := by
  have h2 : ∀ p ∈ ps.filter Para.isText, p.wellFormed = true :=
    fun p hp => h p (List.mem_of_mem_filter hp)
  rw [Sanitize_paras ps h, Sanitize_paras _ h2, List.filter_filter]
  simp


/-! ## The claims -/

set_option maxRecDepth 100000

/-- C1: `SanitizeWordPressContent`, `CleanHTML`, `ConvertToPlainText` and
`ConvertToMarkdown` each return the empty string on the empty string. -/
theorem C1_empty_input :
    SanitizeWordPressContent [] = [] ∧ CleanHTML [] = [] ∧ ConvertToPlainText [] = [] ∧
    ConvertToMarkdown [] = [] := by
  decide

/-- C2, counterexample: the outputs can contain `<` and `>`. The entities are decoded
after the tags have been removed, so `&lt;b&gt;` becomes `<b>` in both outputs; and the
Markdown of a block quote starts with `> `. -/
theorem C2_counterexample :
    (¬ ∀ s : Str, ('<' ∉ ConvertToPlainText s ∧ '>' ∉ ConvertToPlainText s) ∧
      ('<' ∉ ConvertToMarkdown s ∧ '>' ∉ ConvertToMarkdown s)) ∧
    ConvertToPlainText "&lt;b&gt;".data = "<b>".data ∧
    ConvertToMarkdown "&lt;b&gt;".data = "<b>".data ∧
    ConvertToMarkdown "<blockquote>Q</blockquote>".data = "> Q".data := by
  refine ⟨?_, by decide, by decide, by decide⟩
  intro h
  exact absurd (h "&lt;b&gt;".data).1.1 (by decide)

/-- C2, amended: for every input that holds no `&`, the outputs of `ConvertToPlainText`
and of `ConvertToMarkdown` hold no tag: no `<` of an output is followed, anywhere later
in that output, by a `>`. -/
theorem C2_no_tag_in_output (s : Str) (h : '&' ∉ s) :
    (∀ a b : Str, ConvertToPlainText s = a ++ '<' :: b → '>' ∉ b) ∧
    (∀ a b : Str, ConvertToMarkdown s = a ++ '<' :: b → '>' ∉ b) :=
  ⟨fun a b => noTag_of_hasTag a _ b (ConvertToPlainText_noTag s (ampFree_of_not_mem s h)),
    fun a b => noTag_of_hasTag a _ b (ConvertToMarkdown_noTag s (ampFree_of_not_mem s h))⟩

/-- C2, amended, at an input with tags and with lone angle brackets: the plain text is
`x > y` and the Markdown is `**x** > y`. -/
theorem C2_no_tag_in_output_witness :
    ConvertToPlainText "<p><b>x</b> > y < z ></p>".data = "x > y".data ∧
    ConvertToMarkdown "<p><b>x</b> > y < z ></p>".data = "**x** > y".data ∧
    (∀ a b : Str, ConvertToPlainText "<p><b>x</b> > y < z ></p>".data = a ++ '<' :: b →
      '>' ∉ b) ∧
    (∀ a b : Str, ConvertToMarkdown "<p><b>x</b> > y < z ></p>".data = a ++ '<' :: b →
      '>' ∉ b) :=
  ⟨by decide, by decide, C2_no_tag_in_output "<p><b>x</b> > y < z ></p>".data (by decide)⟩

/-- C3: on the entity-encoded input `&amp;&lt;&gt;&quot;` both converters return the four
decoded characters, and on the paragraph of the test both return its text with each
entity replaced by its character. -/
theorem C3_entities_decoded :
    ConvertToPlainText "&amp;&lt;&gt;&quot;".data = "&<>\"".data ∧
    ConvertToMarkdown "&amp;&lt;&gt;&quot;".data = "&<>\"".data ∧
    ConvertToPlainText entitiesHTML = entitiesText ∧
    ConvertToMarkdown entitiesHTML = entitiesText := by
  decide

/-- C4, counterexample: an input that contains the pair `<!-- wp:a>b -->` ...
`<!-- /wp:a>b -->` keeps both markers, because the patterns `[^>]*` of the marker bodies
cannot pass the `>`. -/
theorem C4_counterexample :
    ¬ ∀ s : Str,
      (∃ x a b c : Str, s = a ++ ("<!-- wp:".data ++ x ++ " -->".data) ++ b ++
        ("<!-- /wp:".data ++ x ++ " -->".data) ++ c) →
      Contains (SanitizeWordPressContent s) "<!-- wp:".data = false ∧
      Contains (SanitizeWordPressContent s) "<!-- /wp:".data = false := by
  intro h
  have h1 := h markersWithGt ⟨"a>b".data, [], "<p>t</p>".data, [], by decide⟩
  exact absurd h1.1 (by decide)

/-- C4, amended: for every input made of texts without `!` and of block markers
`<!-- wp:x-->` and `<!-- /wp:x-->` whose bodies `x` hold neither `<` nor `>`, in any
order and number, the output of `SanitizeWordPressContent` holds no `!`, and so contains
neither `<!-- wp:` nor `<!-- /wp:`. -/
theorem C4_markers_removed (ps : List Piece) (h : ∀ p ∈ ps, p.wellFormed = true) :
    '!' ∉ SanitizeWordPressContent (renderPieces ps) ∧
    Contains (SanitizeWordPressContent (renderPieces ps)) "<!-- wp:".data = false ∧
    Contains (SanitizeWordPressContent (renderPieces ps)) "<!-- /wp:".data = false := by
  have hc := Sanitize_toks (ps.flatMap Piece.toks) (toks_ok ps h)
  rw [renderToks_toks] at hc
  have hb : '!' ∉ SanitizeWordPressContent (renderPieces ps) := fun hm => hc _ hm rfl
  exact ⟨hb, not_contains_of_char _ _ '!' (by decide) hb,
    not_contains_of_char _ _ '!' (by decide) hb⟩

/-- C4, amended, at a paragraph inside a pair of block markers. -/
theorem C4_markers_removed_witness :
    renderPieces paragraphBlock =
      "<!-- wp:paragraph -->\n<p>Hello</p>\n<!-- /wp:paragraph -->".data ∧
    '!' ∉ SanitizeWordPressContent (renderPieces paragraphBlock) ∧
    Contains (SanitizeWordPressContent (renderPieces paragraphBlock)) "<!-- wp:".data = false ∧
    Contains (SanitizeWordPressContent (renderPieces paragraphBlock)) "<!-- /wp:".data = false :=
  ⟨by decide, C4_markers_removed paragraphBlock (by decide)⟩

/-- C5, counterexample: `SanitizeWordPressContent` is not idempotent on the inputs whose
first pass leaves no block marker. On `a\n \n \nb` the first pass returns `a\n\n\nb` (no
marker in it) and the second pass returns `a\n\nb`; on `a\n<p></p>\n\nb`, which has no
space or tab in front of a newline, the removal of the empty paragraph leaves `a\n\n\nb`,
and the second pass returns `a\n\nb`. -/
theorem C5_counterexample :
    (¬ ∀ s : Str,
      Contains (SanitizeWordPressContent s) "<!-- wp:".data = false →
      Contains (SanitizeWordPressContent s) "<!-- /wp:".data = false →
      SanitizeWordPressContent (SanitizeWordPressContent s) = SanitizeWordPressContent s) ∧
    SanitizeWordPressContent blankLinesInput = "a\n\n\nb".data ∧
    SanitizeWordPressContent (SanitizeWordPressContent blankLinesInput) = "a\n\nb".data ∧
    SanitizeWordPressContent emptyParaBetweenLines = "a\n\n\nb".data ∧
    SanitizeWordPressContent (SanitizeWordPressContent emptyParaBetweenLines) = "a\n\nb".data := by
  refine ⟨fun h => ?_, by decide, by decide, by decide, by decide⟩
  exact absurd (h blankLinesInput (by decide) (by decide)) (by decide)

/-- C5, amended: for every string `s` whose first pass contains no block marker, a second
pass of `SanitizeWordPressContent` changes nothing when, in the first pass, the text left
by `removeGutenbergComments` has no space or tab directly in front of a newline and
`cleanWhitespace` leaves no empty paragraph to remove (no match of `<p>\s*</p>` and of
`<p>\s*(<br\s*/?>\s*)*</p>`); and it changes nothing on every document made of paragraphs
`<p>t</p>` with plain texts and of the empty paragraphs `<p></p>`, `<p> </p>`,
`<p><br /></p>`, which the first pass removes. -/
theorem C5_sanitize_idempotent_without_joins :
    (∀ s : Str,
      Contains (SanitizeWordPressContent s) "<!-- wp:".data = false →
      Contains (SanitizeWordPressContent s) "<!-- /wp:".data = false →
      Contains (removeGutenbergComments s) " \n".data = false →
      Contains (removeGutenbergComments s) "\t\n".data = false →
      MatchString reEmptyP (cleanWhitespace (removeGutenbergComments s)) = false →
      MatchString reBrOnlyP (cleanWhitespace (removeGutenbergComments s)) = false →
      SanitizeWordPressContent (SanitizeWordPressContent s) = SanitizeWordPressContent s) ∧
    (∀ ps : List Para, (∀ p ∈ ps, p.wellFormed = true) →
      SanitizeWordPressContent (SanitizeWordPressContent (paras ps)) =
        SanitizeWordPressContent (paras ps)) :=
  ⟨fun s hopen hclose hb1 hb2 hp1 hp2 => (Sanitize_twice s hb1 hb2 hp1 hp2).2 hopen hclose,
    Sanitize_paras_twice⟩

/-- C5, amended, at a paragraph inside a pair of block markers, at two blocks with empty
lines between them and spaces at the end, and at the document of the test with every empty
paragraph. -/
theorem C5_sanitize_idempotent_without_joins_witness :
    SanitizeWordPressContent blockInput = "<p>Hello</p>".data ∧
    SanitizeWordPressContent (SanitizeWordPressContent blockInput) =
      SanitizeWordPressContent blockInput ∧
    removeGutenbergComments blocksWithGaps = "<h2>T</h2>\n\n\n\n<p>a</p>  ".data ∧
    SanitizeWordPressContent blocksWithGaps = "<h2>T</h2><p>a</p>".data ∧
    SanitizeWordPressContent (SanitizeWordPressContent blocksWithGaps) =
      SanitizeWordPressContent blocksWithGaps ∧
    SanitizeWordPressContent (paras mixedParas) = "<p>Content</p><p>More content</p>".data ∧
    SanitizeWordPressContent (SanitizeWordPressContent (paras mixedParas)) =
      SanitizeWordPressContent (paras mixedParas) :=
  ⟨by decide,
    C5_sanitize_idempotent_without_joins.1 blockInput (by decide) (by decide) (by decide)
      (by decide) (by decide) (by decide),
    by decide, by decide,
    C5_sanitize_idempotent_without_joins.1 blocksWithGaps (by decide) (by decide) (by decide)
      (by decide) (by decide) (by decide),
    by decide, C5_sanitize_idempotent_without_joins.2 mixedParas (by decide)⟩

/-- C6, evaluation of the code: on `<ul><li>A<ul><li>B</li></ul></li></ul>` the Markdown
is `- A` and the plain text is `• A`; the text `B` of the leaf item occurs in neither. -/
theorem C6_nested_item_lost :
    ConvertToMarkdown nestedUl = "- A".data ∧ ConvertToPlainText nestedUl = "• A".data ∧
    Contains (ConvertToMarkdown nestedUl) "B".data = false ∧
    Contains (ConvertToPlainText nestedUl) "B".data = false := by
  decide

/-- C7: for every non-empty list of plain item texts, `ConvertToMarkdown` applied to
`<ol><li>t1</li>...<li>tn</li></ol>` returns the lines `1. t1`, `2. t2`, ..., `n. tn`
joined by newlines: the items are numbered from 1 in document order. -/
theorem C7_ordered_list_markdown (ts : List Str) (hne : ts ≠ [])
    (hts : ∀ t ∈ ts, isPlainText t = true) :
    ConvertToMarkdown (olHtml ts) = Join (numberedLines 0 ts) "\n".data := by
  have hcov := list_covers "ol" ts hts
  rw [← olHtml_form] at hcov
  have hnest : hasNestedList (olHtml ts) = false := by
    unfold hasNestedList
    rw [Contains_absent "<ul".data (listWins "ol") _ hcov (by decide)]
    rfl
  have htrim : TrimSpace (olHtml ts) = olHtml ts := by
    have e : olHtml ts = '<' :: (("ol>".data ++ liItems ts ++ "</ol".data) ++ ['>']) := by
      simp [olHtml]
    obtain ⟨h1, h2⟩ := head_getLast_of_wrap '<' ("ol>".data ++ liItems ts ++ "</ol".data) '>'
    rw [← e] at h1 h2
    apply TrimSpace_id
    · intro x hx; rw [h1] at hx; simp at hx; subst hx; decide
    · intro x hx; rw [h2] at hx; simp at hx; subst hx; decide
  obtain ⟨hJne, hJlast⟩ := numbered_last ts 0 hne hts
  have hJhead := numbered_head ts 0 hne
  have hJchars := numbered_chars ts 0 hts
  have hs1 : "\n".data ++ (joinLines (numberedLines 0 ts) ++ "\n".data) ++ "\n".data =
      "\n".data ++ joinLines (numberedLines 0 ts) ++ "\n\n".data := by simp
  have hchars : ∀ c ∈ "\n".data ++ joinLines (numberedLines 0 ts) ++ "\n\n".data,
      lineChars.mem c = true := by
    intro c hc
    simp only [List.mem_append] at hc
    rcases hc with (h | h) | h
    · revert c; decide
    · exact hJchars c h
    · revert c; decide
  have hlt : '<' ∉ "\n".data ++ joinLines (numberedLines 0 ts) ++ "\n\n".data := by
    intro h; have := hchars _ h; revert this; decide
  have hamp : '&' ∉ "\n".data ++ joinLines (numberedLines 0 ts) ++ "\n\n".data := by
    intro h; have := hchars _ h; revert this; decide
  have hc1 : CoversIn lineWins
      ("\n".data ++ joinLines (numberedLines 0 ts) ++ "\n\n".data) [] := by
    rw [List.append_assoc]
    refine CoversIn.append ?_ (CoversIn.append (numbered_covers ts 0 _ hts) ?_)
    · refine (CoversIn.lit (startsIn digits) _ _ ?_).mono
        (fun W hW => List.mem_append_left _ (List.mem_append_right _ hW))
      obtain ⟨x, s, hs⟩ := List.exists_cons_of_ne_nil hJne
      rw [hs]
      exact Describes_startsIn _ _ _ (hJhead x (by rw [hs]; rfl))
    · exact (CoversIn.lit endWin _ _ (by simp [endWin, Describes])).mono
        (fun W hW => List.mem_append_right _ hW)
  rw [ConvertToMarkdown_legacy _ hnest, Sanitize_id (listWins "ol") _ hcov (by decide) htrim,
    convertOrderedLists_flat ts hts, flatMap_lines _ (numbered_ne_nil ts 0 hne), hs1,
    convertUnorderedLists_id _ (notLt_covers _ hlt), markdownRules_id _ (notLt_covers _ hlt),
    markdownFinish_strip lineWins _ _ _ hamp hc1 (numbered_covers ts 0 [] hts) (by decide)
      (by decide) (by decide)
      (fun x hx => CharSet.not_mem_of_disjoint digits goSpace (by decide) x (hJhead x hx))
      (fun x hx => CharSet.not_mem_of_disjoint alnum goSpace (by decide) x (hJlast x hx)) hJne,
    Join_newline]

/-- C7 at the ordered list of the test: `First`, `Second`. -/
theorem C7_ordered_list_markdown_witness :
    ConvertToMarkdown (olHtml ["First".data, "Second".data]) =
      Join (numberedLines 0 ["First".data, "Second".data]) "\n".data :=
  C7_ordered_list_markdown ["First".data, "Second".data] (by decide) (by decide)

/-- C8: for every non-empty list of plain item texts, `ConvertToPlainText` applied to
`<ul><li>t1</li>...<li>tn</li></ul>` returns the lines `• t1`, ..., `• tn` joined by
newlines, in document order. -/
theorem C8_unordered_list_plain_text (ts : List Str) (hne : ts ≠ [])
    (hts : ∀ t ∈ ts, isPlainText t = true) :
    ConvertToPlainText (ulHtml ts) = Join (bulletLines ts) "\n".data := by
  have hcov := list_covers "ul" ts hts
  have htrim := TrimSpace_list "ul" ts
  rw [← ulHtml_form] at hcov htrim
  have hnest : hasNestedList (ulHtml ts) = false := by
    unfold hasNestedList MatchString
    rw [ul_no_nested reNestedTest ts hts (by decide) (by decide)]
    simp
  obtain ⟨hJne, hJhead, hJlast, hJchars⟩ := bullet_facts ts hne hts
  have hbne : bulletLines ts ≠ [] := by
    cases ts with
    | nil => exact absurd rfl hne
    | cons t ts => simp [bulletLines]
  have hchars : ∀ c ∈ joinLines (bulletLines ts) ++ "\n".data, lineChars.mem c = true := by
    intro c hc
    rcases List.mem_append.mp hc with h | h
    · exact hJchars c h
    · exact (by decide : ∀ c ∈ "\n".data, lineChars.mem c = true) c h
  have hlt : '<' ∉ joinLines (bulletLines ts) ++ "\n".data := by
    intro h; have := hchars _ h; revert this; decide
  have hamp : '&' ∉ joinLines (bulletLines ts) ++ "\n".data := by
    intro h; have := hchars _ h; revert this; decide
  have hc1 : CoversIn bulletWins ([] ++ joinLines (bulletLines ts) ++ "\n".data) [] := by
    rw [List.nil_append]
    refine CoversIn.append (bullet_covers ts _ hts) ?_
    exact (CoversIn.lit endWin _ _ (by simp [endWin, Describes])).mono
      (fun W hW => List.mem_append_right _ hW)
  have hol : convertOrderedListsToPlainText (ulHtml ts) = ulHtml ts := by
    unfold convertOrderedListsToPlainText
    rw [ReplaceAllString_absent _ (listWins "ul") _ _ hcov (by decide),
      ReplaceAllStringFunc_absent _ (listWins "ul") _ _ hcov (by decide)]
  have hcl := cleanWhitespace_strip bulletWins [] (joinLines (bulletLines ts)) "\n".data hc1
    (by decide) (by decide) (by decide)
    (fun x hx => by rw [hJhead] at hx; simp at hx; subst hx; decide)
    (fun x hx => CharSet.not_mem_of_disjoint alnum goSpace (by decide) x (hJlast x hx)) hJne
  rw [List.nil_append] at hcl
  rw [ConvertToPlainText_legacy _ hnest, Sanitize_id (listWins "ul") _ hcov (by decide) htrim,
    hol, convertUnorderedListsToPlainText_flat ts hts, flatMap_lines _ hbne,
    ReplaceAllString_absent _ _ _ _ (notLt_covers _ hlt) (by decide),
    ReplaceAllString_absent _ _ _ _ (notLt_covers _ hlt) (by decide), stripTags,
    ReplaceAllString_absent _ _ _ _ (notLt_covers _ hlt) (by decide),
    UnescapeString_id _ hamp, hcl, Join_newline]

/-- C8 at the unordered list of the test: `One`, `Two`. -/
theorem C8_unordered_list_plain_text_witness :
    ConvertToPlainText (ulHtml ["One".data, "Two".data]) =
      Join (bulletLines ["One".data, "Two".data]) "\n".data :=
  C8_unordered_list_plain_text ["One".data, "Two".data] (by decide) (by decide)

/-- C9: for every heading level `n` from 1 to 6 and every plain title `t`,
`ConvertToMarkdown` applied to `<hn>t</hn>` returns `n` number signs, one space, then
`t`. -/
theorem C9_heading_markdown (n : Nat) (h1 : 1 ≤ n) (h6 : n ≤ 6) (t : Str)
    (ht : isPlainText t = true) :
    ConvertToMarkdown (headingHtml n t) = headingLine n t := by
  rw [headingHtml_form]
  have hcov := elem_covers ('h' :: itoa n) t ht
  have htrim := TrimSpace_elem ('h' :: itoa n) t
  have hmatch := convertHeading_match n h1 h6 t ht
  obtain ⟨hLne, hLhead, hLlast, hLchars⟩ := headingLine_facts n h1 t ht
  have hchars : ∀ c ∈ "\n".data ++ headingLine n t ++ "\n\n".data,
      (alnum ++ CharSet.of [' ', '#', '\n']).mem c = true := by
    intro c hc
    simp only [List.mem_append] at hc
    rcases hc with (h | h) | h
    · exact (by decide : ∀ c ∈ "\n".data, (alnum ++ CharSet.of [' ', '#', '\n']).mem c = true) c h
    · exact CharSet.mem_mono _ _ (by decide) c (hLchars c h)
    · exact (by decide : ∀ c ∈ "\n\n".data,
        (alnum ++ CharSet.of [' ', '#', '\n']).mem c = true) c h
  have hlt : '<' ∉ "\n".data ++ headingLine n t ++ "\n\n".data := by
    intro h; have := hchars _ h; revert this; decide
  have hamp : '&' ∉ "\n".data ++ headingLine n t ++ "\n\n".data := by
    intro h; have := hchars _ h; revert this; decide
  have hfin : markdownFinish ("\n".data ++ headingLine n t ++ "\n\n".data) = headingLine n t := by
    have hc1 : CoversIn (headWins n) ("\n".data ++ headingLine n t ++ "\n\n".data) [] := by
      rw [List.append_assoc]
      refine CoversIn.append ?_ (CoversIn.append (headingLine_covers n t _ ht) ?_)
      · refine (CoversIn.lit (startsIn (CharSet.of ['#'])) _ _ ?_).mono
          (fun W hW => List.mem_append_left _ (List.mem_append_right _ hW))
        obtain ⟨x, s, hs⟩ := List.exists_cons_of_ne_nil hLne
        rw [hs] at hLhead ⊢
        simp at hLhead; subst hLhead
        exact Describes_startsIn _ _ _ (by decide)
      · exact (CoversIn.lit endWin _ _ (by simp [endWin, Describes])).mono
          (fun W hW => List.mem_append_right _ hW)
    have hq : finishRes.all (fun r => r.absent (headWins n)) = true := by
      interval_cases n <;> decide
    exact markdownFinish_strip (headWins n) _ _ _ hamp hc1 (headingLine_covers n t [] ht) hq
      (by decide) (by decide)
      (fun x hx => by rw [hLhead] at hx; simp at hx; subst hx; decide)
      (fun x hx => CharSet.not_mem_of_disjoint alnum goSpace (by decide) x (hLlast x hx)) hLne
  have hcovLt := notLt_covers _ hlt
  interval_cases n <;>
  · rw [ConvertToMarkdown_legacy _ (hasNestedList_absent _ _ hcov (by decide)),
      Sanitize_id _ _ hcov (by decide) htrim]
    simp only [convertOrderedLists, convertUnorderedLists, markdownRules]
    simp (disch := first | assumption | decide) only [ReplaceAllString_absent,
      ReplaceAllStringFunc_absent, convertHeading_absent, wrapElem_absent, convertTables_absent,
      stripTags_absent, hmatch]
    exact hfin

/-- C9 at the heading of the test: `<h2>Title</h2>`. -/
theorem C9_heading_markdown_witness :
    ConvertToMarkdown (headingHtml 2 "Title".data) = headingLine 2 "Title".data :=
  C9_heading_markdown 2 (by decide) (by decide) "Title".data (by decide)

/-- C10 (as written): a paragraph that contains `<s>x</s>` behind a `<span>` element, or
`<b>x</b>` behind a line break, is mapped to a text without `~~x~~`, or without `**x**`:
the patterns `<s[^>]*>` and `<b[^>]*>` take `<span>` and `<br>` as the opening tag. -/
theorem C10_counterexample :
    isWord "x".data = true ∧
    Contains "<p><span>a</span> <s>x</s></p>".data "<s>x</s>".data = true ∧
    ConvertToMarkdown "<p><span>a</span> <s>x</s></p>".data = "~~ax~~".data ∧
    Contains (ConvertToMarkdown "<p><span>a</span> <s>x</s></p>".data) "~~x~~".data = false ∧
    Contains "<p>line<br>more <b>x</b></p>".data "<b>x</b>".data = true ∧
    ConvertToMarkdown "<p>line<br>more <b>x</b></p>".data = "line**more x**".data ∧
    Contains (ConvertToMarkdown "<p>line<br>more <b>x</b></p>".data) "**x**".data = false := by
  decide

/-- C10: for every emphasis tag with its marker (`strong` and `b` with `**`, `em` and `i`
with `*`, `del` and `s` with `~~`), every non-empty word `x` of letters and digits, and
every paragraph `<p>lead <TAG>x</TAG> trail</p>` whose optional lead and trail are plain
texts, `ConvertToMarkdown` returns `lead MARKERxMARKER trail`; this output contains
`MARKERxMARKER`, and it contains neither the opening nor the closing form of any of the
six emphasis tags. -/
theorem C10_emphasis_markdown (name marker : String) (hm : (name, marker) ∈ emphasisTags)
    (lead : Option Str) (x : Str) (trail : Option Str) (hx : isWord x = true)
    (hl : ∀ t ∈ lead, isPlainText t = true) (ht : ∀ t ∈ trail, isPlainText t = true) :
    ConvertToMarkdown (emphasisPara name lead x trail) = emphasisMd marker lead x trail ∧
    Contains (ConvertToMarkdown (emphasisPara name lead x trail))
      (marker.data ++ x ++ marker.data) = true ∧
    ∀ p ∈ emphasisTags,
      Contains (ConvertToMarkdown (emphasisPara name lead x trail))
        ("<".data ++ p.1.data ++ ">".data) = false ∧
      Contains (ConvertToMarkdown (emphasisPara name lead x trail))
        ("</".data ++ p.1.data ++ ">".data) = false := by
  have hp := isPlainText_of_isWord x hx
  have hm0 : marker.data ≠ [] ∧ ∀ c ∈ marker.data, markChars.mem c = true := by
    have := (by decide : ∀ p ∈ emphasisTags,
      p.2.data ≠ [] ∧ ∀ c ∈ p.2.data, markChars.mem c = true) _ hm
    exact this
  have hlt := (emphasis_setup marker lead x trail hp hl ht hm0.1 hm0.2).2.2.2.2
  rw [emphasis_markdown name marker hm lead x trail hp hl ht]
  refine ⟨rfl, ?_, no_emphasis_tags _ hlt⟩
  have e : emphasisMd marker lead x trail =
      leadOf lead ++ ((marker.data ++ x ++ marker.data) ++ trailOf trail) := by
    simp only [emphasisMd, List.append_assoc]
  rw [e]
  exact Contains_infix _ _ _

/-- C10 at the paragraph of the test: `<p>This is <strong>bold</strong> text</p>`. -/
theorem C10_emphasis_markdown_witness :
    ConvertToMarkdown (emphasisPara "strong" (some "This is".data) "bold".data (some "text".data)) =
      emphasisMd "**" (some "This is".data) "bold".data (some "text".data) ∧
    Contains (ConvertToMarkdown
      (emphasisPara "strong" (some "This is".data) "bold".data (some "text".data)))
      ("**".data ++ "bold".data ++ "**".data) = true ∧
    ∀ p ∈ emphasisTags,
      Contains (ConvertToMarkdown
        (emphasisPara "strong" (some "This is".data) "bold".data (some "text".data)))
        ("<".data ++ p.1.data ++ ">".data) = false ∧
      Contains (ConvertToMarkdown
        (emphasisPara "strong" (some "This is".data) "bold".data (some "text".data)))
        ("</".data ++ p.1.data ++ ">".data) = false :=
  C10_emphasis_markdown "strong" "**" (by decide) (some "This is".data) "bold".data
    (some "text".data) (by decide) (by decide) (by decide)

/-- C11: for a table written on one line, with one or more rows, each row made of one
or more cells of one kind (`th` or `td`) with plain texts, `ConvertToMarkdown` returns
these lines joined by newlines, in this order: the first row as `| cell | ... | cell |`,
a separator row `| --- | ... | --- |` with as many `---` cells as the first row has
cells, then one pipe row for each further row. -/
theorem C11_table_markdown (rs : List (String × List Str)) (hne : rs ≠ [])
    (hrs : ∀ r ∈ rs, (r.1 = "th" ∨ r.1 = "td") ∧ r.2 ≠ [] ∧ ∀ t ∈ r.2, isPlainText t = true) :
    ConvertToMarkdown (tableHtml rs) = Join (tableLines rs) "\n".data := by
  obtain ⟨r, rest, rfl⟩ := List.exists_cons_of_ne_nil hne
  have hcov : CoversIn tableWins (tableHtml (r :: rest)) [] := tableHtml_covers _ hrs
  have hnest := hasNestedList_absent tableWins _ hcov (by decide)
  have htrim : TrimSpace (tableHtml (r :: rest)) = tableHtml (r :: rest) := by
    have e : tableHtml (r :: rest) = '<' :: (("table>".data ++
        rowsHtml (r :: rest) ++ "</table".data) ++ ">".data) := by
      simp [tableHtml]
    rw [e]
    exact TrimSpace_tag _
  have hlines : ∀ l ∈ tableLines (r :: rest), TableLine l := by
    intro l hl
    simp only [tableLines, List.mem_cons, List.mem_map] at hl
    rcases hl with rfl | rfl | ⟨x, hx, rfl⟩
    · exact pipeRow_line r.2 (hrs r (List.mem_cons_self _ _)).2.2
    · exact separatorRow_line _
    · exact pipeRow_line x.2 (hrs x (List.mem_cons_of_mem _ hx)).2.2
  obtain ⟨hT1, hT2, hT3, hT4⟩ :=
    joinLines_table (tableLines (r :: rest)) (by simp [tableLines]) hlines
  have hTne : joinLines (tableLines (r :: rest)) ≠ [] := by
    intro e; rw [e] at hT2; simp at hT2
  have hconv : convertTables (tableHtml (r :: rest)) =
      "\n".data ++ joinLines (tableLines (r :: rest)) ++ "\n\n".data := by
    have h := convertTables_rows r rest hrs
    have e : pipeRow r.2 ++ "\n".data ++ (separatorRow r.2.length ++ "\n".data) ++
        rest.flatMap (fun x => pipeRow x.2 ++ "\n".data) =
        (tableLines (r :: rest)).flatMap (fun l => l ++ "\n".data) := by
      simp [tableLines, List.flatMap_map]
    rw [tableHtml, h]
    simp only [e, flatMap_lines _ (show tableLines (r :: rest) ≠ [] from by simp [tableLines])]
    simp
  have hchars : ∀ c ∈ "\n".data ++ joinLines (tableLines (r :: rest)) ++ "\n\n".data,
      pipeChars.mem c = true := by
    intro c hc
    simp only [List.mem_append] at hc
    rcases hc with (h | h) | h
    · exact (by decide : ∀ c ∈ "\n".data, pipeChars.mem c = true) c h
    · exact hT4 c h
    · exact (by decide : ∀ c ∈ "\n\n".data, pipeChars.mem c = true) c h
  have hlt : '<' ∉ "\n".data ++ joinLines (tableLines (r :: rest)) ++ "\n\n".data :=
    not_mem_of_class pipeChars '<' (by decide) _ hchars
  have hamp : '&' ∉ "\n".data ++ joinLines (tableLines (r :: rest)) ++ "\n\n".data :=
    not_mem_of_class pipeChars '&' (by decide) _ hchars
  have hc1 : CoversIn pipeWins
      ("\n".data ++ joinLines (tableLines (r :: rest)) ++ "\n\n".data) [] := by
    rw [List.append_assoc]
    refine CoversIn.append ?_ (CoversIn.append (hT1 _) ?_)
    · refine (CoversIn.lit (startsIn (CharSet.of ['|'])) _ _ ?_).mono (by
        intro W hW; simp only [pipeWins, List.mem_append]
        exact Or.inr (Or.inr (Or.inr (Or.inr (Or.inl hW)))))
      obtain ⟨x, s, hs⟩ := List.exists_cons_of_ne_nil hTne
      rw [hs] at hT2 ⊢
      simp only [List.head?_cons, Option.some.injEq] at hT2
      subst hT2
      exact Describes_startsIn _ _ _ (by decide)
    · exact (CoversIn.lit endWin _ _ (by simp [endWin, Describes])).mono (by
        intro W hW; simp only [pipeWins, List.mem_append]
        exact Or.inr (Or.inr (Or.inr (Or.inr (Or.inr hW)))))
  have hfin : markdownFinish ("\n".data ++ joinLines (tableLines (r :: rest)) ++ "\n\n".data) =
      joinLines (tableLines (r :: rest)) :=
    markdownFinish_strip pipeWins _ _ _ hamp hc1 (hT1 []) (by decide) (by decide) (by decide)
      (fun x hx => by rw [hT2] at hx; simp at hx; subst hx; decide)
      (fun x hx => by rw [hT3] at hx; simp at hx; subst hx; decide) hTne
  have hcovLt := notLt_covers _ hlt
  rw [ConvertToMarkdown_legacy _ hnest, Sanitize_id tableWins _ hcov (by decide) htrim]
  simp only [convertOrderedLists, convertUnorderedLists, markdownRules]
  simp (disch := first | assumption | decide) only [ReplaceAllString_absent,
    ReplaceAllStringFunc_absent, convertHeading_absent, wrapElem_absent, stripTags_absent, hconv]
  rw [hfin, Join_newline]

/-- C11 at the table of a header row `A`, `B` and a data row `C`, `D`. -/
theorem C11_table_markdown_witness :
    ConvertToMarkdown
      "<table><tr><th>A</th><th>B</th></tr><tr><td>C</td><td>D</td></tr></table>".data =
      "| A | B |\n| --- | --- |\n| C | D |".data :=
  C11_table_markdown [("th", ["A".data, "B".data]), ("td", ["C".data, "D".data])] (by decide)
    (by decide)

/-- C12, evaluation of the code: the Markdown of `a<br>b` is `a`, a newline, `b`. The
two spaces written for the line break are removed again by the rule `[ \t]+\n` of
`cleanWhitespace`, so the output does not contain `a`, two spaces, a newline, `b`. -/
theorem C12_hard_break_lost :
    ConvertToMarkdown lineBreakInput = "a\nb".data ∧
    Contains (ConvertToMarkdown lineBreakInput) "a  \nb".data = false ∧
    ReplaceAllString reBr lineBreakInput [T "  \n"] = "a  \nb".data ∧
    cleanWhitespace "a  \nb".data = "a\nb".data := by
  decide

/-- C13, evaluation of the code: the Markdown of `<p><u>x</u></p>` is `x`. The rule for
`u` writes `<u>x</u>` back, and the removal of the remaining tags takes it away. -/
theorem C13_underline_lost :
    ConvertToMarkdown underlineInput = "x".data ∧
    Contains (ConvertToMarkdown underlineInput) "<u>x</u>".data = false ∧
    wrapElem "u" "<u>" "</u>" underlineInput = underlineInput ∧
    stripTags underlineInput = "x".data := by
  decide

/-- C14, evaluation of the code: `CleanHTML` on the flat list of two items wraps the
first item, which sits inside the list, in a list of its own. -/
theorem C14_flat_list_changed :
    CleanHTML flatListInput = "<ul><li><ul><li>Item 1</li></ul></li><li>Item 2</li></ul>".data ∧
    CleanHTML flatListInput ≠ flatListInput ∧
    fixListStructure flatListInput =
      "<ul><li><ul><li>Item 1</li></ul></li><li>Item 2</li></ul>".data := by
  decide

/-- C15: for every input `s`, `fixUnclosedTags s` is `s` followed by closing tags only:
for each tag name of the list p, div, span, li, ol, ul, strong, em, a, in this order,
as many copies of `</tag>` as `s` has more occurrences of `<tag` than of `</tag`, the
occurrences counted in `s` itself; when no tag name has more `<tag` than `</tag`, the
result is `s`. -/
theorem C15_fixUnclosedTags_appends_deficit (s : Str) :
    fixUnclosedTags s = s ++ unclosedTags.flatMap (fun tag =>
      (List.replicate (Count s ('<' :: tag) - Count s ('<' :: '/' :: tag))
        ("</".data ++ tag ++ ">".data)).join) ∧
    ((∀ tag ∈ unclosedTags, Count s ('<' :: tag) ≤ Count s ('<' :: '/' :: tag)) →
      fixUnclosedTags s = s) := by
  refine ⟨fixUnclosedTags_eq s, fun h => ?_⟩
  rw [fixUnclosedTags_eq s]
  have : closersOf s unclosedTags = [] := by
    simp only [closersOf, List.flatMap_eq_nil_iff]
    intro tag ht
    simp only [missingClosers, Nat.sub_eq_zero_of_le (h tag ht), List.replicate_zero,
      List.join_nil]
  rw [this, List.append_nil]

/-- C15 at an input with an open paragraph, division, link and list item. -/
theorem C15_fixUnclosedTags_appends_deficit_witness :
    fixUnclosedTags "<p><div><a href=x><li>".data =
      "<p><div><a href=x><li></p></div></li></a>".data := by
  rw [(C15_fixUnclosedTags_appends_deficit "<p><div><a href=x><li>".data).1]
  decide

/-- C16 (as stated, refuted): in `<b><b>x</b></b>` every `b` element has its closing
tag, and the output of `CleanHTML` still contains `<b>`: the rewrite takes the outer
opening tag with the first closing tag. -/
theorem C16_counterexample :
    deprecatedClosed nestedBold = true ∧
    CleanHTML nestedBold = "<strong><b>x</strong></b>".data ∧
    Contains (CleanHTML nestedBold) "<b>".data = true := by
  decide

/-- C16 (amended): for each of the four deprecated elements (`center`, `font`, `b`, `i`)
written on its own as `<NAME>x</NAME>` or `<NAME color="w">x</NAME>`, with a plain text
`x` and a word `w`, `CleanHTML` returns the element under its new name (`div`, `span`,
`strong`, `em`) with the same attribute and text, the `div` carrying
`style="text-align: center;"` behind the attribute; this output contains none of
`<center>`, `<font`, `<b>`, `<i>`. -/
theorem C16_deprecated_element_rewritten (name new extra : String)
    (hm : (name, new, extra) ∈ deprecatedTags) (a : Option Str) (x : Str)
    (ha : ∀ w ∈ a, isWord w = true) (hx : isPlainText x = true) :
    CleanHTML (attrElem name.data (colorAttr a) x) =
      "<".data ++ new.data ++ colorAttr a ++ extra.data ++ ">".data ++ x ++ "</".data ++
        new.data ++ ">".data ∧
    Contains (CleanHTML (attrElem name.data (colorAttr a) x)) "<center>".data = false ∧
    Contains (CleanHTML (attrElem name.data (colorAttr a) x)) "<font".data = false ∧
    Contains (CleanHTML (attrElem name.data (colorAttr a) x)) "<b>".data = false ∧
    Contains (CleanHTML (attrElem name.data (colorAttr a) x)) "<i>".data = false := by
  rw [← newElem_eq]
  have hfront := fun (n : Str) => CleanHTML_attrElem n a x ha hx
  have hout := fun (n e : Str) => newElem_covers n a e x ha hx
  have hmatch := fun (n : String) (tpl : List Tpl) => updateTag_match n tpl a x ha hx
  have hin := fun (n : Str) => (attrElem_eq n a x) ▸
    taggedText_covers ("<".data ++ n) ">".data ("</".data ++ n ++ ">".data) a x ha hx
  simp only [deprecatedTags, List.mem_cons, Prod.mk.injEq, List.not_mem_nil, or_false] at hm
  rcases hm with ⟨rfl, rfl, rfl⟩ | ⟨rfl, rfl, rfl⟩ | ⟨rfl, rfl, rfl⟩ | ⟨rfl, rfl, rfl⟩
  · have hc1 := hin "center".data
    have hc2 := hout "div".data " style=\"text-align: center;\"".data
    have hup : updateDeprecatedTags (attrElem "center".data (colorAttr a) x) =
        newElem "div".data a " style=\"text-align: center;\"".data x := by
      unfold updateDeprecatedTags
      rw [hmatch "center" _ (by decide) (by decide)]
      have e : expand [T "<div", .ref 1, T " style=\"text-align: center;\">", .ref 2, T "</div>"]
          [(2, x), (1, colorAttr a)] = newElem "div".data a " style=\"text-align: center;\"".data x := by
        simp [expand, getCap, T, List.lookup, newElem, taggedText]
      rw [e]
      simp (disch := first | assumption | decide) only [ReplaceAllString_absent]
    rw [hfront "center".data (by decide) (by decide) (by decide) (by decide) (by decide), hup]
    have hfix : fixListStructure (newElem "div".data a " style=\"text-align: center;\"".data x) =
        newElem "div".data a " style=\"text-align: center;\"".data x := by
      unfold fixListStructure
      simp (disch := first | assumption | decide) only [ReplaceAllString_absent,
        ReplaceAllStringFunc_absent]
    rw [hfix]
    exact ⟨rfl, Contains_absent _ _ _ hc2 (by decide), Contains_absent _ _ _ hc2 (by decide),
      Contains_absent _ _ _ hc2 (by decide), Contains_absent _ _ _ hc2 (by decide)⟩
  · have hc1 := hin "font".data
    have hc2 := hout "span".data "".data
    have hrule : ReplaceAllString (reElemAttrs "font") (attrElem "font".data (colorAttr a) x)
        [T "<span", .ref 1, T ">", .ref 2, T "</span>"] = newElem "span".data a "".data x := by
      rw [hmatch "font" _ (by decide) (by decide)]
      simp [expand, getCap, T, List.lookup, newElem, taggedText]
    have hup : updateDeprecatedTags (attrElem "font".data (colorAttr a) x) =
        newElem "span".data a "".data x := by
      unfold updateDeprecatedTags
      simp (disch := first | assumption | decide) only [ReplaceAllString_absent, hrule]
    rw [hfront "font".data (by decide) (by decide) (by decide) (by decide) (by decide), hup]
    have hfix : fixListStructure (newElem "span".data a "".data x) =
        newElem "span".data a "".data x := by
      unfold fixListStructure
      simp (disch := first | assumption | decide) only [ReplaceAllString_absent,
        ReplaceAllStringFunc_absent]
    rw [hfix]
    exact ⟨rfl, Contains_absent _ _ _ hc2 (by decide), Contains_absent _ _ _ hc2 (by decide),
      Contains_absent _ _ _ hc2 (by decide), Contains_absent _ _ _ hc2 (by decide)⟩
  · have hc1 := hin "b".data
    have hc2 := hout "strong".data "".data
    have hrule : ReplaceAllString (reElemAttrs "b") (attrElem "b".data (colorAttr a) x)
        [T "<strong", .ref 1, T ">", .ref 2, T "</strong>"] = newElem "strong".data a "".data x := by
      rw [hmatch "b" _ (by decide) (by decide)]
      simp [expand, getCap, T, List.lookup, newElem, taggedText]
    have hup : updateDeprecatedTags (attrElem "b".data (colorAttr a) x) =
        newElem "strong".data a "".data x := by
      unfold updateDeprecatedTags
      simp (disch := first | assumption | decide) only [ReplaceAllString_absent, hrule]
    rw [hfront "b".data (by decide) (by decide) (by decide) (by decide) (by decide), hup]
    have hfix : fixListStructure (newElem "strong".data a "".data x) =
        newElem "strong".data a "".data x := by
      unfold fixListStructure
      simp (disch := first | assumption | decide) only [ReplaceAllString_absent,
        ReplaceAllStringFunc_absent]
    rw [hfix]
    exact ⟨rfl, Contains_absent _ _ _ hc2 (by decide), Contains_absent _ _ _ hc2 (by decide),
      Contains_absent _ _ _ hc2 (by decide), Contains_absent _ _ _ hc2 (by decide)⟩
  · have hc1 := hin "i".data
    have hc2 := hout "em".data "".data
    have hrule : ReplaceAllString (reElemAttrs "i") (attrElem "i".data (colorAttr a) x)
        [T "<em", .ref 1, T ">", .ref 2, T "</em>"] = newElem "em".data a "".data x := by
      rw [hmatch "i" _ (by decide) (by decide)]
      simp [expand, getCap, T, List.lookup, newElem, taggedText]
    have hup : updateDeprecatedTags (attrElem "i".data (colorAttr a) x) =
        newElem "em".data a "".data x := by
      unfold updateDeprecatedTags
      simp (disch := first | assumption | decide) only [ReplaceAllString_absent, hrule]
    rw [hfront "i".data (by decide) (by decide) (by decide) (by decide) (by decide), hup]
    have hfix : fixListStructure (newElem "em".data a "".data x) =
        newElem "em".data a "".data x := by
      unfold fixListStructure
      simp (disch := first | assumption | decide) only [ReplaceAllString_absent,
        ReplaceAllStringFunc_absent]
    rw [hfix]
    exact ⟨rfl, Contains_absent _ _ _ hc2 (by decide), Contains_absent _ _ _ hc2 (by decide),
      Contains_absent _ _ _ hc2 (by decide), Contains_absent _ _ _ hc2 (by decide)⟩

/-- C16 at the font element of the test: `<font color="red">Red text</font>`. -/
theorem C16_deprecated_element_rewritten_witness :
    CleanHTML "<font color=\"red\">Red text</font>".data =
      "<span color=\"red\">Red text</span>".data ∧
    Contains (CleanHTML "<font color=\"red\">Red text</font>".data) "<center>".data = false ∧
    Contains (CleanHTML "<font color=\"red\">Red text</font>".data) "<font".data = false ∧
    Contains (CleanHTML "<font color=\"red\">Red text</font>".data) "<b>".data = false ∧
    Contains (CleanHTML "<font color=\"red\">Red text</font>".data) "<i>".data = false :=
  C16_deprecated_element_rewritten "font" "span" "" (by decide) (some "red".data)
    "Red text".data (by decide) (by decide)

/-- C17 (as stated, refuted): the tokens `block-A` and `wp-` start with `block-` and
`wp-`, and `cleanAttributes` leaves `<p class="block-A">t</p>` and `<p class="wp-">t</p>`
as they are, where the stated rule gives `<p>t</p>`. -/
theorem C17_counterexample :
    specRemoves "block-A".data = true ∧ specRemoves "wp-".data = true ∧
    cleanAttributes (classPara '"' ["block-A".data] "t".data) = "<p class=\"block-A\">t</p>".data ∧
    cleanAttributes (classPara '"' ["wp-".data] "t".data) = "<p class=\"wp-\">t</p>".data ∧
    specClassPara '"' ["block-A".data] "t".data = "<p>t</p>".data ∧
    specClassPara '"' ["wp-".data] "t".data = "<p>t</p>".data := by
  decide

/-- C17 (amended): for a paragraph `<p class=Q tokens Q>x</p>` with either quote
character, one or more tokens of letters, digits, `_` and `-` separated by single spaces,
and a plain text `x`: when the attribute value contains `wp-` followed by a letter, digit,
`_` or `-`, or `align` followed by a lower-case letter, or `block-` followed by a
lower-case letter, digit or `-`, `cleanAttributes` removes exactly the tokens that start
with `wp-` or `block-` or are one of the six alignment classes, keeps the other tokens
in their order inside double quotes, and drops the attribute when no token remains;
when the value contains none of these, the paragraph is returned unchanged.  The output
of `CleanHTML` for the input of the test contains neither `wp-block` nor `data-wp`. -/
theorem C17_class_tokens_cleaned (q : Char) (hq : quoteSet.mem q = true) (toks : List Str)
    (hne : toks ≠ []) (ht : ∀ t ∈ toks, isToken t = true) (x : Str) (hx : isPlainText x = true) :
    cleanAttributes (classPara q toks x) =
      (if MatchString reGenerated (Join toks " ".data) = true then specClassPara '"' toks x
       else classPara q toks x) ∧
    Contains (CleanHTML cleanTestInput) "wp-block".data = false ∧
    Contains (CleanHTML cleanTestInput) "data-wp".data = false := by
  have htest : CleanHTML cleanTestInput =
      ("<p>Paragraph with WordPress classes</p><div>Block with data attributes</div>" ++
       "<div style=\"text-align: center;\">This text is centered</div>" ++
       "<span color=\"red\">Red text</span><strong>Bold text</strong> and <em>italic text</em>" ++
       "<ul><li><ul><li>Item 1</li></ul></li><li>Item 2</li></ul>").data := by
    decide
  refine ⟨?_, ?_, ?_⟩
  · rw [cleanAttributes_classPara q hq toks hne ht x hx, cleanedClassPara_eq]
  · rw [htest]; decide
  · rw [htest]; decide

/-- C17 at a paragraph with a user class, a generated class and an alignment class. -/
theorem C17_class_tokens_cleaned_witness :
    cleanAttributes "<p class='mine wp-block-paragraph alignleft'>Text</p>".data =
      "<p class=\"mine\">Text</p>".data ∧
    Contains (CleanHTML cleanTestInput) "wp-block".data = false ∧
    Contains (CleanHTML cleanTestInput) "data-wp".data = false :=
  C17_class_tokens_cleaned (Char.ofNat 39) (by decide)
    ["mine".data, "wp-block-paragraph".data, "alignleft".data] (by decide) (by decide)
    "Text".data (by decide)

/-- C18, evaluation of the code: on a list whose item `A` holds the nested items `B1` and
`B2` the nested-aware converters return `A` and `B2` as two top-level items; `B1` is lost
and no line is indented. -/
theorem C18_nested_items_not_indented :
    NestedListsToMarkdown nestedUl2 = "- A\n- B2".data ∧
    NestedListsToPlainText nestedUl2 = "• A\n• B2".data ∧
    Contains (NestedListsToMarkdown nestedUl2) "B1".data = false ∧
    Contains (NestedListsToPlainText nestedUl2) "B1".data = false ∧
    Contains (NestedListsToMarkdown nestedUl2) "    - ".data = false ∧
    Contains (NestedListsToPlainText nestedUl2) "    • ".data = false := by
  decide

/-- C19, evaluation of the code: on an ordered list whose item `A` holds the nested
ordered items `B1` and `B2` the plain text is `1. A`, `2. B2`; `B1` is lost and no
compound label is written. -/
theorem C19_compound_labels_missing :
    hasNestedList nestedOl2 = false ∧
    ConvertToPlainText nestedOl2 = "1. A\n2. B2".data ∧
    Contains (ConvertToPlainText nestedOl2) "1.1.".data = false ∧
    Contains (ConvertToPlainText nestedOl2) "B1".data = false := by
  decide

/-- C20: a heading followed by two sibling flat lists on one line has no list item that
contains a list, yet the test for nested lists holds and the content is handed to the
nested-aware converters; `ConvertToMarkdown` returns `T`, `- a`, an empty line, `- b`,
where the statements of the legacy flat conversion give `## T`, an empty line, `- a`, an
empty line, `- b`. The two sibling lists alone pass the test too. -/
theorem C20_sibling_lists_misrouted :
    itemHoldsList siblingLists = false ∧ hasNestedList siblingLists = true ∧
    itemHoldsList headedSiblingLists = false ∧ hasNestedList headedSiblingLists = true ∧
    ConvertToMarkdown headedSiblingLists = "T\n- a\n\n- b".data ∧
    legacyMarkdown headedSiblingLists = "## T\n\n- a\n\n- b".data ∧
    ConvertToMarkdown headedSiblingLists = NestedListsToMarkdown headedSiblingLists ∧
    ConvertToPlainText headedSiblingLists = NestedListsToPlainText headedSiblingLists := by
  decide

/-- C21 (as written): a comment whose text contains `>` is cut at that character by the
tag pattern `<[^>]*>`, and the rest of its text reaches both outputs. -/
theorem C21_counterexample :
    commentHtml [] "A".data "x > secret".data "B".data =
      "<p>A</p><!-- x > secret --><p>B</p>".data ∧
    ConvertToPlainText (commentHtml [] "A".data "x > secret".data "B".data) =
      "A\n\n secret -->B".data ∧
    ConvertToMarkdown (commentHtml [] "A".data "x > secret".data "B".data) =
      "A\n\n secret -->B".data ∧
    Contains "A\n\n secret -->B".data "secret".data = true := by
  decide

/-- C21 (amended): for plain paragraph texts `a` and `b` and a plain comment text `c`, the
comment standing directly between the two paragraphs or on a line of its own between
them, `ConvertToPlainText` and `ConvertToMarkdown` both return `a`, an empty line and
`b`: nothing of the comment is left and both paragraph texts are kept. -/
theorem C21_plain_comment_removed (sep a c b : Str) (hsep : sep = [] ∨ sep = "\n".data)
    (ha : isPlainText a = true) (hc : isPlainText c = true) (hb : isPlainText b = true) :
    ConvertToPlainText (commentHtml sep a c b) = a ++ "\n\n".data ++ b ∧
    ConvertToMarkdown (commentHtml sep a c b) = a ++ "\n\n".data ++ b :=
  ⟨comment_plain sep a c b hsep ha hc hb, comment_markdown sep a c b hsep ha hc hb⟩

/-- C21 (amended), at the input of `TestCommentConversion`. -/
theorem C21_plain_comment_removed_witness :
    commentHtml "\n".data "Text before comment".data
        "This is an HTML comment that should be removed".data "Text after comment".data =
      ("<p>Text before comment</p>\n<!-- This is an HTML comment that should be removed -->\n" ++
        "<p>Text after comment</p>").data ∧
    isPlainText "Text before comment".data = true ∧
    isPlainText "This is an HTML comment that should be removed".data = true ∧
    isPlainText "Text after comment".data = true ∧
    (ConvertToPlainText (commentHtml "\n".data "Text before comment".data
        "This is an HTML comment that should be removed".data "Text after comment".data) =
        "Text before comment".data ++ "\n\n".data ++ "Text after comment".data ∧
      ConvertToMarkdown (commentHtml "\n".data "Text before comment".data
        "This is an HTML comment that should be removed".data "Text after comment".data) =
        "Text before comment".data ++ "\n\n".data ++ "Text after comment".data) :=
  ⟨by decide, by decide, by decide, by decide,
    C21_plain_comment_removed "\n".data "Text before comment".data
      "This is an HTML comment that should be removed".data "Text after comment".data
      (Or.inr rfl) (by decide) (by decide) (by decide)⟩

/-- C22 (counterexample): removing the inner paragraph `<p><br></p>` of
`<p><p><br></p></p>` leaves the empty paragraph `<p></p>` in the output. -/
theorem C22_counterexample :
    SanitizeWordPressContent nestedEmptyP = "<p></p>".data ∧
    Contains (SanitizeWordPressContent nestedEmptyP) "<p></p>".data = true := by
  decide

/-- C22 (amended): for every document made of paragraphs one after the other, each
either `<p>t</p>` with a plain text `t` or one of the empty paragraphs `<p></p>`,
`<p> </p>`, `<p><br /></p>`, the output of `SanitizeWordPressContent` is the document of
the paragraphs with a text, in order, and it contains none of `<p></p>`, `<p> </p>`,
`<p><br /></p>`. -/
theorem C22_empty_paragraphs_removed (ps : List Para) (h : ∀ p ∈ ps, p.wellFormed = true) :
    SanitizeWordPressContent (paras ps) = paras (ps.filter Para.isText) ∧
    Contains (SanitizeWordPressContent (paras ps)) "<p></p>".data = false ∧
    Contains (SanitizeWordPressContent (paras ps)) "<p> </p>".data = false ∧
    Contains (SanitizeWordPressContent (paras ps)) "<p><br /></p>".data = false := by
  rw [Sanitize_paras ps h]
  have hc := texts_covers ps h
  exact ⟨rfl, Contains_absent _ _ _ hc (by decide), Contains_absent _ _ _ hc (by decide),
    Contains_absent _ _ _ hc (by decide)⟩

/-- C22 (amended), at the document of the test with every empty form. -/
theorem C22_empty_paragraphs_removed_witness :
    paras mixedParas =
      "<p>Content</p><p></p><p> </p><p>More content</p><p><br /></p>".data ∧
    (SanitizeWordPressContent (paras mixedParas) = "<p>Content</p><p>More content</p>".data ∧
    Contains (SanitizeWordPressContent (paras mixedParas)) "<p></p>".data = false ∧
    Contains (SanitizeWordPressContent (paras mixedParas)) "<p> </p>".data = false ∧
    Contains (SanitizeWordPressContent (paras mixedParas)) "<p><br /></p>".data = false) :=
  ⟨by decide, C22_empty_paragraphs_removed mixedParas (by decide)⟩

/-- C23: on the nested-list path, on the legacy path, and hence for every input string,
the output of `ConvertToMarkdown` contains no run of three newline characters and
neither starts nor ends with a white-space character. -/
theorem C23_markdown_output_tidy (s : Str) :
    Tidy (NestedListsToMarkdown s) ∧ Tidy (legacyMarkdown s) ∧ Tidy (ConvertToMarkdown s) := by
  refine ⟨NestedListsToMarkdown_tidy s, markdownFinish_tidy _, ?_⟩
  cases h : hasNestedList s with
  | true =>
    have : ConvertToMarkdown s = NestedListsToMarkdown s := by
      unfold ConvertToMarkdown; rw [h]; rfl
    rw [this]; exact NestedListsToMarkdown_tidy s
  | false =>
    rw [ConvertToMarkdown_legacy s h]
    exact markdownFinish_tidy _

/-- C24 (counterexample): blanks between newlines are removed after the runs of
newlines were collapsed, so a run of three newlines remains in the output. -/
theorem C24_counterexample :
    cleanWhitespace "a\n \n \nb".data = "a\n\n\nb".data ∧
    Contains (cleanWhitespace "a\n \n \nb".data) "\n\n\n".data = true := by
  decide

/-- C24 (amended): for every input string the output of `cleanWhitespace` has no space
or tab directly in front of a newline, no run of `\s` characters filling the place between
a `>` and a following `<`, and no white space at either end; it has no run of three
newlines when the input has no space or tab directly in front of a newline. -/
theorem C24_cleanWhitespace_invariants (s : Str) :
    Contains (cleanWhitespace s) " \n".data = false ∧
    Contains (cleanWhitespace s) "\t\n".data = false ∧
    (∀ a w b, cleanWhitespace s = a ++ ('>' :: (w ++ '<' :: b)) → w ≠ [] →
      ∃ c ∈ w, reSpace.mem c = false) ∧
    (∀ x, (cleanWhitespace s).head? = some x → goSpace.mem x = false) ∧
    (∀ x, (cleanWhitespace s).getLast? = some x → goSpace.mem x = false) ∧
    (Contains s " \n".data = false → Contains s "\t\n".data = false →
      Contains (cleanWhitespace s) "\n\n\n".data = false) := by
  obtain ⟨h1, h2, h3⟩ := cleanWhitespace_facts s
  refine ⟨((NoBlankNl_iff _).mp h1).1, ((NoBlankNl_iff _).mp h1).2, ?_, TrimSpace_head _,
    TrimSpace_last _, ?_⟩
  · intro a w b he hne
    by_contra hall
    simp only [not_exists, not_and, Bool.not_eq_false] at hall
    cases w with
    | nil => exact hne rfl
    | cons x v =>
      exact h2 a ('>' :: x :: v ++ ['<']) b (by rw [he]; simp)
        ((Matches_reBetweenTags _).mpr ⟨x, v, rfl, hall x (List.mem_cons_self _ _),
          fun c hc => hall c (List.mem_cons_of_mem _ hc)⟩)
  · intro ha hb
    exact (Contains_false_iff _ _).mpr (h3 ((NoBlankNl_iff s).mpr ⟨ha, hb⟩))

/-- C24 (amended), at an input with a run of four newlines and with white space between
two brackets: no run of three newlines is left. -/
theorem C24_cleanWhitespace_invariants_witness :
    (Contains "a\n\n\n\nb >\n <  ".data " \n".data = false ∧
      Contains "a\n\n\n\nb >\n <  ".data "\t\n".data = false) ∧
    Contains (cleanWhitespace "a\n\n\n\nb >\n <  ".data) "\n\n\n".data = false :=
  ⟨by decide, (C24_cleanWhitespace_invariants "a\n\n\n\nb >\n <  ".data).2.2.2.2.2
    (by decide) (by decide)⟩

/-- C25 (as written): an address or an alternative text that holds an escaped ampersand,
free of quotes and angle brackets, comes out with the ampersand unescaped, not as
written. -/
theorem C25_counterexample :
    (∀ c ∈ "a&amp;b".data ++ "A".data, c ≠ '"' ∧ c ≠ '\'' ∧ c ≠ '<' ∧ c ≠ '>') ∧
    ConvertToMarkdown (imgSrcAlt "a&amp;b".data "A".data) = "![A](a&b)".data ∧
    ConvertToMarkdown (imgSrcAlt "a&amp;b".data "A".data) ≠ imgMd "a&amp;b".data "A".data ∧
    ConvertToMarkdown (imgSrcOnly "a&amp;b".data) ≠ imgMd "a&amp;b".data [] ∧
    ConvertToMarkdown (imgAltSrc "u".data "a&amp;b".data) = "![a&b](u)".data ∧
    ConvertToMarkdown (imgAltSrc "u".data "a&amp;b".data) ≠ imgMd "u".data "a&amp;b".data := by
  decide

/-- C25 (amended): for an address of URL characters (no white space, quote, ampersand or
angle bracket) and a plain alternative text, `ConvertToMarkdown` turns an image tag with
`src` before `alt`, with `alt` before `src`, and with `src` alone into the Markdown image
with that text (empty in the last case) and that address. -/
theorem C25_image_markdown (s a : Str) (hs : isUrlText s = true) (ha : isPlainText a = true) :
    ConvertToMarkdown (imgSrcAlt s a) = imgMd s a ∧
    ConvertToMarkdown (imgAltSrc s a) = imgMd s a ∧
    ConvertToMarkdown (imgSrcOnly s) = imgMd s [] :=
  ⟨imgSrcAlt_markdown s a hs ha, imgAltSrc_markdown s a hs ha, imgSrcOnly_markdown s hs⟩

/-- C25 (amended), at the address `https://example.com/i.png` and the text `Alt text`. -/
theorem C25_image_markdown_witness :
    isUrlText "https://example.com/i.png".data = true ∧ isPlainText "Alt text".data = true ∧
    imgSrcAlt "https://example.com/i.png".data "Alt text".data =
      "<img src=\"https://example.com/i.png\" alt=\"Alt text\">".data ∧
    imgAltSrc "https://example.com/i.png".data "Alt text".data =
      "<img alt=\"Alt text\" src=\"https://example.com/i.png\">".data ∧
    imgSrcOnly "https://example.com/i.png".data =
      "<img src=\"https://example.com/i.png\">".data ∧
    imgMd "https://example.com/i.png".data "Alt text".data =
      "![Alt text](https://example.com/i.png)".data ∧
    imgMd "https://example.com/i.png".data [] = "![](https://example.com/i.png)".data ∧
    (ConvertToMarkdown (imgSrcAlt "https://example.com/i.png".data "Alt text".data) =
        imgMd "https://example.com/i.png".data "Alt text".data ∧
      ConvertToMarkdown (imgAltSrc "https://example.com/i.png".data "Alt text".data) =
        imgMd "https://example.com/i.png".data "Alt text".data ∧
      ConvertToMarkdown (imgSrcOnly "https://example.com/i.png".data) =
        imgMd "https://example.com/i.png".data []) :=
  ⟨by decide, by decide, by decide, by decide, by decide, by decide, by decide,
    C25_image_markdown "https://example.com/i.png".data "Alt text".data (by decide) (by decide)⟩

/-- C26 (counterexample): an address with the entity `&amp;` is free of quotes and angle
brackets, but the entity is decoded: the Markdown of `<a href="a&amp;b">t</a>` is `[t](a&b)`,
not `[t](a&amp;b)`. -/
theorem C26_counterexample :
    (∀ c ∈ "a&amp;b".data, c ≠ '"' ∧ c ≠ '\'' ∧ c ≠ '<' ∧ c ≠ '>') ∧
    isPlainText "t".data = true ∧
    ConvertToMarkdown (linkHtml "a&amp;b".data "t".data) = "[t](a&b)".data ∧
    ConvertToMarkdown (linkHtml "a&amp;b".data "t".data) ≠ linkMd "a&amp;b".data "t".data := by
  decide

/-- C26 (amended): for every address `h` free of quotes, angle brackets, `&` and white
space, and every plain link text `t`, `ConvertToMarkdown` applied to `<a href="h">t</a>`
returns exactly `[t](h)`. -/
theorem C26_link_markdown (h t : Str) (hh : isUrlText h = true) (ht : isPlainText t = true) :
    ConvertToMarkdown (linkHtml h t) = linkMd h t :=
  link_markdown h t hh ht

/-- C26 (amended), at the link of the test, and at an address with a query. -/
theorem C26_link_markdown_witness :
    linkHtml "https://example.com".data "link text".data =
      "<a href=\"https://example.com\">link text</a>".data ∧
    ConvertToMarkdown (linkHtml "https://example.com".data "link text".data) =
      linkMd "https://example.com".data "link text".data ∧
    ConvertToMarkdown (linkHtml "/p?href=1".data "t".data) = linkMd "/p?href=1".data "t".data :=
  ⟨by decide, C26_link_markdown _ _ (by decide) (by decide),
    C26_link_markdown _ _ (by decide) (by decide)⟩

/-- C27: for a blockquote whose inner content is made of plain lines `l1`, ..., `ln`, each
line after the first behind any number of blank lines, `ConvertToMarkdown` returns the
lines `> l1`, ..., `> ln` joined by newlines: one quoted line for each inner line, in
order, and none for the blank lines. The tags inside a blockquote are removed before its
lines are quoted: `<blockquote><p>l1</p></blockquote>` becomes `> l1`. -/
theorem C27_blockquote_markdown (l : Str) (rest : List (Nat × Str))
    (hl : isPlainText l = true) (h : ∀ p ∈ rest, isPlainText p.2 = true) :
    ConvertToMarkdown (quoteHtml l rest) =
      Join (quotedLines (l :: rest.map Prod.snd)) "\n".data ∧
    ConvertToMarkdown (quoteParaHtml l) = "> ".data ++ l := by
  refine ⟨?_, quotePara_markdown l hl⟩
  have hc := quoteHtml_covers l rest hl h
  have hcap := capGap_plain rest h
  have hls : ∀ t ∈ l :: rest.map Prod.snd, isPlainText t = true := by
    intro t ht
    rcases List.mem_cons.mp ht with h1 | h1
    · rw [h1]; exact hl
    · obtain ⟨p, hp, rfl⟩ := List.mem_map.mp h1
      exact h p hp
  have hsnd : (rest.map capGap).map Prod.snd = rest.map Prod.snd := by
    simp [List.map_map, Function.comp_def, capGap]
  rw [ConvertToMarkdown_legacy _ (hasNestedList_absent _ _ hc (by decide)),
    Sanitize_quote l rest hl h, markdownRules_quote l _ hl hcap, hsnd,
    (quote_finish _ (by simp) hls).2]

/-- C27 at a blockquote of three lines, with one and with three blank lines between
them, and at the blockquote around a paragraph. -/
theorem C27_blockquote_markdown_witness :
    quoteHtml "a b".data [(1, "c".data), (3, "d e".data)] =
      "<blockquote>a b\n\nc\n\n\n\nd e</blockquote>".data ∧
    quoteParaHtml "a b".data = "<blockquote><p>a b</p></blockquote>".data ∧
    (ConvertToMarkdown (quoteHtml "a b".data [(1, "c".data), (3, "d e".data)]) =
      Join (quotedLines ("a b".data :: [(1, "c".data), (3, "d e".data)].map Prod.snd))
        "\n".data ∧
    ConvertToMarkdown (quoteParaHtml "a b".data) = "> ".data ++ "a b".data) :=
  ⟨by decide, by decide,
    C27_blockquote_markdown "a b".data [(1, "c".data), (3, "d e".data)] (by decide) (by decide)⟩

/-- C28: `GetPostByID` returns `nil` exactly when no item of the channel has the given
`PostID`; it returns an item exactly when that item is the first one, in document order,
whose `PostID` is the given id. -/
theorem C28_GetPostByID_first_match (site : WordPressSite) (id : Int) :
    (GetPostByID site id = none ↔ ∀ item ∈ site.Channel.Items, item.PostID ≠ id) ∧
    (∀ item, GetPostByID site id = some item ↔
      ∃ pre post, site.Channel.Items = pre ++ item :: post ∧ item.PostID = id ∧
        ∀ x ∈ pre, x.PostID ≠ id) :=
  ⟨findPostByID_none id _, findPostByID_some id _⟩

/-- C29: `GetPostsByType` returns the filter of the items of the channel by
`PostType == t`: exactly the items of that type, in their original order and with their
multiplicity; its length is the number of such items, and it is empty exactly when there
are none. -/
theorem C29_GetPostsByType_is_filter (site : WordPressSite) (t : Str) :
    GetPostsByType site t = site.Channel.Items.filter (fun item => decide (item.PostType = t)) ∧
    (GetPostsByType site t).length =
      site.Channel.Items.countP (fun item => decide (item.PostType = t)) ∧
    (GetPostsByType site t = [] ↔ ∀ item ∈ site.Channel.Items, item.PostType ≠ t) := by
  have h : GetPostsByType site t =
      site.Channel.Items.filter (fun item => decide (item.PostType = t)) := by
    unfold GetPostsByType
    rw [foldl_append_filter (fun item : Item => item.PostType = t)]
    rfl
  refine ⟨h, ?_, ?_⟩
  · rw [h, List.countP_eq_length_filter]
  · rw [h, List.filter_eq_nil_iff]
    simp

/-- C30: every item returned by `GetPublishedPosts` has `Status` equal to `publish`, and
the result is the list of all items of the channel with that status, in their original
order. -/
theorem C30_GetPublishedPosts_is_filter (site : WordPressSite) :
    (∀ item ∈ GetPublishedPosts site, item.Status = "publish".data) ∧
    (∀ item ∈ site.Channel.Items, item.Status = "publish".data → item ∈ GetPublishedPosts site) ∧
    GetPublishedPosts site =
      site.Channel.Items.filter (fun item => decide (item.Status = "publish".data)) := by
  have h : GetPublishedPosts site =
      site.Channel.Items.filter (fun item => decide (item.Status = "publish".data)) := by
    unfold GetPublishedPosts
    rw [foldl_append_filter (fun item : Item => item.Status = "publish".data)]
    rfl
  refine ⟨?_, ?_, h⟩
  · intro item hi
    rw [h] at hi
    simpa using (List.mem_filter.mp hi).2
  · intro item hi hs
    rw [h]
    exact List.mem_filter.mpr ⟨hi, by simpa using hs⟩

/-- C31 (as written): on `<!-- wp<!-- wp:a -->:b -->` the first application removes the
inner marker and returns `<!-- wp:b -->`, which the second application removes. -/
theorem C31_counterexample :
    removeGutenbergComments splitMarker = "<!-- wp:b -->".data ∧
    removeGutenbergComments (removeGutenbergComments splitMarker) = [] ∧
    ¬ ∀ s : Str, removeGutenbergComments (removeGutenbergComments s) =
      removeGutenbergComments s := by
  refine ⟨by decide, by decide, fun h => ?_⟩
  exact absurd (h splitMarker) (by decide)

/-- C31 (amended): for every input made of texts without `!` and of block markers
`<!-- wp:x-->` and `<!-- /wp:x-->` whose bodies `x` hold neither `<` nor `>`, in any
order and number, the output of `removeGutenbergComments` holds no `!`, and a second
application returns it unchanged. -/
theorem C31_removeGutenbergComments_idempotent_on_markers (ps : List Piece)
    (h : ∀ p ∈ ps, p.wellFormed = true) :
    '!' ∉ removeGutenbergComments (renderPieces ps) ∧
    removeGutenbergComments (removeGutenbergComments (renderPieces ps)) =
      removeGutenbergComments (renderPieces ps) := by
  have hc := removeGutenbergComments_toks (ps.flatMap Piece.toks) (toks_ok ps h)
  rw [renderToks_toks] at hc
  have hb : '!' ∉ removeGutenbergComments (renderPieces ps) := fun hm => hc _ hm rfl
  exact ⟨hb, removeGutenbergComments_fixed _ (not_contains_of_char _ _ '!' (by decide) hb)
    (not_contains_of_char _ _ '!' (by decide) hb)⟩

/-- C31 (amended), at a paragraph inside a pair of block markers. -/
theorem C31_removeGutenbergComments_idempotent_on_markers_witness :
    renderPieces paragraphBlock =
      "<!-- wp:paragraph -->\n<p>Hello</p>\n<!-- /wp:paragraph -->".data ∧
    removeGutenbergComments (renderPieces paragraphBlock) = "<p>Hello</p>".data ∧
    ('!' ∉ removeGutenbergComments (renderPieces paragraphBlock) ∧
      removeGutenbergComments (removeGutenbergComments (renderPieces paragraphBlock)) =
        removeGutenbergComments (renderPieces paragraphBlock)) :=
  ⟨by decide, by decide,
    C31_removeGutenbergComments_idempotent_on_markers paragraphBlock (by decide)⟩

/-- C32: on `<h2>T</h2><ul><li>A<ul><li>B</li></ul></li></ul>` the test for nested lists
holds and `ConvertToMarkdown` returns the lines `T` and `- A`, without `## T`; the legacy
statements of `ConvertToMarkdown` give `## T` on the same input. -/
theorem C32_heading_lost_beside_nested_list :
    hasNestedList headingNestedHTML = true ∧
    ConvertToMarkdown headingNestedHTML = "T\n- A".data ∧
    Contains (ConvertToMarkdown headingNestedHTML) "## T".data = false ∧
    Contains (legacyMarkdown headingNestedHTML) "## T".data = true := by
  decide

/-- C33: `convertTables` returns the table of the test, whose rows and cells stand on
lines of their own, unchanged: the output contains `<table` and no row
`| Header 1 | Header 2 |`. -/
theorem C33_table_on_lines_unchanged :
    convertTables tableLinesHTML = tableLinesHTML ∧
    Contains (convertTables tableLinesHTML) "<table".data = true ∧
    Contains (convertTables tableLinesHTML) "| Header 1 | Header 2 |".data = false := by
  decide

/-- C34: `updateDeprecatedTags` rewrites a `<br>` in front of `<b>x</b>` and an `<img ...>`
in front of `<i>x</i>`: neither tag appears in the output. -/
theorem C34_other_tags_rewritten :
    updateDeprecatedTags "<br><b>x</b>".data = "<strongr><b>x</strong>".data ∧
    Contains (updateDeprecatedTags "<br><b>x</b>".data) "<br>".data = false ∧
    updateDeprecatedTags "<img src=\"a.png\"><i>x</i>".data =
      "<emmg src=\"a.png\"><i>x</em>".data ∧
    Contains (updateDeprecatedTags "<img src=\"a.png\"><i>x</i>".data) "<img".data = false := by
  decide

/-- C35: `cleanAttributes` collapses the two spaces of `a  b` and the two newlines of `a`,
newline, newline, `b` to one space, in inputs without `<`, `>` and `=`. -/
theorem C35_text_spaces_collapsed :
    (∀ c ∈ "a  b".data ++ "a\n\nb".data, c ≠ '<' ∧ c ≠ '>' ∧ c ≠ '=') ∧
    cleanAttributes "a  b".data = "a b".data ∧
    cleanAttributes "a\n\nb".data = "a b".data := by
  decide

/-- C36: on `<style>a</style><style>b</style>` the loop of `extractInlineStyles` ends
after two iterations with the first block only: the second block is not returned. -/
theorem C36_second_style_block_missed (n : Nat) :
    scanStep twoStyles ⟨[], 0⟩ = .next ⟨"<style>a</style>\n".data, 31⟩ ∧
    extractInlineStyles (n + 2) twoStyles = some (.value "<style>a</style>\n".data) ∧
    extractInlineStyles (n + 2) twoStyles ≠
      some (.value "<style>a</style>\n<style>b</style>\n".data) := by
  have h0 : Index twoStyles "<style".data = some 0 := by decide
  have h1 : scanStep twoStyles ⟨[], 0⟩ = .next ⟨"<style>a</style>\n".data, 31⟩ := by decide
  have h2 : scanStep twoStyles ⟨"<style>a</style>\n".data, 31⟩ =
      .done "<style>a</style>\n".data := by decide
  have h3 : extractInlineStyles (n + 2) twoStyles = some (.value "<style>a</style>\n".data) := by
    simp only [extractInlineStyles, h0, scanLoop, h1, h2]
  refine ⟨h1, h3, ?_⟩
  rw [h3]
  decide

/-- C37: on `<style>a</style><style>bbbbbbbbbbbbbbbb</style><style>c</style>` the loop of
`extractInlineStyles` does not end: after the first iteration the scan position is 31 in
every iteration, so no number of iterations gives a result. -/
theorem C37_scan_never_ends (fuel : Nat) :
    scanStep threeStyles ⟨[], 0⟩ = .next ⟨"<style>a</style>\n".data, 31⟩ ∧
    (∀ acc, scanStep threeStyles ⟨acc, 31⟩ = .next ⟨acc ++ "bbbbbbbb</style>\n".data, 31⟩) ∧
    extractInlineStyles fuel threeStyles = none := by
  have h0 : Index threeStyles "<style".data = some 0 := by decide
  have h1 : scanStep threeStyles ⟨[], 0⟩ = .next ⟨"<style>a</style>\n".data, 31⟩ := by decide
  refine ⟨h1, scan_stuck, ?_⟩
  cases fuel with
  | zero => simp only [extractInlineStyles, h0, scanLoop]
  | succ n =>
    simp only [extractInlineStyles, h0, scanLoop, h1]
    exact loop_stuck n _

/-- C38: on `<style>a</style><p>x</p><style>b</style>`, a content of length 40, the first
iteration of the loop of `extractInlineStyles` sets the scan position to 47, and the
slice `content[47:]` of the second iteration is out of range. -/
theorem C38_slice_out_of_range (n : Nat) :
    stylesApart.length = 40 ∧
    scanStep stylesApart ⟨[], 0⟩ = .next ⟨"<style>a</style>\n".data, 47⟩ ∧
    sliceFrom stylesApart 47 = .outOfRange ∧
    extractInlineStyles (n + 2) stylesApart = some .outOfRange := by
  have h0 : Index stylesApart "<style".data = some 0 := by decide
  have h1 : scanStep stylesApart ⟨[], 0⟩ = .next ⟨"<style>a</style>\n".data, 47⟩ := by decide
  have h2 : scanStep stylesApart ⟨"<style>a</style>\n".data, 47⟩ = .outOfRange := by decide
  refine ⟨by decide, h1, by decide, ?_⟩
  simp only [extractInlineStyles, h0, scanLoop, h1, h2]

/-- C39: for every input `s` and every tag name of the list p, div, span, li, ol, ul,
strong, em, a, the output of `fixUnclosedTags` has at most as many occurrences of `<tag`
as of `</tag`; hence `fixUnclosedTags` applied to its own output returns it unchanged. -/
theorem C39_fixUnclosedTags_balanced_idempotent (s : Str) :
    (∀ tag ∈ unclosedTags, Count (fixUnclosedTags s) ('<' :: tag) ≤
      Count (fixUnclosedTags s) ('<' :: '/' :: tag)) ∧
    fixUnclosedTags (fixUnclosedTags s) = fixUnclosedTags s :=
  ⟨fixUnclosedTags_counts s, fixUnclosedTags_balanced _ (fixUnclosedTags_counts s)⟩

/-- C40: for every string `s` made of words of ASCII letters and digits separated by
single spaces, without leading or trailing space (the empty string included),
`SanitizeWordPressContent`, `CleanHTML`, `ConvertToPlainText` and `ConvertToMarkdown`
all return `s`. -/
theorem C40_plain_text_fixed (s : Str) (h : s = [] ∨ isPlainText s = true) :
    SanitizeWordPressContent s = s ∧ CleanHTML s = s ∧ ConvertToPlainText s = s ∧
    ConvertToMarkdown s = s := by
  rcases h with rfl | h
  · decide
  · exact plain_fixed s h

/-- C40 at the text `Hello World` and at the empty string. -/
theorem C40_plain_text_fixed_witness :
    isPlainText "Hello World".data = true ∧
    (SanitizeWordPressContent "Hello World".data = "Hello World".data ∧
      CleanHTML "Hello World".data = "Hello World".data ∧
      ConvertToPlainText "Hello World".data = "Hello World".data ∧
      ConvertToMarkdown "Hello World".data = "Hello World".data) ∧
    (SanitizeWordPressContent [] = [] ∧ CleanHTML [] = [] ∧ ConvertToPlainText [] = [] ∧
      ConvertToMarkdown [] = []) :=
  ⟨by decide, C40_plain_text_fixed "Hello World".data (Or.inr (by decide)),
    C40_plain_text_fixed [] (Or.inl rfl)⟩


end WpImport
